import Mathlib

/-!
# A cycle-collecting reference-counted heap (`gc.hpp`)

Shallow embedding of `src/gc.hpp`.

* An address is a natural number; the heap is a list of record control blocks
  (`Value`) indexed by address.  `malloc` never reuses an address, `free` marks the
  block as released.
* A handle (`Ptr<T>`) is an `Option Nat`: `none` is `nullptr`.
* An intrusive circular list with a sentinel is represented by the sequence of its
  elements, first to last.  `insert_before(node, sentinel)` appends the node,
  `remove(node)` erases it from the list it sits on.
* `std::size_t` is a natural number below `2 ^ 64`; `++` and `--` wrap.
* Undefined behaviour (dereferencing a null `Value*`, touching released storage)
  is an explicit fault.  Recursion and list walks that the source leaves unbounded
  take a fuel argument.
* A record type is an aggregate whose destructor destroys its managed fields, last
  declared first; its metadata lists exactly those fields.
-/

namespace GC

/-- The modulus of `std::size_t` arithmetic. -/
def WORD : Nat := 2 ^ 64

/-- Ways in which an execution leaves defined behaviour, or exhausts the fuel. -/
inductive Fault where
  | null_deref
  | use_after_free
  | out_of_fuel
  deriving DecidableEq, Repr

/-- The record control block `struct Value`.  `members` is the payload as seen through
`meta`: entry `i` holds the `meta->members[i].n` handle slots found at
`data + meta->members[i].offset`.  `destroyed` counts the runs of the payload
destructor, `freed` tells whether `std::free` released the block. -/
structure Value where
  ref_count : Nat
  members : List (List (Option Nat))
  destroyed : Nat
  freed : Bool
  deriving DecidableEq, Repr

/-- All handle slots of a record in metadata order (`i` outer, `j` inner). -/
def Value.slots (v : Value) : List (Option Nat) := v.members.flatten

/-- Program state: the heap, the registry of the context at hand (`Context::header`),
the scratch list `unused` of `collect`, the external handles (those living outside
every record payload), and the registries of the other contexts of the program. -/
structure State where
  heap : List Value
  registry : List Nat
  unused : List Nat
  roots : List (Option Nat)
  others : List (List Nat) := []
  deriving DecidableEq, Repr

/-- Result of running a piece of the program. -/
inductive Outcome where
  | ok (s : State)
  | fault (f : Fault)
  deriving DecidableEq, Repr

/-- Read the control block at an address; `none` when the address was never allocated
or its block has been released. -/
def load (s : State) (a : Nat) : Option Value :=
  match s.heap[a]? with
  | some v => if v.freed then none else some v
  | none => none

/-- Overwrite the control block at an address. -/
def store (s : State) (a : Nat) (v : Value) : State :=
  { s with heap := s.heap.set a v }

/-- Model of `remove(Header&)`: unlink the node from the list it sits on, whichever of
the lists of the program that is. -/
def remove (a : Nat) (s : State) : State :=
  { s with
    registry := s.registry.erase a
    unused := s.unused.erase a
    others := s.others.map (fun l => l.erase a) }

/-- The two list sentinels of the program: `Context::header`, whose list is the registry,
and the local `unused` of `collect`. -/
inductive Sentinel where
  | header
  | unused
  deriving DecidableEq, Repr

/-- Model of `insert_before(node, anchor)` for an anchor that is a sentinel: the node
becomes the last element of the anchor's list. -/
def insert_before (a : Nat) (anchor : Sentinel) (s : State) : State :=
  match anchor with
  | .header => { s with registry := s.registry ++ [a] }
  | .unused => { s with unused := s.unused ++ [a] }

/-- The node after `p` on a list, `none` standing for the sentinel. -/
def next_of : List Nat → Nat → Option Nat
  | [], _ => none
  | x :: xs, p => if x = p then xs.head? else next_of xs p

/-- Run a loop body over a fixed sequence, stopping at the first fault. -/
def forEach {α : Type} (f : State → α → Outcome) : List α → State → Outcome
  | [], s => .ok s
  | x :: xs, s =>
    match f s x with
    | .ok s1 => forEach f xs s1
    | .fault e => .fault e

/-- The loop `for (p = L.next; p != &L; p = p->next) body(p)` over the list selected by
`sel`; the list may change while it is walked. -/
def walk (sel : State → List Nat) (body : State → Nat → Outcome) :
    Nat → Option Nat → State → Outcome
  | _, none, s => .ok s
  | 0, some _, _ => .fault .out_of_fuel
  | fuel + 1, some p, s =>
    match body s p with
    | .ok s1 =>
      match load s1 p with
      | some _ => walk sel body fuel (next_of (sel s1) p) s1
      | none => .fault .use_after_free
    | .fault e => .fault e

/-- Model of `std::free(value)`. -/
def free (s : State) (a : Nat) : Outcome :=
  match load s a with
  | some v => .ok (store s a { v with freed := true })
  | none => .fault .use_after_free

/-- Model of `value->meta->destroy(value->data)`, that is `~T()`: the destructor runs
`~Ptr` on every managed field, last declared first; `drop` is `Ptr::decrease`. -/
def destroy (drop : State → Option Nat → Outcome) (s : State) (a : Nat) : Outcome :=
  match load s a with
  | some v => forEach drop v.slots.reverse (store s a { v with destroyed := v.destroyed + 1 })
  | none => .fault .use_after_free

/-- Model of `Ptr::decrease` applied to a handle value. -/
def decrease : Nat → State → Option Nat → Outcome
  | _, s, none => .ok s
  | 0, _, some _ => .fault .out_of_fuel
  | fuel + 1, s, some a =>
    match load s a with
    | none => .fault .use_after_free
    | some v =>
      let r := (v.ref_count + WORD - 1) % WORD
      let s1 := store s a { v with ref_count := r }
      if 0 < r then .ok s1
      else
        match destroy (decrease fuel) (remove a s1) a with
        | .ok s2 => free s2 a
        | .fault e => .fault e

/-- Model of `Ptr::increase` applied to a handle value. -/
def increase (s : State) (x : Option Nat) : Outcome :=
  match x with
  | none => .ok s
  | some a =>
    match load s a with
    | some v => .ok (store s a { v with ref_count := (v.ref_count + 1) % WORD })
    | none => .fault .use_after_free

/-- Body of the innermost loop of the first phase: `base[j]->ref_count --`. -/
def subtract_slot (s : State) (x : Option Nat) : Outcome :=
  match x with
  | none => .fault .null_deref
  | some t =>
    match load s t with
    | some v => .ok (store s t { v with ref_count := (v.ref_count + WORD - 1) % WORD })
    | none => .fault .use_after_free

/-- Body of the first loop of `collect` for one registry element: the two nested loops
over `meta->members[i]` and its slots. -/
def subtract_record (s : State) (p : Nat) : Outcome :=
  match load s p with
  | some v => forEach (fun s1 m => forEach subtract_slot m s1) v.members s
  | none => .fault .use_after_free

/-- Body of the second loop of `collect`: a record whose count is zero moves to
`unused`. -/
def partition_record (s : State) (p : Nat) : Outcome :=
  match load s p with
  | some v =>
    if 0 < v.ref_count then .ok s
    else .ok (insert_before p .unused (remove p s))
  | none => .fault .use_after_free

/-- Body of the innermost loop of the third phase: a target whose count is zero is
spliced onto the registry, then the count is incremented. -/
def restore_slot (s : State) (x : Option Nat) : Outcome :=
  match x with
  | none => .fault .null_deref
  | some t =>
    match load s t with
    | some v =>
      let s1 := if v.ref_count = 0 then insert_before t .header (remove t s) else s
      .ok (store s1 t { v with ref_count := (v.ref_count + 1) % WORD })
    | none => .fault .use_after_free

/-- Body of the third loop of `collect` for one registry element. -/
def restore_record (s : State) (p : Nat) : Outcome :=
  match load s p with
  | some v => forEach (fun s1 m => forEach restore_slot m s1) v.members s
  | none => .fault .use_after_free

/-- Sequencing of outcomes. -/
def Outcome.andThen (o : Outcome) (f : State → Outcome) : Outcome :=
  match o with
  | .ok s => f s
  | .fault e => .fault e

/-- First loop of `collect`: subtract the references held inside the registry. -/
def phase1 (s : State) : Outcome := forEach subtract_record s.registry s

/-- Second loop of `collect`: the next pointer is saved before the body runs, so the
loop visits the elements the registry had at its start. -/
def phase2 (s : State) : Outcome := forEach partition_record s.registry s

/-- Third loop of `collect`: restore the counts and rescue what the survivors hold. -/
def phase3 (fuel : Nat) (s : State) : Outcome :=
  walk State.registry restore_record fuel s.registry.head? s

/-- Fourth loop of `collect`: run the destructor of every record on `unused`. -/
def phase4 (fuel : Nat) (s : State) : Outcome :=
  walk State.unused (destroy (decrease fuel)) fuel s.unused.head? s

/-- Fifth loop of `collect`: release every record on `unused` (next pointer saved
before the body). -/
def phase5 (s : State) : Outcome := forEach free s.unused s

/-- Model of `Context::collect`.  The scratch list is a local of the call: it starts
empty and is gone when the call returns. -/
def collect (fuel : Nat) (s : State) : Outcome :=
  (((((phase1 { s with unused := [] }).andThen phase2).andThen (phase3 fuel)).andThen
    (phase4 fuel)).andThen phase5).andThen (fun s1 => .ok { s1 with unused := [] })

/-- Model of `Context::~Context`: it calls `collect` and nothing else. -/
def Context_destroy (fuel : Nat) (s : State) : Outcome := collect fuel s

/-! ### Handles (`Ptr<T>`) -/

/-- Where a handle lives: external handle number `i`, or slot `j` of managed member `i`
of the record at address `a`. -/
inductive Loc where
  | root (i : Nat)
  | slot (a i j : Nat)
  deriving DecidableEq, Repr

/-- The `value` member of the handle at a location; `none` when there is no such handle
(the record that contained it has been released). -/
def read_handle (s : State) : Loc → Option (Option Nat)
  | .root i => s.roots[i]?
  | .slot a i j =>
    match load s a with
    | some v =>
      match v.members[i]? with
      | some m => m[j]?
      | none => none
    | none => none

/-- Overwrite the `value` member of the handle at a location. -/
def write_handle (s : State) (l : Loc) (x : Option Nat) : State :=
  match l with
  | .root i => { s with roots := s.roots.set i x }
  | .slot a i j =>
    match s.heap[a]? with
    | some v => store s a { v with members := v.members.set i ((v.members.getD i []).set j x) }
    | none => s

/-- Model of `Ptr(Value *value = nullptr)`: a new external handle bound to the record;
`increase()` runs in the constructor body. -/
def Ptr_bind (s : State) (x : Option Nat) : Outcome :=
  match increase s x with
  | .ok s1 => .ok { s1 with roots := s1.roots ++ [x] }
  | .fault e => .fault e

/-- Model of `Ptr(Ptr const& o)`: a new external handle copied from the handle at `o`. -/
def Ptr_copy (s : State) (o : Loc) : Outcome :=
  match read_handle s o with
  | some x => Ptr_bind s x
  | none => .fault .use_after_free

/-- Model of `Ptr(Ptr&& o)`: a new external handle starts null and swaps with `o`. -/
def Ptr_move (s : State) (o : Loc) : Outcome :=
  match read_handle s o with
  | some x =>
    let s1 := write_handle s o none
    .ok { s1 with roots := s1.roots ++ [x] }
  | none => .fault .use_after_free

/-- Model of `Ptr::operator=(Ptr const& o)` on the handle at `t`:
`decrease(); value = o.value; increase();`. -/
def Ptr_copy_assign (fuel : Nat) (s : State) (t o : Loc) : Outcome :=
  match read_handle s t with
  | none => .fault .use_after_free
  | some x =>
    match decrease fuel s x with
    | .fault e => .fault e
    | .ok s1 =>
      match read_handle s1 o, read_handle s1 t with
      | some y, some _ => increase (write_handle s1 t y) y
      | _, _ => .fault .use_after_free

/-- Model of `Ptr::operator=(Ptr&& o)` on the handle at `t`: `std::swap(value, o.value)`. -/
def Ptr_move_assign (s : State) (t o : Loc) : Outcome :=
  match read_handle s t, read_handle s o with
  | some x, some y => .ok (write_handle (write_handle s t y) o x)
  | _, _ => .fault .use_after_free

/-- Model of `Ptr::~Ptr` on external handle number `i`: `decrease()`, after which the
handle no longer exists (its place in the list keeps `none`). -/
def Ptr_destroy (fuel : Nat) (s : State) (i : Nat) : Outcome :=
  match s.roots[i]? with
  | none => .fault .use_after_free
  | some x =>
    match decrease fuel s x with
    | .ok s1 => .ok { s1 with roots := s1.roots.set i none }
    | .fault e => .fault e

/-! ### Specification vocabulary -/

/-- The count field stored at an address (zero where the heap has no block). -/
def rcOf (s : State) (a : Nat) : Nat :=
  match s.heap[a]? with
  | some v => v.ref_count
  | none => 0

/-- The handle slots of the record at an address; a released block holds none. -/
def slotsAt (s : State) (a : Nat) : List (Option Nat) :=
  match load s a with
  | some v => v.slots
  | none => []

/-- Every handle slot inside an allocated record. -/
def liveSlots (s : State) : List (Option Nat) :=
  (List.range s.heap.length).flatMap (slotsAt s)

/-- Number of handles, external ones and managed slots, that hold the record. -/
def holders (s : State) (a : Nat) : Nat := (s.roots ++ liveSlots s).count (some a)

/-- Record `a` has a managed slot pointing at record `b`. -/
def Edge (s : State) (a b : Nat) : Prop := some b ∈ slotsAt s a

instance (s : State) (a b : Nat) : Decidable (Edge s a b) :=
  inferInstanceAs (Decidable (some b ∈ slotsAt s a))

/-- Record `a` can be reached from an external handle through managed slots. -/
def Reachable (s : State) (a : Nat) : Prop :=
  ∃ r, some r ∈ s.roots ∧ Relation.ReflTransGen (Edge s) r a

/-- Heap states between operations: the registry is a duplicate-free list of allocated
records, no destructor has run on an allocated record, no handle dangles, and every
count is exact and fits a machine word. -/
structure WellFormed (s : State) : Prop where
  nodup : s.registry.Nodup
  linked : ∀ a ∈ s.registry, ∃ v, load s a = some v
  fresh : ∀ a v, load s a = some v → v.destroyed = 0
  closed : ∀ a, some a ∈ s.roots ++ liveSlots s → ∃ v, load s a = some v
  exact : ∀ a v, load s a = some v → v.ref_count = holders s a
  word : ∀ a v, load s a = some v → v.ref_count < WORD

/-- Every allocated record's count is the number of live handles that hold it. -/
def Exact (s : State) : Prop := ∀ a v, load s a = some v → v.ref_count = holders s a

/-- All allocated records belong to the one context whose registry the state carries. -/
def OneContext (s : State) : Prop := ∀ a v, load s a = some v → a ∈ s.registry

/-- No managed slot of an allocated record is null. -/
def NoNull (s : State) : Prop := ∀ a, none ∉ slotsAt s a

/-- The control block with its count erased. -/
def Value.blank (v : Value) : Value := { v with ref_count := 0 }

/-- The second state differs from the first at most in counts and in its lists. -/
def SameShape (s s1 : State) : Prop :=
  s1.heap.map Value.blank = s.heap.map Value.blank ∧ s1.roots = s.roots

/-- The block at the address has been released by `std::free`. -/
def Freed (s : State) (a : Nat) : Prop := ∃ v, s.heap[a]? = some v ∧ v.freed = true

/-- Number of destructor runs on the payload at the address. -/
def destroyedAt (s : State) (a : Nat) : Nat :=
  match s.heap[a]? with
  | some v => v.destroyed
  | none => 0

/-- Invariant of the third loop of `collect`.  `s0` is the state at entry, `R` its
registry and `P` the slots the loop has restored so far: the two lists partition `R`,
a count is the number of external handles plus the restored slots that hold the
record, the records on `unused` are those whose count is zero, everything on the
registry is reachable, and no count outside `R` has changed. -/
structure Restoring (s0 : State) (R : List Nat) (P : List (Option Nat)) (s : State) :
    Prop where
  shape : SameShape s0 s
  nodup : (s.registry ++ s.unused).Nodup
  cover : ∀ a, (a ∈ s.registry ∨ a ∈ s.unused) ↔ a ∈ R
  count : ∀ a, a ∈ R → rcOf s a = s0.roots.count (some a) + P.count (some a)
  zero : ∀ a, a ∈ s.unused → rcOf s a = 0
  pos : ∀ a, a ∈ s.registry → 0 < rcOf s a
  reach : ∀ a, a ∈ s.registry → Reachable s0 a
  frame : ∀ a, a ∉ R → rcOf s a = rcOf s0 a

/-! ### Executable checks of the state predicates -/

/-- Executable form of `WellFormed`. -/
def wellFormedCheck (s : State) : Bool :=
  decide s.registry.Nodup &&
  s.registry.all (fun a => (load s a).isSome) &&
  (List.range s.heap.length).all (fun a =>
    match load s a with
    | some v => v.destroyed == 0 && v.ref_count == holders s a && decide (v.ref_count < WORD)
    | none => true) &&
  (s.roots ++ liveSlots s).all (fun x =>
    match x with
    | some a => (load s a).isSome
    | none => true)

/-- Executable form of `OneContext`. -/
def oneContextCheck (s : State) : Bool :=
  (List.range s.heap.length).all (fun a => (load s a).isNone || decide (a ∈ s.registry))

/-- Executable form of `NoNull`. -/
def noNullCheck (s : State) : Bool :=
  (List.range s.heap.length).all (fun a => decide (none ∉ slotsAt s a))

/-! ### Concrete heaps -/

/-- A record without managed fields held by one external handle and by one record of a
dead two-cycle: `g1 = {peer, friend}`, `g2 = {next}`, `g1.peer = g2`, `g2.next = g1`,
`g1.friend = a`, and the handles to `g1` and `g2` have been dropped. -/
def heapSharedLive : State :=
  { heap := [⟨2, [], 0, false⟩, ⟨1, [[some 2], [some 0]], 0, false⟩, ⟨1, [[some 1]], 0, false⟩]
    registry := [0, 1, 2]
    unused := []
    roots := [some 0] }

/-- As `heapSharedLive`, but the dead record holds the live one twice, through a
two-element handle array. -/
def heapDoublyHeld : State :=
  { heap := [⟨3, [], 0, false⟩, ⟨1, [[some 2], [some 0, some 0]], 0, false⟩,
      ⟨1, [[some 1]], 0, false⟩]
    registry := [0, 1, 2]
    unused := []
    roots := [some 0] }

/-- As `heapSharedLive`, but two external handles hold the live record. -/
def heapTwiceRooted : State :=
  { heap := [⟨3, [], 0, false⟩, ⟨1, [[some 2], [some 0]], 0, false⟩, ⟨1, [[some 1]], 0, false⟩]
    registry := [0, 1, 2]
    unused := []
    roots := [some 0, some 0] }

/-- The heap after `b = make(B{})` for `B { Ptr<B> next; }`: one record whose managed
field is null, held by the external handle `b`. -/
def heapNullField : State :=
  { heap := [⟨1, [[none]], 0, false⟩]
    registry := [0]
    unused := []
    roots := [some 0] }

/-- Six records: a live chain `0 → 1 → 2 → 2` rooted at a held handle and a dead
three-cycle `3 → 4 → 5 → 3`; neither part points into the other. -/
def heapMixed : State :=
  { heap := [⟨1, [[some 1]], 0, false⟩, ⟨1, [[some 2]], 0, false⟩, ⟨2, [[some 2]], 0, false⟩,
      ⟨1, [[some 4]], 0, false⟩, ⟨1, [[some 5]], 0, false⟩, ⟨1, [[some 3]], 0, false⟩]
    registry := [0, 1, 2, 3, 4, 5]
    unused := []
    roots := [some 0] }

/-- One record without managed fields, held by an external handle. -/
def heapHeld : State :=
  { heap := [⟨1, [], 0, false⟩]
    registry := [0]
    unused := []
    roots := [some 0] }

/-- Two records without managed fields, each held by one external handle. -/
def heapTwoHandles : State :=
  { heap := [⟨1, [], 0, false⟩, ⟨1, [], 0, false⟩]
    registry := [0, 1]
    unused := []
    roots := [some 0, some 1] }

/-- The list `p -> 0 -> 1`: `struct B { Ptr<B> next; }`, record `0` held by the external
handle `p` only, `0.next = 1`, `1.next = nullptr`. -/
def heapChain : State :=
  { heap := [⟨1, [[some 1]], 0, false⟩, ⟨1, [[none]], 0, false⟩]
    registry := [0, 1]
    unused := []
    roots := [some 0] }

/-- An acyclic heap: the chain `0 -> 1 -> 2` held by external handle number 0, and a
second external handle on record `2`. -/
def heapShared : State :=
  { heap := [⟨1, [[some 1]], 0, false⟩, ⟨1, [[some 2]], 0, false⟩, ⟨2, [[none]], 0, false⟩]
    registry := [0, 1, 2]
    unused := []
    roots := [some 0, some 2] }

/-- A dead two-cycle and nothing else; no external handle is left. -/
def heapDeadCycle : State :=
  { heap := [⟨1, [[some 1]], 0, false⟩, ⟨1, [[some 0]], 0, false⟩]
    registry := [0, 1]
    unused := []
    roots := [none, none] }

/-! ### Vocabulary of the decrement cascade -/

/-- A block that is allocated and on which no destructor has run. -/
def intact (v : Value) : Bool := !v.freed && v.destroyed == 0

/-- The handle slots of a block that count as live handles. -/
def intactSlotsOf (v : Value) : List (Option Nat) := if intact v then v.slots else []

/-- Every handle slot inside an intact record. -/
def intactSlots (s : State) : List (Option Nat) := s.heap.flatMap intactSlotsOf

/-- Number of intact records. -/
def intactCount (s : State) : Nat := s.heap.countP intact

/-- The reference graph has no cycle. -/
def Acyclic (s : State) : Prop := ∀ a, ¬ Relation.TransGen (Edge s) a a

/-- Every allocated record is held by at least one handle. -/
def Held (s : State) : Prop := ∀ a v, load s a = some v → 0 < v.ref_count

/-- Invariant of a running cascade of `Ptr::decrease`.  `R` are the external handles
that stay, `P` the handles that are still to be dropped: every intact record is held by
as many handles among `R`, the slots of intact records and `P` as its count says, and
each of those handles that is not null holds an intact record. -/
structure Cascading (R P : List (Option Nat)) (s : State) : Prop where
  exact : ∀ (a : Nat) (v : Value), s.heap[a]? = some v → intact v = true →
    v.ref_count = (R ++ (intactSlots s ++ P)).count (some a) ∧ v.ref_count < WORD
  closed : ∀ b : Nat, some b ∈ R ++ (intactSlots s ++ P) →
    ∃ v, s.heap[b]? = some v ∧ intact v = true

/-- The record at the address was intact in the first state and is released in the
second. -/
def Died (s s1 : State) (b : Nat) : Prop :=
  (∃ v, s.heap[b]? = some v ∧ intact v = true) ∧ Freed s1 b

/-- What a cascade of `Ptr::decrease` may change: counts of intact records, and records
that die, which are destroyed once, released and unlinked. -/
structure Step (s s1 : State) : Prop where
  roots : s1.roots = s.roots
  length : s1.heap.length = s.heap.length
  dead : ∀ (b : Nat) (v : Value), s.heap[b]? = some v → intact v = false →
    s1.heap[b]? = some v
  live : ∀ (b : Nat) (v : Value), s.heap[b]? = some v → intact v = true →
    ∃ r, s1.heap[b]? = some { v with ref_count := r } ∨
      s1.heap[b]? = some { v with ref_count := r, destroyed := 1, freed := true }
  sub : s1.registry.Sublist s.registry
  kept : ∀ b, b ∈ s.registry → ¬ Died s s1 b → b ∈ s1.registry
  gone : s.registry.Nodup → ∀ b, Died s s1 b → b ∉ s1.registry

/-- Postcondition of dropping the handles `L` by `Ptr::decrease`: the invariant holds
with `L` removed from the pending handles, the change is a `Step`, no record became
intact, every record that died is reachable from a record that `L` held, and if every
intact record had a positive count before, so it is after. -/
structure Cascaded (R P L : List (Option Nat)) (s s1 : State) : Prop where
  inv : Cascading R P s1
  step : Step s s1
  fewer : intactCount s1 ≤ intactCount s
  origin : ∀ b, Died s s1 b → ∃ t, some t ∈ L ∧ Relation.ReflTransGen (Edge s) t b
  held : (∀ (b : Nat) (v : Value), s.heap[b]? = some v → intact v = true → 0 < v.ref_count) →
    ∀ (b : Nat) (w : Value), s1.heap[b]? = some w → intact w = true → 0 < w.ref_count

/-! ### Allocation (`Context::make`) -/

/-- Model of `std::malloc`: the block it hands out was never handed out before and has
no meaningful content yet; it returns `nullptr` when the allocator has no memory left
(`avail = false`). -/
def malloc (avail : Bool) (s : State) : Option Nat × State :=
  if avail then (some s.heap.length, { s with heap := s.heap ++ [⟨0, [], 0, false⟩] })
  else (none, s)

/-- The record a handle holds; `none` also where there is no handle. -/
def target (s : State) (l : Loc) : Option Nat := (read_handle s l).getD none

/-- Move construction of one managed member, a handle or an array of handles:
`Ptr(Ptr&&)` on each element in order takes the `value` of the source element and leaves
the source null.  The result holds the handles taken. -/
def move_member (s : State) : List Loc → Option (List (Option Nat) × State)
  | [] => some ([], s)
  | l :: ls =>
    match read_handle s l with
    | some x =>
      match move_member (write_handle s l none) ls with
      | some (xs, s1) => some (x :: xs, s1)
      | none => none
    | none => none

/-- Model of `T(std::move(value))` for an aggregate `T`: its managed members are move
constructed in declaration order.  `value` lists, member by member, where the handles
of the argument live. -/
def move_value (s : State) : List (List Loc) → Option (List (List (Option Nat)) × State)
  | [] => some ([], s)
  | m :: ms =>
    match move_member s m with
    | some (xs, s1) =>
      match move_value s1 ms with
      | some (xss, s2) => some (xs :: xss, s2)
      | none => none
    | none => none

/-- Model of `Context::make<T>(T&& value)`: allocate a block, set `meta` and
`ref_count = 0`, move `value` into the payload, link the block before the sentinel of the
registry, and return `v`, which constructs the returned handle by `Ptr(Value*)`.  The
returned handle is the new last external handle of the resulting state. -/
def Context_make (avail : Bool) (value : List (List Loc)) (s : State) : Outcome :=
  match malloc avail s with
  | (none, _) => .fault .null_deref
  | (some a, s1) =>
    let s2 := store s1 a ⟨0, [], 0, false⟩
    match move_value s2 value with
    | some (fields, s3) =>
      Ptr_bind (insert_before a .header (store s3 a ⟨0, fields, 0, false⟩)) (some a)
    | none => .fault .use_after_free

/-- The state after `auto c = make(B{}); c->next = c;` for `B { Ptr<B> next; }`: one
record that holds itself, held by the external handle `c` as well. -/
def heapSelfHeld : State :=
  { heap := [⟨2, [[some 0]], 0, false⟩]
    registry := [0]
    unused := []
    roots := [some 0] }

/-- A live record `0` that holds record `1`, and a dead two-cycle `2 <-> 3` whose record
`2` holds record `1` as well: `0 = {next = 1}`, `1 = {}`, `2 = {peer = 3, friend = 1}`,
`3 = {next = 2}`; one external handle, on record `0`. -/
def heapRescued : State :=
  { heap := [⟨1, [[some 1]], 0, false⟩, ⟨2, [], 0, false⟩,
      ⟨1, [[some 3], [some 1]], 0, false⟩, ⟨1, [[some 2]], 0, false⟩]
    registry := [0, 1, 2, 3]
    unused := []
    roots := [some 0] }

/-- A dead two-cycle whose record `0` holds record `1` twice, through a two-element
handle array, while record `1` holds record `0` once; no external handle is left. -/
def heapTwiceHeld : State :=
  { heap := [⟨1, [[some 1, some 1]], 0, false⟩, ⟨2, [[some 0]], 0, false⟩]
    registry := [0, 1]
    unused := []
    roots := [none, none] }

/-! ### Assertions about every iteration of a loop -/

/-- The assertion `P` holds every time the body of the loop `forEach f` is about to run,
for the state at that moment and the element the body receives. -/
def forEachAll {α : Type} (f : State → α → Outcome) (P : State → α → Prop) :
    List α → State → Prop
  | [], _ => True
  | x :: xs, s =>
    P s x ∧
      match f s x with
      | .ok s1 => forEachAll f P xs s1
      | .fault _ => True

/-- The assertion `P` holds every time the body of the loop `walk sel body` is about to
run, for the state at that moment and the node the body receives. -/
def walkAll (sel : State → List Nat) (body : State → Nat → Outcome)
    (P : State → Nat → Prop) : Nat → Option Nat → State → Prop
  | _, none, _ => True
  | 0, some _, _ => True
  | fuel + 1, some p, s =>
    P s p ∧
      match body s p with
      | .ok s1 =>
        match load s1 p with
        | some _ => walkAll sel body P fuel (next_of (sel s1) p) s1
        | none => True
      | .fault _ => True

/-- The nodes the loop `walk sel body` visits, in the order of the visits. -/
def visits (sel : State → List Nat) (body : State → Nat → Outcome) :
    Nat → Option Nat → State → List Nat
  | _, none, _ => []
  | 0, some _, _ => []
  | fuel + 1, some p, s =>
    p ::
      match body s p with
      | .ok s1 =>
        match load s1 p with
        | some _ => visits sel body fuel (next_of (sel s1) p) s1
        | none => []
      | .fault _ => []

/-- The assertion `D` holds at every handle decrement that the destructor of the record
at `g` makes itself when it starts in state `u`. -/
def destroyAll (drop : State → Option Nat → Outcome) (D : State → Option Nat → Prop)
    (u : State) (g : Nat) : Prop :=
  match load u g with
  | some v => forEachAll drop D v.slots.reverse (store u g { v with destroyed := v.destroyed + 1 })
  | none => True

/-- The second state differs from the first only outside the records `U`: `unused` and
the blocks of `U` are the same, and a record outside `U` that is allocated in the second
state was allocated in the first, with the same slots. -/
structure Aside (U : List Nat) (u u1 : State) : Prop where
  unused : u1.unused = u.unused
  heap : ∀ g ∈ U, u1.heap[g]? = u.heap[g]?
  back : ∀ (a : Nat) (v1 : Value), a ∉ U → load u1 a = some v1 →
    ∃ v, load u a = some v ∧ v1.slots = v.slots

/-- No allocated record outside `U` holds a record of `U`. -/
def Sealed (U : List Nat) (u : State) : Prop :=
  ∀ (a : Nat) (v : Value), a ∉ U → load u a = some v → ∀ t, some t ∈ v.slots → t ∉ U

/-- Invariant of the fourth loop of `collect`.  `U` is the list `unused`, `sl` gives the
slots of its records, `done` lists the records of `U` whose destructor has started and
`todo` the handles inside records of `U` that are still to be dropped.  Every record of
`U` is allocated, has its slots, and has been destructed once if it is in `done` and
never otherwise; its count is zero or exceeds the number of handles of `todo` that hold
it; no allocated record outside `U` holds a record of `U`. -/
structure Reclaiming (U : List Nat) (sl : Nat → List (Option Nat)) (done : List Nat)
    (todo : List (Option Nat)) (u : State) : Prop where
  unused : u.unused = U
  alive : ∀ g ∈ U, ∃ v, load u g = some v ∧ v.slots = sl g ∧
    v.destroyed = if g ∈ done then 1 else 0
  word : ∀ g ∈ U, rcOf u g < WORD
  bound : ∀ g ∈ U, todo.count (some g) < WORD
  count : ∀ g ∈ U, rcOf u g = 0 ∨ todo.count (some g) < rcOf u g
  apart : Sealed U u

/-! ### The intrusive list at the level of its links -/

/-- The list node `struct Header`: the addresses of the previous and the next node. -/
structure Header where
  prev : Nat
  next : Nat
  deriving DecidableEq, Repr

/-- The list nodes of the program by address. -/
abbrev Links := Nat → Header

/-- Overwrite the node at one address. -/
def Links.set (m : Links) (a : Nat) (v : Header) : Links := fun b => if b = a then v else m b

/-- Model of `Header::Header()`: a node linked to itself, the empty list when the node is
a sentinel. -/
def Links.init (a : Nat) (m : Links) : Links := m.set a ⟨a, a⟩

/-- Model of `insert_before(Header& new_header, Header& header)`, one assignment after
the other. -/
def Links.insert_before (new_header header : Nat) (m : Links) : Links :=
  let m1 := m.set new_header { m new_header with prev := (m header).prev }
  let m2 := m1.set new_header { m1 new_header with next := header }
  let m3 := m2.set (m2 header).prev { m2 (m2 header).prev with next := new_header }
  m3.set header { m3 header with prev := new_header }

/-- Model of `remove(Header& header)`, one assignment after the other. -/
def Links.remove (header : Nat) (m : Links) : Links :=
  let m1 := m.set (m header).prev { m (m header).prev with next := (m header).next }
  m1.set (m1 header).next { m1 (m1 header).next with prev := (m1 header).prev }

/-- The nodes `l` are linked in this order between node `a` and node `b`: following
`next` from `a` runs through `l` and arrives at `b`, and `prev` leads back. -/
def Chain (m : Links) : Nat → List Nat → Nat → Prop
  | a, [], b => (m a).next = b ∧ (m b).prev = a
  | a, x :: xs, b => (m a).next = x ∧ (m x).prev = a ∧ Chain m x xs b

/-- A well-formed circular list with sentinel `h` and element sequence `l`: the nodes are
pairwise distinct and linked in a ring that starts and ends at the sentinel. -/
def IsList (m : Links) (h : Nat) (l : List Nat) : Prop := (h :: l).Nodup ∧ Chain m h l h

instance Chain.decidable (m : Links) : ∀ (a : Nat) (l : List Nat) (b : Nat),
    Decidable (Chain m a l b)
  | a, [], b => inferInstanceAs (Decidable ((m a).next = b ∧ (m b).prev = a))
  | a, x :: xs, b =>
    have := Chain.decidable m x xs b
    inferInstanceAs (Decidable ((m a).next = x ∧ (m x).prev = a ∧ Chain m x xs b))

instance (m : Links) (h : Nat) (l : List Nat) : Decidable (IsList m h l) :=
  inferInstanceAs (Decidable ((h :: l).Nodup ∧ Chain m h l h))

/-- Two nodes: the sentinel at address `0` and the one-element list `1`; every other
address holds a node linked to itself. -/
def linksOne : Links := fun a =>
  match a with
  | 0 => ⟨1, 1⟩
  | 1 => ⟨0, 0⟩
  | n => ⟨n, n⟩

/-! ### The type schema: accumulation of the managed members at compile time -/

/-- `struct MemberMetadata`. -/
structure MemberMetadata where
  offset : Nat
  n : Nat
  deriving DecidableEq, Repr

/-- `struct TypeMetadata` without its destructor pointer, which `destroy` models:
`members` is the flexible array member, `n` its announced length. -/
structure TypeMetadata where
  n : Nat
  members : List MemberMetadata
  deriving DecidableEq, Repr

/-- The type `MEMBER<V, M>` for a pointer to member `M` of type `V`: the byte offset of the
member inside `T`, whether the element type of the member is a `Ptr`, and the array
length when `V` is `E (T::*)[N]` (`none` when `V` is `E T::*`). -/
structure MEMBER where
  offset : Nat
  is_ptr : Bool
  extent : Option Nat
  deriving DecidableEq, Repr

/-- A type that a `Set<T, N, V>` stores as `V`: a `LIST<...>` of members, or `bool`. -/
inductive Stored where
  | LIST (ms : List MEMBER)
  | bool
  deriving DecidableEq, Repr

/-- The `Set<T, N, V>` instantiated for one record type `T`: entry `N` is the `V` of
`Set<T, N, V>`, which defines `state(Counter<T, N>)`. -/
abbrev Counter := List Stored

/-- The return type of `state(Counter<T, N>{})`, when the function is defined. -/
def Counter.state (c : Counter) (N : Nat) : Option Stored := List.get? c N

/-- Overload resolution of `next(0, Counter<T, N>{})` over the entries from `N` on: while
`state(Counter<T, N>)` is defined the `int` overload is viable and wins, and its default
argument asks for `next(0, Counter<T, N + 1>{})`; otherwise the `float` overload returns
`N`. -/
def Counter.scan : List Stored → Nat → Nat
  | [], N => N
  | _ :: rest, N => Counter.scan rest (N + 1)

/-- Instantiating `Set<T, N, V>` defines `state(Counter<T, N>)`; a second definition of
the same function is ill-formed. -/
def Counter.Set (c : Counter) (N : Nat) (V : Stored) : Option Counter :=
  if N = c.length then some (c ++ [V]) else none

/-- What the compiler has instantiated for one record type `T`: the `Set<T, N, V>`, and
the default argument `value` of the specialisation of `next` that `next<T>(0)` selects
once `state(Counter<T, 0>)` is defined.  A default argument is instantiated once for a
specialisation, at its first use, and overload resolution of the call inside it happens
then: `value` holds what that call returns. -/
structure Instances where
  sets : Counter
  value : Option Nat
  deriving DecidableEq, Repr

/-- The call `next<T>(0)`.  Without `state(Counter<T, 0>)` only the `float` overload is
viable and returns 0.  With it the `int` overload wins and returns its default argument
`value = next(0, Counter<T, 1>{})`: instantiated at the first such call, by the scan of
the `Set` instantiated by then, and the same ever after. -/
def Instances.next (c : Instances) : Nat × Instances :=
  match c.sets with
  | [] => (0, c)
  | _ :: rest =>
    match c.value with
    | some v => (v, c)
    | none => (Counter.scan rest 1, { c with value := some (Counter.scan rest 1) })

/-- Instantiating `Set<T, N, V>` in the state `c`. -/
def Instances.Set (c : Instances) (N : Nat) (V : Stored) : Option Instances :=
  match c.sets.Set N V with
  | some k => some { c with sets := k }
  | none => none

/-- `APPEND<LIST<T...>, U>::TYPE`; the primary template has no definition. -/
def APPEND : Stored → MEMBER → Option Stored
  | .LIST ms, U => some (.LIST (ms ++ [U]))
  | .bool, _ => none

/-- The base class `Object<T>`: its `static_assert` instantiates `Set<T, 0, LIST<>>`. -/
def Object (c : Instances) : Option Instances := c.Set 0 (.LIST [])

/-- `declare_member<T, V, M>()`: viable when the element type is a `Ptr`, `N = next<T>(0)`
is positive and `APPEND` accepts the list stored at `N - 1`; it instantiates
`Set<T, N, APPEND<State, MEMBER<V, M>>::TYPE>`.  `none` is a program that does not
compile. -/
def declare_member (c : Instances) (M : MEMBER) : Option Instances :=
  if M.is_ptr then
    match c.next with
    | (N, c1) =>
      if 0 < N then
        match c1.sets.state (N - 1) with
        | some State =>
          match APPEND State M with
          | some V => c1.Set N V
          | none => none
        | none => none
      else none
  else none

/-- The member declarations of a class body, in order. -/
def declare_members : List MEMBER → Instances → Option Instances
  | [], c => some c
  | M :: Ms, c =>
    match declare_member c M with
    | some c1 => declare_members Ms c1
    | none => none

/-- `sizeof(V)` for the type `V` of a member whose elements are handles, `PTR` being
`sizeof(void*)`: a `Ptr` holds one `Value*`. -/
def sizeof_member (PTR : Nat) (M : MEMBER) : Nat :=
  match M.extent with
  | none => PTR
  | some N => N * PTR

/-- `make_member_metadata(MEMBER<V, M>)`. -/
def make_member_metadata (PTR : Nat) (M : MEMBER) : MemberMetadata :=
  { offset := M.offset, n := sizeof_member PTR M / PTR }

/-- A braced initialiser `{destroy, n, {members...}}` for a `TypeMetadata`.  `members[]`
is a flexible array member: the compiler accepts an initialiser for it in the definition
of an object with static storage, and rejects it anywhere else, an empty one included.
`none` is a program that does not compile. -/
def TypeMetadata.init (static_storage : Bool) (n : Nat) (members : List MemberMetadata) :
    Option TypeMetadata :=
  if static_storage then some { n := n, members := members } else none

/-- `make_type_metadata<T>(LIST<M...>)`: the braced initialiser stands in a `return`
statement; there is no overload for another argument. -/
def make_type_metadata (PTR : Nat) : Stored → Option TypeMetadata
  | .LIST ms => TypeMetadata.init false ms.length (ms.map (make_member_metadata PTR))
  | .bool => none

/-- The two overloads of `make_metadata<T>()`, selected by `N = next<T>(0)`; both
instantiate `Set<T, N, bool>`, the second reads the list stored at `N - 1`, and both
return a braced initialiser.  The result is the value of `Metadata<T>::metadata` and the
compile-time state left behind. -/
def make_metadata (PTR : Nat) (c : Instances) : Option (TypeMetadata × Instances) :=
  match c.next with
  | (N, c1) =>
    match c1.Set N .bool with
    | none => none
    | some c2 =>
      if N = 0 then
        match TypeMetadata.init false 0 [] with
        | some md => some (md, c2)
        | none => none
      else
        match c1.sets.state (N - 1) with
        | some State =>
          match make_type_metadata PTR State with
          | some md => some (md, c2)
          | none => none
        | none => none

/-! ### Several contexts -/

/-- Two contexts.  Record `0` belongs to the context at hand and is held by the one
external handle; its managed slot holds record `1`, which belongs to the other context
and has no other holder. -/
def heapTwoContexts : State :=
  { heap := [⟨1, [[some 1]], 0, false⟩, ⟨1, [], 0, false⟩]
    registry := [0]
    unused := []
    roots := [some 0]
    others := [[1]] }

/-- Two contexts without a slot that leaves the context at hand.  Records `0`, `1`, `2`
belong to it: `1 <-> 2` is a dead two-cycle and record `0` is held by a managed slot of
record `3`, which belongs to the other context and is held by the external handle. -/
def heapTwoApart : State :=
  { heap := [⟨1, [], 0, false⟩, ⟨1, [[some 2]], 0, false⟩, ⟨1, [[some 1]], 0, false⟩,
      ⟨1, [[some 0]], 0, false⟩]
    registry := [0, 1, 2]
    unused := []
    roots := [some 3]
    others := [[3]] }

/-- What stands for a block of another context when a context is looked at by itself:
storage the context has no business with. -/
def Value.absent : Value := ⟨0, [], 0, true⟩

/-- A handle whose target is on the registry of the context at hand. -/
def heldHere (s : State) (x : Option Nat) : Bool :=
  match x with
  | some a => decide (a ∈ s.registry)
  | none => false

/-- The context at hand looked at by itself: the blocks of the records on its registry,
and as external handles all handles to them that live outside these records, be it
outside every payload or in a managed slot of a record of another context. -/
def contextView (s : State) : State :=
  { heap := (List.range s.heap.length).map
      (fun a => if a ∈ s.registry then s.heap.getD a Value.absent else Value.absent)
    registry := s.registry
    unused := s.unused
    roots := (s.roots ++ ((List.range s.heap.length).filter
      (fun a => decide (a ∉ s.registry))).flatMap (slotsAt s)).filter (heldHere s)
    others := [] }

/-- Relation between a state `s` of a program with several contexts, its single-context
counterpart `v`, and the state `s0` the program was in when `collect` started, `C`
being the records of the collected context: the two states have the same lists and the
same blocks at `C`, the lists and the slots of `C` stay inside `C`, and outside `C`
the state `s` is what `s0` was. -/
structure Local (C : List Nat) (s0 s v : State) : Prop where
  registry : v.registry = s.registry
  unused : v.unused = s.unused
  inside : ∀ a, a ∈ s.registry ∨ a ∈ s.unused → a ∈ C
  heap : ∀ a, a ∈ C → v.heap[a]? = s.heap[a]?
  closed : ∀ a w t, a ∈ C → load s a = some w → some t ∈ w.slots → t ∈ C
  others : s.others = s0.others
  roots : s.roots = s0.roots
  outside : ∀ a, a ∉ C → s.heap[a]? = s0.heap[a]?
  apart : ∀ l ∈ s0.others, ∀ a ∈ l, a ∉ C

/-- Two outcomes agree: the same fault, or two states related by `Local`. -/
def Match (C : List Nat) (s0 : State) : Outcome → Outcome → Prop
  | .ok s, .ok v => Local C s0 s v
  | .fault e, .fault f => e = f
  | _, _ => False

/-- A way of reading one list of the program off a state, such that overwriting a block
leaves the list alone and `remove` takes at most the removed node off it. -/
structure Tracks (sel : State → List Nat) : Prop where
  stored : ∀ (s : State) (t : Nat) (w : Value), sel (store s t w) = sel s
  sub : ∀ (s : State) (t a : Nat), a ∈ sel (remove t s) → a ∈ sel s
  keep : ∀ (s : State) (t a : Nat), a ≠ t → a ∈ sel s → a ∈ sel (remove t s)

/-- From `s` to `s1` no block was allocated, no list of another context appeared or
disappeared, released blocks stayed released, and every record on the list `sel` is
still on it unless its block has been released. -/
structure Kept (sel : State → List Nat) (s s1 : State) : Prop where
  length : s1.heap.length = s.heap.length
  lists : s1.others.length = s.others.length
  freed : ∀ a, Freed s a → Freed s1 a
  here : ∀ a, a ∈ sel s → a ∈ sel s1 ∨ Freed s1 a

/-- Membership from `s` to `s1`: a record whose block has not been released is on the
registry of the context at hand exactly when it was before or has been allocated in
between, and on the registry of another context exactly when it was before. -/
structure Member (s s1 : State) : Prop where
  registry : ∀ a, ¬ Freed s1 a →
    (a ∈ s1.registry ↔ a ∈ s.registry ∨ (s.heap.length ≤ a ∧ a < s1.heap.length))
  lists : s1.others.length = s.others.length
  others : ∀ i a, ¬ Freed s1 a → (a ∈ s1.others.getD i [] ↔ a ∈ s.others.getD i [])

/-- The operations other than `collect` that a program applies to the context at hand
and to its handles. -/
inductive Op where
  | make (avail : Bool) (value : List (List Loc))
  | copy (o : Loc)
  | move (o : Loc)
  | copy_assign (t o : Loc)
  | move_assign (t o : Loc)
  | destroy (i : Nat)
  deriving DecidableEq, Repr

/-- Run one operation. -/
def Op.run (fuel : Nat) (s : State) : Op → Outcome
  | .make avail value => Context_make avail value s
  | .copy o => Ptr_copy s o
  | .move o => Ptr_move s o
  | .copy_assign t o => Ptr_copy_assign fuel s t o
  | .move_assign t o => Ptr_move_assign s t o
  | .destroy i => Ptr_destroy fuel s i

/-! ### A record that only itself holds -/

theorem load_eq_some {s : State} {a : Nat} {v : Value} :
    load s a = some v ↔ s.heap[a]? = some v ∧ v.freed = false := by
  unfold load
  cases h : s.heap[a]? with
  | none => simp
  | some w =>
    by_cases hf : w.freed = true
    · simp [hf]
      intro hw; subst hw; simpa using hf
    · simp [hf]
      intro hw; subst hw; simpa using hf

theorem load_lt {s : State} {a : Nat} {v : Value} (h : load s a = some v) :
    a < s.heap.length := by
  have := (load_eq_some.1 h).1
  exact (List.getElem?_eq_some.1 this).1

theorem rcOf_of_load {s : State} {a : Nat} {v : Value} (h : load s a = some v) :
    rcOf s a = v.ref_count := by
  unfold rcOf; rw [(load_eq_some.1 h).1]

theorem slotsAt_of_load {s : State} {a : Nat} {v : Value} (h : load s a = some v) :
    slotsAt s a = v.slots := by
  unfold slotsAt; rw [h]

theorem store_heap_get (s : State) (a b : Nat) (v : Value) :
    (store s a v).heap[b]? = if a = b then (if a < s.heap.length then some v else none)
      else s.heap[b]? := by
  simp [store, List.getElem?_set]

theorem store_registry (s : State) (a : Nat) (v : Value) :
    (store s a v).registry = s.registry := rfl

theorem store_unused (s : State) (a : Nat) (v : Value) :
    (store s a v).unused = s.unused := rfl

theorem store_roots (s : State) (a : Nat) (v : Value) :
    (store s a v).roots = s.roots := rfl

theorem store_length (s : State) (a : Nat) (v : Value) :
    (store s a v).heap.length = s.heap.length := by
  simp [store]

theorem SameShape.shape_refl (s : State) : SameShape s s := ⟨rfl, rfl⟩

theorem SameShape.shape_trans {s s1 s2 : State} (h1 : SameShape s s1) (h2 : SameShape s1 s2) :
    SameShape s s2 := ⟨h2.1.trans h1.1, h2.2.trans h1.2⟩

theorem SameShape.shape_symm {s s1 : State} (h : SameShape s s1) : SameShape s1 s :=
  ⟨h.1.symm, h.2.symm⟩

theorem SameShape.length {s s1 : State} (h : SameShape s s1) :
    s1.heap.length = s.heap.length := by
  have := congrArg List.length h.1
  simpa using this

theorem SameShape.get {s s1 : State} (h : SameShape s s1) (a : Nat) :
    (s1.heap[a]?).map Value.blank = (s.heap[a]?).map Value.blank := by
  have := congrArg (fun l => l[a]?) h.1
  simpa [List.getElem?_map] using this

theorem SameShape.load_eq {s s1 : State} (h : SameShape s s1) {a : Nat} {v : Value}
    (hv : load s a = some v) : load s1 a = some { v with ref_count := rcOf s1 a } := by
  have hg := h.get a
  obtain ⟨h1, h2⟩ := load_eq_some.1 hv
  rw [h1] at hg
  cases h3 : s1.heap[a]? with
  | none => rw [h3] at hg; simp at hg
  | some w =>
    rw [h3] at hg
    simp only [Option.map_some', Option.some.injEq] at hg
    have hw : w = { v with ref_count := w.ref_count } := by
      cases w; cases v
      simp only [Value.blank, Value.mk.injEq] at hg ⊢
      simp [hg.2.1, hg.2.2.1, hg.2.2.2]
    rw [load_eq_some]
    refine ⟨?_, ?_⟩
    · rw [h3, hw]; simp [rcOf, h3]
    · simpa using h2

theorem SameShape.load_isSome {s s1 : State} (h : SameShape s s1) (a : Nat) :
    (∃ v, load s1 a = some v) ↔ ∃ v, load s a = some v := by
  constructor
  · rintro ⟨v, hv⟩; exact ⟨_, h.shape_symm.load_eq hv⟩
  · rintro ⟨v, hv⟩; exact ⟨_, h.load_eq hv⟩

theorem SameShape.load_none {s s1 : State} (h : SameShape s s1) {a : Nat}
    (hv : load s a = none) : load s1 a = none := by
  cases h1 : load s1 a with
  | none => rfl
  | some w =>
    obtain ⟨v, hv2⟩ := (h.load_isSome a).1 ⟨w, h1⟩
    rw [hv] at hv2; cases hv2

theorem SameShape.slots_eq {s s1 : State} (h : SameShape s s1) (a : Nat) :
    slotsAt s1 a = slotsAt s a := by
  cases hv : load s a with
  | none => simp [slotsAt, hv, h.load_none hv]
  | some v => simp [slotsAt, hv, h.load_eq hv, Value.slots]

theorem SameShape.live_eq {s s1 : State} (h : SameShape s s1) :
    liveSlots s1 = liveSlots s := by
  unfold liveSlots
  rw [h.length]
  congr 1
  funext a
  exact h.slots_eq a

theorem SameShape.holders_same {s s1 : State} (h : SameShape s s1) (a : Nat) :
    holders s1 a = holders s a := by
  unfold holders
  rw [h.live_eq, h.2]

theorem SameShape.edge_iff {s s1 : State} (h : SameShape s s1) (a b : Nat) :
    Edge s1 a b ↔ Edge s a b := by
  unfold Edge; rw [h.slots_eq]

theorem SameShape.reachable_iff {s s1 : State} (h : SameShape s s1) (a : Nat) :
    Reachable s1 a ↔ Reachable s a := by
  have he : Edge s1 = Edge s := by
    funext x y; exact propext (h.edge_iff x y)
  unfold Reachable
  rw [he, h.2]

/-- Overwriting the count of a block keeps the shape. -/
theorem sameShape_store {s : State} {t : Nat} {v : Value} (hv : s.heap[t]? = some v)
    (r : Nat) : SameShape s (store s t { v with ref_count := r }) := by
  refine ⟨?_, rfl⟩
  apply List.ext_getElem?
  intro n
  simp only [store, List.getElem?_map, List.getElem?_set]
  by_cases hn : t = n
  · subst hn
    have hlt : t < s.heap.length := (List.getElem?_eq_some.1 hv).1
    simp [hlt, hv, Value.blank]
  · simp [hn]

theorem rcOf_store_self {s : State} {t : Nat} {v w : Value} (hv : s.heap[t]? = some v) :
    rcOf (store s t w) t = w.ref_count := by
  have hlt : t < s.heap.length := (List.getElem?_eq_some.1 hv).1
  simp [rcOf, store_heap_get, hlt]

theorem rcOf_store_other {s : State} {t a : Nat} (w : Value) (h : t ≠ a) :
    rcOf (store s t w) a = rcOf s a := by
  simp [rcOf, store_heap_get, h]

/-! ### Loops over fixed sequences -/

theorem forEach_append {α : Type} (f : State → α → Outcome) (xs ys : List α) (s : State) :
    forEach f (xs ++ ys) s = (forEach f xs s).andThen (forEach f ys) := by
  induction xs generalizing s with
  | nil => rfl
  | cons x xs ih =>
    simp only [List.cons_append, forEach]
    cases f s x with
    | ok s1 => exact ih s1
    | fault e => rfl

theorem forEach_flatten {α : Type} (f : State → α → Outcome) (ms : List (List α)) (s : State) :
    forEach (fun s1 m => forEach f m s1) ms s = forEach f ms.flatten s := by
  induction ms generalizing s with
  | nil => rfl
  | cons m ms ih =>
    simp only [List.flatten_cons, forEach_append, forEach]
    cases forEach f m s with
    | ok s1 => exact ih s1
    | fault e => rfl

/-! ### First phase: subtracting the internal references -/

theorem WORD_eq : WORD = 18446744073709551616 := by
  unfold WORD; norm_num

theorem forEach_sameShape {α : Type} {f : State → α → Outcome}
    (hf : ∀ s x s1, f s x = .ok s1 → SameShape s s1) (L : List α) :
    ∀ s s1, forEach f L s = .ok s1 → SameShape s s1 := by
  induction L with
  | nil => intro s s1 h; simp only [forEach, Outcome.ok.injEq] at h; subst h; exact SameShape.shape_refl s
  | cons x L ih =>
    intro s s1 h
    simp only [forEach] at h
    cases hx : f s x with
    | ok s2 =>
      rw [hx] at h
      exact (hf s x s2 hx).shape_trans (ih s2 s1 h)
    | fault e => rw [hx] at h; cases h

theorem subtract_slot_sameShape (s : State) (x : Option Nat) (s1 : State)
    (h : subtract_slot s x = .ok s1) : SameShape s s1 := by
  unfold subtract_slot at h
  cases x with
  | none => cases h
  | some t =>
    simp only at h
    cases hv : load s t with
    | none => rw [hv] at h; cases h
    | some v =>
      rw [hv] at h
      simp only [Outcome.ok.injEq] at h
      subst h
      exact sameShape_store (load_eq_some.1 hv).1 _

theorem subtract_record_eq {s : State} {p : Nat} {v : Value} (hv : load s p = some v) :
    subtract_record s p = forEach subtract_slot (slotsAt s p) s := by
  unfold subtract_record
  rw [hv, slotsAt_of_load hv]
  exact forEach_flatten _ _ _

theorem forEach_subtract_record (s0 : State) (R : List Nat)
    (hR : ∀ p ∈ R, ∃ v, load s0 p = some v) :
    ∀ s, SameShape s0 s →
      forEach subtract_record R s = forEach subtract_slot (R.flatMap (slotsAt s0)) s := by
  induction R with
  | nil => intro s _; rfl
  | cons p R ih =>
    intro s hs
    obtain ⟨v, hv⟩ := hR p (List.mem_cons_self _ _)
    have hv1 := hs.load_eq hv
    simp only [forEach, List.flatMap_cons, forEach_append]
    rw [subtract_record_eq hv1, hs.slots_eq]
    cases h1 : forEach subtract_slot (slotsAt s0 p) s with
    | ok s2 =>
      have h2 := forEach_sameShape subtract_slot_sameShape _ _ _ h1
      exact ih (fun q hq => hR q (List.mem_cons_of_mem _ hq)) s2 (hs.shape_trans h2)
    | fault e => rfl

theorem forEach_subtract_slot (L : List (Option Nat)) :
    ∀ s, (∀ x ∈ L, ∃ t, x = some t ∧ ∃ v, load s t = some v) →
      (∀ a, L.count (some a) ≤ rcOf s a) → (∀ a, some a ∈ L → rcOf s a < WORD) →
      ∃ s1, forEach subtract_slot L s = .ok s1 ∧ SameShape s s1 ∧
        s1.registry = s.registry ∧ s1.unused = s.unused ∧
        ∀ a, rcOf s1 a + L.count (some a) = rcOf s a := by
  induction L with
  | nil => intro s _ _ _; exact ⟨s, rfl, SameShape.shape_refl s, rfl, rfl, fun a => by simp⟩
  | cons x L ih =>
    intro s hL hc hw
    obtain ⟨t, rfl, v, hv⟩ := hL _ (List.mem_cons_self _ _)
    have hvr := rcOf_of_load hv
    have hct := hc t
    have hwt := hw t (List.mem_cons_self _ _)
    rw [List.count_cons_self] at hct
    have hnew : (v.ref_count + WORD - 1) % WORD = v.ref_count - 1 := by
      rw [WORD_eq] at hwt ⊢; omega
    have hsh : SameShape s (store s t { v with ref_count := (v.ref_count + WORD - 1) % WORD }) :=
      sameShape_store (load_eq_some.1 hv).1 _
    have hstep : subtract_slot s (some t)
        = .ok (store s t { v with ref_count := (v.ref_count + WORD - 1) % WORD }) := by
      simp [subtract_slot, hv]
    have hrc : ∀ a, rcOf (store s t { v with ref_count := (v.ref_count + WORD - 1) % WORD }) a
        = if a = t then rcOf s t - 1 else rcOf s a := by
      intro a
      by_cases ha : a = t
      · subst ha
        rw [rcOf_store_self (load_eq_some.1 hv).1]; simp [hnew, hvr]
      · rw [rcOf_store_other _ (Ne.symm ha)]; simp [ha]
    obtain ⟨s1, h1, h2, h3, h4, h5⟩ := ih (store s t { v with ref_count := (v.ref_count + WORD - 1) % WORD })
      (fun x hx => by
        obtain ⟨u, hu, w, hw⟩ := hL x (List.mem_cons_of_mem _ hx)
        exact ⟨u, hu, _, hsh.load_eq hw⟩)
      (fun a => by
        rw [hrc]
        have := hc a
        by_cases ha : a = t
        · subst ha; simp only [List.count_cons_self, if_true] at this ⊢; omega
        · have hne : (some t == some a) = false := by simpa using Ne.symm ha
          simp only [List.count_cons, hne, ha, if_false] at this ⊢; simpa using this)
      (fun a ha => by
        rw [hrc]; have := hw a (List.mem_cons_of_mem _ ha)
        split <;> omega)
    refine ⟨s1, ?_, hsh.shape_trans h2, h3, h4, ?_⟩
    · simp only [forEach, hstep]; exact h1
    · intro a
      have := h5 a
      rw [hrc] at this
      have hca := hc a
      by_cases ha : a = t
      · subst ha; simp only [List.count_cons_self, if_true] at this hca ⊢; omega
      · have hne : (some t == some a) = false := by simpa using Ne.symm ha
        simp only [List.count_cons, hne, ha, if_false] at this ⊢; simpa using this

/-- Slots of records outside a duplicate-free list that covers the allocated records
do not exist: counting over the heap is counting over that list. -/
theorem count_liveSlots_split (s : State) (R : List Nat) (hnd : R.Nodup)
    (hR : ∀ p ∈ R, ∃ v, load s p = some v) (x : Option Nat) :
    (liveSlots s).count x = (R.flatMap (slotsAt s)).count x
      + (((List.range s.heap.length).filter (fun b => decide (b ∉ R))).flatMap
          (slotsAt s)).count x := by
  unfold liveSlots
  have hperm : (List.range s.heap.length).Perm
      (R ++ (List.range s.heap.length).filter (fun b => decide (b ∉ R))) := by
    rw [List.perm_ext_iff_of_nodup (List.nodup_range _)]
    · intro a
      simp only [List.mem_range, List.mem_append, List.mem_filter, decide_eq_true_eq]
      constructor
      · intro ha
        by_cases h : a ∈ R
        · exact Or.inl h
        · exact Or.inr ⟨ha, h⟩
      · rintro (h | h)
        · obtain ⟨v, hv⟩ := hR a h; exact load_lt hv
        · exact h.1
    · rw [List.nodup_append]
      refine ⟨hnd, (List.nodup_range _).filter _, ?_⟩
      intro a ha hb
      simp only [List.mem_filter, decide_eq_true_eq] at hb
      exact hb.2 ha
  have hcnt : List.count x ((List.range s.heap.length).flatMap (slotsAt s))
      = List.count x ((R ++ (List.range s.heap.length).filter (fun b => decide (b ∉ R))).flatMap
          (slotsAt s)) :=
    (hperm.flatMap_right (slotsAt s)).countP_eq (· == x)
  rw [List.flatMap_append, List.count_append] at hcnt
  exact hcnt

theorem count_liveSlots (s : State) (R : List Nat) (hnd : R.Nodup)
    (hR : ∀ p ∈ R, ∃ v, load s p = some v) (hall : ∀ a v, load s a = some v → a ∈ R)
    (x : Option Nat) : (liveSlots s).count x = (R.flatMap (slotsAt s)).count x := by
  have hcnt := count_liveSlots_split s R hnd hR x
  have hz : ((List.range s.heap.length).filter (fun b => decide (b ∉ R))).flatMap (slotsAt s) = [] := by
    rw [List.flatMap_eq_nil_iff]
    intro b hb
    simp only [List.mem_filter, decide_eq_true_eq] at hb
    cases hv : load s b with
    | none => simp [slotsAt, hv]
    | some v => exact absurd (hall b v hv) hb.2
  rw [hz] at hcnt
  simpa using hcnt

theorem mem_liveSlots {s : State} {x : Option Nat} :
    x ∈ liveSlots s ↔ ∃ a, x ∈ slotsAt s a := by
  unfold liveSlots
  simp only [List.mem_flatMap, List.mem_range]
  constructor
  · rintro ⟨a, _, h⟩; exact ⟨a, h⟩
  · rintro ⟨a, h⟩
    refine ⟨a, ?_, h⟩
    cases hv : load s a with
    | none => simp [slotsAt, hv] at h
    | some v => exact load_lt hv

theorem load_congr {s s1 : State} (h : s1.heap = s.heap) (a : Nat) : load s1 a = load s a := by
  unfold load; rw [h]

theorem rcOf_congr {s s1 : State} (h : s1.heap = s.heap) (a : Nat) : rcOf s1 a = rcOf s a := by
  unfold rcOf; rw [h]

theorem sameShape_of_heap {s s1 : State} (h : s1.heap = s.heap) (hr : s1.roots = s.roots) :
    SameShape s s1 := ⟨by rw [h], hr⟩

theorem mem_registry_slots {s : State} {R : List Nat} {x : Option Nat}
    (h : x ∈ R.flatMap (slotsAt s)) : x ∈ liveSlots s := by
  obtain ⟨a, _, ha⟩ := List.mem_flatMap.1 h
  exact mem_liveSlots.2 ⟨a, ha⟩

/-- First loop of `collect`: it returns, changes counts only, and takes from every count
the number of registry slots that hold the record. -/
theorem phase1_spec (s : State) (hwf : WellFormed s) (hnn : NoNull s) :
    ∃ s1, phase1 s = .ok s1 ∧ SameShape s s1 ∧ s1.registry = s.registry ∧
      s1.unused = s.unused ∧
      ∀ a, rcOf s1 a + (s.registry.flatMap (slotsAt s)).count (some a) = rcOf s a := by
  unfold phase1
  rw [forEach_subtract_record s s.registry hwf.linked s (SameShape.shape_refl s)]
  apply forEach_subtract_slot
  · intro x hx
    cases x with
    | none =>
      obtain ⟨a, _, ha⟩ := List.mem_flatMap.1 hx
      exact absurd ha (hnn a)
    | some t =>
      exact ⟨t, rfl, hwf.closed t (List.mem_append_right _ (mem_registry_slots hx))⟩
  · intro a
    by_cases hz : (s.registry.flatMap (slotsAt s)).count (some a) = 0
    · omega
    · have hmem : some a ∈ s.registry.flatMap (slotsAt s) := by
        by_contra hc; exact hz (List.count_eq_zero_of_not_mem hc)
      obtain ⟨v, hv⟩ := hwf.closed a (List.mem_append_right _ (mem_registry_slots hmem))
      rw [rcOf_of_load hv, hwf.exact a v hv]
      unfold holders
      rw [List.count_append, count_liveSlots_split s s.registry hwf.nodup hwf.linked]
      omega
  · intro a ha
    obtain ⟨v, hv⟩ := hwf.closed a (List.mem_append_right _ (mem_registry_slots ha))
    rw [rcOf_of_load hv]
    exact hwf.word a v hv

/-- After the first loop, in a single context, every count is the number of external
handles that hold the record. -/
theorem phase1_external (s : State) (hwf : WellFormed s) (hone : OneContext s)
    (hnn : NoNull s) :
    ∃ s1, phase1 s = .ok s1 ∧ SameShape s s1 ∧ s1.registry = s.registry ∧
      s1.unused = s.unused ∧
      ∀ a, a ∈ s.registry → rcOf s1 a = s.roots.count (some a) := by
  obtain ⟨s1, h1, h2, h3, h4, h5⟩ := phase1_spec s hwf hnn
  refine ⟨s1, h1, h2, h3, h4, ?_⟩
  intro a ha
  obtain ⟨v, hv⟩ := hwf.linked a ha
  have h := h5 a
  rw [rcOf_of_load hv, hwf.exact a v hv] at h
  unfold holders at h
  rw [List.count_append, count_liveSlots s s.registry hwf.nodup hwf.linked hone] at h
  omega

/-! ### Second phase: partition -/

theorem partition_step (T : List Nat) :
    ∀ (K U : List Nat) (s : State), s.registry = K ++ T → s.unused = U → (K ++ T).Nodup →
      (∀ p ∈ T, p ∉ U) → (∀ p ∈ T, ∃ v, load s p = some v) →
      ∃ s1, forEach partition_record T s = .ok s1 ∧ s1.heap = s.heap ∧ s1.roots = s.roots ∧
        s1.registry = K ++ T.filter (fun p => decide (0 < rcOf s p)) ∧
        s1.unused = U ++ T.filter (fun p => decide (rcOf s p = 0)) := by
  induction T with
  | nil =>
    intro K U s hr hu _ _ _
    exact ⟨s, rfl, rfl, rfl, by simpa using hr, by simpa using hu⟩
  | cons p T ih =>
    intro K U s hr hu hnd hd hl
    obtain ⟨v, hv⟩ := hl p (List.mem_cons_self _ _)
    have hrc := rcOf_of_load hv
    have hndT : (K ++ T).Nodup := by
      rw [List.nodup_append] at hnd ⊢
      exact ⟨hnd.1, (List.nodup_cons.1 hnd.2.1).2,
        fun a ha hb => hnd.2.2 ha (List.mem_cons_of_mem _ hb)⟩
    have hpK : p ∉ K := fun h => (List.nodup_append.1 hnd).2.2 h (List.mem_cons_self _ _)
    have hpT : p ∉ T := (List.nodup_cons.1 (List.nodup_append.1 hnd).2.1).1
    by_cases hpos : 0 < v.ref_count
    · have hstep : partition_record s p = .ok s := by
        simp [partition_record, hv, hpos]
      have hndT2 : ((K ++ [p]) ++ T).Nodup := by simpa using hnd
      obtain ⟨s1, h1, h2, h3, h4, h5⟩ := ih (K ++ [p]) U s (by simpa using hr) hu hndT2
        (fun q hq => hd q (List.mem_cons_of_mem _ hq))
        (fun q hq => hl q (List.mem_cons_of_mem _ hq))
      refine ⟨s1, ?_, h2, h3, ?_, ?_⟩
      · simp only [forEach, hstep]; exact h1
      · rw [h4]; simp [List.filter_cons, hrc, hpos]
      · rw [h5]
        have : ¬ v.ref_count = 0 := by omega
        simp [List.filter_cons, hrc, this]
    · have hzero : v.ref_count = 0 := by omega
      have hstep : partition_record s p = .ok (insert_before p .unused (remove p s)) := by
        simp [partition_record, hv, hpos]
      have hreg : (insert_before p .unused (remove p s)).registry = K ++ T := by
        simp only [insert_before, remove, hr]
        rw [List.erase_append_right _ hpK]
        simp
      have hun : (insert_before p .unused (remove p s)).unused = U ++ [p] := by
        simp only [insert_before, remove, hu]
        rw [List.erase_of_not_mem (hd p (List.mem_cons_self _ _))]
      have hheap : (insert_before p .unused (remove p s)).heap = s.heap := rfl
      obtain ⟨s1, h1, h2, h3, h4, h5⟩ := ih K (U ++ [p]) (insert_before p .unused (remove p s))
        hreg hun hndT
        (fun q hq => by
          simp only [List.mem_append, List.mem_singleton, not_or]
          exact ⟨hd q (List.mem_cons_of_mem _ hq), fun h => hpT (h ▸ hq)⟩)
        (fun q hq => by rw [load_congr hheap]; exact hl q (List.mem_cons_of_mem _ hq))
      refine ⟨s1, ?_, h2.trans hheap, h3, ?_, ?_⟩
      · simp only [forEach, hstep]; exact h1
      · rw [h4]
        simp only [rcOf_congr hheap]
        simp [List.filter_cons, hrc, hpos]
      · rw [h5]
        simp only [rcOf_congr hheap]
        simp [List.filter_cons, hrc, hzero]

/-- Second loop of `collect`: the records whose count is zero move to `unused`, in
registry order; the others stay. -/
theorem phase2_spec (s : State) (hnd : s.registry.Nodup) (hu : s.unused = [])
    (hl : ∀ p ∈ s.registry, ∃ v, load s p = some v) :
    ∃ s1, phase2 s = .ok s1 ∧ s1.heap = s.heap ∧ s1.roots = s.roots ∧
      s1.registry = s.registry.filter (fun p => decide (0 < rcOf s p)) ∧
      s1.unused = s.registry.filter (fun p => decide (rcOf s p = 0)) := by
  obtain ⟨s1, h1, h2, h3, h4, h5⟩ := partition_step s.registry [] [] s (by simp) hu
    (by simpa using hnd) (by simp) hl
  exact ⟨s1, h1, h2, h3, by simpa using h4, by simpa using h5⟩

/-! ### Third phase: restore and rescue -/

theorem count_flatMap_sublist {α : Type} (f : α → List (Option Nat)) {A B : List α}
    (h : A.Sublist B) (x : Option Nat) :
    (A.flatMap f).count x ≤ (B.flatMap f).count x := by
  induction h with
  | slnil => simp
  | cons a _ ih =>
    rw [List.flatMap_cons, List.count_append]; omega
  | cons₂ a _ ih =>
    rw [List.flatMap_cons, List.flatMap_cons, List.count_append, List.count_append]; omega

theorem count_flatMap_le {α : Type} (f : α → List (Option Nat)) (A B : List α)
    (hAB : A.Subperm B) (x : Option Nat) :
    (A.flatMap f).count x ≤ (B.flatMap f).count x := by
  obtain ⟨C, hC, hCB⟩ := hAB
  have h1 : (C.flatMap f).count x = (A.flatMap f).count x :=
    (hC.flatMap_right f).countP_eq (· == x)
  rw [← h1]
  exact count_flatMap_sublist f hCB x

theorem restore_slot_zero {s : State} {t : Nat} {v : Value} (hv : load s t = some v)
    (hz : v.ref_count = 0) :
    restore_slot s (some t) = .ok (store (insert_before t .header (remove t s)) t
      { v with ref_count := 1 }) := by
  have : (0 + 1) % WORD = 1 := by rw [WORD_eq]
  simp [restore_slot, hv, hz, this]

theorem restore_slot_pos {s : State} {t : Nat} {v : Value} (hv : load s t = some v)
    (hz : 0 < v.ref_count) (hw : v.ref_count + 1 < WORD) :
    restore_slot s (some t) = .ok (store s t { v with ref_count := v.ref_count + 1 }) := by
  have h1 : ¬ v.ref_count = 0 := by omega
  have h2 : (v.ref_count + 1) % WORD = v.ref_count + 1 := Nat.mod_eq_of_lt hw
  simp [restore_slot, hv, h1, h2]

theorem count_snoc_some (P : List (Option Nat)) (t a : Nat) :
    (P ++ [some t]).count (some a) = P.count (some a) + if a = t then 1 else 0 := by
  rw [List.count_append]
  by_cases h : a = t
  · subst h; simp
  · have hne : (some t == some a) = false := by simpa using Ne.symm h
    simp [List.count_cons, hne, h]

theorem restore_step (s0 : State) (R : List Nat) (p : Nat)
    (hR : ∀ a ∈ R, ∃ v, load s0 a = some v)
    (P : List (Option Nat)) (s : State) (t : Nat)
    (hinv : Restoring s0 R P s) (hp : p ∈ s.registry) (ht : t ∈ R) (he : Edge s0 p t)
    (hw : rcOf s t + 1 < WORD) :
    ∃ s1 T, restore_slot s (some t) = .ok s1 ∧ Restoring s0 R (P ++ [some t]) s1 ∧
      s1.registry = s.registry ++ T ∧ s1.unused.length + T.length = s.unused.length ∧
      ∀ a, rcOf s1 a = if a = t then rcOf s t + 1 else rcOf s a := by
  obtain ⟨v0, hv0⟩ := hR t ht
  have hv := hinv.shape.load_eq hv0
  have hget := (load_eq_some.1 hv).1
  have hndu : s.unused.Nodup := (List.nodup_append.1 hinv.nodup).2.1
  have hndr : s.registry.Nodup := (List.nodup_append.1 hinv.nodup).1
  by_cases hz : rcOf s t = 0
  · -- the target sits on `unused`: rescue it
    have htr : t ∉ s.registry := fun h => by have := hinv.pos t h; omega
    have htu : t ∈ s.unused := by
      rcases (hinv.cover t).2 ht with h | h
      · exact absurd h htr
      · exact h
    have hstep := restore_slot_zero hv (by simpa using hz)
    have hrc : ∀ a, rcOf (store (insert_before t .header (remove t s)) t
        { ({ v0 with ref_count := rcOf s t } : Value) with ref_count := 1 }) a
        = if a = t then rcOf s t + 1 else rcOf s a := by
      intro a
      by_cases ha : a = t
      · subst ha
        rw [rcOf_store_self (v := { v0 with ref_count := rcOf s a }) (by exact hget)]
        simp [hz]
      · rw [rcOf_store_other _ (Ne.symm ha)]
        simp only [ha, if_false]
        rfl
    refine ⟨_, [t], hstep, ?_, ?_, ?_, hrc⟩
    · refine ⟨?_, ?_, ?_, ?_, ?_, ?_, ?_, ?_⟩
      · exact hinv.shape.shape_trans (sameShape_store (s := insert_before t .header (remove t s))
          (by exact hget) 1)
      · show ((s.registry.erase t ++ [t]) ++ s.unused.erase t).Nodup
        rw [List.erase_of_not_mem htr]
        have hperm : (s.registry ++ s.unused).Perm ((s.registry ++ [t]) ++ s.unused.erase t) := by
          rw [List.append_assoc]
          exact List.Perm.append_left _ (List.perm_cons_erase htu)
        exact hperm.nodup_iff.1 hinv.nodup
      · intro a
        show (a ∈ s.registry.erase t ++ [t] ∨ a ∈ s.unused.erase t) ↔ a ∈ R
        rw [List.erase_of_not_mem htr, ← hinv.cover a, hndu.mem_erase_iff]
        simp only [List.mem_append, List.mem_singleton]
        constructor
        · rintro ((h | h) | h)
          · exact Or.inl h
          · exact Or.inr (h ▸ htu)
          · exact Or.inr h.2
        · rintro (h | h)
          · exact Or.inl (Or.inl h)
          · by_cases hat : a = t
            · exact Or.inl (Or.inr hat)
            · exact Or.inr ⟨hat, h⟩
      · intro a ha
        have hc := hinv.count a ha
        rw [hrc, count_snoc_some]
        by_cases hat : a = t
        · subst hat; simp only [if_true]; omega
        · simp only [hat, if_false]; omega
      · intro a ha
        have ha2 : a ∈ s.unused.erase t := ha
        rw [hndu.mem_erase_iff] at ha2
        rw [hrc]; simp only [ha2.1, if_false]
        exact hinv.zero a ha2.2
      · intro a ha
        have ha2 : a ∈ s.registry.erase t ++ [t] := ha
        rw [List.erase_of_not_mem htr] at ha2
        rw [hrc]
        by_cases hat : a = t
        · simp [hat]
        · simp only [hat, if_false]
          rcases List.mem_append.1 ha2 with h | h
          · exact hinv.pos a h
          · exact absurd (List.mem_singleton.1 h) hat
      · intro a ha
        have ha2 : a ∈ s.registry.erase t ++ [t] := ha
        rw [List.erase_of_not_mem htr] at ha2
        rcases List.mem_append.1 ha2 with h | h
        · exact hinv.reach a h
        · rw [List.mem_singleton.1 h]
          obtain ⟨r, hr, hpath⟩ := hinv.reach p hp
          exact ⟨r, hr, hpath.tail he⟩
      · intro a ha
        have hat : a ≠ t := fun h => ha (h ▸ ht)
        rw [hrc]; simp only [hat, if_false]
        exact hinv.frame a ha
    · show s.registry.erase t ++ [t] = s.registry ++ [t]
      rw [List.erase_of_not_mem htr]
    · show (s.unused.erase t).length + 1 = s.unused.length
      rw [List.length_erase_of_mem htu]
      have : 0 < s.unused.length := List.length_pos_of_mem htu
      omega
  · -- the target is on the registry already
    have hpos : 0 < rcOf s t := by omega
    have htu : t ∉ s.unused := fun h => hz (hinv.zero t h)
    have hstep := restore_slot_pos hv (by simpa using hpos) (by simpa using hw)
    have hrc : ∀ a, rcOf (store s t
        { ({ v0 with ref_count := rcOf s t } : Value) with ref_count := rcOf s t + 1 }) a
        = if a = t then rcOf s t + 1 else rcOf s a := by
      intro a
      by_cases ha : a = t
      · subst ha
        rw [rcOf_store_self (v := { v0 with ref_count := rcOf s a }) (by exact hget)]
        simp
      · rw [rcOf_store_other _ (Ne.symm ha)]
        simp only [ha, if_false]
    refine ⟨_, [], hstep, ?_, by simp [store_registry], by simp [store_unused], hrc⟩
    refine ⟨?_, ?_, ?_, ?_, ?_, ?_, ?_, ?_⟩
    · exact hinv.shape.shape_trans (sameShape_store hget _)
    · exact hinv.nodup
    · exact hinv.cover
    · intro a ha
      have hc := hinv.count a ha
      rw [hrc, count_snoc_some]
      by_cases hat : a = t
      · subst hat; simp only [if_true]; omega
      · simp only [hat, if_false]; omega
    · intro a ha
      have ha2 : a ∈ s.unused := ha
      have hat : a ≠ t := fun h => htu (h ▸ ha2)
      rw [hrc]; simp only [hat, if_false]
      exact hinv.zero a ha2
    · intro a ha
      have ha2 : a ∈ s.registry := ha
      rw [hrc]
      by_cases hat : a = t
      · simp [hat]
      · simp only [hat, if_false]; exact hinv.pos a ha2
    · intro a ha
      exact hinv.reach a ha
    · intro a ha
      have hat : a ≠ t := fun h => ha (h ▸ ht)
      rw [hrc]; simp only [hat, if_false]
      exact hinv.frame a ha

theorem forEach_restore_slot (s0 : State) (R : List Nat) (p : Nat)
    (hR : ∀ a ∈ R, ∃ v, load s0 a = some v) (L : List (Option Nat)) :
    ∀ (P : List (Option Nat)) (s : State), Restoring s0 R P s → p ∈ s.registry →
      (∀ x ∈ L, ∃ t, x = some t ∧ t ∈ R ∧ Edge s0 p t) →
      (∀ a, some a ∈ L → rcOf s a + L.count (some a) < WORD) →
      ∃ s1 T, forEach restore_slot L s = .ok s1 ∧ Restoring s0 R (P ++ L) s1 ∧
        s1.registry = s.registry ++ T ∧ s1.unused.length + T.length = s.unused.length := by
  induction L with
  | nil =>
    intro P s hinv _ _ _
    exact ⟨s, [], rfl, by simpa using hinv, by simp, by simp⟩
  | cons x L ih =>
    intro P s hinv hp hL hw
    obtain ⟨t, rfl, ht, he⟩ := hL _ (List.mem_cons_self _ _)
    have hwt := hw t (List.mem_cons_self _ _)
    rw [List.count_cons_self] at hwt
    obtain ⟨s1, T1, h1, h2, h3, h4, h5⟩ :=
      restore_step s0 R p hR P s t hinv hp ht he (by omega)
    obtain ⟨s2, T2, g1, g2, g3, g4⟩ := ih (P ++ [some t]) s1 h2
      (by rw [h3]; exact List.mem_append_left _ hp)
      (fun x hx => hL x (List.mem_cons_of_mem _ hx))
      (fun a ha => by
        have := hw a (List.mem_cons_of_mem _ ha)
        rw [h5]
        by_cases hat : a = t
        · subst hat; simp only [List.count_cons_self, if_true] at this ⊢; omega
        · have hne : (some t == some a) = false := by simpa using Ne.symm hat
          simp only [List.count_cons, hne, hat, if_false] at this ⊢
          simpa using this)
    refine ⟨s2, T1 ++ T2, ?_, ?_, ?_, ?_⟩
    · simp only [forEach, h1]; exact g1
    · simpa using g2
    · rw [g3, h3, List.append_assoc]
    · rw [List.length_append]; omega

theorem restore_record_eq {s : State} {p : Nat} {v : Value} (hv : load s p = some v) :
    restore_record s p = forEach restore_slot (slotsAt s p) s := by
  unfold restore_record
  rw [hv, slotsAt_of_load hv]
  exact forEach_flatten _ _ _

theorem next_of_append (D X : List Nat) (p : Nat) (hp : p ∉ D) :
    next_of (D ++ p :: X) p = X.head? := by
  induction D with
  | nil => simp [next_of]
  | cons d D ih =>
    have hd : d ≠ p := fun h => hp (h ▸ List.mem_cons_self _ _)
    have hp2 : p ∉ D := fun h => hp (List.mem_cons_of_mem _ h)
    simp [next_of, hd, ih hp2]

theorem walk_none (sel : State → List Nat) (body : State → Nat → Outcome) (fuel : Nat)
    (s : State) : walk sel body fuel none s = .ok s := by
  cases fuel <;> rfl

theorem walk_restore (s0 : State) (R : List Nat)
    (hR : ∀ a ∈ R, ∃ v, load s0 a = some v)
    (hcl : ∀ a ∈ R, ∀ x ∈ slotsAt s0 a, ∃ t, x = some t ∧ t ∈ R)
    (hbound : ∀ a, s0.roots.count (some a) + (R.flatMap (slotsAt s0)).count (some a) < WORD) :
    ∀ (fuel : Nat) (D : List Nat) (p : Nat) (T : List Nat) (s : State),
      Restoring s0 R (D.flatMap (slotsAt s0)) s → s.registry = D ++ p :: T →
      T.length + s.unused.length < fuel →
      ∃ s1, walk State.registry restore_record fuel (some p) s = .ok s1 ∧
        Restoring s0 R (s1.registry.flatMap (slotsAt s0)) s1 := by
  intro fuel
  induction fuel with
  | zero => intro D p T s _ _ h; omega
  | succ fuel ih =>
    intro D p T s hinv hreg hfuel
    have hpreg : p ∈ s.registry := by rw [hreg]; simp
    have hpR : p ∈ R := (hinv.cover p).1 (Or.inl hpreg)
    obtain ⟨v0, hv0⟩ := hR p hpR
    have hv := hinv.shape.load_eq hv0
    have hndr : s.registry.Nodup := (List.nodup_append.1 hinv.nodup).1
    have hndD : (D ++ [p]).Nodup := by
      rw [hreg] at hndr
      have : ((D ++ [p]) ++ T).Nodup := by simpa using hndr
      exact (List.nodup_append.1 this).1
    have hpD : p ∉ D := by
      intro h
      have := (List.nodup_append.1 hndD).2.2 h (List.mem_singleton_self p)
      exact this
    have hsub : (D ++ [p]).Subperm R := by
      apply List.subperm_of_subset hndD
      intro a ha
      apply (hinv.cover a).1
      left; rw [hreg]
      rcases List.mem_append.1 ha with h | h
      · exact List.mem_append_left _ h
      · exact List.mem_append_right _ (by rw [List.mem_singleton.1 h]; simp)
    obtain ⟨s1, T1, h1, h2, h3, h4⟩ := forEach_restore_slot s0 R p hR (slotsAt s0 p)
      (D.flatMap (slotsAt s0)) s hinv hpreg
      (fun x hx => by
        obtain ⟨t, rfl, ht⟩ := hcl p hpR x hx
        exact ⟨t, rfl, ht, hx⟩)
      (fun a ha => by
        obtain ⟨t, ht1, ht2⟩ := hcl p hpR _ ha
        simp only [Option.some.injEq] at ht1
        subst ht1
        rw [hinv.count a ht2]
        have hle := count_flatMap_le (slotsAt s0) (D ++ [p]) R hsub (some a)
        rw [List.flatMap_append, List.count_append] at hle
        have hb := hbound a
        simp only [List.flatMap_cons, List.flatMap_nil, List.append_nil] at hle
        omega)
    have hbody : restore_record s p = .ok s1 := by
      rw [restore_record_eq hv, hinv.shape.slots_eq]; exact h1
    have hv1 := h2.shape.load_eq hv0
    have hreg1 : s1.registry = D ++ p :: (T ++ T1) := by
      rw [h3, hreg]; simp
    have hnext : next_of s1.registry p = (T ++ T1).head? := by
      rw [hreg1]; exact next_of_append D _ p hpD
    have hwalk : walk State.registry restore_record (fuel + 1) (some p) s
        = walk State.registry restore_record fuel ((T ++ T1).head?) s1 := by
      simp only [walk, hbody, hv1, hnext]
    rw [hwalk]
    have hinv1 : Restoring s0 R ((D ++ [p]).flatMap (slotsAt s0)) s1 := by
      simpa [List.flatMap_append] using h2
    cases hX : T ++ T1 with
    | nil =>
      refine ⟨s1, by simp [walk_none], ?_⟩
      have : s1.registry = D ++ [p] := by rw [hreg1, hX]
      rw [this]; exact hinv1
    | cons q X =>
      have hlen : (T ++ T1).length = X.length + 1 := by rw [hX]; simp
      rw [List.length_append] at hlen
      exact ih (D ++ [p]) q X s1 hinv1 (by rw [hreg1, hX]; simp) (by omega)

theorem slot_closed {s : State} (hwf : WellFormed s) (hone : OneContext s) (hnn : NoNull s)
    (a : Nat) (x : Option Nat) (hx : x ∈ slotsAt s a) : ∃ t, x = some t ∧ t ∈ s.registry := by
  cases x with
  | none => exact absurd hx (hnn a)
  | some t =>
    obtain ⟨v, hv⟩ := hwf.closed t (List.mem_append_right _ (mem_liveSlots.2 ⟨a, hx⟩))
    exact ⟨t, rfl, hone t v hv⟩

theorem root_registered {s : State} (hwf : WellFormed s) (hone : OneContext s)
    (a : Nat) (ha : some a ∈ s.roots) : a ∈ s.registry := by
  obtain ⟨v, hv⟩ := hwf.closed a (List.mem_append_left _ ha)
  exact hone a v hv

theorem holders_bound {s : State} (hwf : WellFormed s) (hone : OneContext s) (a : Nat) :
    s.roots.count (some a) + (s.registry.flatMap (slotsAt s)).count (some a) < WORD := by
  by_cases h : some a ∈ s.roots ++ liveSlots s
  · obtain ⟨v, hv⟩ := hwf.closed a h
    have h1 := hwf.exact a v hv
    have h2 := hwf.word a v hv
    unfold holders at h1
    rw [List.count_append, count_liveSlots s s.registry hwf.nodup hwf.linked hone] at h1
    omega
  · have h0 : (s.roots ++ liveSlots s).count (some a) = 0 := List.count_eq_zero_of_not_mem h
    rw [List.count_append, count_liveSlots s s.registry hwf.nodup hwf.linked hone] at h0
    rw [WORD_eq]; omega

/-- What the invariant of the third loop says once the whole registry has been walked:
the registry holds exactly the reachable records. -/
theorem restoring_final {s0 : State} {R : List Nat} {s3 : State}
    (h : Restoring s0 R (s3.registry.flatMap (slotsAt s0)) s3)
    (hroots : ∀ a, some a ∈ s0.roots → a ∈ R)
    (hcl : ∀ a ∈ R, ∀ x ∈ slotsAt s0 a, ∃ t, x = some t ∧ t ∈ R) :
    (∀ a, a ∈ s3.registry ↔ Reachable s0 a) ∧
      (∀ a, a ∈ s3.unused ↔ (a ∈ R ∧ ¬ Reachable s0 a)) := by
  have hin : ∀ a, a ∈ R → 0 < rcOf s3 a → a ∈ s3.registry := by
    intro a ha hpos
    rcases (h.cover a).2 ha with h1 | h1
    · exact h1
    · have := h.zero a h1; omega
  have hreg : ∀ a, a ∈ s3.registry ↔ Reachable s0 a := by
    intro a
    constructor
    · exact h.reach a
    · rintro ⟨r, hr, hpath⟩
      induction hpath with
      | refl =>
        have hrR := hroots r hr
        apply hin r hrR
        rw [h.count r hrR]
        have : 0 < s0.roots.count (some r) := List.count_pos_iff.2 hr
        omega
      | @tail b c _ hbc ih =>
        have hbR : b ∈ R := (h.cover b).1 (Or.inl ih)
        obtain ⟨t, ht1, ht2⟩ := hcl b hbR _ hbc
        simp only [Option.some.injEq] at ht1
        subst ht1
        apply hin c ht2
        rw [h.count c ht2]
        have : some c ∈ s3.registry.flatMap (slotsAt s0) := List.mem_flatMap.2 ⟨b, ih, hbc⟩
        have : 0 < (s3.registry.flatMap (slotsAt s0)).count (some c) :=
          List.count_pos_iff.2 this
        omega
  refine ⟨hreg, ?_⟩
  intro a
  constructor
  · intro ha
    refine ⟨(h.cover a).1 (Or.inr ha), ?_⟩
    intro hr
    have := (hreg a).2 hr
    exact (List.nodup_append.1 h.nodup).2.2 this ha
  · rintro ⟨ha, hnr⟩
    rcases (h.cover a).2 ha with h1 | h1
    · exact absurd ((hreg a).1 h1) hnr
    · exact h1

/-- The first three loops of `collect` on a well-formed single-context heap without
null slots: they return, and leave the registry holding exactly the reachable records
and `unused` exactly the others, every count being the number of handles held by
external handles and by records on the registry. -/
theorem collect_front (s : State) (fuel : Nat) (hwf : WellFormed s) (hone : OneContext s)
    (hnn : NoNull s) (hu : s.unused = []) (hfuel : s.registry.length ≤ fuel) :
    ∃ s3, ((phase1 s).andThen phase2).andThen (phase3 fuel) = .ok s3 ∧
      Restoring s s.registry (s3.registry.flatMap (slotsAt s)) s3 ∧
      (∀ a, a ∈ s3.registry ↔ Reachable s a) ∧
      (∀ a, a ∈ s3.unused ↔ (a ∈ s.registry ∧ ¬ Reachable s a)) := by
  obtain ⟨s1, h1, hsh1, hreg1, hun1, hrc1⟩ := phase1_external s hwf hone hnn
  have hcl : ∀ a ∈ s.registry, ∀ x ∈ slotsAt s a, ∃ t, x = some t ∧ t ∈ s.registry :=
    fun a _ x hx => slot_closed hwf hone hnn a x hx
  have hfr1 : ∀ a, a ∉ s.registry → rcOf s1 a = rcOf s a := by
    intro a ha
    obtain ⟨s1b, h1b, _, _, _, hrcb⟩ := phase1_spec s hwf hnn
    rw [h1] at h1b
    simp only [Outcome.ok.injEq] at h1b
    subst h1b
    have := hrcb a
    have hz : (s.registry.flatMap (slotsAt s)).count (some a) = 0 := by
      apply List.count_eq_zero_of_not_mem
      intro hmem
      obtain ⟨b, hb, hba⟩ := List.mem_flatMap.1 hmem
      obtain ⟨t, ht1, ht2⟩ := hcl b hb _ hba
      simp only [Option.some.injEq] at ht1
      exact ha (ht1 ▸ ht2)
    omega
  have hl1 : ∀ p ∈ s1.registry, ∃ v, load s1 p = some v := by
    intro p hp
    rw [hreg1] at hp
    obtain ⟨v, hv⟩ := hwf.linked p hp
    exact ⟨_, hsh1.load_eq hv⟩
  obtain ⟨s2, h2, hheap2, hroots2, hreg2, hun2⟩ :=
    phase2_spec s1 (by rw [hreg1]; exact hwf.nodup) (by rw [hun1]; exact hu) hl1
  rw [hreg1] at hreg2 hun2
  have hrc2 : ∀ a, rcOf s2 a = rcOf s1 a := rcOf_congr hheap2
  have hinv : Restoring s s.registry [] s2 := by
    refine ⟨?_, ?_, ?_, ?_, ?_, ?_, ?_, ?_⟩
    · exact hsh1.shape_trans (sameShape_of_heap hheap2 hroots2)
    · rw [hreg2, hun2, List.nodup_append]
      refine ⟨hwf.nodup.filter _, hwf.nodup.filter _, ?_⟩
      intro a ha hb
      simp only [List.mem_filter, decide_eq_true_eq] at ha hb
      omega
    · intro a
      rw [hreg2, hun2]
      simp only [List.mem_filter, decide_eq_true_eq]
      constructor
      · rintro (h | h) <;> exact h.1
      · intro h
        by_cases hz : rcOf s1 a = 0
        · exact Or.inr ⟨h, hz⟩
        · exact Or.inl ⟨h, by omega⟩
    · intro a ha
      rw [hrc2, hrc1 a ha]; simp
    · intro a ha
      rw [hun2] at ha
      simp only [List.mem_filter, decide_eq_true_eq] at ha
      rw [hrc2]; exact ha.2
    · intro a ha
      rw [hreg2] at ha
      simp only [List.mem_filter, decide_eq_true_eq] at ha
      rw [hrc2]; exact ha.2
    · intro a ha
      rw [hreg2] at ha
      simp only [List.mem_filter, decide_eq_true_eq] at ha
      rw [hrc1 a ha.1] at ha
      exact ⟨a, List.count_pos_iff.1 ha.2, Relation.ReflTransGen.refl⟩
    · intro a ha
      rw [hrc2]; exact hfr1 a ha
  have hlen : s2.registry.length + s2.unused.length = s.registry.length := by
    have hperm : (s2.registry ++ s2.unused).Perm s.registry := by
      rw [List.perm_ext_iff_of_nodup hinv.nodup hwf.nodup]
      intro a
      rw [List.mem_append]
      exact hinv.cover a
    have := hperm.length_eq
    simpa using this
  have h12 : (phase1 s).andThen phase2 = .ok s2 := by
    rw [h1]; exact h2
  rw [h12]
  simp only [Outcome.andThen, phase3]
  cases hr : s2.registry with
  | nil =>
    have hfin : Restoring s s.registry (s2.registry.flatMap (slotsAt s)) s2 := by
      rw [hr]; exact hinv
    refine ⟨s2, by simp [walk_none], hfin, ?_⟩
    exact restoring_final hfin (root_registered hwf hone) hcl
  | cons p T =>
    rw [hr] at hlen
    simp only [List.length_cons] at hlen
    obtain ⟨s3, h3, hfin⟩ := walk_restore s s.registry hwf.linked hcl (holders_bound hwf hone)
      fuel [] p T s2 (by simpa using hinv) (by simpa using hr) (by omega)
    refine ⟨s3, by simpa using h3, hfin, ?_⟩
    exact restoring_final hfin (root_registered hwf hone) hcl

/-! ### Fourth and fifth loop: reclaiming -/

theorem SameShape.heap_get_of_rc {s s1 : State} (h : SameShape s s1) {a : Nat}
    (hrc : rcOf s1 a = rcOf s a) : s1.heap[a]? = s.heap[a]? := by
  have hg := h.get a
  cases h1 : s1.heap[a]? with
  | none =>
    rw [h1] at hg
    cases h2 : s.heap[a]? with
    | none => rfl
    | some v => rw [h2] at hg; simp at hg
  | some w =>
    rw [h1] at hg
    cases h2 : s.heap[a]? with
    | none => rw [h2] at hg; simp at hg
    | some v =>
      rw [h2] at hg
      simp only [rcOf, h1, h2] at hrc
      simp only [Option.map_some', Option.some.injEq] at hg
      cases w; cases v
      simp only [Value.blank, Value.mk.injEq] at hg hrc ⊢
      simp [hg.2.1, hg.2.2.1, hg.2.2.2, hrc]

theorem decrease_none (fuel : Nat) (s : State) : decrease fuel s none = .ok s := by
  cases fuel <;> rfl

theorem decrease_keep {s : State} {t : Nat} {v : Value} (fuel : Nat) (hv : load s t = some v)
    (hr : 0 < (v.ref_count + WORD - 1) % WORD) :
    decrease (fuel + 1) s (some t)
      = .ok (store s t { v with ref_count := (v.ref_count + WORD - 1) % WORD }) := by
  simp [decrease, hv, hr]

/-- Destructors of records on `unused` whose slots hold records on `unused` only: every
decrement finds a count that is zero or larger than the number of decrements still to
come, so none reaches zero and nothing is unlinked or released. -/
theorem forEach_decrease_garbage (U : List Nat) (fuel : Nat) (L : List (Option Nat)) :
    ∀ (Rest : List (Option Nat)) (s : State),
      (∀ t, some t ∈ L → t ∈ U) →
      (∀ g ∈ U, ∃ v, load s g = some v) →
      (∀ g ∈ U, rcOf s g < WORD) →
      (∀ g ∈ U, (L ++ Rest).count (some g) < WORD) →
      (∀ g ∈ U, rcOf s g = 0 ∨ (L ++ Rest).count (some g) < rcOf s g) →
      ∃ s1, forEach (decrease (fuel + 1)) L s = .ok s1 ∧ SameShape s s1 ∧
        s1.registry = s.registry ∧ s1.unused = s.unused ∧
        (∀ a, a ∉ U → rcOf s1 a = rcOf s a) ∧
        (∀ g ∈ U, rcOf s1 g < WORD) ∧
        (∀ g ∈ U, rcOf s1 g = 0 ∨ Rest.count (some g) < rcOf s1 g) := by
  induction L with
  | nil =>
    intro Rest s _ _ hw _ hinv
    exact ⟨s, rfl, SameShape.shape_refl s, rfl, rfl, fun _ _ => rfl, hw, by simpa using hinv⟩
  | cons x L ih =>
    intro Rest s hL hl hw hc hinv
    cases x with
    | none =>
      obtain ⟨s1, h1, h2, h3, h4, h5, h6, h7⟩ := ih Rest s
        (fun t ht => hL t (List.mem_cons_of_mem _ ht)) hl hw
        (fun g hg => by have := hc g hg; simpa [List.count_cons] using this)
        (fun g hg => by have := hinv g hg; simpa [List.count_cons] using this)
      exact ⟨s1, by simp only [forEach, decrease_none]; exact h1, h2, h3, h4, h5, h6, h7⟩
    | some t =>
      have htU : t ∈ U := hL t (List.mem_cons_self _ _)
      obtain ⟨v, hv⟩ := hl t htU
      have hvr := rcOf_of_load hv
      have hwt := hw t htU
      have hct := hc t htU
      have hit := hinv t htU
      simp only [List.cons_append, List.count_cons_self] at hct hit
      have hr : 0 < (v.ref_count + WORD - 1) % WORD := by
        rw [← hvr]; rw [WORD_eq] at hwt hct ⊢; omega
      have hstep := decrease_keep fuel hv hr
      have hsh : SameShape s (store s t { v with ref_count := (v.ref_count + WORD - 1) % WORD }) :=
        sameShape_store (load_eq_some.1 hv).1 _
      have hrc : ∀ a, rcOf (store s t { v with ref_count := (v.ref_count + WORD - 1) % WORD }) a
          = if a = t then (rcOf s t + WORD - 1) % WORD else rcOf s a := by
        intro a
        by_cases ha : a = t
        · subst ha
          rw [rcOf_store_self (load_eq_some.1 hv).1]; simp [hvr]
        · rw [rcOf_store_other _ (Ne.symm ha)]; simp [ha]
      have hcount : ∀ g, (some t :: (L ++ Rest)).count (some g)
          = (L ++ Rest).count (some g) + if g = t then 1 else 0 := by
        intro g
        by_cases hgt : g = t
        · subst hgt; simp
        · have hne : (some t == some g) = false := by simpa using Ne.symm hgt
          simp [List.count_cons, hne, hgt]
      obtain ⟨s1, h1, h2, h3, h4, h5, h6, h7⟩ := ih Rest
        (store s t { v with ref_count := (v.ref_count + WORD - 1) % WORD })
        (fun u hu => hL u (List.mem_cons_of_mem _ hu))
        (fun g hg => by obtain ⟨w, hw⟩ := hl g hg; exact ⟨_, hsh.load_eq hw⟩)
        (fun g hg => by
          rw [hrc]
          have := hw g hg
          split
          · rw [WORD_eq]; omega
          · exact this)
        (fun g hg => by
          have := hc g hg
          simp only [List.cons_append] at this
          rw [hcount] at this; omega)
        (fun g hg => by
          have h1 := hinv g hg
          have h2 := hc g hg
          have h3 := hw g hg
          simp only [List.cons_append] at h1 h2
          rw [hcount] at h1 h2
          rw [hrc]
          by_cases hgt : g = t
          · subst hgt
            simp only [if_true] at h1 h2 ⊢
            right
            rw [WORD_eq] at h2 h3 ⊢; omega
          · simp only [hgt, if_false] at h1 h2 ⊢
            simpa using h1)
      refine ⟨s1, ?_, hsh.shape_trans h2, h3, h4, ?_, h6, h7⟩
      · simp only [forEach, hstep]; exact h1
      · intro a ha
        rw [h5 a ha, hrc]
        have : a ≠ t := fun h => ha (h ▸ htU)
        simp [this]

theorem load_store_self {s : State} {a : Nat} {v w : Value} (hv : load s a = some v)
    (hf : w.freed = false) : load (store s a w) a = some w := by
  rw [load_eq_some]
  have hlt := load_lt hv
  exact ⟨by simp [store_heap_get, hlt], hf⟩

theorem load_store_other {s : State} {a b : Nat} (w : Value) (h : a ≠ b) :
    load (store s a w) b = load s b := by
  unfold load
  simp [store_heap_get, h]

theorem rcOf_store_destroyed {s : State} {g : Nat} {v : Value} (hv : load s g = some v)
    (d : Nat) (a : Nat) : rcOf (store s g { v with destroyed := d }) a = rcOf s a := by
  by_cases h : g = a
  · subst h
    rw [rcOf_store_self (load_eq_some.1 hv).1, rcOf_of_load hv]
  · exact rcOf_store_other _ h

/-- One run of a destructor of a record on `unused` whose slots hold records on `unused`
only. -/
theorem destroy_garbage (U : List Nat) (fuel : Nat) (g : Nat) (Rest : List (Option Nat))
    (s : State) (v : Value) (hv : load s g = some v)
    (hsl : ∀ t, some t ∈ v.slots → t ∈ U)
    (hl : ∀ g ∈ U, ∃ v, load s g = some v)
    (hw : ∀ g ∈ U, rcOf s g < WORD)
    (hc : ∀ g ∈ U, (v.slots.reverse ++ Rest).count (some g) < WORD)
    (hinv : ∀ g ∈ U, rcOf s g = 0 ∨ (v.slots.reverse ++ Rest).count (some g) < rcOf s g) :
    ∃ s1, destroy (decrease (fuel + 1)) s g = .ok s1 ∧
      s1.registry = s.registry ∧ s1.unused = s.unused ∧ s1.roots = s.roots ∧
      (∀ a, a ∉ U → a ≠ g → s1.heap[a]? = s.heap[a]?) ∧
      (∀ a w, load s a = some w → load s1 a = some { w with
        ref_count := rcOf s1 a,
        destroyed := if a = g then w.destroyed + 1 else w.destroyed }) ∧
      (∀ g ∈ U, rcOf s1 g < WORD) ∧
      (∀ g ∈ U, rcOf s1 g = 0 ∨ Rest.count (some g) < rcOf s1 g) := by
  have hvf : v.freed = false := (load_eq_some.1 hv).2
  have hloadm : ∀ a w, load s a = some w →
      load (store s g { v with destroyed := v.destroyed + 1 }) a
        = some { w with destroyed := if a = g then w.destroyed + 1 else w.destroyed } := by
    intro a w hw
    by_cases ha : a = g
    · subst ha
      rw [hv] at hw
      simp only [Option.some.injEq] at hw
      subst hw
      simp only [if_true]
      exact load_store_self hv hvf
    · rw [load_store_other _ (Ne.symm ha), hw]
      simp [ha]
  obtain ⟨s1, h1, h2, h3, h4, h5, h6, h7⟩ := forEach_decrease_garbage U fuel v.slots.reverse Rest
    (store s g { v with destroyed := v.destroyed + 1 })
    (fun t ht => hsl t (List.mem_reverse.1 ht))
    (fun a ha => by obtain ⟨w, hw⟩ := hl a ha; exact ⟨_, hloadm a w hw⟩)
    (fun a ha => by rw [rcOf_store_destroyed hv]; exact hw a ha)
    hc
    (fun a ha => by rw [rcOf_store_destroyed hv]; exact hinv a ha)
  refine ⟨s1, ?_, h3, h4, h2.2, ?_, ?_, h6, h7⟩
  · simp only [destroy, hv]; exact h1
  · intro a haU hag
    rw [h2.heap_get_of_rc (h5 a haU)]
    simp [store_heap_get, Ne.symm hag]
  · intro a w hw
    have := h2.load_eq (hloadm a w hw)
    simpa using this

theorem walk_destroy (U : List Nat) (k : Nat) (sl : Nat → List (Option Nat))
    (hnd : U.Nodup) (hsl : ∀ g ∈ U, ∀ t, some t ∈ sl g → t ∈ U) :
    ∀ (n : Nat) (done : List Nat) (p : Nat) (todo : List Nat) (s : State),
      s.unused = U → U = done ++ p :: todo → todo.length < n →
      (∀ g ∈ U, ∃ v, load s g = some v ∧ v.slots = sl g) →
      (∀ g ∈ U, rcOf s g < WORD) →
      (∀ g ∈ U, ((p :: todo).flatMap (fun g => (sl g).reverse)).count (some g) < WORD) →
      (∀ g ∈ U, rcOf s g = 0 ∨
        ((p :: todo).flatMap (fun g => (sl g).reverse)).count (some g) < rcOf s g) →
      ∃ s1, walk State.unused (destroy (decrease (k + 1))) n (some p) s = .ok s1 ∧
        s1.registry = s.registry ∧ s1.unused = s.unused ∧ s1.roots = s.roots ∧
        (∀ a, a ∉ U → s1.heap[a]? = s.heap[a]?) ∧
        (∀ a w, load s a = some w → load s1 a = some { w with
          ref_count := rcOf s1 a,
          destroyed := if a ∈ p :: todo then w.destroyed + 1 else w.destroyed }) := by
  intro n
  induction n with
  | zero => intro _ _ _ _ _ _ h; omega
  | succ n ih =>
    intro done p todo s hu hU hlen hl hw hc hinv
    have hpU : p ∈ U := by rw [hU]; simp
    obtain ⟨v, hv, hvs⟩ := hl p hpU
    have hpd : p ∉ done := by
      rw [hU] at hnd
      exact fun h => (List.nodup_append.1 hnd).2.2 h (List.mem_cons_self _ _)
    have hpt : p ∉ todo := by
      rw [hU] at hnd
      exact (List.nodup_cons.1 (List.nodup_append.1 hnd).2.1).1
    obtain ⟨s1, h1, h2, h3, h4, h5, h6, h7, h8⟩ := destroy_garbage U k p
      (todo.flatMap (fun g => (sl g).reverse)) s v hv
      (fun t ht => hsl p hpU t (hvs ▸ ht))
      (fun g hg => by obtain ⟨w, hw, _⟩ := hl g hg; exact ⟨w, hw⟩) hw
      (fun g hg => by rw [hvs]; simpa [List.flatMap_cons] using hc g hg)
      (fun g hg => by rw [hvs]; simpa [List.flatMap_cons] using hinv g hg)
    have hv1 := h6 p v hv
    have hnext : next_of s1.unused p = todo.head? := by
      rw [h3, hu, hU]; exact next_of_append done todo p hpd
    have hwalk : walk State.unused (destroy (decrease (k + 1))) (n + 1) (some p) s
        = walk State.unused (destroy (decrease (k + 1))) n (todo.head?) s1 := by
      simp only [walk, h1, hv1, hnext]
    rw [hwalk]
    have hheap : ∀ a, a ∉ U → s1.heap[a]? = s.heap[a]? :=
      fun a ha => h5 a ha (fun h => ha (h ▸ hpU))
    cases todo with
    | nil =>
      refine ⟨s1, by simp [walk_none], h2, h3, h4, hheap, ?_⟩
      intro a w hw
      rw [h6 a w hw]
      simp
    | cons q todo =>
      obtain ⟨s2, g1, g2, g3, g4, g5, g6⟩ := ih (done ++ [p]) q todo s1 (h3.trans hu)
        (by rw [hU]; simp) (by simp only [List.length_cons] at hlen; omega)
        (fun g hg => by
          obtain ⟨w, hw, hws⟩ := hl g hg
          exact ⟨_, h6 g w hw, by simpa [Value.slots] using hws⟩)
        h7
        (fun g hg => by
          have := hc g hg
          rw [List.flatMap_cons, List.count_append] at this
          omega)
        h8
      refine ⟨s2, by simpa using g1, g2.trans h2, g3.trans h3, g4.trans h4,
        fun a ha => (g5 a ha).trans (hheap a ha), ?_⟩
      intro a w hw
      rw [g6 a _ (h6 a w hw)]
      by_cases hap : a = p
      · subst hap
        have : a ∉ q :: todo := hpt
        simp [this]
      · simp [hap]

/-- Last loop of `collect`: every record on a duplicate-free list of allocated records is
released, nothing else changes. -/
theorem forEach_free (L : List Nat) :
    ∀ s, L.Nodup → (∀ g ∈ L, ∃ v, load s g = some v) →
      ∃ s1, forEach free L s = .ok s1 ∧
        s1.registry = s.registry ∧ s1.unused = s.unused ∧ s1.roots = s.roots ∧
        (∀ a, a ∉ L → s1.heap[a]? = s.heap[a]?) ∧
        (∀ g ∈ L, ∀ w, s.heap[g]? = some w → s1.heap[g]? = some { w with freed := true }) := by
  induction L with
  | nil => intro s _ _; exact ⟨s, rfl, rfl, rfl, rfl, fun _ _ => rfl, by simp⟩
  | cons g L ih =>
    intro s hnd hl
    obtain ⟨v, hv⟩ := hl g (List.mem_cons_self _ _)
    have hgL : g ∉ L := (List.nodup_cons.1 hnd).1
    have hstep : free s g = .ok (store s g { v with freed := true }) := by
      simp [free, hv]
    obtain ⟨s1, h1, h2, h3, h4, h5, h6⟩ := ih (store s g { v with freed := true })
      (List.nodup_cons.1 hnd).2
      (fun a ha => by
        have : g ≠ a := fun h => hgL (h ▸ ha)
        rw [load_store_other _ this]
        exact hl a (List.mem_cons_of_mem _ ha))
    refine ⟨s1, ?_, h2, h3, h4, ?_, ?_⟩
    · simp only [forEach, hstep]; exact h1
    · intro a ha
      have hag : g ≠ a := fun h => ha (h ▸ List.mem_cons_self _ _)
      rw [h5 a (fun h => ha (List.mem_cons_of_mem _ h))]
      simp [store_heap_get, hag]
    · intro a ha w hw
      rcases List.mem_cons.1 ha with h | h
      · subst h
        rw [h5 a hgL]
        have := (load_eq_some.1 hv).1
        rw [hw] at this
        simp only [Option.some.injEq] at this
        subst this
        simp [store_heap_get, load_lt hv]
      · have hag : g ≠ a := fun h2 => hgL (h2 ▸ h)
        apply h6 a h
        simp [store_heap_get, hag, hw]

theorem count_flatMap_reverse (U : List Nat) (sl : Nat → List (Option Nat)) (x : Option Nat) :
    (U.flatMap (fun g => (sl g).reverse)).count x = (U.flatMap sl).count x := by
  induction U with
  | nil => rfl
  | cons g U ih =>
    rw [List.flatMap_cons, List.flatMap_cons, List.count_append, List.count_append, ih,
      List.count_reverse]

/-- Fourth loop of `collect` when the records on `unused` hold records on `unused` only:
every destructor runs once, and only counts of records on `unused` change. -/
theorem phase4_spec (s : State) (k : Nat) (sl : Nat → List (Option Nat))
    (hnd : s.unused.Nodup) (hsl : ∀ g ∈ s.unused, ∀ t, some t ∈ sl g → t ∈ s.unused)
    (hl : ∀ g ∈ s.unused, ∃ v, load s g = some v ∧ v.slots = sl g)
    (hz : ∀ g ∈ s.unused, rcOf s g = 0)
    (hc : ∀ g ∈ s.unused, (s.unused.flatMap sl).count (some g) < WORD)
    (hfuel : s.unused.length ≤ k) :
    ∃ s1, phase4 (k + 1) s = .ok s1 ∧
      s1.registry = s.registry ∧ s1.unused = s.unused ∧ s1.roots = s.roots ∧
      (∀ a, a ∉ s.unused → s1.heap[a]? = s.heap[a]?) ∧
      (∀ a w, load s a = some w → load s1 a = some { w with
        ref_count := rcOf s1 a,
        destroyed := if a ∈ s.unused then w.destroyed + 1 else w.destroyed }) := by
  unfold phase4
  cases hU : s.unused with
  | nil =>
    refine ⟨s, by simp [walk_none], rfl, hU, rfl, fun _ _ => rfl, ?_⟩
    intro a w hw
    rw [hw]
    simp [rcOf_of_load hw]
  | cons p todo =>
    have hlen : todo.length < k + 1 := by
      rw [hU] at hfuel; simp only [List.length_cons] at hfuel; omega
    obtain ⟨s1, h1, h2, h3, h4, h5, h6⟩ := walk_destroy s.unused k sl hnd hsl (k + 1) [] p todo s
      rfl (by simpa using hU) hlen hl
      (fun g hg => by rw [hz g hg, WORD_eq]; omega)
      (fun g hg => by rw [← hU, count_flatMap_reverse]; exact hc g hg)
      (fun g hg => Or.inl (hz g hg))
    refine ⟨s1, by simpa using h1, h2, h3.trans hU, h4, fun a ha => h5 a (by rw [hU]; exact ha), ?_⟩
    intro a w hw
    rw [h6 a w hw]

/-- The five loops of `collect` started with an empty scratch list, on a well-formed
single-context heap without null slots in which no unreachable record holds a reachable
one. -/
theorem collect_loops (s : State) (k : Nat) (hwf : WellFormed s) (hone : OneContext s)
    (hnn : NoNull s) (hsep : ∀ a b, Edge s a b → Reachable s b → Reachable s a)
    (hu : s.unused = []) (hfuel : s.registry.length ≤ k) :
    ∃ s5, ((((phase1 s).andThen phase2).andThen (phase3 (k + 1))).andThen
        (phase4 (k + 1))).andThen phase5 = .ok s5 ∧ s5.roots = s.roots ∧
      (∀ a, a ∈ s5.registry ↔ Reachable s a) ∧
      (∀ a, Reachable s a → s5.heap[a]? = s.heap[a]?) ∧
      (∀ a, a ∉ s.registry → s5.heap[a]? = s.heap[a]?) ∧
      (∀ a, a ∈ s.registry → ¬ Reachable s a → ∃ v, load s a = some v ∧
        s5.heap[a]? = some { v with ref_count := rcOf s5 a, destroyed := 1, freed := true }) := by
  obtain ⟨s3, h3, hinv, hreg, hun⟩ := collect_front s (k + 1) hwf hone hnn hu (by omega)
  have hndu : s3.unused.Nodup := (List.nodup_append.1 hinv.nodup).2.1
  have hsubU : s3.unused.Subperm s.registry := by
    apply List.subperm_of_subset hndu
    intro a ha
    exact ((hun a).1 ha).1
  have hslU : ∀ g ∈ s3.unused, ∀ t, some t ∈ slotsAt s g → t ∈ s3.unused := by
    intro g hg t ht
    obtain ⟨u, hu1, hu2⟩ := slot_closed hwf hone hnn g _ ht
    simp only [Option.some.injEq] at hu1
    subst hu1
    refine (hun t).2 ⟨hu2, fun hr => ?_⟩
    exact ((hun g).1 hg).2 (hsep g t ht hr)
  obtain ⟨s4, h4, g1, g2, g3, g4, g5⟩ := phase4_spec s3 k (slotsAt s) hndu hslU
    (fun g hg => by
      obtain ⟨v, hv⟩ := hwf.linked g ((hun g).1 hg).1
      exact ⟨_, hinv.shape.load_eq hv, by simpa [Value.slots] using (slotsAt_of_load hv).symm⟩)
    (fun g hg => hinv.zero g hg)
    (fun g _ => by
      have h1 := count_flatMap_le (slotsAt s) s3.unused s.registry hsubU (some g)
      have h2 := holders_bound hwf hone g
      omega)
    (by
      have := hsubU.length_le
      omega)
  have hl4 : ∀ g ∈ s4.unused, ∃ v, load s4 g = some v := by
    intro g hg
    rw [g2] at hg
    obtain ⟨v, hv⟩ := hwf.linked g ((hun g).1 hg).1
    exact ⟨_, g5 g _ (hinv.shape.load_eq hv)⟩
  obtain ⟨s5, h5, f1, f2, f3, f4, f5⟩ := forEach_free s4.unused s4 (by rw [g2]; exact hndu) hl4
  have hrun : ((((phase1 s).andThen phase2).andThen (phase3 (k + 1))).andThen
        (phase4 (k + 1))).andThen phase5 = .ok s5 := by
    rw [h3]
    simp only [Outcome.andThen, h4]
    exact h5
  have hlive : ∀ a, a ∉ s3.unused → s5.heap[a]? = s3.heap[a]? := by
    intro a ha
    rw [f4 a (by rw [g2]; exact ha), g4 a ha]
  refine ⟨s5, hrun, ?_, ?_, ?_, ?_, ?_⟩
  · rw [f3, g3]; exact hinv.shape.2
  · intro a
    rw [f1, g1]; exact hreg a
  · intro a ha
    have hareg : a ∈ s3.registry := (hreg a).2 ha
    have haR : a ∈ s.registry := (hinv.cover a).1 (Or.inl hareg)
    have hau : a ∉ s3.unused := fun h => ((hun a).1 h).2 ha
    rw [hlive a hau]
    apply hinv.shape.heap_get_of_rc
    have hc := hinv.count a haR
    obtain ⟨v, hv⟩ := hwf.linked a haR
    have hrc : rcOf s a = holders s a := by rw [rcOf_of_load hv]; exact hwf.exact a v hv
    rw [hrc, hc]
    unfold holders
    rw [List.count_append, count_liveSlots s s.registry hwf.nodup hwf.linked hone]
    have hperm : (s3.registry ++ s3.unused).Perm s.registry := by
      rw [List.perm_ext_iff_of_nodup hinv.nodup hwf.nodup]
      intro b
      rw [List.mem_append]
      exact hinv.cover b
    have hcnt : List.count (some a) ((s3.registry ++ s3.unused).flatMap (slotsAt s))
        = List.count (some a) (s.registry.flatMap (slotsAt s)) :=
      (hperm.flatMap_right (slotsAt s)).countP_eq (· == some a)
    rw [List.flatMap_append, List.count_append] at hcnt
    have hzero : List.count (some a) (s3.unused.flatMap (slotsAt s)) = 0 := by
      apply List.count_eq_zero_of_not_mem
      intro hmem
      obtain ⟨g, hg, hga⟩ := List.mem_flatMap.1 hmem
      exact ((hun g).1 hg).2 (hsep g a hga ha)
    omega
  · intro a ha
    have hau : a ∉ s3.unused := fun h => ha ((hun a).1 h).1
    rw [hlive a hau]
    exact hinv.shape.heap_get_of_rc (hinv.frame a ha)
  · intro a ha hnr
    have hau : a ∈ s3.unused := (hun a).2 ⟨ha, hnr⟩
    obtain ⟨v, hv⟩ := hwf.linked a ha
    refine ⟨v, hv, ?_⟩
    have h4a := g5 a _ (hinv.shape.load_eq hv)
    have hfr := hwf.fresh a v hv
    have h5a := f5 a (by rw [g2]; exact hau) _ (load_eq_some.1 h4a).1
    have hrc5 : rcOf s5 a = rcOf s4 a := by
      show (match s5.heap[a]? with
        | some v => v.ref_count
        | none => 0) = rcOf s4 a
      rw [h5a]
    rw [h5a, hrc5]
    simp only [hau, if_true, hfr]

/-- `collect` on a well-formed single-context heap without null slots in which no
unreachable record holds a reachable one: the call returns, the registry holds exactly
the reachable records, their blocks are untouched, and every other record of the
registry has been destroyed once and released. -/
theorem collect_separated (s : State) (fuel : Nat) (hwf : WellFormed s) (hone : OneContext s)
    (hnn : NoNull s) (hsep : ∀ a b, Edge s a b → Reachable s b → Reachable s a)
    (hfuel : s.registry.length < fuel) :
    ∃ s1, collect fuel s = .ok s1 ∧ s1.roots = s.roots ∧ s1.unused = [] ∧
      (∀ a, a ∈ s1.registry ↔ Reachable s a) ∧
      (∀ a, Reachable s a → s1.heap[a]? = s.heap[a]?) ∧
      (∀ a, a ∉ s.registry → s1.heap[a]? = s.heap[a]?) ∧
      (∀ a, a ∈ s.registry → ¬ Reachable s a → ∃ v, load s a = some v ∧
        s1.heap[a]? = some { v with ref_count := rcOf s1 a, destroyed := 1, freed := true }) := by
  obtain ⟨k, rfl⟩ : ∃ k, fuel = k + 1 := ⟨fuel - 1, by omega⟩
  have hwf0 : WellFormed { s with unused := [] } :=
    ⟨hwf.nodup, hwf.linked, hwf.fresh, hwf.closed, hwf.exact, hwf.word⟩
  obtain ⟨s5, h5, r1, r2, r3, r4, r5⟩ := collect_loops { s with unused := [] } k hwf0 hone hnn
    hsep rfl (by show s.registry.length ≤ k; omega)
  refine ⟨{ s5 with unused := [] }, ?_, r1, rfl, r2, r3, r4, r5⟩
  unfold collect
  rw [h5]
  rfl

/-! ### More fuel never changes a result -/

theorem forEach_mono {α : Type} {f g : State → α → Outcome}
    (hfg : ∀ s x o, f s x = o → o ≠ .fault .out_of_fuel → g s x = o) (L : List α) :
    ∀ s o, forEach f L s = o → o ≠ .fault .out_of_fuel → forEach g L s = o := by
  induction L with
  | nil => intro s o h _; exact h
  | cons x L ih =>
    intro s o h ho
    simp only [forEach] at h ⊢
    cases hx : f s x with
    | ok s1 =>
      rw [hx] at h
      rw [hfg s x _ hx (by simp)]
      exact ih s1 o h ho
    | fault e =>
      rw [hx] at h
      subst h
      rw [hfg s x _ hx ho]

theorem destroy_mono {f g : State → Option Nat → Outcome}
    (hfg : ∀ s x o, f s x = o → o ≠ .fault .out_of_fuel → g s x = o) (s : State) (a : Nat)
    (o : Outcome) (h : destroy f s a = o) (ho : o ≠ .fault .out_of_fuel) :
    destroy g s a = o := by
  unfold destroy at h ⊢
  cases hv : load s a with
  | none => rw [hv] at h; exact h
  | some v =>
    rw [hv] at h
    exact forEach_mono hfg _ _ _ h ho

theorem decrease_succ (n : Nat) :
    ∀ s x o, decrease n s x = o → o ≠ .fault .out_of_fuel → decrease (n + 1) s x = o := by
  induction n with
  | zero =>
    intro s x o h ho
    cases x with
    | none => rw [decrease_none] at h ⊢; exact h
    | some a => simp only [decrease] at h; exact absurd h.symm ho
  | succ n ih =>
    intro s x o h ho
    cases x with
    | none => rw [decrease_none] at h ⊢; exact h
    | some a =>
      simp only [decrease] at h ⊢
      cases hv : load s a with
      | none => rw [hv] at h; exact h
      | some v =>
        rw [hv] at h
        simp only at h ⊢
        by_cases hr : 0 < (v.ref_count + WORD - 1) % WORD
        · simp only [hr, if_true] at h ⊢; exact h
        · simp only [hr, if_false] at h ⊢
          cases hd : destroy (decrease n)
              (remove a (store s a { v with ref_count := (v.ref_count + WORD - 1) % WORD })) a with
          | ok s2 =>
            rw [hd] at h
            rw [destroy_mono ih _ _ _ hd (by simp)]
            exact h
          | fault e =>
            rw [hd] at h
            subst h
            rw [destroy_mono ih _ _ _ hd ho]

theorem decrease_mono {n m : Nat} (hnm : n ≤ m) :
    ∀ s x o, decrease n s x = o → o ≠ .fault .out_of_fuel → decrease m s x = o := by
  induction hnm with
  | refl => intro s x o h _; exact h
  | step _ ih => intro s x o h ho; exact decrease_succ _ s x o (ih s x o h ho) ho

theorem walk_mono (sel : State → List Nat) {f g : State → Nat → Outcome}
    (hfg : ∀ s x o, f s x = o → o ≠ .fault .out_of_fuel → g s x = o) (n : Nat) :
    ∀ m, n ≤ m → ∀ c s o, walk sel f n c s = o → o ≠ .fault .out_of_fuel →
      walk sel g m c s = o := by
  induction n with
  | zero =>
    intro m _ c s o h ho
    cases c with
    | none => rw [walk_none] at h ⊢; exact h
    | some p => simp only [walk] at h; exact absurd h.symm ho
  | succ n ih =>
    intro m hm c s o h ho
    obtain ⟨m, rfl⟩ : ∃ k, m = k + 1 := ⟨m - 1, by omega⟩
    cases c with
    | none => rw [walk_none] at h ⊢; exact h
    | some p =>
      simp only [walk] at h ⊢
      cases hb : f s p with
      | ok s1 =>
        rw [hb] at h
        rw [hfg s p _ hb (by simp)]
        simp only at h ⊢
        cases hv : load s1 p with
        | none => rw [hv] at h; exact h
        | some v =>
          rw [hv] at h
          exact ih m (by omega) _ _ _ h ho
      | fault e =>
        rw [hb] at h
        subst h
        rw [hfg s p _ hb ho]

theorem andThen_mono (x y : Outcome) (f g : State → Outcome)
    (hxy : x ≠ .fault .out_of_fuel → y = x)
    (hfg : ∀ s, f s ≠ .fault .out_of_fuel → g s = f s)
    (h : x.andThen f ≠ .fault .out_of_fuel) : y.andThen g = x.andThen f := by
  cases x with
  | ok s =>
    rw [hxy (by simp)]
    exact hfg s h
  | fault e =>
    have he : Outcome.fault e ≠ .fault .out_of_fuel := fun h2 => h (by rw [h2]; rfl)
    rw [hxy he]
    rfl

theorem phase3_mono {n m : Nat} (hnm : n ≤ m) (s : State)
    (h : phase3 n s ≠ .fault .out_of_fuel) : phase3 m s = phase3 n s :=
  walk_mono _ (fun _ _ _ h _ => h) n m hnm _ _ _ rfl h

theorem phase4_mono {n m : Nat} (hnm : n ≤ m) (s : State)
    (h : phase4 n s ≠ .fault .out_of_fuel) : phase4 m s = phase4 n s :=
  walk_mono _ (fun s x o h ho => destroy_mono (decrease_mono hnm) s x o h ho)
    n m hnm _ _ _ rfl h

/-- A result of `collect` other than fuel exhaustion is the result for every larger
fuel. -/
theorem collect_mono {n m : Nat} (hnm : n ≤ m) (s : State)
    (h : collect n s ≠ .fault .out_of_fuel) : collect m s = collect n s := by
  unfold collect at h ⊢
  refine andThen_mono _ _ _ _ (fun h5 => ?_) (fun _ _ => rfl) h
  refine andThen_mono _ _ _ _ (fun h4 => ?_) (fun _ _ => rfl) h5
  refine andThen_mono _ _ _ _ (fun h3 => ?_) (fun s3 => phase4_mono hnm s3) h4
  exact andThen_mono _ _ _ _ (fun _ => rfl) (fun s2 => phase3_mono hnm s2) h3

/-! ### Soundness of the executable checks -/

theorem wellFormed_of_check (s : State) (h : wellFormedCheck s = true) : WellFormed s := by
  unfold wellFormedCheck at h
  simp only [Bool.and_eq_true, decide_eq_true_eq, List.all_eq_true, List.mem_range] at h
  obtain ⟨⟨⟨h1, h2⟩, h3⟩, h4⟩ := h
  have h3b : ∀ a v, load s a = some v →
      v.destroyed = 0 ∧ v.ref_count = holders s a ∧ v.ref_count < WORD := by
    intro a v hv
    have := h3 a (load_lt hv)
    rw [hv] at this
    simp only [Bool.and_eq_true, beq_iff_eq, decide_eq_true_eq] at this
    exact ⟨this.1.1, this.1.2, this.2⟩
  refine ⟨h1, ?_, ?_, ?_, ?_, ?_⟩
  · intro a ha
    have := h2 a ha
    exact Option.isSome_iff_exists.1 this
  · intro a v hv; exact (h3b a v hv).1
  · intro a ha
    have := h4 (some a) ha
    exact Option.isSome_iff_exists.1 this
  · intro a v hv; exact (h3b a v hv).2.1
  · intro a v hv; exact (h3b a v hv).2.2

theorem oneContext_of_check (s : State) (h : oneContextCheck s = true) : OneContext s := by
  unfold oneContextCheck at h
  simp only [List.all_eq_true, List.mem_range, Bool.or_eq_true, decide_eq_true_eq] at h
  intro a v hv
  rcases h a (load_lt hv) with h1 | h1
  · rw [hv] at h1; simp at h1
  · exact h1

theorem noNull_of_check (s : State) (h : noNullCheck s = true) : NoNull s := by
  unfold noNullCheck at h
  simp only [List.all_eq_true, List.mem_range, decide_eq_true_eq] at h
  intro a
  cases hv : load s a with
  | none => simp [slotsAt, hv]
  | some v => exact h a (load_lt hv)

theorem reachable_root {s : State} {a : Nat} (h : some a ∈ s.roots) : Reachable s a :=
  ⟨a, h, Relation.ReflTransGen.refl⟩

theorem reachable_step {s : State} {a b : Nat} (h : Reachable s a) (he : Edge s a b) :
    Reachable s b := by
  obtain ⟨r, hr, hp⟩ := h
  exact ⟨r, hr, hp.tail he⟩

/-- Reachable records satisfy every property that holds of the records held by external
handles and is passed on along managed slots. -/
theorem reachable_induction {s : State} (P : Nat → Prop) (hroot : ∀ r, some r ∈ s.roots → P r)
    (hedge : ∀ a b, P a → Edge s a b → P b) {a : Nat} (h : Reachable s a) : P a := by
  obtain ⟨r, hr, hp⟩ := h
  induction hp with
  | refl => exact hroot r hr
  | tail _ he ih => exact hedge _ _ ih he

/-! ### `collect`: the claims -/

theorem freed_iff {s : State} {a : Nat} :
    Freed s a ↔ ∃ v, s.heap[a]? = some v ∧ v.freed = true := Iff.rfl

theorem not_freed_of_load {s : State} {a : Nat} {v : Value} (h : load s a = some v) :
    ¬ Freed s a := by
  rintro ⟨w, hw, hf⟩
  obtain ⟨h1, h2⟩ := load_eq_some.1 h
  rw [h1] at hw
  simp only [Option.some.injEq] at hw
  subst hw
  rw [h2] at hf
  cases hf

theorem reachable_loaded {s : State} (hwf : WellFormed s) {a : Nat} (h : Reachable s a) :
    ∃ v, load s a = some v := by
  obtain ⟨r, hr, hp⟩ := h
  cases hp with
  | refl => exact hwf.closed a (List.mem_append_left _ hr)
  | tail _ he => exact hwf.closed a (List.mem_append_right _ (mem_liveSlots.2 ⟨_, he⟩))

/-- Reachability survives a change of state that keeps the external handles and the
blocks of the reachable records. -/
theorem reachable_transfer {s s1 : State} (hroots : s1.roots = s.roots)
    (hkeep : ∀ a, Reachable s a → s1.heap[a]? = s.heap[a]?) {a : Nat} (h : Reachable s a) :
    Reachable s1 a := by
  obtain ⟨r, hr, hp⟩ := h
  induction hp with
  | refl => exact ⟨r, hroots ▸ hr, Relation.ReflTransGen.refl⟩
  | @tail b c hb he ih =>
    have hbr : Reachable s b := ⟨r, hr, hb⟩
    refine reachable_step ih ?_
    have : slotsAt s1 b = slotsAt s b := by
      unfold slotsAt load
      rw [hkeep b hbr]
    unfold Edge
    rw [this]
    exact he

/-- C1, at a failing input.  `heapSharedLive` is well formed, has a single context and no
null slot, and its record `0` is held by an external handle; `collect` returns with that
record destroyed, released and unlinked while the handle still holds it. -/
theorem collect_frees_held_record :
    WellFormed heapSharedLive ∧ OneContext heapSharedLive ∧ NoNull heapSharedLive ∧
      Reachable heapSharedLive 0 ∧
      ∀ fuel, collect (fuel + 4) heapSharedLive = .ok
        { heap := [⟨0, [], 1, true⟩, ⟨WORD - 1, [[some 2], [some 0]], 1, true⟩,
            ⟨WORD - 1, [[some 1]], 1, true⟩]
          registry := []
          unused := []
          roots := [some 0] } := by
  refine ⟨wellFormed_of_check _ (by decide), oneContext_of_check _ (by decide),
    noNull_of_check _ (by decide), reachable_root (by decide), ?_⟩
  intro fuel
  have h4 : collect 4 heapSharedLive = .ok
      { heap := [⟨0, [], 1, true⟩, ⟨WORD - 1, [[some 2], [some 0]], 1, true⟩,
          ⟨WORD - 1, [[some 1]], 1, true⟩]
        registry := []
        unused := []
        roots := [some 0] } := by decide
  rw [collect_mono (Nat.le_add_left 4 fuel) _ (by rw [h4]; simp), h4]

/-- A run of `collect` that does not return.  `heapDoublyHeld` is well formed, has a
single context and no null slot; `collect` releases the externally held record `0` when
the destructor of the dead record `1` drops its first handle to it, and the second handle
of that record then decrements the count inside released storage. -/
theorem collect_touches_released_record :
    WellFormed heapDoublyHeld ∧ OneContext heapDoublyHeld ∧ NoNull heapDoublyHeld ∧
      ∀ fuel, collect (fuel + 4) heapDoublyHeld = .fault .use_after_free := by
  refine ⟨wellFormed_of_check _ (by decide), oneContext_of_check _ (by decide),
    noNull_of_check _ (by decide), ?_⟩
  intro fuel
  have h4 : collect 4 heapDoublyHeld = .fault .use_after_free := by decide
  rw [collect_mono (Nat.le_add_left 4 fuel) _ (by rw [h4]; simp), h4]

/-- C3 fails as stated: in the well-formed heap `heapTwiceRooted` the record `0` is
reachable before and after `collect`, its count is 3 at entry and 1 when the call
returns. -/
theorem collect_changes_count_of_survivor :
    WellFormed heapTwiceRooted ∧ OneContext heapTwiceRooted ∧ NoNull heapTwiceRooted ∧
      ∃ s1, (∀ fuel, collect (fuel + 4) heapTwiceRooted = .ok s1) ∧
        Reachable heapTwiceRooted 0 ∧ Reachable s1 0 ∧
        rcOf heapTwiceRooted 0 = 3 ∧ rcOf s1 0 = 1 := by
  refine ⟨wellFormed_of_check _ (by decide), oneContext_of_check _ (by decide),
    noNull_of_check _ (by decide),
    { heap := [⟨1, [], 0, false⟩, ⟨WORD - 1, [[some 2], [some 0]], 1, true⟩,
          ⟨WORD - 1, [[some 1]], 1, true⟩]
      registry := [0]
      unused := []
      roots := [some 0, some 0] }, ?_, reachable_root (by decide), reachable_root (by decide),
    rfl, rfl⟩
  intro fuel
  have h4 : collect 4 heapTwiceRooted = .ok
      { heap := [⟨1, [], 0, false⟩, ⟨WORD - 1, [[some 2], [some 0]], 1, true⟩,
          ⟨WORD - 1, [[some 1]], 1, true⟩]
        registry := [0]
        unused := []
        roots := [some 0, some 0] } := by decide
  rw [collect_mono (Nat.le_add_left 4 fuel) _ (by rw [h4]; simp), h4]

/-- C3, amended.  On a well-formed single-context heap without null slots in which no
unreachable record has a managed slot pointing at a reachable record, `collect` returns,
and every record reachable from an external handle at entry is reachable afterwards and
has the count it had at entry. -/
theorem collect_keeps_counts (s : State) (fuel : Nat) (hwf : WellFormed s)
    (hone : OneContext s) (hnn : NoNull s)
    (hsep : ∀ a b, ¬ Reachable s a → Edge s a b → ¬ Reachable s b)
    (hfuel : s.registry.length < fuel) :
    ∃ s1, collect fuel s = .ok s1 ∧
      ∀ a, Reachable s a → Reachable s1 a ∧ rcOf s1 a = rcOf s a := by
  obtain ⟨s1, h1, h2, _, _, h5, _, _⟩ := collect_separated s fuel hwf hone hnn
    (fun a b he hb => by
      by_contra ha
      exact hsep a b ha he hb) hfuel
  refine ⟨s1, h1, fun a ha => ⟨reachable_transfer h2 h5 ha, ?_⟩⟩
  unfold rcOf
  rw [h5 a ha]

theorem heapMixed_separated (a b : Nat) (ha : ¬ Reachable heapMixed a)
    (he : Edge heapMixed a b) : ¬ Reachable heapMixed b := by
  have hlow : ∀ c, Reachable heapMixed c → c < 3 := by
    intro c hc
    refine reachable_induction (fun c => c < 3) ?_ ?_ hc
    · intro r hr
      have : r = 0 := by simpa [heapMixed] using hr
      omega
    · intro x y hx hxy
      have hx3 : x < 3 := hx
      interval_cases x <;> simp [Edge, slotsAt, load, heapMixed, Value.slots] at hxy <;> omega
  have h0 : Reachable heapMixed 0 := reachable_root (by decide)
  have h1 : Reachable heapMixed 1 := reachable_step h0 (by decide)
  have h2 : Reachable heapMixed 2 := reachable_step h1 (by decide)
  have ha3 : 3 ≤ a := by
    by_contra hlt
    have : a < 3 := by omega
    interval_cases a
    · exact ha h0
    · exact ha h1
    · exact ha h2
  intro hb
  have hb3 := hlow b hb
  have ha6 : a < 6 := by
    by_contra hge
    have : load heapMixed a = none := by
      unfold load
      rw [List.getElem?_eq_none (by simp [heapMixed]; omega)]
    simp [Edge, slotsAt, this] at he
  interval_cases a <;> simp [Edge, slotsAt, load, heapMixed, Value.slots] at he <;> omega

/-- Witness of `collect_keeps_counts`: the six-record heap `heapMixed`. -/
theorem collect_keeps_counts_witness :
    ∃ s1, collect 7 heapMixed = .ok s1 ∧
      ∀ a, Reachable heapMixed a → Reachable s1 a ∧ rcOf s1 a = rcOf heapMixed a :=
  collect_keeps_counts heapMixed 7 (wellFormed_of_check _ (by decide))
    (oneContext_of_check _ (by decide)) (noNull_of_check _ (by decide))
    heapMixed_separated (by decide)

/-- C4.  On a well-formed single-context heap without null slots in which no unreachable
record has a managed slot pointing at a reachable record, `collect` returns; the records
it releases are exactly the unreachable records of the registry, the registry then holds
exactly the reachable records, and the control block of every reachable record (count,
slots, destructor runs, allocation) is what it was at entry. -/
theorem collect_mixed_garbage (s : State) (fuel : Nat) (hwf : WellFormed s)
    (hone : OneContext s) (hnn : NoNull s)
    (hsep : ∀ a b, ¬ Reachable s a → Edge s a b → ¬ Reachable s b)
    (hfuel : s.registry.length < fuel) :
    ∃ s1, collect fuel s = .ok s1 ∧
      (∀ a, (Freed s1 a ∧ ¬ Freed s a) ↔ (a ∈ s.registry ∧ ¬ Reachable s a)) ∧
      (∀ a, a ∈ s1.registry ↔ Reachable s a) ∧
      (∀ a, Reachable s a → s1.heap[a]? = s.heap[a]? ∧ rcOf s1 a = rcOf s a ∧
        slotsAt s1 a = slotsAt s a) := by
  obtain ⟨s1, h1, _, _, h4, h5, h6, h7⟩ := collect_separated s fuel hwf hone hnn
    (fun a b he hb => by
      by_contra ha
      exact hsep a b ha he hb) hfuel
  refine ⟨s1, h1, ?_, h4, ?_⟩
  · intro a
    constructor
    · rintro ⟨hf1, hf0⟩
      by_cases hreg : a ∈ s.registry
      · refine ⟨hreg, fun hr => ?_⟩
        apply hf0
        obtain ⟨v, hv, hvf⟩ := hf1
        rw [h5 a hr] at hv
        exact ⟨v, hv, hvf⟩
      · exfalso
        apply hf0
        obtain ⟨v, hv, hvf⟩ := hf1
        rw [h6 a hreg] at hv
        exact ⟨v, hv, hvf⟩
    · rintro ⟨hreg, hnr⟩
      obtain ⟨v, hv, hv1⟩ := h7 a hreg hnr
      exact ⟨⟨_, hv1, rfl⟩, not_freed_of_load hv⟩
  · intro a ha
    refine ⟨h5 a ha, ?_, ?_⟩
    · unfold rcOf; rw [h5 a ha]
    · unfold slotsAt load; rw [h5 a ha]

/-- Witness of `collect_mixed_garbage`: the six-record heap `heapMixed`. -/
theorem collect_mixed_garbage_witness :
    ∃ s1, collect 7 heapMixed = .ok s1 ∧
      (∀ a, (Freed s1 a ∧ ¬ Freed heapMixed a) ↔ (a ∈ heapMixed.registry ∧ ¬ Reachable heapMixed a)) ∧
      (∀ a, a ∈ s1.registry ↔ Reachable heapMixed a) ∧
      (∀ a, Reachable heapMixed a → s1.heap[a]? = heapMixed.heap[a]? ∧
        rcOf s1 a = rcOf heapMixed a ∧ slotsAt s1 a = slotsAt heapMixed a) :=
  collect_mixed_garbage heapMixed 7 (wellFormed_of_check _ (by decide))
    (oneContext_of_check _ (by decide)) (noNull_of_check _ (by decide))
    heapMixed_separated (by decide)

/-- C5, at a failing input.  `heapNullField`, the heap after `b = make(B{})`, is well
formed and has a single context; `collect` dereferences the null slot of its record in
the first loop. -/
theorem collect_null_slot_faults :
    WellFormed heapNullField ∧ OneContext heapNullField ∧
      ∀ fuel, collect fuel heapNullField = .fault .null_deref :=
  ⟨wellFormed_of_check _ (by decide), oneContext_of_check _ (by decide), fun _ => rfl⟩

/-- C10 fails as stated: `heapHeld` is well formed, its one record is held by an external
handle, and `Context::~Context` returns leaving the state as it was: the record is still
allocated, not destroyed, and on the registry. -/
theorem context_destroy_keeps_held_record :
    WellFormed heapHeld ∧ OneContext heapHeld ∧ NoNull heapHeld ∧
      ∀ fuel, Context_destroy (fuel + 2) heapHeld = .ok heapHeld := by
  refine ⟨wellFormed_of_check _ (by decide), oneContext_of_check _ (by decide),
    noNull_of_check _ (by decide), ?_⟩
  intro fuel
  have h2 : collect 2 heapHeld = .ok heapHeld := by decide
  unfold Context_destroy
  rw [collect_mono (Nat.le_add_left 2 fuel) _ (by rw [h2]; simp), h2]

/-- C10, amended.  On a well-formed single-context heap without null slots in which no
external handle holds a record, `Context::~Context` returns with the registry empty and
every record that was on it destroyed once and released. -/
theorem context_destroy_drains (s : State) (fuel : Nat) (hwf : WellFormed s)
    (hone : OneContext s) (hnn : NoNull s) (hroots : ∀ x ∈ s.roots, x = none)
    (hfuel : s.registry.length < fuel) :
    ∃ s1, Context_destroy fuel s = .ok s1 ∧ s1.registry = [] ∧
      ∀ a, a ∈ s.registry → Freed s1 a ∧ destroyedAt s1 a = 1 := by
  have hnone : ∀ a, ¬ Reachable s a := by
    rintro a ⟨r, hr, _⟩
    have := hroots _ hr
    cases this
  obtain ⟨s1, h1, _, _, h4, _, _, h7⟩ := collect_separated s fuel hwf hone hnn
    (fun a b _ hb => absurd hb (hnone b)) hfuel
  refine ⟨s1, h1, ?_, ?_⟩
  · apply List.eq_nil_iff_forall_not_mem.2
    intro a ha
    exact hnone a ((h4 a).1 ha)
  · intro a ha
    obtain ⟨v, _, hv1⟩ := h7 a ha (hnone a)
    exact ⟨⟨_, hv1, rfl⟩, by unfold destroyedAt; rw [hv1]⟩

/-- Witness of `context_destroy_drains`: a dead two-cycle whose handles were dropped. -/
theorem context_destroy_drains_witness :
    ∃ s1, Context_destroy 3 heapDeadCycle = .ok s1 ∧ s1.registry = [] ∧
      ∀ a, a ∈ heapDeadCycle.registry → Freed s1 a ∧ destroyedAt s1 a = 1 :=
  context_destroy_drains heapDeadCycle 3 (wellFormed_of_check _ (by decide))
    (oneContext_of_check _ (by decide)) (noNull_of_check _ (by decide))
    (by decide) (by decide)

/-! ### Counting handles under a change of one block -/

theorem count_flatMap_set {α : Type} (f : α → List (Option Nat)) (x : Option Nat) :
    ∀ (l : List α) (i : Nat) (v w : α), l[i]? = some v →
      ((l.set i w).flatMap f).count x + (f v).count x
        = (l.flatMap f).count x + (f w).count x := by
  intro l
  induction l with
  | nil => intro i v w h; simp at h
  | cons y l ih =>
    intro i v w h
    cases i with
    | zero =>
      simp only [List.getElem?_cons_zero, Option.some.injEq] at h
      subst h
      simp only [List.set_cons_zero, List.flatMap_cons, List.count_append]
      omega
    | succ i =>
      simp only [List.getElem?_cons_succ] at h
      have := ih i v w h
      simp only [List.set_cons_succ, List.flatMap_cons, List.count_append]
      omega

theorem countP_set {α : Type} (p : α → Bool) :
    ∀ (l : List α) (i : Nat) (v w : α), l[i]? = some v →
      (l.set i w).countP p + (if p v then 1 else 0) = l.countP p + (if p w then 1 else 0) := by
  intro l
  induction l with
  | nil => intro i v w h; simp at h
  | cons y l ih =>
    intro i v w h
    cases i with
    | zero =>
      simp only [List.getElem?_cons_zero, Option.some.injEq] at h
      subst h
      simp only [List.set_cons_zero, List.countP_cons]
      omega
    | succ i =>
      simp only [List.getElem?_cons_succ] at h
      have := ih i v w h
      simp only [List.set_cons_succ, List.countP_cons]
      omega

theorem count_set_root (l : List (Option Nat)) (i : Nat) (v w x : Option Nat)
    (h : l[i]? = some v) :
    (l.set i w).count x + (if v = x then 1 else 0) = l.count x + (if w = x then 1 else 0) := by
  have := countP_set (fun y => y == x) l i v w h
  simpa [List.count] using this

theorem intactSlots_store {s : State} {a : Nat} {v : Value} (h : s.heap[a]? = some v)
    (w : Value) (x : Option Nat) :
    (intactSlots (store s a w)).count x + (intactSlotsOf v).count x
      = (intactSlots s).count x + (intactSlotsOf w).count x :=
  count_flatMap_set intactSlotsOf x s.heap a v w h

theorem intactCount_store {s : State} {a : Nat} {v : Value} (h : s.heap[a]? = some v)
    (w : Value) :
    intactCount (store s a w) + (if intact v then 1 else 0)
      = intactCount s + (if intact w then 1 else 0) :=
  countP_set intact s.heap a v w h

/-- The slots of the allocated records, read off the heap list. -/
theorem flatMap_range_get {β : Type} (f : Option Value → List β)
    (g : Value → List β) (hg : ∀ v, f (some v) = g v) (l : List Value) :
    (List.range l.length).flatMap (fun a => f l[a]?) = l.flatMap g := by
  induction l using List.reverseRecOn with
  | nil => rfl
  | append_singleton l v ih =>
    rw [List.length_append, List.length_singleton, List.range_succ, List.flatMap_append,
      List.flatMap_append]
    congr 1
    · rw [← ih]
      apply List.flatMap_congr
      intro a ha
      rw [List.getElem?_append_left (List.mem_range.1 ha)]
    · simp [hg]

theorem liveSlots_eq (s : State) :
    liveSlots s = s.heap.flatMap (fun v => if v.freed then [] else v.slots) := by
  unfold liveSlots
  have := flatMap_range_get
    (fun o : Option Value => match o with
      | some v => if v.freed then [] else v.slots
      | none => [])
    (fun v => if v.freed then [] else v.slots) (fun _ => rfl) s.heap
  rw [← this]
  apply List.flatMap_congr
  intro a _
  unfold slotsAt load
  cases s.heap[a]? with
  | none => rfl
  | some v => by_cases hf : v.freed = true <;> simp [hf]

/-- In a state where no destructor has run on an allocated record the intact slots are
the slots of the allocated records. -/
theorem intactSlots_eq_liveSlots (s : State) (hfresh : ∀ a v, load s a = some v → v.destroyed = 0) :
    intactSlots s = liveSlots s := by
  rw [liveSlots_eq]
  unfold intactSlots
  apply List.flatMap_congr
  intro v hv
  obtain ⟨a, ha, hav⟩ := List.mem_iff_getElem.1 hv
  have hget : s.heap[a]? = some v := by rw [List.getElem?_eq_getElem ha, hav]
  unfold intactSlotsOf intact
  by_cases hf : v.freed = true
  · simp [hf]
  · have hf2 : v.freed = false := by simpa using hf
    have := hfresh a v (load_eq_some.2 ⟨hget, hf2⟩)
    simp [hf2, this]

/-! ### Steps of a cascade -/

theorem intact_iff {v : Value} : intact v = true ↔ v.freed = false ∧ v.destroyed = 0 := by
  unfold intact
  simp

theorem intact_rc (v : Value) (r : Nat) : intact { v with ref_count := r } = intact v := rfl

theorem intactSlotsOf_rc (v : Value) (r : Nat) :
    intactSlotsOf { v with ref_count := r } = intactSlotsOf v := rfl

theorem not_intact_of_freed {v : Value} (h : v.freed = true) : intact v = false := by
  unfold intact; simp [h]

theorem load_of_intact {s : State} {a : Nat} {v : Value} (h : s.heap[a]? = some v)
    (hi : intact v = true) : load s a = some v :=
  load_eq_some.2 ⟨h, (intact_iff.1 hi).1⟩

theorem heap_get_of_length {s s1 : State} (hlen : s1.heap.length = s.heap.length) {b : Nat}
    {w : Value} (h : s1.heap[b]? = some w) : ∃ v, s.heap[b]? = some v := by
  have hlt : b < s1.heap.length := (List.getElem?_eq_some.1 h).1
  rw [hlen] at hlt
  exact ⟨s.heap[b], List.getElem?_eq_getElem hlt⟩

theorem Step.step_refl (s : State) : Step s s := by
  refine ⟨rfl, rfl, fun _ _ h _ => h, ?_, List.Sublist.refl _, fun _ h _ => h, ?_⟩
  · intro b v h _
    exact ⟨v.ref_count, Or.inl h⟩
  · rintro _ b ⟨⟨v, hv, hi⟩, w, hw, hf⟩
    rw [hv] at hw
    simp only [Option.some.injEq] at hw
    subst hw
    rw [not_intact_of_freed hf] at hi
    cases hi

/-- A block that is released after a step was released before it or has died in it. -/
theorem Step.freed_cases {s s1 : State} (h : Step s s1) {b : Nat} (hf : Freed s1 b) :
    Freed s b ∨ Died s s1 b := by
  obtain ⟨w, hw, hwf⟩ := hf
  obtain ⟨v, hv⟩ := heap_get_of_length h.length hw
  by_cases hi : intact v = true
  · exact Or.inr ⟨⟨v, hv, hi⟩, w, hw, hwf⟩
  · have hi2 : intact v = false := by simpa using hi
    have := h.dead b v hv hi2
    rw [hw] at this
    simp only [Option.some.injEq] at this
    subst this
    exact Or.inl ⟨w, hv, hwf⟩

/-- A record that is intact after a step was intact before it, with the same slots. -/
theorem Step.intact_back {s s1 : State} (h : Step s s1) {b : Nat} {w : Value}
    (hw : s1.heap[b]? = some w) (hi : intact w = true) :
    ∃ v, s.heap[b]? = some v ∧ intact v = true ∧ w = { v with ref_count := w.ref_count } := by
  obtain ⟨v, hv⟩ := heap_get_of_length h.length hw
  by_cases hiv : intact v = true
  · obtain ⟨r, h1 | h1⟩ := h.live b v hv hiv
    · rw [hw] at h1
      simp only [Option.some.injEq] at h1
      subst h1
      exact ⟨v, hv, hiv, rfl⟩
    · rw [hw] at h1
      simp only [Option.some.injEq] at h1
      subst h1
      have : intact ({ v with ref_count := r, destroyed := 1, freed := true } : Value) = false :=
        not_intact_of_freed rfl
      rw [this] at hi
      cases hi
  · have hi2 : intact v = false := by simpa using hiv
    have := h.dead b v hv hi2
    rw [hw] at this
    simp only [Option.some.injEq] at this
    subst this
    rw [hi2] at hi
    cases hi

/-- An allocated block after a step was allocated before it, with the same slots. -/
theorem Step.load_back {s s1 : State} (h : Step s s1) {b : Nat} {w : Value}
    (hw : load s1 b = some w) : ∃ v, load s b = some v ∧ v.members = w.members := by
  obtain ⟨hw1, hw2⟩ := load_eq_some.1 hw
  obtain ⟨v, hv⟩ := heap_get_of_length h.length hw1
  by_cases hiv : intact v = true
  · obtain ⟨r, h1 | h1⟩ := h.live b v hv hiv
    · rw [hw1] at h1
      simp only [Option.some.injEq] at h1
      subst h1
      exact ⟨v, load_of_intact hv hiv, rfl⟩
    · rw [hw1] at h1
      simp only [Option.some.injEq] at h1
      subst h1
      cases hw2
  · have hi2 : intact v = false := by simpa using hiv
    have := h.dead b v hv hi2
    rw [hw1] at this
    simp only [Option.some.injEq] at this
    subst this
    exact ⟨_, load_eq_some.2 ⟨hv, hw2⟩, rfl⟩

theorem Step.edge {s s1 : State} (h : Step s s1) {c d : Nat} (he : Edge s1 c d) :
    Edge s c d := by
  unfold Edge slotsAt at he ⊢
  cases hw : load s1 c with
  | none => rw [hw] at he; simp at he
  | some w =>
    rw [hw] at he
    obtain ⟨v, hv, hm⟩ := h.load_back hw
    rw [hv]
    simpa [Value.slots, hm] using he

theorem Step.path {s s1 : State} (h : Step s s1) {c d : Nat}
    (hp : Relation.ReflTransGen (Edge s1) c d) : Relation.ReflTransGen (Edge s) c d :=
  Relation.ReflTransGen.mono (fun _ _ he => h.edge he) hp

theorem Step.died_cases {s s1 s2 : State} (h01 : Step s s1) {b : Nat}
    (hd : Died s s2 b) : Died s s1 b ∨ Died s1 s2 b := by
  obtain ⟨⟨v, hv, hi⟩, hf⟩ := hd
  obtain ⟨r, h1 | h1⟩ := h01.live b v hv hi
  · exact Or.inr ⟨⟨_, h1, by rw [intact_rc v r]; exact hi⟩, hf⟩
  · exact Or.inl ⟨⟨v, hv, hi⟩, _, h1, rfl⟩

theorem Step.died_mono {s s1 s2 : State} (h12 : Step s1 s2) {b : Nat}
    (hd : Died s s1 b) : Died s s2 b := by
  obtain ⟨hv, w, hw, hf⟩ := hd
  exact ⟨hv, w, h12.dead b w hw (not_intact_of_freed hf), hf⟩

theorem Step.died_lift {s s1 s2 : State} (h01 : Step s s1) {b : Nat}
    (hd : Died s1 s2 b) : Died s s2 b := by
  obtain ⟨⟨w, hw, hi⟩, hf⟩ := hd
  obtain ⟨v, hv, hiv, _⟩ := h01.intact_back hw hi
  exact ⟨⟨v, hv, hiv⟩, hf⟩

theorem Step.step_trans {s s1 s2 : State} (h01 : Step s s1) (h12 : Step s1 s2) : Step s s2 := by
  refine ⟨h12.roots.trans h01.roots, h12.length.trans h01.length, ?_, ?_,
    h12.sub.trans h01.sub, ?_, ?_⟩
  · intro b v hv hi
    exact h12.dead b v (h01.dead b v hv hi) hi
  · intro b v hv hi
    obtain ⟨r, h1 | h1⟩ := h01.live b v hv hi
    · obtain ⟨r2, h2 | h2⟩ := h12.live b _ h1 (by rw [intact_rc v r]; exact hi)
      · exact ⟨r2, Or.inl h2⟩
      · exact ⟨r2, Or.inr h2⟩
    · exact ⟨r, Or.inr (h12.dead b _ h1 (not_intact_of_freed rfl))⟩
  · intro b hb hnd
    have h1 : b ∈ s1.registry := h01.kept b hb (fun hd => hnd (h12.died_mono hd))
    exact h12.kept b h1 (fun hd => hnd (h01.died_lift hd))
  · intro hnd b hd
    rcases h01.died_cases hd with h | h
    · exact fun hb => h01.gone hnd b h (h12.sub.subset hb)
    · exact h12.gone (hnd.sublist h01.sub) b h

/-- Changing the count of an intact record is a step. -/
theorem step_rc {s : State} {a : Nat} {v : Value} (hv : s.heap[a]? = some v)
    (hi : intact v = true) (r : Nat) : Step s (store s a { v with ref_count := r }) := by
  have hlt : a < s.heap.length := (List.getElem?_eq_some.1 hv).1
  have hget : ∀ b, (store s a { v with ref_count := r }).heap[b]?
      = if a = b then some { v with ref_count := r } else s.heap[b]? := by
    intro b; rw [store_heap_get]; simp [hlt]
  have hnd : ∀ b, ¬ Died s (store s a { v with ref_count := r }) b := by
    rintro b ⟨⟨v', hv', hi'⟩, w, hw, hf⟩
    rw [hget] at hw
    by_cases hab : a = b
    · subst hab
      simp only [if_true, Option.some.injEq] at hw
      subst hw
      have := (intact_iff.1 hi).1
      simp [this] at hf
    · simp only [hab, if_false] at hw
      rw [hv'] at hw
      simp only [Option.some.injEq] at hw
      subst hw
      rw [not_intact_of_freed hf] at hi'
      cases hi'
  refine ⟨rfl, store_length _ _ _, ?_, ?_, List.Sublist.refl _, fun _ h _ => h,
    fun _ b hd => absurd hd (hnd b)⟩
  · intro b v' hv' hi'
    rw [hget]
    by_cases hab : a = b
    · subst hab
      rw [hv] at hv'
      simp only [Option.some.injEq] at hv'
      subst hv'
      rw [hi] at hi'
      cases hi'
    · simp [hab, hv']
  · intro b v' hv' _
    rw [hget]
    by_cases hab : a = b
    · subst hab
      rw [hv] at hv'
      simp only [Option.some.injEq] at hv'
      subst hv'
      exact ⟨r, Or.inl (by simp)⟩
    · exact ⟨v'.ref_count, Or.inl (by simp [hab, hv'])⟩

/-! ### The decrement cascade keeps counts exact -/

theorem count_some_cons (P : List (Option Nat)) (t a : Nat) :
    (some t :: P).count (some a) = P.count (some a) + if a = t then 1 else 0 := by
  by_cases h : a = t
  · subst h; simp
  · have hne : (some t == some a) = false := by simpa using Ne.symm h
    simp [List.count_cons, hne, h]

theorem mem_of_count_eq {l1 l2 : List (Option Nat)} {x : Option Nat}
    (h : l1.count x ≤ l2.count x) (hx : x ∈ l1) : x ∈ l2 := by
  have := List.count_pos_iff.2 hx
  exact List.count_pos_iff.1 (by omega)

theorem Cascading.drop_none {R P : List (Option Nat)} {s : State}
    (h : Cascading R (none :: P) s) : Cascading R P s := by
  refine ⟨?_, ?_⟩
  · intro a v hv hi
    have := h.exact a v hv hi
    simpa [List.count_append, List.count_cons] using this
  · intro b hb
    apply h.closed b
    simp only [List.mem_append, List.mem_cons] at hb ⊢
    rcases hb with h1 | h1 | h1
    · exact Or.inl h1
    · exact Or.inr (Or.inl h1)
    · exact Or.inr (Or.inr (Or.inr h1))

theorem cascaded_none {R P : List (Option Nat)} {s : State}
    (h : Cascading R (none :: P) s) : Cascaded R P [none] s s := by
  refine ⟨h.drop_none, Step.step_refl s, le_rfl, ?_, fun hh => hh⟩
  rintro b ⟨⟨v, hv, hi⟩, w, hw, hf⟩
  rw [hv] at hw
  simp only [Option.some.injEq] at hw
  subst hw
  rw [not_intact_of_freed hf] at hi
  cases hi

theorem Cascaded.cons {R P L : List (Option Nat)} {x : Option Nat} {s s1 s2 : State}
    (h1 : Cascaded R (L ++ P) [x] s s1) (h2 : Cascaded R P L s1 s2) :
    Cascaded R P (x :: L) s s2 := by
  refine ⟨h2.inv, h1.step.step_trans h2.step, le_trans h2.fewer h1.fewer, ?_,
    fun hh => h2.held (h1.held hh)⟩
  intro b hd
  rcases h1.step.died_cases hd with h | h
  · obtain ⟨t, ht, hp⟩ := h1.origin b h
    refine ⟨t, ?_, hp⟩
    simp only [List.mem_singleton] at ht
    rw [ht]; exact List.mem_cons_self _ _
  · obtain ⟨t, ht, hp⟩ := h2.origin b h
    exact ⟨t, List.mem_cons_of_mem _ ht, h1.step.path hp⟩

/-- Dropping a handle to a record that other handles hold too. -/
theorem cascaded_keep {R P : List (Option Nat)} {s : State} {a : Nat} {v : Value}
    (h : Cascading R (some a :: P) s) (hv : s.heap[a]? = some v) (hi : intact v = true)
    (hr : 1 < v.ref_count) :
    Cascaded R P [some a] s (store s a { v with ref_count := v.ref_count - 1 }) := by
  have hlt : a < s.heap.length := (List.getElem?_eq_some.1 hv).1
  have hget : ∀ b, (store s a { v with ref_count := v.ref_count - 1 }).heap[b]?
      = if a = b then some { v with ref_count := v.ref_count - 1 } else s.heap[b]? := by
    intro b; rw [store_heap_get]; simp [hlt]
  have hcnt : ∀ x, (intactSlots (store s a { v with ref_count := v.ref_count - 1 })).count x
      = (intactSlots s).count x := by
    intro x
    have := intactSlots_store hv { v with ref_count := v.ref_count - 1 } x
    rw [intactSlotsOf_rc v (v.ref_count - 1)] at this
    omega
  have hstep := step_rc hv hi (v.ref_count - 1)
  refine ⟨⟨?_, ?_⟩, hstep, ?_, ?_, ?_⟩
  · intro b w hw hiw
    rw [hget] at hw
    simp only [List.count_append, hcnt]
    by_cases hab : a = b
    · subst hab
      simp only [if_true, Option.some.injEq] at hw
      subst hw
      have := h.exact a v hv hi
      simp only [List.count_append, List.count_cons_self] at this
      exact ⟨by simp only; omega, by simp only; omega⟩
    · simp only [hab, if_false] at hw
      have := h.exact b w hw hiw
      simp only [List.count_append, count_some_cons, Ne.symm hab, if_false] at this
      simpa using this
  · intro b hb
    have hb2 : some b ∈ R ++ (intactSlots s ++ (some a :: P)) := by
      simp only [List.mem_append, List.mem_cons] at hb ⊢
      rcases hb with h1 | h1 | h1
      · exact Or.inl h1
      · exact Or.inr (Or.inl (mem_of_count_eq (le_of_eq (hcnt _)) h1))
      · exact Or.inr (Or.inr (Or.inr h1))
    obtain ⟨w, hw, hiw⟩ := h.closed b hb2
    rw [hget]
    by_cases hab : a = b
    · subst hab
      exact ⟨{ v with ref_count := v.ref_count - 1 }, by simp, hi⟩
    · exact ⟨w, by simp [hab, hw], hiw⟩
  · have := intactCount_store hv { v with ref_count := v.ref_count - 1 }
    rw [intact_rc v (v.ref_count - 1)] at this
    omega
  · intro b hd
    obtain ⟨⟨w, hw, hiw⟩, u, hu, hf⟩ := hd
    rw [hget] at hu
    by_cases hab : a = b
    · subst hab
      simp only [if_true, Option.some.injEq] at hu
      subst hu
      have := (intact_iff.1 hi).1
      simp [this] at hf
    · simp only [hab, if_false] at hu
      rw [hw] at hu
      simp only [Option.some.injEq] at hu
      subst hu
      rw [not_intact_of_freed hf] at hiw
      cases hiw
  · intro hh b w hw _
    rw [hget] at hw
    by_cases hab : a = b
    · subst hab
      simp only [if_true, Option.some.injEq] at hw
      subst hw
      simp only
      omega
    · simp only [hab, if_false] at hw
      exact hh b w hw ‹_›

theorem count_zero_of_last {R P : List (Option Nat)} {s : State} {a : Nat} {v : Value}
    (h : Cascading R (some a :: P) s) (hv : s.heap[a]? = some v) (hi : intact v = true)
    (hr : v.ref_count = 1) :
    R.count (some a) = 0 ∧ (intactSlots s).count (some a) = 0 ∧ P.count (some a) = 0 := by
  have := (h.exact a v hv hi).1
  simp only [List.count_append, List.count_cons_self] at this
  omega

/-- The state in which the last handle to record `a` has been dropped and the destructor
of `a` is about to drop the handles in its slots. -/
theorem cascading_marked {R P : List (Option Nat)} {s sm : State} {a : Nat} {v u : Value}
    (h : Cascading R (some a :: P) s) (hv : s.heap[a]? = some v) (hi : intact v = true)
    (hr : v.ref_count = 1) (hu0 : intact u = false)
    (hget : ∀ b, sm.heap[b]? = if a = b then some u else s.heap[b]?)
    (hslots : ∀ x, (intactSlots sm).count x + v.slots.count x = (intactSlots s).count x) :
    Cascading R (v.slots.reverse ++ P) sm := by
  obtain ⟨hz1, hz2, hz3⟩ := count_zero_of_last h hv hi hr
  refine ⟨?_, ?_⟩
  · intro b w hw hiw
    rw [hget] at hw
    by_cases hab : a = b
    · subst hab
      simp only [if_true, Option.some.injEq] at hw
      subst hw
      rw [hu0] at hiw
      cases hiw
    · simp only [hab, if_false] at hw
      have := h.exact b w hw hiw
      simp only [List.count_append, count_some_cons, Ne.symm hab, if_false] at this
      have hs := hslots (some b)
      simp only [List.count_append, List.count_reverse]
      omega
  · intro b hb
    have hb2 : some b ∈ R ++ (intactSlots s ++ (some a :: P)) := by
      simp only [List.mem_append, List.mem_cons, List.mem_reverse] at hb ⊢
      rcases hb with h1 | h1 | h1 | h1
      · exact Or.inl h1
      · exact Or.inr (Or.inl (mem_of_count_eq (by have := hslots (some b); omega) h1))
      · exact Or.inr (Or.inl (mem_of_count_eq (by have := hslots (some b); omega) h1))
      · exact Or.inr (Or.inr (Or.inr h1))
    obtain ⟨w, hw, hiw⟩ := h.closed b hb2
    have hab : a ≠ b := by
      intro hab
      subst hab
      simp only [List.mem_append, List.mem_reverse] at hb
      have hs := hslots (some a)
      rcases hb with h1 | h1 | h1 | h1
      · have := List.count_pos_iff.2 h1; omega
      · have := List.count_pos_iff.2 h1; omega
      · have := List.count_pos_iff.2 h1; omega
      · have := List.count_pos_iff.2 h1; omega
    exact ⟨w, by rw [hget]; simp [hab, hw], hiw⟩

/-- Assembling the death of record `a`: the state `sm` in which its destructor starts,
the cascade over its slots from `sm` to `s3`, and the release of its block in `s4`. -/
theorem cascaded_death {R P : List (Option Nat)} {s sm s3 s4 : State} {a : Nat} {v : Value}
    (hv : s.heap[a]? = some v) (hi : intact v = true)
    (hmget : ∀ b, sm.heap[b]? = if a = b then
      some { v with ref_count := 0, destroyed := v.destroyed + 1 } else s.heap[b]?)
    (hmreg : sm.registry = s.registry.erase a) (hmroots : sm.roots = s.roots)
    (hmcnt : intactCount sm + 1 = intactCount s)
    (hc3 : Cascaded R P v.slots.reverse sm s3)
    (h4get : ∀ b, s4.heap[b]? = if a = b then
      some { v with ref_count := 0, destroyed := 1, freed := true } else s3.heap[b]?)
    (h4reg : s4.registry = s3.registry) (h4roots : s4.roots = s3.roots)
    (h4len : s4.heap.length = s3.heap.length)
    (h4slots : ∀ x, (intactSlots s4).count x = (intactSlots s3).count x)
    (h4cnt : intactCount s4 = intactCount s3) :
    Cascaded R P [some a] s s4 := by
  have hvm : intact ({ v with ref_count := 0, destroyed := v.destroyed + 1 } : Value) = false := by
    unfold intact; simp
  have hv3 : s3.heap[a]? = some { v with ref_count := 0, destroyed := v.destroyed + 1 } :=
    hc3.step.dead a _ (by rw [hmget]; simp) hvm
  have hlen : s.heap.length = sm.heap.length := by
    apply le_antisymm
    · by_contra hlt
      have h1 : sm.heap[sm.heap.length]? = none := List.getElem?_eq_none (le_refl _)
      rw [hmget] at h1
      by_cases hab : a = sm.heap.length
      · simp [hab] at h1
      · simp only [hab, if_false] at h1
        have := List.getElem?_eq_none_iff.1 h1
        omega
    · by_contra hlt
      have h1 : s.heap[s.heap.length]? = none := List.getElem?_eq_none (le_refl _)
      have h2 := hmget s.heap.length
      by_cases hab : a = s.heap.length
      · have := (List.getElem?_eq_some.1 hv).1; omega
      · simp only [hab, if_false, h1] at h2
        have := List.getElem?_eq_none_iff.1 h2
        omega
  have hdied_a : Died s s4 a :=
    ⟨⟨v, hv, hi⟩, { v with ref_count := 0, destroyed := 1, freed := true }, by rw [h4get]; simp, rfl⟩
  have hdied_other : ∀ b, a ≠ b → (Died s s4 b ↔ Died sm s3 b) := by
    intro b hab
    unfold Died Freed
    rw [h4get, hmget]
    simp [hab]
  refine ⟨⟨?_, ?_⟩, ⟨?_, ?_, ?_, ?_, ?_, ?_, ?_⟩, ?_, ?_, ?_⟩
  · intro b w hw hiw
    rw [h4get] at hw
    by_cases hab : a = b
    · subst hab
      simp only [if_true, Option.some.injEq] at hw
      subst hw
      rw [not_intact_of_freed rfl] at hiw
      cases hiw
    · simp only [hab, if_false] at hw
      have := hc3.inv.exact b w hw hiw
      simpa only [List.count_append, h4slots] using this
  · intro b hb
    have hb2 : some b ∈ R ++ (intactSlots s3 ++ P) := by
      simp only [List.mem_append] at hb ⊢
      rcases hb with h1 | h1 | h1
      · exact Or.inl h1
      · exact Or.inr (Or.inl (mem_of_count_eq (le_of_eq (h4slots _)) h1))
      · exact Or.inr (Or.inr h1)
    obtain ⟨w, hw, hiw⟩ := hc3.inv.closed b hb2
    have hab : a ≠ b := by
      intro hab
      subst hab
      rw [hv3] at hw
      simp only [Option.some.injEq] at hw
      subst hw
      rw [hvm] at hiw
      cases hiw
    exact ⟨w, by rw [h4get]; simp [hab, hw], hiw⟩
  · rw [h4roots, hc3.step.roots, hmroots]
  · rw [h4len, hc3.step.length, hlen]
  · intro b w hw hiw
    have hab : a ≠ b := by
      intro hab
      subst hab
      rw [hv] at hw
      simp only [Option.some.injEq] at hw
      subst hw
      rw [hi] at hiw
      cases hiw
    rw [h4get]
    simp only [hab, if_false]
    exact hc3.step.dead b w (by rw [hmget]; simp [hab, hw]) hiw
  · intro b w hw hiw
    by_cases hab : a = b
    · subst hab
      rw [hv] at hw
      simp only [Option.some.injEq] at hw
      subst hw
      exact ⟨0, Or.inr (by rw [h4get]; simp)⟩
    · rw [h4get]
      simp only [hab, if_false]
      exact hc3.step.live b w (by rw [hmget]; simp [hab, hw]) hiw
  · rw [h4reg]
    exact (hc3.step.sub.trans (by rw [hmreg]; exact List.erase_sublist _ _))
  · intro b hb hnd
    have hab : a ≠ b := fun hab => hnd (hab ▸ hdied_a)
    rw [h4reg]
    apply hc3.step.kept b
    · rw [hmreg]; exact (List.mem_erase_of_ne (Ne.symm hab)).2 hb
    · exact fun hd => hnd ((hdied_other b hab).2 hd)
  · intro hnd b hd
    rw [h4reg]
    by_cases hab : a = b
    · subst hab
      intro hb
      have := hc3.step.sub.subset hb
      rw [hmreg] at this
      exact hnd.not_mem_erase this
    · apply hc3.step.gone (by rw [hmreg]; exact hnd.erase _) b
      exact (hdied_other b hab).1 hd
  · have := hc3.fewer
    omega
  · intro b hd
    by_cases hab : a = b
    · subst hab
      exact ⟨a, List.mem_singleton_self _, Relation.ReflTransGen.refl⟩
    · obtain ⟨t, ht, hp⟩ := hc3.origin b ((hdied_other b hab).1 hd)
      refine ⟨a, List.mem_singleton_self _, ?_⟩
      have hedge : ∀ c d, Edge sm c d → Edge s c d := by
        intro c d he
        unfold Edge slotsAt load at he ⊢
        rw [hmget] at he
        by_cases hac : a = c
        · subst hac
          have hf := (intact_iff.1 hi).1
          simp only [if_true, hf] at he
          rw [hv]
          simpa [hf, Value.slots] using he
        · simpa [hac] using he
      have hat : Edge s a t := by
        unfold Edge
        rw [slotsAt_of_load (load_of_intact hv hi)]
        exact List.mem_reverse.1 ht
      exact Relation.ReflTransGen.head hat (Relation.ReflTransGen.mono hedge hp)
  · intro hh b w hw hiw
    rw [h4get] at hw
    by_cases hab : a = b
    · subst hab
      simp only [if_true, Option.some.injEq] at hw
      subst hw
      rw [not_intact_of_freed rfl] at hiw
      cases hiw
    · simp only [hab, if_false] at hw
      refine hc3.held ?_ b w hw hiw
      intro c u hu hiu
      rw [hmget] at hu
      by_cases hac : a = c
      · subst hac
        simp only [if_true, Option.some.injEq] at hu
        subst hu
        rw [hvm] at hiu
        cases hiu
      · simp only [hac, if_false] at hu
        exact hh c u hu hiu

theorem cascaded_nil {R P : List (Option Nat)} {s : State} (h : Cascading R P s) :
    Cascaded R P [] s s := by
  refine ⟨h, Step.step_refl s, le_rfl, ?_, fun hh => hh⟩
  rintro b ⟨⟨v, hv, hi⟩, w, hw, hf⟩
  rw [hv] at hw
  simp only [Option.some.injEq] at hw
  subst hw
  rw [not_intact_of_freed hf] at hi
  cases hi

theorem forEach_cascade (n : Nat)
    (hdec : ∀ (s : State) (R P : List (Option Nat)) (x : Option Nat),
      Cascading R (x :: P) s → intactCount s < n →
      ∃ s1, decrease n s x = .ok s1 ∧ Cascaded R P [x] s s1) :
    ∀ (L : List (Option Nat)) (s : State) (R P : List (Option Nat)),
      Cascading R (L ++ P) s → intactCount s < n →
      ∃ s1, forEach (decrease n) L s = .ok s1 ∧ Cascaded R P L s s1 := by
  intro L
  induction L with
  | nil =>
    intro s R P h _
    exact ⟨s, rfl, cascaded_nil (by simpa using h)⟩
  | cons x L ih =>
    intro s R P h hn
    obtain ⟨s1, h1, c1⟩ := hdec s R (L ++ P) x (by simpa using h) hn
    obtain ⟨s2, h2, c2⟩ := ih s1 R P c1.inv (lt_of_le_of_lt c1.fewer hn)
    exact ⟨s2, by simp only [forEach, h1]; exact h2, c1.cons c2⟩

theorem store_store_get (s : State) (a : Nat) (v w : Value) (hlt : a < s.heap.length) (b : Nat) :
    (store (remove a (store s a v)) a w).heap[b]? = if a = b then some w else s.heap[b]? := by
  rw [store_heap_get]
  have h1 : (remove a (store s a v)).heap = (store s a v).heap := rfl
  rw [h1, store_length, store_heap_get]
  by_cases hab : a = b
  · subst hab; simp [hlt]
  · simp [hab]

/-- `Ptr::decrease` on a state that satisfies the cascade invariant: with fuel above the
number of intact records the call returns, and the invariant holds again with the
dropped handle removed. -/
theorem decrease_cascade :
    ∀ (n : Nat) (s : State) (R P : List (Option Nat)) (x : Option Nat),
      Cascading R (x :: P) s → intactCount s < n →
      ∃ s1, decrease n s x = .ok s1 ∧ Cascaded R P [x] s s1 := by
  intro n
  induction n with
  | zero => intro s R P x _ h; omega
  | succ n ih =>
    intro s R P x h hn
    cases x with
    | none => exact ⟨s, decrease_none _ _, cascaded_none h⟩
    | some a =>
      obtain ⟨v, hv, hi⟩ := h.closed a (by simp)
      have hload := load_of_intact hv hi
      have hlt : a < s.heap.length := (List.getElem?_eq_some.1 hv).1
      obtain ⟨hrc, hw⟩ := h.exact a v hv hi
      have hpos : 1 ≤ v.ref_count := by
        rw [hrc]
        simp only [List.count_append, List.count_cons_self]
        omega
      by_cases hr : 1 < v.ref_count
      · have hmod : (v.ref_count + WORD - 1) % WORD = v.ref_count - 1 := by
          rw [WORD_eq] at hw ⊢; omega
        have hstep := decrease_keep n hload (by rw [hmod]; omega)
        rw [hmod] at hstep
        exact ⟨_, hstep, cascaded_keep h hv hi hr⟩
      · have hr1 : v.ref_count = 1 := by omega
        have hmod : (v.ref_count + WORD - 1) % WORD = 0 := by
          rw [hr1, WORD_eq]
        have hidec : intactCount s = intactCount
            (store (remove a (store s a { v with ref_count := 0 })) a
              { v with ref_count := 0, destroyed := v.destroyed + 1 }) + 1 := by
          have e1 := intactCount_store hv { v with ref_count := 0 }
          have hv1 : (remove a (store s a { v with ref_count := 0 })).heap[a]?
              = some { v with ref_count := 0 } := by
            show (store s a { v with ref_count := 0 }).heap[a]? = _
            rw [store_heap_get]; simp [hlt]
          have e2 := intactCount_store hv1 { v with ref_count := 0, destroyed := v.destroyed + 1 }
          have i1 : intact ({ v with ref_count := 0 } : Value) = true := hi
          have i2 : intact ({ v with ref_count := 0, destroyed := v.destroyed + 1 } : Value)
              = false := by unfold intact; simp
          rw [i1, i2] at e2
          rw [i1, hi] at e1
          have e3 : intactCount (remove a (store s a { v with ref_count := 0 }))
              = intactCount (store s a { v with ref_count := 0 }) := rfl
          simp only [if_true] at e1 e2
          simp only [Bool.false_eq_true, if_false] at e2
          omega
        have hslots : ∀ x, (intactSlots
            (store (remove a (store s a { v with ref_count := 0 })) a
              { v with ref_count := 0, destroyed := v.destroyed + 1 })).count x
              + v.slots.count x = (intactSlots s).count x := by
          intro x
          have e1 := intactSlots_store hv { v with ref_count := 0 } x
          have hv1 : (remove a (store s a { v with ref_count := 0 })).heap[a]?
              = some { v with ref_count := 0 } := by
            show (store s a { v with ref_count := 0 }).heap[a]? = _
            rw [store_heap_get]; simp [hlt]
          have e2 := intactSlots_store hv1 { v with ref_count := 0, destroyed := v.destroyed + 1 } x
          have i1 : intactSlotsOf ({ v with ref_count := 0 } : Value) = v.slots := by
            unfold intactSlotsOf
            rw [show intact ({ v with ref_count := 0 } : Value) = true from hi]
            rfl
          have i0 : intactSlotsOf v = v.slots := by
            unfold intactSlotsOf; rw [hi]; rfl
          have i2 : intactSlotsOf ({ v with ref_count := 0, destroyed := v.destroyed + 1 } : Value)
              = [] := by unfold intactSlotsOf intact; simp
          have e3 : intactSlots (remove a (store s a { v with ref_count := 0 }))
              = intactSlots (store s a { v with ref_count := 0 }) := rfl
          rw [i1, i2] at e2
          rw [i1, i0] at e1
          rw [e3] at e2
          simp only [List.count_nil] at e2
          omega
        have hmget := store_store_get s a { v with ref_count := 0 }
          { v with ref_count := 0, destroyed := v.destroyed + 1 } hlt
        have hinvm := cascading_marked (u := { v with ref_count := 0, destroyed := v.destroyed + 1 })
          h hv hi hr1 (by unfold intact; simp) hmget hslots
        obtain ⟨s3, h3, c3⟩ := forEach_cascade n ih v.slots.reverse _ R P hinvm (by omega)
        have hv3 : s3.heap[a]? = some { v with ref_count := 0, destroyed := v.destroyed + 1 } :=
          c3.step.dead a _ (by rw [hmget]; simp) (by unfold intact; simp)
        have hf : v.freed = false := (intact_iff.1 hi).1
        have hd0 : v.destroyed = 0 := (intact_iff.1 hi).2
        have hload3 : load s3 a = some { v with ref_count := 0, destroyed := v.destroyed + 1 } :=
          load_eq_some.2 ⟨hv3, hf⟩
        have hlt3 : a < s3.heap.length := (List.getElem?_eq_some.1 hv3).1
        refine ⟨store s3 a { v with ref_count := 0, destroyed := v.destroyed + 1, freed := true },
          ?_, ?_⟩
        · have hloadm : load (remove a (store s a { v with ref_count := 0 })) a
              = some { v with ref_count := 0 } := by
            rw [load_eq_some]
            refine ⟨?_, hf⟩
            show (store s a { v with ref_count := 0 }).heap[a]? = _
            rw [store_heap_get]; simp [hlt]
          simp only [decrease, hload, hmod, lt_irrefl, if_false, destroy, hloadm]
          have : ({ v with ref_count := 0 } : Value).slots = v.slots := rfl
          rw [this, h3]
          simp only [free, hload3]
        · apply cascaded_death hv hi hmget rfl rfl hidec.symm c3
          · intro b
            rw [store_heap_get]
            by_cases hab : a = b
            · subst hab; simp [hlt3, hd0]
            · simp [hab]
          · rfl
          · rfl
          · exact store_length _ _ _
          · intro x
            have e := intactSlots_store hv3
              { v with ref_count := 0, destroyed := v.destroyed + 1, freed := true } x
            have i2 : intactSlotsOf ({ v with ref_count := 0, destroyed := v.destroyed + 1 } : Value)
                = [] := by unfold intactSlotsOf intact; simp
            have i3 : intactSlotsOf
                ({ v with ref_count := 0, destroyed := v.destroyed + 1, freed := true } : Value)
                = [] := by unfold intactSlotsOf intact; simp
            rw [i2, i3] at e
            simpa using e
          · have e := intactCount_store hv3
              { v with ref_count := 0, destroyed := v.destroyed + 1, freed := true }
            have i2 : intact ({ v with ref_count := 0, destroyed := v.destroyed + 1 } : Value)
                = false := by unfold intact; simp
            have i3 : intact
                ({ v with ref_count := 0, destroyed := v.destroyed + 1, freed := true } : Value)
                = false := by unfold intact; simp
            rw [i2, i3] at e
            simpa using e

/-! ### Reading and writing handles -/

theorem write_handle_slot (s : State) (a i j : Nat) (y : Option Nat) :
    write_handle s (.slot a i j) y =
      match s.heap[a]? with
      | some v => store s a { v with members := v.members.set i ((v.members.getD i []).set j y) }
      | none => s := rfl

theorem read_handle_root (s : State) (i : Nat) : read_handle s (.root i) = s.roots[i]? := rfl

theorem read_handle_slot (s : State) (a i j : Nat) :
    read_handle s (.slot a i j) =
      match load s a with
      | some v =>
        match v.members[i]? with
        | some m => m[j]?
        | none => none
      | none => none := rfl

theorem write_root_roots (s : State) (i : Nat) (y : Option Nat) :
    (write_handle s (.root i) y).roots = s.roots.set i y := rfl

theorem write_root_heap (s : State) (i : Nat) (y : Option Nat) :
    (write_handle s (.root i) y).heap = s.heap := rfl

theorem write_slot_roots (s : State) (a i j : Nat) (y : Option Nat) :
    (write_handle s (.slot a i j) y).roots = s.roots := by
  rw [write_handle_slot]
  cases s.heap[a]? <;> rfl

theorem write_registry (s : State) (l : Loc) (y : Option Nat) :
    (write_handle s l y).registry = s.registry := by
  cases l with
  | root i => rfl
  | slot a i j =>
    rw [write_handle_slot]
    cases s.heap[a]? <;> rfl

theorem write_length (s : State) (l : Loc) (y : Option Nat) :
    (write_handle s l y).heap.length = s.heap.length := by
  cases l with
  | root i => rfl
  | slot a i j =>
    rw [write_handle_slot]
    cases s.heap[a]? with
    | none => rfl
    | some v => exact store_length _ _ _

/-- The block at every address after a write: only the members of the record that
contains the written slot change. -/
theorem write_slot_get (s : State) (a i j : Nat) (y : Option Nat) (b : Nat) :
    (write_handle s (.slot a i j) y).heap[b]? =
      if a = b then (s.heap[a]?).map (fun v =>
        { v with members := v.members.set i ((v.members.getD i []).set j y) })
      else s.heap[b]? := by
  rw [write_handle_slot]
  cases hv : s.heap[a]? with
  | none =>
    by_cases hab : a = b
    · subst hab; simp [hv]
    · simp [hab]
  | some v =>
    have hlt : a < s.heap.length := (List.getElem?_eq_some.1 hv).1
    simp only [store_heap_get, hlt, if_true, Option.map_some']

theorem write_rcOf (s : State) (l : Loc) (y : Option Nat) (b : Nat) :
    rcOf (write_handle s l y) b = rcOf s b := by
  cases l with
  | root i => rfl
  | slot a i j =>
    unfold rcOf
    rw [write_slot_get]
    by_cases hab : a = b
    · subst hab
      cases s.heap[a]? <;> simp
    · simp [hab]

theorem read_write_root_self (s : State) (i : Nat) (x y : Option Nat)
    (h : read_handle s (.root i) = some x) :
    read_handle (write_handle s (.root i) y) (.root i) = some y := by
  rw [read_handle_root] at h ⊢
  rw [write_root_roots]
  have hlt : i < s.roots.length := (List.getElem?_eq_some.1 h).1
  simp [List.getElem?_set, hlt]

theorem read_write_slot_self (s : State) (a i j : Nat) (x y : Option Nat)
    (h : read_handle s (.slot a i j) = some x) :
    read_handle (write_handle s (.slot a i j) y) (.slot a i j) = some y := by
  rw [read_handle_slot] at h
  cases hv : load s a with
  | none => rw [hv] at h; cases h
  | some v =>
    rw [hv] at h
    simp only at h
    cases hm : v.members[i]? with
    | none => rw [hm] at h; cases h
    | some m =>
      rw [hm] at h
      simp only at h
      obtain ⟨hv1, hv2⟩ := load_eq_some.1 hv
      have hli : i < v.members.length := (List.getElem?_eq_some.1 hm).1
      have hlj : j < m.length := (List.getElem?_eq_some.1 h).1
      have hget := write_slot_get s a i j y a
      simp only [if_true, hv1, Option.map_some'] at hget
      have hload : load (write_handle s (.slot a i j) y) a
          = some { v with members := v.members.set i ((v.members.getD i []).set j y) } :=
        load_eq_some.2 ⟨hget, hv2⟩
      have hgd : v.members.getD i [] = m := by
        rw [List.getD_eq_getElem?_getD, hm]; rfl
      rw [hgd] at hload
      rw [read_handle_slot, hload]
      simp only [List.getElem?_set, hli, hlj, if_true]

theorem read_write_self (s : State) (l : Loc) (x y : Option Nat)
    (h : read_handle s l = some x) : read_handle (write_handle s l y) l = some y := by
  cases l with
  | root i => exact read_write_root_self s i x y h
  | slot a i j => exact read_write_slot_self s a i j x y h

theorem read_write_other (s : State) (l k : Loc) (y : Option Nat) (hne : l ≠ k) :
    read_handle (write_handle s l y) k = read_handle s k := by
  cases l with
  | root i =>
    cases k with
    | root i2 =>
      have : i ≠ i2 := fun h => hne (by rw [h])
      rw [read_handle_root, read_handle_root, write_root_roots]
      simp [List.getElem?_set, this]
    | slot a2 i2 j2 => rfl
  | slot a i j =>
    cases k with
    | root i2 =>
      rw [read_handle_root, read_handle_root, write_slot_roots]
    | slot a2 i2 j2 =>
      rw [read_handle_slot, read_handle_slot]
      unfold load
      rw [write_slot_get]
      by_cases ha : a = a2
      · subst ha
        simp only [if_true]
        cases hv : s.heap[a]? with
        | none => rfl
        | some v =>
          simp only [Option.map_some']
          by_cases hf : v.freed = true
          · simp [hf]
          · simp only [hf, if_false]
            by_cases hi : i = i2
            · subst hi
              have hj : j ≠ j2 := fun h => hne (by rw [h])
              by_cases hli : i < v.members.length
              · have hgd : v.members.getD i [] = v.members[i] := by
                  rw [List.getD_eq_getElem?_getD, List.getElem?_eq_getElem hli]; rfl
                simp [List.getElem?_set, hli, hgd, hj, List.getElem?_eq_getElem hli]
              · have hnone : v.members[i]? = none := List.getElem?_eq_none (by omega)
                simp [List.getElem?_set, hli, hnone]
            · simp [List.getElem?_set, hi]
      · simp [ha]

/-! ### Counting handles under handle writes -/

theorem liveSlots_congr {s t : State} (h : t.heap = s.heap) : liveSlots t = liveSlots s := by
  rw [liveSlots_eq, liveSlots_eq, h]

theorem mem_handles_of_read {s : State} {l : Loc} {x : Option Nat}
    (h : read_handle s l = some x) : x ∈ s.roots ++ liveSlots s := by
  cases l with
  | root i =>
    rw [read_handle_root] at h
    exact List.mem_append_left _ (List.getElem?_mem h)
  | slot a i j =>
    rw [read_handle_slot] at h
    cases hv : load s a with
    | none => rw [hv] at h; cases h
    | some v =>
      rw [hv] at h
      simp only at h
      cases hm : v.members[i]? with
      | none => rw [hm] at h; cases h
      | some m =>
        rw [hm] at h
        simp only at h
        apply List.mem_append_right
        rw [mem_liveSlots]
        refine ⟨a, ?_⟩
        rw [slotsAt_of_load hv]
        unfold Value.slots
        rw [List.mem_flatten]
        exact ⟨m, List.getElem?_mem hm, List.getElem?_mem h⟩

theorem count_flatten_set (x : Option Nat) (L : List (List (Option Nat))) (i : Nat)
    (m m2 : List (Option Nat)) (h : L[i]? = some m) :
    (L.set i m2).flatten.count x + m.count x = L.flatten.count x + m2.count x := by
  have := count_flatMap_set (id : List (Option Nat) → List (Option Nat)) x L i m m2 h
  rw [List.flatMap_id, List.flatMap_id] at this
  exact this

/-- Writing a handle changes the number of holders of a record by what the slot held and
what it holds now. -/
theorem holders_write {s : State} {l : Loc} {x : Option Nat} (h : read_handle s l = some x)
    (y : Option Nat) (b : Nat) :
    holders (write_handle s l y) b + (if x = some b then 1 else 0)
      = holders s b + (if y = some b then 1 else 0) := by
  unfold holders
  rw [List.count_append, List.count_append]
  cases l with
  | root i =>
    rw [read_handle_root] at h
    rw [write_root_roots, liveSlots_congr (write_root_heap s i y)]
    have := count_set_root s.roots i x y (some b) h
    omega
  | slot a i j =>
    rw [read_handle_slot] at h
    cases hv : load s a with
    | none => rw [hv] at h; cases h
    | some v =>
      rw [hv] at h
      simp only at h
      cases hm : v.members[i]? with
      | none => rw [hm] at h; cases h
      | some m =>
        rw [hm] at h
        simp only at h
        obtain ⟨hv1, hv2⟩ := load_eq_some.1 hv
        have hgd : v.members.getD i [] = m := by
          rw [List.getD_eq_getElem?_getD, hm]; rfl
        have hw : write_handle s (.slot a i j) y
            = store s a { v with members := v.members.set i (m.set j y) } := by
          rw [write_handle_slot, hv1]
          simp only
          rw [hgd]
        rw [write_slot_roots, hw, liveSlots_eq, liveSlots_eq]
        have e1 := count_flatMap_set (fun v : Value => if v.freed then [] else v.slots) (some b)
          s.heap a v { v with members := v.members.set i (m.set j y) } hv1
        simp only [hv2, Bool.false_eq_true, if_false, Value.slots] at e1
        have e2 := count_flatten_set (some b) v.members i m (m.set j y) hm
        have e3 := count_set_root m j x y (some b) h
        have e0 : (store s a { v with members := v.members.set i (m.set j y) }).heap
            = s.heap.set a { v with members := v.members.set i (m.set j y) } := rfl
        rw [e0]
        simp only [Value.slots, hv2]
        omega

theorem write_load_some {s : State} (l : Loc) (y : Option Nat) {b : Nat} {v : Value}
    (h : load s b = some v) :
    ∃ w, load (write_handle s l y) b = some w ∧ w.ref_count = v.ref_count ∧
      w.destroyed = v.destroyed := by
  cases l with
  | root i => exact ⟨v, h, rfl, rfl⟩
  | slot a i j =>
    obtain ⟨h1, h2⟩ := load_eq_some.1 h
    by_cases hab : a = b
    · subst hab
      refine ⟨{ v with members := v.members.set i ((v.members.getD i []).set j y) }, ?_, rfl, rfl⟩
      rw [load_eq_some]
      refine ⟨?_, h2⟩
      rw [write_slot_get]; simp [h1]
    · refine ⟨v, ?_, rfl, rfl⟩
      rw [load_eq_some]
      refine ⟨?_, h2⟩
      rw [write_slot_get]; simp [hab, h1]

theorem write_load_back {s : State} (l : Loc) (y : Option Nat) {b : Nat} {w : Value}
    (h : load (write_handle s l y) b = some w) :
    ∃ v, load s b = some v ∧ w.ref_count = v.ref_count ∧ w.destroyed = v.destroyed := by
  cases l with
  | root i => exact ⟨w, h, rfl, rfl⟩
  | slot a i j =>
    obtain ⟨h1, h2⟩ := load_eq_some.1 h
    rw [write_slot_get] at h1
    by_cases hab : a = b
    · subst hab
      simp only [if_true] at h1
      cases hv : s.heap[a]? with
      | none => rw [hv] at h1; simp at h1
      | some v =>
        rw [hv] at h1
        simp only [Option.map_some', Option.some.injEq] at h1
        subst h1
        exact ⟨v, load_eq_some.2 ⟨hv, h2⟩, rfl, rfl⟩
    · simp only [hab, if_false] at h1
      exact ⟨w, load_eq_some.2 ⟨h1, h2⟩, rfl, rfl⟩

/-- Well-formedness passes to a state with the same registry, the same allocated
addresses with the same counts and destructor runs, and the same holder numbers. -/
theorem wellFormed_transfer {s t : State} (hwf : WellFormed s)
    (hreg : t.registry = s.registry)
    (hback : ∀ b w, load t b = some w →
      ∃ v, load s b = some v ∧ w.ref_count = v.ref_count ∧ w.destroyed = v.destroyed)
    (hforth : ∀ b v, load s b = some v → ∃ w, load t b = some w)
    (hh : ∀ b, holders t b = holders s b) : WellFormed t := by
  refine ⟨hreg ▸ hwf.nodup, ?_, ?_, ?_, ?_, ?_⟩
  · intro a ha
    rw [hreg] at ha
    obtain ⟨v, hv⟩ := hwf.linked a ha
    exact hforth a v hv
  · intro a w hw
    obtain ⟨v, hv, _, hd⟩ := hback a w hw
    rw [hd]; exact hwf.fresh a v hv
  · intro a ha
    have h1 : 0 < holders t a := List.count_pos_iff.2 ha
    rw [hh] at h1
    obtain ⟨v, hv⟩ := hwf.closed a (List.count_pos_iff.1 h1)
    exact hforth a v hv
  · intro a w hw
    obtain ⟨v, hv, hr, _⟩ := hback a w hw
    rw [hr, hh]; exact hwf.exact a v hv
  · intro a w hw
    obtain ⟨v, hv, hr, _⟩ := hback a w hw
    rw [hr]; exact hwf.word a v hv

/-! ### Handle operations keep the heap well formed -/

theorem holders_with_roots (s : State) (r : List (Option Nat)) (b : Nat) :
    holders { s with roots := r } b = r.count (some b) + (liveSlots s).count (some b) := by
  unfold holders
  rw [List.count_append, liveSlots_congr (t := { s with roots := r }) (s := s) rfl]

theorem holders_eq (s : State) (b : Nat) :
    holders s b = s.roots.count (some b) + (liveSlots s).count (some b) := by
  unfold holders
  rw [List.count_append]

theorem count_snoc (r : List (Option Nat)) (x : Option Nat) (b : Nat) :
    (r ++ [x]).count (some b) = r.count (some b) + if x = some b then 1 else 0 := by
  rw [List.count_append]
  cases x with
  | none => simp
  | some t =>
    have := count_snoc_some [] t b
    simp only [List.nil_append, List.count_nil, Nat.zero_add] at this
    rw [this]
    by_cases h : b = t
    · subst h; simp
    · have : ¬ t = b := fun h2 => h h2.symm
      simp [h, this]

/-- `Ptr(Value*)`: binding a new external handle to an allocated record (or to null)
keeps the heap well formed, provided the count does not overflow. -/
theorem bind_wellFormed (s : State) (x : Option Nat) (hwf : WellFormed s)
    (hx : ∀ a, x = some a → (∃ v, load s a = some v) ∧ holders s a + 1 < WORD) :
    ∃ s1, Ptr_bind s x = .ok s1 ∧ WellFormed s1 ∧ s1.roots = s.roots ++ [x] ∧
      s1.registry = s.registry ∧
      ∀ b, rcOf s1 b = rcOf s b + if x = some b then 1 else 0 := by
  cases x with
  | none =>
    refine ⟨{ s with roots := s.roots ++ [none] }, rfl, ?_, rfl, rfl, fun b => by simp; rfl⟩
    refine wellFormed_transfer (s := s) (t := { s with roots := s.roots ++ [none] }) hwf rfl
      ?_ ?_ ?_
    · intro b w hw
      exact ⟨w, hw, rfl, rfl⟩
    · intro b v hv
      exact ⟨v, hv⟩
    · intro b
      rw [holders_with_roots, holders_eq, count_snoc]
      simp
  | some a =>
    obtain ⟨⟨v, hv⟩, hov⟩ := hx a rfl
    have hrc := hwf.exact a v hv
    have hmod : (v.ref_count + 1) % WORD = v.ref_count + 1 :=
      Nat.mod_eq_of_lt (by rw [hrc]; exact hov)
    have hget := (load_eq_some.1 hv).1
    have hsh : SameShape s (store s a { v with ref_count := v.ref_count + 1 }) :=
      sameShape_store hget _
    have hrcs : ∀ b, rcOf (store s a { v with ref_count := v.ref_count + 1 }) b
        = rcOf s b + if some a = some b then 1 else 0 := by
      intro b
      by_cases hab : a = b
      · subst hab
        rw [rcOf_store_self hget, rcOf_of_load hv]; simp
      · rw [rcOf_store_other _ hab]; simp [hab]
    have hok : Ptr_bind s (some a) = .ok
        { store s a { v with ref_count := v.ref_count + 1 } with roots := s.roots ++ [some a] } := by
      simp [Ptr_bind, increase, hv, hmod]
      rfl
    have hhold : ∀ b, holders
        { store s a { v with ref_count := v.ref_count + 1 } with roots := s.roots ++ [some a] } b
        = holders s b + if some a = some b then 1 else 0 := by
      intro b
      rw [holders_with_roots, holders_eq, count_snoc, hsh.live_eq]
      omega
    refine ⟨_, hok, ?_, rfl, rfl, hrcs⟩
    refine ⟨hwf.nodup, ?_, ?_, ?_, ?_, ?_⟩
    · intro b hb
      obtain ⟨w, hw⟩ := hwf.linked b hb
      exact ⟨_, hsh.load_eq hw⟩
    · intro b w hw
      obtain ⟨u, hu⟩ := (hsh.load_isSome b).1 ⟨w, hw⟩
      have := hsh.load_eq hu
      have hw2 : load (store s a { v with ref_count := v.ref_count + 1 }) b = some w := hw
      rw [this] at hw2
      simp only [Option.some.injEq] at hw2
      subst hw2
      exact hwf.fresh b u hu
    · intro b hb
      have h1 := List.count_pos_iff.2 hb
      have h2 : 0 < holders
          { store s a { v with ref_count := v.ref_count + 1 } with roots := s.roots ++ [some a] }
          b := h1
      rw [hhold] at h2
      by_cases hab : a = b
      · subst hab
        exact ⟨_, hsh.load_eq hv⟩
      · simp only [Option.some.injEq, hab, if_false, Nat.add_zero] at h2
        obtain ⟨u, hu⟩ := hwf.closed b (List.count_pos_iff.1 h2)
        exact ⟨_, hsh.load_eq hu⟩
    · intro b w hw
      obtain ⟨u, hu⟩ := (hsh.load_isSome b).1 ⟨w, hw⟩
      have := hsh.load_eq hu
      have hw2 : load (store s a { v with ref_count := v.ref_count + 1 }) b = some w := hw
      rw [this] at hw2
      simp only [Option.some.injEq] at hw2
      subst hw2
      rw [hhold]
      simp only
      rw [hrcs, rcOf_of_load hu, hwf.exact b u hu]
    · intro b w hw
      obtain ⟨u, hu⟩ := (hsh.load_isSome b).1 ⟨w, hw⟩
      have := hsh.load_eq hu
      have hw2 : load (store s a { v with ref_count := v.ref_count + 1 }) b = some w := hw
      rw [this] at hw2
      simp only [Option.some.injEq] at hw2
      subst hw2
      simp only
      rw [hrcs, rcOf_of_load hu]
      by_cases hab : a = b
      · subst hab
        rw [hv] at hu
        simp only [Option.some.injEq] at hu
        subst hu
        simp only [if_true]
        rw [hrc]; exact hov
      · simp only [Option.some.injEq, hab, if_false, Nat.add_zero]
        exact hwf.word b u hu

/-- `Ptr(Ptr&&)`: the new external handle takes over what the source held, the source
becomes null, and the heap stays well formed. -/
theorem move_wellFormed (s : State) (o : Loc) (x : Option Nat) (hwf : WellFormed s)
    (ho : read_handle s o = some x) :
    ∃ s1, Ptr_move s o = .ok s1 ∧ WellFormed s1 ∧ (∀ b, rcOf s1 b = rcOf s b) ∧
      read_handle s1 (.root s.roots.length) = some x ∧ read_handle s1 o = some none := by
  have hok : Ptr_move s o = .ok
      { write_handle s o none with roots := (write_handle s o none).roots ++ [x] } := by
    simp [Ptr_move, ho]
  refine ⟨_, hok, ?_, ?_, ?_, ?_⟩
  · refine wellFormed_transfer (s := s)
      (t := { write_handle s o none with roots := (write_handle s o none).roots ++ [x] })
      hwf (write_registry s o none) ?_ ?_ ?_
    · intro b w hw
      exact write_load_back o none hw
    · intro b v hv
      obtain ⟨w, hw, _⟩ := write_load_some o none hv
      exact ⟨w, hw⟩
    · intro b
      rw [holders_with_roots, count_snoc]
      have h1 := holders_write ho none b
      have h2 := holders_eq (write_handle s o none) b
      have hn : ¬ (none : Option Nat) = some b := by simp
      simp only [hn, if_false, Nat.add_zero] at h1
      omega
  · intro b
    exact write_rcOf s o none b
  · rw [read_handle_root]
    show ((write_handle s o none).roots ++ [x])[s.roots.length]? = some x
    have hlen : (write_handle s o none).roots.length = s.roots.length := by
      cases o with
      | root i => rw [write_root_roots]; simp
      | slot a i j => rw [write_slot_roots]
    rw [List.getElem?_append_right (by omega), hlen]
    simp
  · have h1 := read_write_self s o x none ho
    cases o with
    | root i =>
      rw [read_handle_root] at h1 ⊢
      show ((write_handle s (.root i) none).roots ++ [x])[i]? = some none
      have hlt : i < (write_handle s (.root i) none).roots.length :=
        (List.getElem?_eq_some.1 h1).1
      rw [List.getElem?_append_left hlt]
      exact h1
    | slot a i j => exact h1

/-- `Ptr::operator=(Ptr&&)`: target and source exchange what they hold, no count changes,
and the heap stays well formed. -/
theorem move_assign_wellFormed (s : State) (t o : Loc) (x y : Option Nat) (hwf : WellFormed s)
    (ht : read_handle s t = some x) (ho : read_handle s o = some y) :
    ∃ s1, Ptr_move_assign s t o = .ok s1 ∧ WellFormed s1 ∧ (∀ b, rcOf s1 b = rcOf s b) ∧
      read_handle s1 t = some y ∧ read_handle s1 o = some x := by
  have hok : Ptr_move_assign s t o = .ok (write_handle (write_handle s t y) o x) := by
    simp [Ptr_move_assign, ht, ho]
  have ho1 : read_handle (write_handle s t y) o = some y := by
    by_cases hto : t = o
    · subst hto; exact read_write_self s t x y ht
    · rw [read_write_other s t o y hto]; exact ho
  refine ⟨_, hok, ?_, ?_, ?_, ?_⟩
  · apply wellFormed_transfer hwf
    · rw [write_registry, write_registry]
    · intro b w hw
      obtain ⟨u, hu, h1, h2⟩ := write_load_back o x hw
      obtain ⟨v, hv, h3, h4⟩ := write_load_back t y hu
      exact ⟨v, hv, h1.trans h3, h2.trans h4⟩
    · intro b v hv
      obtain ⟨u, hu, _⟩ := write_load_some t y hv
      obtain ⟨w, hw, _⟩ := write_load_some o x hu
      exact ⟨w, hw⟩
    · intro b
      have h1 := holders_write ht y b
      have h2 := holders_write ho1 x b
      omega
  · intro b
    rw [write_rcOf, write_rcOf]
  · by_cases hto : t = o
    · subst hto
      have hxy : x = y := by
        rw [ht] at ho
        simpa using ho
      rw [read_write_self _ t y x ho1, hxy]
    · rw [read_write_other _ o t x (Ne.symm hto)]
      exact read_write_self s t x y ht
  · exact read_write_self _ o y x ho1

/-! ### Destroying an external handle -/

theorem intact_of_load {s : State} (hwf : WellFormed s) {a : Nat} {v : Value}
    (hv : load s a = some v) : intact v = true :=
  intact_iff.2 ⟨(load_eq_some.1 hv).2, hwf.fresh a v hv⟩

theorem count_singleton (x : Option Nat) (b : Nat) :
    [x].count (some b) = if x = some b then 1 else 0 := by
  have := count_snoc [] x b
  simpa using this

theorem mem_of_mem_set_none {l : List (Option Nat)} {i : Nat} {b : Nat}
    (h : some b ∈ l.set i none) : some b ∈ l := by
  rcases List.mem_or_eq_of_mem_set h with h1 | h1
  · exact h1
  · cases h1

/-- A well-formed state satisfies the cascade invariant, with one external handle taken
out of the list of handles and put on the list of handles to drop. -/
theorem cascading_of_wellFormed {s : State} (hwf : WellFormed s) {i : Nat} {x : Option Nat}
    (hi : s.roots[i]? = some x) : Cascading (s.roots.set i none) [x] s := by
  have hIS := intactSlots_eq_liveSlots s hwf.fresh
  refine ⟨?_, ?_⟩
  · intro a v hv hiv
    have hload := load_of_intact hv hiv
    have hex := hwf.exact a v hload
    have hwd := hwf.word a v hload
    refine ⟨?_, hwd⟩
    rw [hex, holders_eq, hIS, List.count_append, List.count_append, count_singleton]
    have := count_set_root s.roots i x none (some a) hi
    have hn : ¬ (none : Option Nat) = some a := by simp
    simp only [hn, if_false, Nat.add_zero] at this
    omega
  · intro b hb
    have hb2 : some b ∈ s.roots ++ liveSlots s := by
      rw [hIS] at hb
      simp only [List.mem_append, List.mem_singleton] at hb ⊢
      rcases hb with h1 | h1 | h1
      · exact Or.inl (mem_of_mem_set_none h1)
      · exact Or.inr h1
      · exact Or.inl (h1 ▸ List.getElem?_mem hi)
    obtain ⟨v, hv⟩ := hwf.closed b hb2
    exact ⟨v, (load_eq_some.1 hv).1, intact_of_load hwf hv⟩

/-- After a cascade that started in a well-formed state every allocated record is
intact. -/
theorem intact_after {s s1 : State} (hwf : WellFormed s) (hst : Step s s1) {b : Nat} {w : Value}
    (hw : load s1 b = some w) : intact w = true := by
  obtain ⟨hw1, hw2⟩ := load_eq_some.1 hw
  obtain ⟨v, hv⟩ := heap_get_of_length hst.length hw1
  by_cases hiv : intact v = true
  · obtain ⟨r, h1 | h1⟩ := hst.live b v hv hiv
    · rw [hw1] at h1
      simp only [Option.some.injEq] at h1
      subst h1
      exact hiv
    · rw [hw1] at h1
      simp only [Option.some.injEq] at h1
      subst h1
      cases hw2
  · have hi2 : intact v = false := by simpa using hiv
    have := hst.dead b v hv hi2
    rw [hw1] at this
    simp only [Option.some.injEq] at this
    subst this
    have := intact_of_load hwf (load_eq_some.2 ⟨hv, hw2⟩)
    rw [this] at hi2
    cases hi2

/-- The state a finished cascade leaves, with the remaining external handles, is well
formed. -/
theorem wellFormed_after {s s1 : State} {R L : List (Option Nat)} (hwf : WellFormed s)
    (hc : Cascaded R [] L s s1) : WellFormed { s1 with roots := R } := by
  have hfresh : ∀ a v, load s1 a = some v → v.destroyed = 0 :=
    fun a v hv => (intact_iff.1 (intact_after hwf hc.step hv)).2
  have hIS := intactSlots_eq_liveSlots s1 hfresh
  have hhold : ∀ b, holders { s1 with roots := R } b
      = (R ++ (intactSlots s1 ++ [])).count (some b) := by
    intro b
    rw [holders_with_roots, hIS]
    simp [List.count_append]
  refine ⟨hwf.nodup.sublist hc.step.sub, ?_, hfresh, ?_, ?_, ?_⟩
  · intro a ha
    obtain ⟨v, hv⟩ := hwf.linked a (hc.step.sub.subset ha)
    obtain ⟨r, h1 | h1⟩ := hc.step.live a v (load_eq_some.1 hv).1 (intact_of_load hwf hv)
    · exact ⟨_, load_eq_some.2 ⟨h1, (load_eq_some.1 hv).2⟩⟩
    · exfalso
      exact hc.step.gone hwf.nodup a
        ⟨⟨v, (load_eq_some.1 hv).1, intact_of_load hwf hv⟩, _, h1, rfl⟩ ha
  · intro a ha
    have h1 : 0 < holders { s1 with roots := R } a := List.count_pos_iff.2 ha
    rw [hhold] at h1
    obtain ⟨v, hv, hiv⟩ := hc.inv.closed a (List.count_pos_iff.1 h1)
    exact ⟨v, load_of_intact hv hiv⟩
  · intro a v hv
    have hv2 : load s1 a = some v := hv
    rw [hhold]
    exact (hc.inv.exact a v (load_eq_some.1 hv2).1 (intact_after hwf hc.step hv2)).1
  · intro a v hv
    have hv2 : load s1 a = some v := hv
    exact (hc.inv.exact a v (load_eq_some.1 hv2).1 (intact_after hwf hc.step hv2)).2

theorem intactCount_le (s : State) : intactCount s ≤ s.heap.length :=
  List.countP_le_length _

/-- `Ptr::~Ptr` on an external handle of a well-formed heap: with fuel above the heap size
the call returns and the heap is well formed again. -/
theorem destroy_cascade (s : State) (i : Nat) (x : Option Nat) (fuel : Nat)
    (hwf : WellFormed s) (hi : s.roots[i]? = some x) (hfuel : s.heap.length < fuel) :
    ∃ s1, decrease fuel s x = .ok s1 ∧
      Ptr_destroy fuel s i = .ok { s1 with roots := s.roots.set i none } ∧
      Cascaded (s.roots.set i none) [] [x] s s1 ∧
      WellFormed { s1 with roots := s.roots.set i none } := by
  obtain ⟨s1, h1, hc⟩ := decrease_cascade fuel s (s.roots.set i none) [] x
    (cascading_of_wellFormed hwf hi) (lt_of_le_of_lt (intactCount_le s) hfuel)
  refine ⟨s1, h1, ?_, hc, wellFormed_after hwf hc⟩
  simp only [Ptr_destroy, hi, h1, hc.step.roots]

/-- `Ptr::decrease` on the only handle of a record: if the call returns, the record has
been released. -/
theorem decrease_last {n : Nat} {s s1 : State} {a : Nat} {v : Value} (hv : load s a = some v)
    (hr : v.ref_count = 1) (h : decrease n s (some a) = .ok s1) : Freed s1 a := by
  cases n with
  | zero => simp [decrease] at h
  | succ n =>
    have hmod : (v.ref_count + WORD - 1) % WORD = 0 := by rw [hr, WORD_eq]
    simp only [decrease, hv, hmod, lt_irrefl, if_false] at h
    cases hd : destroy (decrease n) (remove a (store s a { v with ref_count := 0 })) a with
    | fault e => rw [hd] at h; cases h
    | ok s2 =>
      rw [hd] at h
      simp only [free] at h
      cases hv2 : load s2 a with
      | none => rw [hv2] at h; cases h
      | some v2 =>
        rw [hv2] at h
        simp only [Outcome.ok.injEq] at h
        subst h
        refine ⟨{ v2 with freed := true }, ?_, rfl⟩
        rw [store_heap_get]
        simp [load_lt hv2]

/-! ### Acyclic heaps -/

/-- In a well-formed acyclic heap whose records are all held, every allocated record is
reachable from an external handle. -/
theorem reachable_of_held_acyclic {s : State} (hwf : WellFormed s) (hheld : Held s)
    (hacy : Acyclic s) : ∀ b v, load s b = some v → Reachable s b := by
  have htrans : IsTrans (Fin s.heap.length)
      (fun x y => Relation.TransGen (Edge s) x.val y.val) :=
    ⟨fun _ _ _ h1 h2 => Relation.TransGen.trans h1 h2⟩
  have hirr : IsIrrefl (Fin s.heap.length)
      (fun x y => Relation.TransGen (Edge s) x.val y.val) :=
    ⟨fun x h => hacy x.val h⟩
  have hwfr : WellFounded (fun x y : Fin s.heap.length =>
      Relation.TransGen (Edge s) x.val y.val) :=
    Finite.wellFounded_of_trans_of_irrefl _
  have key : ∀ x : Fin s.heap.length, ∀ v, load s x.val = some v → Reachable s x.val := by
    intro x
    induction x using hwfr.induction with
    | _ x ih =>
      intro v hv
      have hpos := hheld x.val v hv
      rw [hwf.exact x.val v hv] at hpos
      have hmem : some x.val ∈ s.roots ++ liveSlots s := List.count_pos_iff.1 hpos
      rcases List.mem_append.1 hmem with h | h
      · exact reachable_root h
      · obtain ⟨c, hc⟩ := mem_liveSlots.1 h
        cases hvc : load s c with
        | none => simp [slotsAt, hvc] at hc
        | some vc =>
          have hlt := load_lt hvc
          exact reachable_step (ih ⟨c, hlt⟩ (Relation.TransGen.single hc) vc hvc) hc
  intro b v hv
  exact key ⟨b, load_lt hv⟩ v hv

theorem acyclic_of_increasing {s : State} (h : ∀ a b, Edge s a b → a < b) : Acyclic s := by
  intro a hcyc
  have : ∀ x y, Relation.TransGen (Edge s) x y → x < y := by
    intro x y hxy
    induction hxy with
    | single he => exact h _ _ he
    | tail _ he ih => exact lt_trans ih (h _ _ he)
  exact lt_irrefl a (this a a hcyc)

/-- C6.  In a well-formed acyclic heap whose records are all held, destroying the external
handle that is the last handle of record `a` returns without any call of `collect`, with
`a` released and off the registry; the records released by the call are exactly those
that were reachable from the external handles and are not reachable from the remaining
ones; the registry keeps exactly its other records, and the heap is well formed again, so
every remaining count is exact. -/
theorem drop_last_handle_acyclic (s : State) (i a fuel : Nat) (hwf : WellFormed s)
    (hacy : Acyclic s) (hheld : Held s) (hi : s.roots[i]? = some (some a))
    (hlast : rcOf s a = 1) (hreg : a ∈ s.registry) (hfuel : s.heap.length < fuel) :
    ∃ s1, Ptr_destroy fuel s i = .ok s1 ∧ Freed s1 a ∧ a ∉ s1.registry ∧
      (∀ b, (Freed s1 b ∧ ¬ Freed s b) ↔
        (Reachable s b ∧ ¬ Reachable { s with roots := s.roots.set i none } b)) ∧
      (∀ b, b ∈ s1.registry ↔ (b ∈ s.registry ∧ ¬ Freed s1 b)) ∧
      WellFormed s1 ∧ Exact s1 := by
  obtain ⟨s2, hdec, hok, hc, hwf1⟩ := destroy_cascade s i (some a) fuel hwf hi hfuel
  obtain ⟨va, hva⟩ := hwf.linked a hreg
  have hfa : Freed s2 a := decrease_last hva (by rw [← rcOf_of_load hva]; exact hlast) hdec
  have hdied_iff : ∀ b, (Freed s2 b ∧ ¬ Freed s b) ↔ Died s s2 b := by
    intro b
    constructor
    · rintro ⟨h1, h2⟩
      rcases hc.step.freed_cases h1 with h | h
      · exact absurd h h2
      · exact h
    · rintro ⟨⟨v, hv, hiv⟩, hf⟩
      exact ⟨hf, not_freed_of_load (load_of_intact hv hiv)⟩
  have hda : Died s s2 a := (hdied_iff a).1 ⟨hfa, not_freed_of_load hva⟩
  have hloaded : ∀ c, Reachable { s with roots := s.roots.set i none } c →
      ∃ w, load s2 c = some w := by
    intro c hcr
    refine reachable_induction (s := { s with roots := s.roots.set i none })
      (fun c => ∃ w, load s2 c = some w) ?_ ?_ hcr
    · intro r hr
      exact hwf1.closed r (List.mem_append_left _ hr)
    · rintro x y ⟨w, hw⟩ hxy
      have hiw := intact_after hwf hc.step hw
      obtain ⟨v, hv, hiv, hwv⟩ := hc.step.intact_back (load_eq_some.1 hw).1 hiw
      have hxy2 : Edge s x y := hxy
      have hsl : slotsAt s2 x = slotsAt s x := by
        rw [slotsAt_of_load hw, slotsAt_of_load (load_of_intact hv hiv), hwv]
        rfl
      apply hwf1.closed y
      apply List.mem_append_right
      rw [liveSlots_congr (t := { s2 with roots := s.roots.set i none }) (s := s2) rfl,
        mem_liveSlots]
      exact ⟨x, by rw [hsl]; exact hxy2⟩
  refine ⟨_, hok, hfa, hc.step.gone hwf.nodup a hda, ?_, ?_, hwf1, hwf1.exact⟩
  · intro b
    show (Freed s2 b ∧ ¬ Freed s b) ↔ _
    rw [hdied_iff]
    constructor
    · intro hd
      obtain ⟨t, ht, hp⟩ := hc.origin b hd
      simp only [List.mem_singleton, Option.some.injEq] at ht
      subst ht
      refine ⟨⟨t, List.getElem?_mem hi, hp⟩, fun hr => ?_⟩
      obtain ⟨w, hw⟩ := hloaded b hr
      exact not_freed_of_load hw hd.2
    · rintro ⟨hr, hnr⟩
      by_contra hnd
      obtain ⟨v, hv⟩ := reachable_loaded hwf hr
      obtain ⟨r, h1 | h1⟩ := hc.step.live b v (load_eq_some.1 hv).1 (intact_of_load hwf hv)
      · have hload2 : load { s2 with roots := s.roots.set i none } b
            = some { v with ref_count := r } :=
          load_eq_some.2 ⟨h1, (load_eq_some.1 hv).2⟩
        have hheld1 : Held { s2 with roots := s.roots.set i none } := by
          intro c w hw
          have hw2 : load s2 c = some w := hw
          refine hc.held ?_ c w (load_eq_some.1 hw2).1 (intact_after hwf hc.step hw2)
          intro d u hu hiu
          exact hheld d u (load_of_intact hu hiu)
        have hedge : ∀ c d, Edge { s2 with roots := s.roots.set i none } c d → Edge s c d :=
          fun c d he => hc.step.edge he
        have hacy1 : Acyclic { s2 with roots := s.roots.set i none } := by
          intro c hcyc
          exact hacy c (Relation.TransGen.mono hedge hcyc)
        obtain ⟨r0, hr0, hp0⟩ := reachable_of_held_acyclic hwf1 hheld1 hacy1 b _ hload2
        exact hnr ⟨r0, hr0, Relation.ReflTransGen.mono hedge hp0⟩
      · exact hnd ⟨⟨v, (load_eq_some.1 hv).1, intact_of_load hwf hv⟩, _, h1, rfl⟩
  · intro b
    show b ∈ s2.registry ↔ (b ∈ s.registry ∧ ¬ Freed s2 b)
    constructor
    · intro hb
      obtain ⟨w, hw⟩ := hwf1.linked b hb
      exact ⟨hc.step.sub.subset hb, not_freed_of_load (s := s2) hw⟩
    · rintro ⟨hb, hnf⟩
      exact hc.step.kept b hb (fun hd => hnf hd.2)

/-! ### Handle operations: the claims -/

theorem heapShared_acyclic : Acyclic heapShared := by
  apply acyclic_of_increasing
  intro a b he
  have ha : a < 3 := by
    by_contra hge
    have : load heapShared a = none := by
      unfold load
      rw [List.getElem?_eq_none (by simp [heapShared]; omega)]
    simp [Edge, slotsAt, this] at he
  interval_cases a <;> simp [Edge, slotsAt, load, heapShared, Value.slots] at he <;> omega

theorem heapShared_held : Held heapShared := by
  intro a v hv
  have ha : a < 3 := load_lt hv
  interval_cases a <;> simp [load, heapShared] at hv <;> subst hv <;> decide

/-- Witness of `drop_last_handle_acyclic`: dropping external handle number 0 of
`heapShared`, the only handle of record `0`. -/
theorem drop_last_handle_acyclic_witness :
    ∃ s1, Ptr_destroy 4 heapShared 0 = .ok s1 ∧ Freed s1 0 ∧ 0 ∉ s1.registry ∧
      (∀ b, (Freed s1 b ∧ ¬ Freed heapShared b) ↔
        (Reachable heapShared b ∧
          ¬ Reachable { heapShared with roots := heapShared.roots.set 0 none } b)) ∧
      (∀ b, b ∈ s1.registry ↔ (b ∈ heapShared.registry ∧ ¬ Freed s1 b)) ∧
      WellFormed s1 ∧ Exact s1 :=
  drop_last_handle_acyclic heapShared 0 0 4 (wellFormed_of_check _ (by decide))
    heapShared_acyclic heapShared_held (by decide) (by decide) (by decide) (by decide)

/-- `Ptr(Ptr const&)`: copying a handle into a new external handle keeps the heap well
formed, provided the count does not overflow. -/
theorem copy_wellFormed (s : State) (o : Loc) (x : Option Nat) (hwf : WellFormed s)
    (ho : read_handle s o = some x) (hov : ∀ a, x = some a → holders s a + 1 < WORD) :
    ∃ s1, Ptr_copy s o = .ok s1 ∧ WellFormed s1 := by
  obtain ⟨s1, h1, h2, _⟩ := bind_wellFormed s x hwf (fun a ha =>
    ⟨hwf.closed a (ha ▸ mem_handles_of_read ho), hov a ha⟩)
  exact ⟨s1, by simp only [Ptr_copy, ho]; exact h1, h2⟩

/-- C7.  From a well-formed state (every count exact, no dangling handle), each of
binding a new handle to a record, copy-constructing, move-constructing, move-assigning
and destroying a handle returns and leaves a well-formed state, in which every allocated
record's count is the number of live handles holding it.  Binding and copying assume
that the incremented count still fits a machine word. -/
theorem handle_ops_keep_counts (s : State) (hwf : WellFormed s) :
    (∀ x, (∀ a, x = some a → (∃ v, load s a = some v) ∧ holders s a + 1 < WORD) →
      ∃ s1, Ptr_bind s x = .ok s1 ∧ WellFormed s1 ∧ Exact s1) ∧
    (∀ o x, read_handle s o = some x → (∀ a, x = some a → holders s a + 1 < WORD) →
      ∃ s1, Ptr_copy s o = .ok s1 ∧ WellFormed s1 ∧ Exact s1) ∧
    (∀ o x, read_handle s o = some x →
      ∃ s1, Ptr_move s o = .ok s1 ∧ WellFormed s1 ∧ Exact s1) ∧
    (∀ t o x y, read_handle s t = some x → read_handle s o = some y →
      ∃ s1, Ptr_move_assign s t o = .ok s1 ∧ WellFormed s1 ∧ Exact s1) ∧
    (∀ i x fuel, s.roots[i]? = some x → s.heap.length < fuel →
      ∃ s1, Ptr_destroy fuel s i = .ok s1 ∧ WellFormed s1 ∧ Exact s1) := by
  refine ⟨?_, ?_, ?_, ?_, ?_⟩
  · intro x hx
    obtain ⟨s1, h1, h2, _⟩ := bind_wellFormed s x hwf hx
    exact ⟨s1, h1, h2, h2.exact⟩
  · intro o x ho hov
    obtain ⟨s1, h1, h2⟩ := copy_wellFormed s o x hwf ho hov
    exact ⟨s1, h1, h2, h2.exact⟩
  · intro o x ho
    obtain ⟨s1, h1, h2, _⟩ := move_wellFormed s o x hwf ho
    exact ⟨s1, h1, h2, h2.exact⟩
  · intro t o x y ht ho
    obtain ⟨s1, h1, h2, _⟩ := move_assign_wellFormed s t o x y hwf ht ho
    exact ⟨s1, h1, h2, h2.exact⟩
  · intro i x fuel hi hfuel
    obtain ⟨s1, _, h1, _, h2⟩ := destroy_cascade s i x fuel hwf hi hfuel
    exact ⟨_, h1, h2, h2.exact⟩

/-- Witness of `handle_ops_keep_counts` on `heapShared`: bind a handle to record `2`, copy
the field `next` of record `1`, move external handle 1, move-assign handle 1 to handle 0,
destroy handle 0. -/
theorem handle_ops_keep_counts_witness :
    (∃ s1, Ptr_bind heapShared (some 2) = .ok s1 ∧ WellFormed s1 ∧ Exact s1) ∧
    (∃ s1, Ptr_copy heapShared (.slot 1 0 0) = .ok s1 ∧ WellFormed s1 ∧ Exact s1) ∧
    (∃ s1, Ptr_move heapShared (.root 1) = .ok s1 ∧ WellFormed s1 ∧ Exact s1) ∧
    (∃ s1, Ptr_move_assign heapShared (.root 0) (.root 1) = .ok s1 ∧ WellFormed s1 ∧
      Exact s1) ∧
    (∃ s1, Ptr_destroy 4 heapShared 0 = .ok s1 ∧ WellFormed s1 ∧ Exact s1) := by
  have h := handle_ops_keep_counts heapShared (wellFormed_of_check _ (by decide))
  refine ⟨h.1 (some 2) ?_, h.2.1 (.slot 1 0 0) (some 2) rfl ?_, h.2.2.1 (.root 1) (some 2) rfl,
    h.2.2.2.1 (.root 0) (.root 1) (some 0) (some 2) rfl rfl, h.2.2.2.2 0 (some 0) 4 rfl (by decide)⟩
  · intro a ha
    simp only [Option.some.injEq] at ha
    subst ha
    exact ⟨⟨_, rfl⟩, by decide⟩
  · intro a ha
    simp only [Option.some.injEq] at ha
    subst ha
    decide

/-- C8, at two failing inputs.  Self-assignment `p = p` where `p` is the only handle of
its record (`heapHeld`), and the traversal step `p = p->next` where `p` is the only handle
of the record whose field is the source (`heapChain`): `decrease()` releases the record
first, and the assignment then touches released storage. -/
theorem copy_assign_touches_released :
    WellFormed heapHeld ∧
      (∀ fuel, Ptr_copy_assign (fuel + 2) heapHeld (.root 0) (.root 0)
        = .fault .use_after_free) ∧
    WellFormed heapChain ∧
      (∀ fuel, Ptr_copy_assign (fuel + 3) heapChain (.root 0) (.slot 0 0 0)
        = .fault .use_after_free) := by
  refine ⟨wellFormed_of_check _ (by decide), ?_, wellFormed_of_check _ (by decide), ?_⟩
  · intro fuel
    have hd : decrease (fuel + 2) heapHeld (some 0)
        = .ok
          { heap := [⟨0, [], 1, true⟩]
            registry := []
            unused := []
            roots := [some 0] } :=
      decrease_mono (Nat.le_add_left 2 fuel) _ _ _ (by decide) (by simp)
    have hr : read_handle heapHeld (.root 0) = some (some 0) := rfl
    simp only [Ptr_copy_assign, hr, hd]
    rfl
  · intro fuel
    have hd : decrease (fuel + 3) heapChain (some 0)
        = .ok
          { heap := [⟨0, [[some 1]], 1, true⟩, ⟨0, [[none]], 1, true⟩]
            registry := []
            unused := []
            roots := [some 0] } :=
      decrease_mono (Nat.le_add_left 3 fuel) _ _ _ (by decide) (by simp)
    have hr : read_handle heapChain (.root 0) = some (some 0) := rfl
    simp only [Ptr_copy_assign, hr, hd]
    rfl

/-- C9 fails as stated: move-assigning external handle 1 (holding record `1`) to external
handle 0 (holding record `0`) in `heapTwoHandles` leaves the moved-from handle holding
record `0`, not null. -/
theorem move_assign_source_not_null :
    WellFormed heapTwoHandles ∧
      ∃ s1, Ptr_move_assign heapTwoHandles (.root 0) (.root 1) = .ok s1 ∧
        read_handle s1 (.root 0) = some (some 1) ∧
        read_handle s1 (.root 1) = some (some 0) :=
  ⟨wellFormed_of_check _ (by decide), _, rfl, rfl, rfl⟩

/-- C9, amended.  Move-construction gives the new handle what the source held, leaves the
source null and changes no count; move-assignment exchanges what target and source hold
and changes no count, so the moved-from handle ends up holding what the target held
before (null exactly when the target was null). -/
theorem move_transfers (s : State) :
    (∀ o x, read_handle s o = some x →
      ∃ s1, Ptr_move s o = .ok s1 ∧ (∀ b, rcOf s1 b = rcOf s b) ∧
        read_handle s1 (.root s.roots.length) = some x ∧ read_handle s1 o = some none) ∧
    (∀ t o x y, read_handle s t = some x → read_handle s o = some y →
      ∃ s1, Ptr_move_assign s t o = .ok s1 ∧ (∀ b, rcOf s1 b = rcOf s b) ∧
        read_handle s1 t = some y ∧ read_handle s1 o = some x) := by
  refine ⟨?_, ?_⟩
  · intro o x ho
    have hok : Ptr_move s o = .ok
        { write_handle s o none with roots := (write_handle s o none).roots ++ [x] } := by
      simp [Ptr_move, ho]
    refine ⟨_, hok, fun b => write_rcOf s o none b, ?_, ?_⟩
    · rw [read_handle_root]
      show ((write_handle s o none).roots ++ [x])[s.roots.length]? = some x
      have hlen : (write_handle s o none).roots.length = s.roots.length := by
        cases o with
        | root i => rw [write_root_roots]; simp
        | slot a i j => rw [write_slot_roots]
      rw [List.getElem?_append_right (by omega), hlen]
      simp
    · have h1 := read_write_self s o x none ho
      cases o with
      | root i =>
        rw [read_handle_root] at h1 ⊢
        show ((write_handle s (.root i) none).roots ++ [x])[i]? = some none
        have hlt : i < (write_handle s (.root i) none).roots.length :=
          (List.getElem?_eq_some.1 h1).1
        rw [List.getElem?_append_left hlt]
        exact h1
      | slot a i j => exact h1
  · intro t o x y ht ho
    have hok : Ptr_move_assign s t o = .ok (write_handle (write_handle s t y) o x) := by
      simp [Ptr_move_assign, ht, ho]
    have ho1 : read_handle (write_handle s t y) o = some y := by
      by_cases hto : t = o
      · subst hto; exact read_write_self s t x y ht
      · rw [read_write_other s t o y hto]; exact ho
    refine ⟨_, hok, fun b => by rw [write_rcOf, write_rcOf], ?_, read_write_self _ o y x ho1⟩
    by_cases hto : t = o
    · subst hto
      have hxy : x = y := by
        rw [ht] at ho
        simpa using ho
      rw [read_write_self _ t y x ho1, hxy]
    · rw [read_write_other _ o t x (Ne.symm hto)]
      exact read_write_self s t x y ht

/-- Witness of `move_transfers` on `heapChain`: move-construct from the field `next` of
record `0`, and move-assign that field to the external handle. -/
theorem move_transfers_witness :
    (∃ s1, Ptr_move heapChain (.slot 0 0 0) = .ok s1 ∧ (∀ b, rcOf s1 b = rcOf heapChain b) ∧
        read_handle s1 (.root heapChain.roots.length) = some (some 1) ∧
        read_handle s1 (.slot 0 0 0) = some none) ∧
    (∃ s1, Ptr_move_assign heapChain (.root 0) (.slot 0 0 0) = .ok s1 ∧
        (∀ b, rcOf s1 b = rcOf heapChain b) ∧
        read_handle s1 (.root 0) = some (some 1) ∧
        read_handle s1 (.slot 0 0 0) = some (some 0)) :=
  ⟨(move_transfers heapChain).1 (.slot 0 0 0) (some 1) rfl,
    (move_transfers heapChain).2 (.root 0) (.slot 0 0 0) (some 0) (some 1) rfl rfl⟩

/-! ### Allocation -/

theorem target_of_read {s : State} {l : Loc} {x : Option Nat} (h : read_handle s l = some x) :
    target s l = x := by
  simp [target, h]

theorem write_unused (s : State) (l : Loc) (y : Option Nat) :
    (write_handle s l y).unused = s.unused := by
  cases l with
  | root i => rfl
  | slot a i j =>
    rw [write_handle_slot]
    cases s.heap[a]? <;> rfl

theorem write_others (s : State) (l : Loc) (y : Option Nat) :
    (write_handle s l y).others = s.others := by
  cases l with
  | root i => rfl
  | slot a i j =>
    rw [write_handle_slot]
    cases s.heap[a]? <;> rfl

theorem write_roots_length (s : State) (l : Loc) (y : Option Nat) :
    (write_handle s l y).roots.length = s.roots.length := by
  cases l with
  | root i => simp [write_root_roots]
  | slot a i j => rw [write_slot_roots]

theorem write_heap_other (s : State) (l : Loc) (y : Option Nat) (a : Nat)
    (h : ∀ i j, l ≠ .slot a i j) : (write_handle s l y).heap[a]? = s.heap[a]? := by
  cases l with
  | root i => rw [write_root_heap]
  | slot b i j =>
    rw [write_slot_get]
    have hne : b ≠ a := fun e => h i j (by rw [e])
    simp [hne]

/-- What moving one member out of the argument does. -/
theorem move_member_spec (ls : List Loc) :
    ∀ s : State, (∀ l ∈ ls, ∃ x, read_handle s l = some x) → ls.Nodup →
      ∃ s1, move_member s ls = some (ls.map (target s), s1) ∧
        s1.registry = s.registry ∧ s1.unused = s.unused ∧ s1.others = s.others ∧
        s1.heap.length = s.heap.length ∧ s1.roots.length = s.roots.length ∧
        (∀ b, rcOf s1 b = rcOf s b) ∧
        (∀ k, k ∉ ls → read_handle s1 k = read_handle s k) ∧
        (∀ l ∈ ls, read_handle s1 l = some none) ∧
        (∀ a, (∀ i j, Loc.slot a i j ∉ ls) → s1.heap[a]? = s.heap[a]?) := by
  induction ls with
  | nil =>
    intro s _ _
    exact ⟨s, rfl, rfl, rfl, rfl, rfl, rfl, fun _ => rfl, fun _ _ => rfl,
      fun l hl => absurd hl (List.not_mem_nil l), fun _ _ => rfl⟩
  | cons l ls ih =>
    intro s hread hnd
    obtain ⟨x, hx⟩ := hread l (List.mem_cons_self _ _)
    have hnd2 := List.nodup_cons.mp hnd
    have hother : ∀ k ∈ ls, read_handle (write_handle s l none) k = read_handle s k := by
      intro k hk
      exact read_write_other s l k none (fun e => hnd2.1 (e ▸ hk))
    obtain ⟨s1, h1, hreg, hun, hoth, hlen, hrl, hrc, hkeep, hnull, hheap⟩ :=
      ih (write_handle s l none)
        (fun k hk => by
          obtain ⟨y, hy⟩ := hread k (List.mem_cons_of_mem _ hk)
          exact ⟨y, by rw [hother k hk, hy]⟩)
        hnd2.2
    have hmap : ls.map (target (write_handle s l none)) = ls.map (target s) := by
      apply List.map_congr_left
      intro k hk
      simp only [target, hother k hk]
    refine ⟨s1, ?_, ?_, ?_, ?_, ?_, ?_, ?_, ?_, ?_, ?_⟩
    · simp only [move_member, hx, h1, hmap, List.map_cons, target_of_read hx]
    · rw [hreg, write_registry]
    · rw [hun, write_unused]
    · rw [hoth, write_others]
    · rw [hlen, write_length]
    · rw [hrl, write_roots_length]
    · intro b
      rw [hrc, write_rcOf]
    · intro k hk
      have hk2 : k ≠ l ∧ k ∉ ls := by
        constructor
        · intro e
          exact hk (e ▸ List.mem_cons_self _ _)
        · intro e
          exact hk (List.mem_cons_of_mem _ e)
      rw [hkeep k hk2.2]
      exact read_write_other s l k none (fun e => hk2.1 e.symm)
    · intro k hk
      rcases List.mem_cons.mp hk with e | hk2
      · subst e
        rw [hkeep k hnd2.1]
        exact read_write_self s k x none hx
      · exact hnull k hk2
    · intro a ha
      rw [hheap a (fun i j e => ha i j (List.mem_cons_of_mem _ e))]
      exact write_heap_other s l none a (fun i j e => ha i j (e ▸ List.mem_cons_self _ _))

/-- What moving the whole argument does. -/
theorem move_value_spec (ms : List (List Loc)) :
    ∀ s : State, (∀ l ∈ ms.flatten, ∃ x, read_handle s l = some x) → ms.flatten.Nodup →
      ∃ s1, move_value s ms = some (ms.map (fun m => m.map (target s)), s1) ∧
        s1.registry = s.registry ∧ s1.unused = s.unused ∧ s1.others = s.others ∧
        s1.heap.length = s.heap.length ∧ s1.roots.length = s.roots.length ∧
        (∀ b, rcOf s1 b = rcOf s b) ∧
        (∀ k, k ∉ ms.flatten → read_handle s1 k = read_handle s k) ∧
        (∀ l ∈ ms.flatten, read_handle s1 l = some none) ∧
        (∀ a, (∀ i j, Loc.slot a i j ∉ ms.flatten) → s1.heap[a]? = s.heap[a]?) := by
  induction ms with
  | nil =>
    intro s _ _
    exact ⟨s, rfl, rfl, rfl, rfl, rfl, rfl, fun _ => rfl, fun _ _ => rfl,
      fun l hl => absurd hl (by simp), fun _ _ => rfl⟩
  | cons m ms ih =>
    intro s hread hnd
    rw [List.flatten_cons] at hread hnd
    have hnd2 := List.nodup_append.mp hnd
    obtain ⟨s1, h1, hreg, hun, hoth, hlen, hrl, hrc, hkeep, hnull, hheap⟩ :=
      move_member_spec m s (fun l hl => hread l (List.mem_append_left _ hl)) hnd2.1
    have hdis : ∀ k ∈ ms.flatten, k ∉ m := fun k hk hm => hnd2.2.2 hm hk
    obtain ⟨s2, h2, hreg2, hun2, hoth2, hlen2, hrl2, hrc2, hkeep2, hnull2, hheap2⟩ :=
      ih s1
        (fun k hk => by
          obtain ⟨y, hy⟩ := hread k (List.mem_append_right _ hk)
          exact ⟨y, by rw [hkeep k (hdis k hk), hy]⟩)
        hnd2.2.1
    have hmap : ms.map (fun m => m.map (target s1)) = ms.map (fun m => m.map (target s)) := by
      apply List.map_congr_left
      intro m2 hm2
      apply List.map_congr_left
      intro k hk
      have hk2 : k ∈ ms.flatten := List.mem_flatten.mpr ⟨m2, hm2, hk⟩
      simp only [target, hkeep k (hdis k hk2)]
    refine ⟨s2, ?_, ?_, ?_, ?_, ?_, ?_, ?_, ?_, ?_, ?_⟩
    · simp only [move_value, h1, h2, hmap, List.map_cons]
    · rw [hreg2, hreg]
    · rw [hun2, hun]
    · rw [hoth2, hoth]
    · rw [hlen2, hlen]
    · rw [hrl2, hrl]
    · intro b
      rw [hrc2, hrc]
    · intro k hk
      rw [List.flatten_cons, List.mem_append, not_or] at hk
      rw [hkeep2 k hk.2, hkeep k hk.1]
    · intro k hk
      rw [List.flatten_cons, List.mem_append] at hk
      rcases hk with hk | hk
      · by_cases hk2 : k ∈ ms.flatten
        · exact hnull2 k hk2
        · rw [hkeep2 k hk2]
          exact hnull k hk
      · exact hnull2 k hk
    · intro a ha
      have ha2 : ∀ i j, Loc.slot a i j ∉ m ∧ Loc.slot a i j ∉ ms.flatten := by
        intro i j
        have := ha i j
        rw [List.flatten_cons, List.mem_append, not_or] at this
        exact this
      rw [hheap2 a (fun i j => (ha2 i j).2), hheap a (fun i j => (ha2 i j).1)]

theorem read_handle_extend {s t : State} (hr : t.roots = s.roots)
    (hh : ∀ b, b < s.heap.length → t.heap[b]? = s.heap[b]?) {l : Loc} {x : Option Nat}
    (h : read_handle s l = some x) : read_handle t l = some x := by
  cases l with
  | root i =>
    rw [read_handle_root] at h ⊢
    rw [hr, h]
  | slot a i j =>
    rw [read_handle_slot] at h ⊢
    cases hv : load s a with
    | none => simp [hv] at h
    | some v =>
      have hlt := load_lt hv
      have hv2 : load t a = some v := by
        rw [load_eq_some] at hv ⊢
        exact ⟨(hh a hlt).trans hv.1, hv.2⟩
      rw [hv] at h
      rw [hv2]
      exact h

theorem rcOf_append (s : State) (w : Value) (b : Nat) (hb : b ≠ s.heap.length) :
    rcOf { s with heap := s.heap ++ [w] } b = rcOf s b := by
  unfold rcOf
  show (match (s.heap ++ [w])[b]? with | some v => v.ref_count | none => 0)
    = match s.heap[b]? with | some v => v.ref_count | none => 0
  rcases Nat.lt_or_gt_of_ne hb with h | h
  · rw [List.getElem?_append_left h]
  · rw [List.getElem?_eq_none (by simp; omega), List.getElem?_eq_none (by omega)]

/-- C11. `Context::make`: when the allocator has memory and the argument's handles exist,
at pairwise distinct places, `make` returns.  The handle it returns is not null and holds
a record at an address that was not allocated before; that record has count 1, its
payload holds the handles of the argument member by member (the layout the metadata of
the type describes), and it is the last element of the registry, whose earlier elements
keep their order.  No other list changes and no other record's count changes. -/
theorem make_postcondition (s : State) (value : List (List Loc))
    (hread : ∀ l ∈ value.flatten, ∃ x, read_handle s l = some x)
    (hnd : value.flatten.Nodup) :
    ∃ s1, Context_make true value s = .ok s1 ∧
      load s s.heap.length = none ∧
      s1.roots.length = s.roots.length + 1 ∧
      read_handle s1 (.root s.roots.length) = some (some s.heap.length) ∧
      load s1 s.heap.length = some ⟨1, value.map (fun m => m.map (target s)), 0, false⟩ ∧
      s1.registry = s.registry ++ [s.heap.length] ∧
      s1.unused = s.unused ∧ s1.others = s.others ∧
      (∀ b, b ≠ s.heap.length → rcOf s1 b = rcOf s b) := by
  let a := s.heap.length
  let s1 : State := { s with heap := s.heap ++ [⟨0, [], 0, false⟩] }
  let s2 : State := store s1 a ⟨0, [], 0, false⟩
  have hs2len : s2.heap.length = a + 1 := by
    simp [s2, s1, store_length, a]
  have hs2get : ∀ b, b < s.heap.length → s2.heap[b]? = s.heap[b]? := by
    intro b hb
    have hne : a ≠ b := by simp only [a]; omega
    simp only [s2, store_heap_get, hne, if_false, s1]
    exact List.getElem?_append_left hb
  have hext : ∀ l x, read_handle s l = some x → read_handle s2 l = some x :=
    fun l x h => read_handle_extend (s := s) (t := s2) rfl hs2get h
  have htarget : ∀ l ∈ value.flatten, target s2 l = target s l := by
    intro l hl
    obtain ⟨x, hx⟩ := hread l hl
    rw [target_of_read hx, target_of_read (hext l x hx)]
  obtain ⟨s3, h3, hreg3, hun3, hoth3, hlen3, hrl3, hrc3, -, -, hheap3⟩ :=
    move_value_spec value s2
      (fun l hl => by
        obtain ⟨x, hx⟩ := hread l hl
        exact ⟨x, hext l x hx⟩)
      hnd
  have hfields : value.map (fun m => m.map (target s2)) = value.map (fun m => m.map (target s)) := by
    apply List.map_congr_left
    intro m hm
    apply List.map_congr_left
    intro l hl
    exact htarget l (List.mem_flatten.mpr ⟨m, hm, hl⟩)
  rw [hfields] at h3
  let w : Value := ⟨0, value.map (fun m => m.map (target s)), 0, false⟩
  let s4 : State := insert_before a .header (store s3 a w)
  have ha3 : a < s3.heap.length := by rw [hlen3, hs2len]; omega
  have hload4 : load s4 a = some w := by
    rw [load_eq_some]
    refine ⟨?_, rfl⟩
    show (store s3 a w).heap[a]? = some w
    rw [store_heap_get]
    simp [ha3]
  have hmake : Context_make true value s
      = Ptr_bind s4 (some a) := by
    simp only [Context_make, malloc, if_true]
    show (match move_value s2 value with
      | some (fields, s3) =>
        Ptr_bind (insert_before a .header (store s3 a ⟨0, fields, 0, false⟩)) (some a)
      | none => Outcome.fault .use_after_free) = _
    rw [h3]
  have hone : (0 + 1) % WORD = 1 := by rw [WORD_eq]
  refine ⟨{ store s4 a { w with ref_count := 1 } with roots := s4.roots ++ [some a] },
    ?_, ?_, ?_, ?_, ?_, ?_, ?_, ?_, ?_⟩
  · rw [hmake]
    simp only [Ptr_bind, increase, hload4]
    show Outcome.ok _ = _
    simp only [w, hone]
    rfl
  · unfold load
    rw [List.getElem?_eq_none (Nat.le_refl _)]
  · show (s4.roots ++ [some a]).length = _
    have : s4.roots = s3.roots := rfl
    rw [List.length_append, this, hrl3]
    rfl
  · rw [read_handle_root]
    show (s4.roots ++ [some a])[s.roots.length]? = _
    have : s4.roots.length = s.roots.length := by
      have : s4.roots = s3.roots := rfl
      rw [this, hrl3]
      rfl
    rw [List.getElem?_append_right (by omega), this]
    simp [a]
  · rw [load_eq_some]
    refine ⟨?_, rfl⟩
    show (store s4 a { w with ref_count := 1 }).heap[a]? = _
    rw [store_heap_get]
    have : a < s4.heap.length := by
      show a < (store s3 a w).heap.length
      rw [store_length]; exact ha3
    simp [this, w, a]
  · show (store s3 a w).registry ++ [a] = _
    rw [store_registry, hreg3]
    rfl
  · show (store s3 a w).unused = _
    rw [store_unused, hun3]
    rfl
  · show s3.others = _
    rw [hoth3]
    rfl
  · intro b hb
    have hb2 : a ≠ b := fun e => hb e.symm
    show rcOf (store (insert_before a .header (store s3 a w)) a { w with ref_count := 1 }) b = _
    rw [rcOf_store_other _ hb2]
    show rcOf (store s3 a w) b = _
    rw [rcOf_store_other _ hb2, hrc3]
    show rcOf (store s1 a ⟨0, [], 0, false⟩) b = _
    rw [rcOf_store_other _ hb2]
    exact rcOf_append s _ b hb

/-- The program `h = make(B{})` on an empty context, then `make(B{std::move(h)})`: the
second record holds the first, the first handle is left null. -/
theorem make_postcondition_witness :
    ∃ s1, Context_make true [[.root 0]] heapNullField = .ok s1 ∧
      load heapNullField heapNullField.heap.length = none ∧
      s1.roots.length = heapNullField.roots.length + 1 ∧
      read_handle s1 (.root heapNullField.roots.length)
        = some (some heapNullField.heap.length) ∧
      load s1 heapNullField.heap.length
        = some ⟨1, [[.root 0]].map (fun m => m.map (target heapNullField)), 0, false⟩ ∧
      s1.registry = heapNullField.registry ++ [heapNullField.heap.length] ∧
      s1.unused = heapNullField.unused ∧ s1.others = heapNullField.others ∧
      (∀ b, b ≠ heapNullField.heap.length → rcOf s1 b = rcOf heapNullField b) :=
  make_postcondition heapNullField [[.root 0]]
    (fun l hl => by
      have e : l = .root 0 := by simpa using hl
      exact ⟨some 0, by rw [e]; rfl⟩)
    (by decide)

/-! ### A record that holds itself -/

theorem edge_loaded {s : State} {a b : Nat} (h : Edge s a b) : ∃ v, load s a = some v := by
  unfold Edge slotsAt at h
  cases hv : load s a with
  | none => simp [hv] at h
  | some v => exact ⟨v, rfl⟩

theorem edge_lt {s : State} {a b : Nat} (h : Edge s a b) : a < s.heap.length := by
  obtain ⟨v, hv⟩ := edge_loaded h
  exact load_lt hv

/-- C12, at a failing input.  `heapRescued` is well formed, has a single context and no
null slot.  The first `collect` returns: the destructor of the dead record `2` drops its
handle to record `1`, which the live record `0` still holds, and releases it.  The second
`collect`, run on the state the first one returned, decrements the count of the released
record `1` in its first loop. -/
theorem collect_twice_touches_released_record :
    WellFormed heapRescued ∧ OneContext heapRescued ∧ NoNull heapRescued ∧
      ∃ s1, (∀ fuel, collect (fuel + 5) heapRescued = .ok s1) ∧
        Reachable heapRescued 1 ∧ Freed s1 1 ∧
        ∀ fuel, collect fuel s1 = .fault .use_after_free := by
  refine ⟨wellFormed_of_check _ (by decide), oneContext_of_check _ (by decide),
    noNull_of_check _ (by decide),
    { heap := [⟨1, [[some 1]], 0, false⟩, ⟨0, [], 1, true⟩,
          ⟨WORD - 1, [[some 3], [some 1]], 1, true⟩, ⟨WORD - 1, [[some 2]], 1, true⟩]
      registry := [0]
      unused := []
      roots := [some 0] }, ?_, reachable_step (a := 0) (reachable_root (by decide)) (by decide),
    ⟨_, rfl, rfl⟩, fun fuel => rfl⟩
  intro fuel
  have h5 : collect 5 heapRescued = .ok
      { heap := [⟨1, [[some 1]], 0, false⟩, ⟨0, [], 1, true⟩,
          ⟨WORD - 1, [[some 3], [some 1]], 1, true⟩, ⟨WORD - 1, [[some 2]], 1, true⟩]
        registry := [0]
        unused := []
        roots := [some 0] } := by decide
  rw [collect_mono (Nat.le_add_left 5 fuel) _ (by rw [h5]; simp), h5]

/-! ### The first loop of `collect`, decrement by decrement -/

theorem forEachAll_mono {α : Type} {f : State → α → Outcome} {P Q : State → α → Prop}
    (h : ∀ s x, P s x → Q s x) (L : List α) :
    ∀ s, forEachAll f P L s → forEachAll f Q L s := by
  induction L with
  | nil => intro _ _; trivial
  | cons x xs ih =>
    intro s hs
    refine ⟨h s x hs.1, ?_⟩
    have h2 := hs.2
    cases hf : f s x with
    | ok s1 =>
      rw [hf] at h2
      exact ih s1 h2
    | fault e => trivial

/-- Every decrement of a run of `subtract_slot` finds a positive count when no record is
held by more of the slots than its count says. -/
theorem forEachAll_subtract_slot (L : List (Option Nat)) :
    ∀ s, (∀ x ∈ L, ∃ t, x = some t ∧ ∃ v, load s t = some v) →
      (∀ a, L.count (some a) ≤ rcOf s a) → (∀ a, some a ∈ L → rcOf s a < WORD) →
      forEachAll subtract_slot (fun t x => ∃ a, x = some a ∧ 0 < rcOf t a) L s := by
  induction L with
  | nil => intro _ _ _ _; trivial
  | cons x xs ih =>
    intro s hl hc hw
    obtain ⟨t, hx, v, hv⟩ := hl x (List.mem_cons_self _ _)
    subst hx
    have hpos : 0 < rcOf s t := by
      have := hc t
      rw [List.count_cons_self] at this
      omega
    refine ⟨⟨t, rfl, hpos⟩, ?_⟩
    obtain ⟨s1, h1, hshape, -, -, hrc⟩ :=
      forEach_subtract_slot [some t] s
        (fun y hy => by
          rw [List.mem_singleton.mp hy]
          exact ⟨t, rfl, v, hv⟩)
        (fun a => by
          rw [count_singleton]
          by_cases e : some t = some a
          · have e2 : t = a := by simpa using e
            subst e2
            simp only [if_true]
            omega
          · simp only [e, if_false]
            omega)
        (fun a ha => by
          have e : a = t := by simpa using ha
          rw [e]
          exact hw t (List.mem_cons_self _ _))
    have hstep : subtract_slot s (some t) = .ok s1 := by
      have := h1
      simp only [forEach] at this
      cases hf : subtract_slot s (some t) with
      | ok s2 =>
        rw [hf] at this
        simpa using this
      | fault e =>
        rw [hf] at this
        cases this
    rw [hstep]
    apply ih s1
    · intro y hy
      obtain ⟨u, hu, w, hw2⟩ := hl y (List.mem_cons_of_mem _ hy)
      exact ⟨u, hu, (hshape.load_isSome u).mpr ⟨w, hw2⟩⟩
    · intro a
      have h1 := hc a
      have h2 := hrc a
      rw [List.count_cons] at h1
      rw [count_singleton] at h2
      by_cases e : some t = some a
      · simp only [e, beq_self_eq_true, if_true] at h1 h2
        omega
      · have e2 : ¬ ((some t == some a) = true) := by simpa using e
        simp only [e2, e, if_false] at h1 h2
        omega
    · intro a ha
      have h2 := hrc a
      have := hw a (List.mem_cons_of_mem _ ha)
      omega

/-- C15. The first loop of `collect` on a well-formed single-context heap without null
slots.  It returns; it is the run of `ref_count--` over every slot of every registry
record in order, the elements of handle arrays included; each of these decrements finds
a positive count, so none wraps around; afterwards each count has dropped by the number
of slots that hold the record, which leaves the number of external handles that hold it,
and the count is zero exactly for the records no external handle holds. -/
theorem phase1_counts_external (s : State) (hwf : WellFormed s) (hone : OneContext s)
    (hnn : NoNull s) :
    ∃ s1, phase1 s = .ok s1 ∧
      phase1 s = forEach subtract_slot (s.registry.flatMap (slotsAt s)) s ∧
      forEachAll subtract_slot (fun t x => ∃ a, x = some a ∧ 0 < rcOf t a)
        (s.registry.flatMap (slotsAt s)) s ∧
      (∀ a, rcOf s1 a + (liveSlots s).count (some a) = rcOf s a) ∧
      (∀ a v, load s a = some v → rcOf s1 a = s.roots.count (some a)) ∧
      (∀ a v, load s a = some v → (rcOf s1 a = 0 ↔ some a ∉ s.roots)) := by
  obtain ⟨s1, h1, -, -, -, hrc⟩ := phase1_spec s hwf hnn
  have hext : ∀ a v, load s a = some v → rcOf s1 a = s.roots.count (some a) := by
    intro a v hv
    have h := hrc a
    rw [rcOf_of_load hv, hwf.exact a v hv] at h
    unfold holders at h
    rw [List.count_append, count_liveSlots s s.registry hwf.nodup hwf.linked hone] at h
    omega
  refine ⟨s1, h1, ?_, ?_, ?_, hext, ?_⟩
  · unfold phase1
    exact forEach_subtract_record s s.registry hwf.linked s (SameShape.shape_refl s)
  · apply forEachAll_subtract_slot
    · intro x hx
      cases x with
      | none =>
        obtain ⟨a, _, ha⟩ := List.mem_flatMap.1 hx
        exact absurd ha (hnn a)
      | some t =>
        exact ⟨t, rfl, hwf.closed t (List.mem_append_right _ (mem_registry_slots hx))⟩
    · intro a
      by_cases hz : (s.registry.flatMap (slotsAt s)).count (some a) = 0
      · omega
      · have hmem : some a ∈ s.registry.flatMap (slotsAt s) := by
          by_contra hc; exact hz (List.count_eq_zero_of_not_mem hc)
        obtain ⟨v, hv⟩ := hwf.closed a (List.mem_append_right _ (mem_registry_slots hmem))
        rw [rcOf_of_load hv, hwf.exact a v hv]
        unfold holders
        rw [List.count_append, count_liveSlots_split s s.registry hwf.nodup hwf.linked]
        omega
    · intro a ha
      obtain ⟨v, hv⟩ := hwf.closed a (List.mem_append_right _ (mem_registry_slots ha))
      rw [rcOf_of_load hv]
      exact hwf.word a v hv
  · intro a
    rw [count_liveSlots s s.registry hwf.nodup hwf.linked hone]
    exact hrc a
  · intro a v hv
    rw [hext a v hv]
    exact List.count_eq_zero

/-- The heap `heapDoublyHeld`, whose record `1` has a two-element handle array. -/
theorem phase1_counts_external_witness :
    ∃ s1, phase1 heapDoublyHeld = .ok s1 ∧
      phase1 heapDoublyHeld
        = forEach subtract_slot (heapDoublyHeld.registry.flatMap (slotsAt heapDoublyHeld))
            heapDoublyHeld ∧
      forEachAll subtract_slot (fun t x => ∃ a, x = some a ∧ 0 < rcOf t a)
        (heapDoublyHeld.registry.flatMap (slotsAt heapDoublyHeld)) heapDoublyHeld ∧
      (∀ a, rcOf s1 a + (liveSlots heapDoublyHeld).count (some a) = rcOf heapDoublyHeld a) ∧
      (∀ a v, load heapDoublyHeld a = some v → rcOf s1 a = heapDoublyHeld.roots.count (some a)) ∧
      (∀ a v, load heapDoublyHeld a = some v →
        (rcOf s1 a = 0 ↔ some a ∉ heapDoublyHeld.roots)) :=
  phase1_counts_external heapDoublyHeld (wellFormed_of_check _ (by decide))
    (oneContext_of_check _ (by decide)) (noNull_of_check _ (by decide))

/-! ### The intrusive list: links -/

theorem set_apply (m : Links) (a : Nat) (v : Header) (b : Nat) :
    (m.set a v) b = if b = a then v else m b := rfl

theorem insert_before_next (m : Links) (n y : Nat) (hny : n ≠ y) (hnp : n ≠ (m y).prev)
    (c : Nat) :
    ((Links.insert_before n y m) c).next
      = if c = n then y else if c = (m y).prev then n else (m c).next := by
  have hyn : ¬ y = n := fun e => hny e.symm
  unfold Links.insert_before
  simp only [set_apply, hyn, if_false, if_true]
  generalize (m y).prev = p at *
  have hpn : ¬ p = n := fun e => hnp e.symm
  simp only [hpn, if_false]
  by_cases h1 : c = y
  · subst h1
    simp only [if_true, hyn, if_false]
    by_cases h2 : c = p
    · simp only [h2, if_true]
    · simp only [h2, if_false]
  · simp only [h1, if_false]
    by_cases h2 : c = p
    · subst h2
      simp only [if_true, hpn, if_false]
    · simp only [h2, if_false]
      by_cases h3 : c = n
      · simp only [h3, if_true]
      · simp only [h3, if_false]

theorem insert_before_prev (m : Links) (n y : Nat) (hny : n ≠ y) (hnp : n ≠ (m y).prev)
    (c : Nat) :
    ((Links.insert_before n y m) c).prev
      = if c = y then n else if c = n then (m y).prev else (m c).prev := by
  have hyn : ¬ y = n := fun e => hny e.symm
  unfold Links.insert_before
  simp only [set_apply, hyn, if_false, if_true]
  generalize (m y).prev = p at *
  have hpn : ¬ p = n := fun e => hnp e.symm
  simp only [hpn, if_false]
  by_cases h1 : c = y
  · simp only [h1, if_true]
  · simp only [h1, if_false]
    by_cases h2 : c = p
    · subst h2
      simp only [if_true, hpn, if_false]
    · simp only [h2, if_false]
      by_cases h3 : c = n
      · simp only [h3, if_true]
      · simp only [h3, if_false]

theorem remove_next (m : Links) (x : Nat) (hp : (m x).prev ≠ x) (c : Nat) :
    ((Links.remove x m) c).next = if c = (m x).prev then (m x).next else (m c).next := by
  have hxp : ¬ x = (m x).prev := fun e => hp e.symm
  unfold Links.remove
  simp only [set_apply, hxp, if_false, if_true]
  generalize (m x).prev = p at *
  generalize (m x).next = q at *
  by_cases h1 : c = q
  · subst h1
    simp only [if_true]
    by_cases h2 : c = p
    · simp only [h2, if_true]
    · simp only [h2, if_false]
  · simp only [h1, if_false]
    by_cases h2 : c = p
    · simp only [h2, if_true]
    · simp only [h2, if_false]

theorem remove_prev (m : Links) (x : Nat) (hp : (m x).prev ≠ x) (c : Nat) :
    ((Links.remove x m) c).prev = if c = (m x).next then (m x).prev else (m c).prev := by
  have hxp : ¬ x = (m x).prev := fun e => hp e.symm
  unfold Links.remove
  simp only [set_apply, hxp, if_false, if_true]
  generalize (m x).prev = p at *
  generalize (m x).next = q at *
  by_cases h1 : c = q
  · simp only [h1, if_true]
  · simp only [h1, if_false]
    by_cases h2 : c = p
    · simp only [h2, if_true]
    · simp only [h2, if_false]

theorem chain_append (m : Links) (l1 : List Nat) :
    ∀ (a x : Nat) (l2 : List Nat) (b : Nat),
      Chain m a (l1 ++ x :: l2) b ↔ Chain m a l1 x ∧ Chain m x l2 b := by
  induction l1 with
  | nil =>
    intro a x l2 b
    show ((m a).next = x ∧ (m x).prev = a ∧ Chain m x l2 b)
      ↔ ((m a).next = x ∧ (m x).prev = a) ∧ Chain m x l2 b
    tauto
  | cons y l1 ih =>
    intro a x l2 b
    show ((m a).next = y ∧ (m y).prev = a ∧ Chain m y (l1 ++ x :: l2) b)
      ↔ ((m a).next = y ∧ (m y).prev = a ∧ Chain m y l1 x) ∧ Chain m x l2 b
    rw [ih]
    tauto

theorem chain_snoc (m : Links) (l : List Nat) (a x b : Nat) :
    Chain m a (l ++ [x]) b ↔ Chain m a l x ∧ (m x).next = b ∧ (m b).prev = x := by
  rw [chain_append]
  simp only [Chain]

/-- A chain depends on the `next` of its nodes but the last and on the `prev` of its
nodes but the first. -/
theorem chain_frame {m t : Links} (l : List Nat) :
    ∀ (a b : Nat), (∀ c ∈ a :: l, (t c).next = (m c).next) →
      (∀ c ∈ l ++ [b], (t c).prev = (m c).prev) → Chain m a l b → Chain t a l b := by
  induction l with
  | nil =>
    intro a b hn hp h
    simp only [Chain] at h ⊢
    rw [hn a (List.mem_cons_self _ _), hp b (by simp)]
    exact h
  | cons x xs ih =>
    intro a b hn hp h
    simp only [Chain] at h ⊢
    refine ⟨?_, ?_, ?_⟩
    · rw [hn a (List.mem_cons_self _ _)]
      exact h.1
    · rw [hp x (by simp)]
      exact h.2.1
    · exact ih x b (fun c hc => hn c (List.mem_cons_of_mem _ hc))
        (fun c hc => hp c (by simp at hc ⊢; tauto)) h.2.2

theorem getLastD_mem (l : List Nat) : ∀ a, l.getLastD a ∈ a :: l := by
  induction l with
  | nil => intro a; simp
  | cons x xs ih =>
    intro a
    rw [List.getLastD_cons]
    exact List.mem_cons_of_mem _ (ih x)

/-- The `prev` of the node a chain arrives at is the last node of the chain. -/
theorem chain_prev {m : Links} (l : List Nat) :
    ∀ (a b : Nat), Chain m a l b → (m b).prev = l.getLastD a := by
  induction l with
  | nil =>
    intro a b h
    exact h.2
  | cons x xs ih =>
    intro a b h
    rw [List.getLastD_cons]
    exact ih x b h.2.2

/-- The `next` of the node a chain starts from is the first node of the chain. -/
theorem chain_next {m : Links} (l : List Nat) (a b : Nat) (h : Chain m a l b) :
    (m a).next = l.headD b := by
  cases l with
  | nil => exact h.1
  | cons x xs => exact h.1

/-- Redirecting the end of a chain: when the last node's `next` and the new end's `prev`
are set and nothing else changes on the chain, the chain arrives at the new end. -/
theorem chain_redirect {m t : Links} (n : Nat) (l : List Nat) :
    ∀ (a b : Nat), (a :: l).Nodup → Chain m a l b →
      (∀ c ∈ a :: l, c ≠ l.getLastD a → (t c).next = (m c).next) →
      (t (l.getLastD a)).next = n → (∀ c ∈ l, (t c).prev = (m c).prev) →
      (t n).prev = l.getLastD a → Chain t a l n := by
  induction l with
  | nil =>
    intro a b _ _ _ hlast _ hn
    exact ⟨hlast, hn⟩
  | cons x xs ih =>
    intro a b hnd h hnext hlast hprev hn
    rw [List.getLastD_cons] at hnext hlast hn
    have hnd2 := List.nodup_cons.mp hnd
    simp only [Chain] at h ⊢
    have hane : a ≠ xs.getLastD x := fun e => hnd2.1 (e ▸ getLastD_mem xs x)
    refine ⟨?_, ?_, ?_⟩
    · rw [hnext a (List.mem_cons_self _ _) hane]
      exact h.1
    · rw [hprev x (List.mem_cons_self _ _)]
      exact h.2.1
    · exact ih x b hnd2.2 h.2.2
        (fun c hc hne => hnext c (List.mem_cons_of_mem _ hc) hne) hlast
        (fun c hc => hprev c (List.mem_cons_of_mem _ hc)) hn

/-- The last node of a chain points at the node the chain arrives at. -/
theorem chain_last_next {m : Links} (l : List Nat) :
    ∀ (a b : Nat), Chain m a l b → (m (l.getLastD a)).next = b := by
  induction l with
  | nil =>
    intro a b h
    exact h.1
  | cons x xs ih =>
    intro a b h
    rw [List.getLastD_cons]
    exact ih x b h.2.2

/-- In a well-formed list `next` undoes `prev`. -/
theorem isList_prev_next {m : Links} {h : Nat} {s : List Nat} (hl : IsList m h s) {y : Nat}
    (hy : y ∈ h :: s) : (m ((m y).prev)).next = y ∧ (m y).prev ∈ h :: s := by
  rcases List.mem_cons.mp hy with e | hys
  · subst e
    rw [chain_prev s y y hl.2]
    exact ⟨chain_last_next s y y hl.2, getLastD_mem s y⟩
  · obtain ⟨l1, l2, e⟩ := List.append_of_mem hys
    subst e
    have hc := ((chain_append m l1 h y l2 h).mp hl.2).1
    rw [chain_prev l1 h y hc]
    refine ⟨chain_last_next l1 h y hc, ?_⟩
    have := getLastD_mem l1 h
    simp only [List.mem_cons, List.mem_append] at this ⊢
    tauto

/-- `insert_before(node, anchor)` with the anchor an element of the list. -/
theorem insert_before_element {m : Links} {h : Nat} (l1 : List Nat) (y : Nat) (l2 : List Nat)
    (n : Nat) (hl : IsList m h (l1 ++ y :: l2)) (hn : n ∉ h :: (l1 ++ y :: l2)) :
    IsList (Links.insert_before n y m) h (l1 ++ n :: y :: l2) := by
  obtain ⟨hnd, hch⟩ := hl
  obtain ⟨hc1, hc2⟩ := (chain_append m l1 h y l2 h).mp hch
  have hp := chain_prev l1 h y hc1
  have hpmem := getLastD_mem l1 h
  have hnd' := hnd
  simp only [List.nodup_cons, List.nodup_append, List.mem_append, List.mem_cons, not_or,
    List.Disjoint] at hnd
  simp only [List.mem_cons, List.mem_append, not_or] at hn hpmem
  obtain ⟨⟨hhl1, hhy, hhl2⟩, hndl1, ⟨hyl2, hndl2⟩, hdis⟩ := hnd
  obtain ⟨hnh, hnl1, hny, hnl2⟩ := hn
  have hnp : n ≠ (m y).prev := by
    rw [hp]
    rcases hpmem with e | e
    · rw [e]; exact hnh
    · exact fun e2 => hnl1 (e2 ▸ e)
  have hnext := insert_before_next m n y hny hnp
  have hprev := insert_before_prev m n y hny hnp
  rw [hp] at hnext hprev
  have hpn : l1.getLastD h ≠ n := fun e => hnp (by rw [hp]; exact e.symm)
  have hpnot : ∀ c, c = y ∨ c ∈ l2 → c ≠ l1.getLastD h := by
    intro c hc e
    rw [e] at hc
    rcases hpmem with e2 | e2
    · rw [e2] at hc
      rcases hc with hc | hc
      · exact hhy hc
      · exact hhl2 hc
    · exact hdis e2 hc
  constructor
  · simp only [List.nodup_cons, List.nodup_append, List.mem_append, List.mem_cons, not_or,
      List.Disjoint]
    refine ⟨⟨hhl1, fun e => hnh e.symm, hhy, hhl2⟩, hndl1,
      ⟨⟨hny, hnl2⟩, hyl2, hndl2⟩, ?_⟩
    intro a ha hmem
    rcases hmem with e | e
    · exact hnl1 (e ▸ ha)
    · exact hdis ha e
  · rw [chain_append]
    constructor
    · refine chain_redirect n l1 h y ?_ hc1 ?_ ?_ ?_ ?_
      · simp only [List.nodup_cons]
        exact ⟨hhl1, hndl1⟩
      · intro c hc hne
        have hcn : c ≠ n := by
          rcases List.mem_cons.mp hc with e | e
          · rw [e]; exact fun e2 => hnh e2.symm
          · exact fun e2 => hnl1 (e2 ▸ e)
        rw [hnext c, if_neg hcn, if_neg hne]
      · rw [hnext, if_neg hpn, if_pos rfl]
      · intro c hc
        have hcy : c ≠ y := fun e => hdis hc (Or.inl e)
        have hcn : c ≠ n := fun e => hnl1 (e ▸ hc)
        rw [hprev c, if_neg hcy, if_neg hcn]
      · rw [hprev, if_neg hny, if_pos rfl]
    · refine ⟨?_, ?_, ?_⟩
      · rw [hnext, if_pos rfl]
      · rw [hprev, if_pos rfl]
      · refine chain_frame l2 y h ?_ ?_ hc2
        · intro c hc
          have hc2 : c = y ∨ c ∈ l2 := List.mem_cons.mp hc
          have hcn : c ≠ n := by
            rcases hc2 with e | e
            · rw [e]; exact fun e2 => hny e2.symm
            · exact fun e2 => hnl2 (e2 ▸ e)
          rw [hnext c, if_neg hcn, if_neg (hpnot c hc2)]
        · intro c hc
          have hc2 : c ∈ l2 ∨ c = h := by simpa using hc
          have hcy : c ≠ y := by
            rcases hc2 with e | e
            · exact fun e2 => hyl2 (e2 ▸ e)
            · rw [e]; exact hhy
          have hcn : c ≠ n := by
            rcases hc2 with e | e
            · exact fun e2 => hnl2 (e2 ▸ e)
            · rw [e]; exact fun e2 => hnh e2.symm
          rw [hprev c, if_neg hcy, if_neg hcn]

/-- `insert_before(node, anchor)` with the anchor the sentinel: the node becomes the last
element. -/
theorem insert_before_sentinel {m : Links} {h : Nat} {s : List Nat} (n : Nat)
    (hl : IsList m h s) (hn : n ∉ h :: s) :
    IsList (Links.insert_before n h m) h (s ++ [n]) := by
  obtain ⟨hnd, hch⟩ := hl
  have hp := chain_prev s h h hch
  have hpmem := getLastD_mem s h
  simp only [List.mem_cons, not_or] at hn
  obtain ⟨hnh, hns⟩ := hn
  have hnd2 := List.nodup_cons.mp hnd
  have hnp : n ≠ (m h).prev := by
    rw [hp]
    rcases List.mem_cons.mp hpmem with e | e
    · rw [e]; exact hnh
    · exact fun e2 => hns (e2 ▸ e)
  have hnext := insert_before_next m n h hnh hnp
  have hprev := insert_before_prev m n h hnh hnp
  rw [hp] at hnext hprev
  have hpn : s.getLastD h ≠ n := fun e => hnp (by rw [hp]; exact e.symm)
  constructor
  · rw [show h :: (s ++ [n]) = (h :: s) ++ [n] from rfl, List.nodup_append]
    refine ⟨hnd, List.nodup_singleton n, ?_⟩
    intro a ha hb
    rw [List.mem_singleton.mp hb] at ha
    rcases List.mem_cons.mp ha with e | e
    · exact hnh e
    · exact hns e
  · rw [chain_snoc]
    refine ⟨?_, ?_, ?_⟩
    · refine chain_redirect n s h h hnd hch ?_ ?_ ?_ ?_
      · intro c hc hne
        have hcn : c ≠ n := by
          rcases List.mem_cons.mp hc with e | e
          · rw [e]; exact fun e2 => hnh e2.symm
          · exact fun e2 => hns (e2 ▸ e)
        rw [hnext c, if_neg hcn, if_neg hne]
      · rw [hnext, if_neg hpn, if_pos rfl]
      · intro c hc
        have hch2 : c ≠ h := fun e => hnd2.1 (e ▸ hc)
        have hcn : c ≠ n := fun e => hns (e ▸ hc)
        rw [hprev c, if_neg hch2, if_neg hcn]
      · rw [hprev, if_neg hnh, if_pos rfl]
    · rw [hnext, if_pos rfl]
    · rw [hprev, if_pos rfl]

/-- `remove(node)` on an element of the list. -/
theorem remove_element {m : Links} {h : Nat} (l1 : List Nat) (x : Nat) (l2 : List Nat)
    (hl : IsList m h (l1 ++ x :: l2)) : IsList (Links.remove x m) h (l1 ++ l2) := by
  obtain ⟨hnd, hch⟩ := hl
  obtain ⟨hc1, hc2⟩ := (chain_append m l1 h x l2 h).mp hch
  have hp := chain_prev l1 h x hc1
  have hq := chain_next l2 x h hc2
  have hpmem := getLastD_mem l1 h
  have hnd' := hnd
  simp only [List.nodup_cons, List.nodup_append, List.mem_append, List.mem_cons, not_or,
    List.Disjoint] at hnd
  simp only [List.mem_cons] at hpmem
  obtain ⟨⟨hhl1, hhx, hhl2⟩, hndl1, ⟨hxl2, hndl2⟩, hdis⟩ := hnd
  have hpx : (m x).prev ≠ x := by
    rw [hp]
    rcases hpmem with e | e
    · rw [e]; exact hhx
    · exact fun e2 => hdis e (Or.inl e2)
  have hnext := remove_next m x hpx
  have hprev := remove_prev m x hpx
  rw [hp, hq] at hnext hprev
  have hpnot : ∀ c, c ∈ l2 → c ≠ l1.getLastD h := by
    intro c hc e
    rw [e] at hc
    rcases hpmem with e2 | e2
    · rw [e2] at hc
      exact hhl2 hc
    · exact hdis e2 (Or.inr hc)
  constructor
  · have hsub : (h :: (l1 ++ l2)).Sublist (h :: (l1 ++ x :: l2)) :=
      List.Sublist.cons₂ _ (List.Sublist.append_left (List.sublist_cons_self x l2) l1)
    exact hnd'.sublist hsub
  · cases l2 with
    | nil =>
      rw [List.append_nil]
      simp only [List.headD_nil] at hnext hprev
      refine chain_redirect h l1 h x ?_ hc1 ?_ ?_ ?_ ?_
      · simp only [List.nodup_cons]
        exact ⟨hhl1, hndl1⟩
      · intro c _ hne
        rw [hnext c, if_neg hne]
      · rw [hnext, if_pos rfl]
      · intro c hc
        have hch2 : c ≠ h := fun e => hhl1 (e ▸ hc)
        rw [hprev c, if_neg hch2]
      · rw [hprev, if_pos rfl]
    | cons q l2 =>
      simp only [List.headD_cons] at hnext hprev
      simp only [List.mem_cons, not_or, List.nodup_cons] at hhl2 hxl2 hndl2
      rw [chain_append]
      constructor
      · refine chain_redirect q l1 h x ?_ hc1 ?_ ?_ ?_ ?_
        · simp only [List.nodup_cons]
          exact ⟨hhl1, hndl1⟩
        · intro c _ hne
          rw [hnext c, if_neg hne]
        · rw [hnext, if_pos rfl]
        · intro c hc
          have hcq : c ≠ q := fun e => hdis hc (Or.inr (by rw [e]; exact List.mem_cons_self _ _))
          rw [hprev c, if_neg hcq]
        · rw [hprev, if_pos rfl]
      · refine chain_frame l2 q h ?_ ?_ hc2.2.2
        · intro c hc
          rw [hnext c, if_neg (hpnot c hc)]
        · intro c hc
          have hc2 : c ∈ l2 ∨ c = h := by simpa using hc
          have hcq : c ≠ q := by
            rcases hc2 with e | e
            · exact fun e2 => hndl2.1 (e2 ▸ e)
            · rw [e]; exact hhl2.1
          rw [hprev c, if_neg hcq]

/-- `remove(node)` directly after `insert_before(node, anchor)` gives every node other
than `node` the links it had. -/
theorem remove_insert_before {m : Links} {h : Nat} {s : List Nat} (hl : IsList m h s)
    (n y : Nat) (hn : n ∉ h :: s) (hy : y ∈ h :: s) (c : Nat) (hc : c ≠ n) :
    (Links.remove n (Links.insert_before n y m)) c = m c := by
  obtain ⟨hback, hpmem⟩ := isList_prev_next hl hy
  have hny : n ≠ y := fun e => hn (e ▸ hy)
  have hnp : n ≠ (m y).prev := fun e => hn (e ▸ hpmem)
  have hnext := insert_before_next m n y hny hnp
  have hprev := insert_before_prev m n y hny hnp
  have htp : ((Links.insert_before n y m) n).prev = (m y).prev := by
    rw [hprev, if_neg hny, if_pos rfl]
  have htn : ((Links.insert_before n y m) n).next = y := by
    rw [hnext, if_pos rfl]
  have hpx : ((Links.insert_before n y m) n).prev ≠ n := by
    rw [htp]
    exact fun e => hnp e.symm
  have h1 : ((Links.remove n (Links.insert_before n y m)) c).next = (m c).next := by
    rw [remove_next _ n hpx c, htp, htn, hnext c, if_neg hc]
    by_cases e : c = (m y).prev
    · rw [if_pos e, e, hback]
    · rw [if_neg e, if_neg e]
  have h2 : ((Links.remove n (Links.insert_before n y m)) c).prev = (m c).prev := by
    rw [remove_prev _ n hpx c, htp, htn, hprev c]
    by_cases e : c = y
    · rw [if_pos e, e]
    · rw [if_neg e, if_neg e, if_neg hc]
  cases hu : (Links.remove n (Links.insert_before n y m)) c with
  | mk up un =>
    cases hm : m c with
    | mk mp mn =>
      rw [hu, hm] at h1 h2
      simp only at h1 h2
      rw [h1, h2]

/-- C19. The list operations on a well-formed circular list with sentinel `h` and element
sequence `s`.  `insert_before(node, anchor)` for a node outside the list gives a
well-formed list with `node` right before `anchor` and the other elements in their
order; with the sentinel as anchor the node becomes the last element.  `remove(node)`
for an element gives a well-formed list whose sequence is `s` without the node.
`remove(node)` directly after `insert_before(node, anchor)` leaves every node other
than `node` with the links it had, and removing the only element leaves the sentinel
with `prev == next == self`. -/
theorem list_operations (m : Links) (h : Nat) (s : List Nat) (hl : IsList m h s) :
    (∀ l1 y l2 n, s = l1 ++ y :: l2 → n ∉ h :: s →
      IsList (Links.insert_before n y m) h (l1 ++ n :: y :: l2)) ∧
    (∀ n, n ∉ h :: s → IsList (Links.insert_before n h m) h (s ++ [n])) ∧
    (∀ x, x ∈ s → IsList (Links.remove x m) h (s.erase x)) ∧
    (∀ n y, n ∉ h :: s → y ∈ h :: s →
      ∀ c, c ≠ n → (Links.remove n (Links.insert_before n y m)) c = m c) ∧
    (∀ x, s = [x] →
      ((Links.remove x m) h).prev = h ∧ ((Links.remove x m) h).next = h) := by
  refine ⟨?_, ?_, ?_, ?_, ?_⟩
  · intro l1 y l2 n e hn
    subst e
    exact insert_before_element l1 y l2 n hl hn
  · intro n hn
    exact insert_before_sentinel n hl hn
  · intro x hx
    obtain ⟨l1, l2, _, e, he⟩ := List.exists_erase_eq hx
    rw [he]
    subst e
    exact remove_element l1 x l2 hl
  · intro n y hn hy c hc
    exact remove_insert_before hl n y hn hy c hc
  · intro x e
    subst e
    have := remove_element (m := m) (h := h) [] x [] hl
    exact ⟨this.2.2, this.2.1⟩

/-- The one-element list `1` with its sentinel at address `0`. -/
theorem list_operations_witness :
    (∀ l1 y l2 n, [1] = l1 ++ y :: l2 → n ∉ 0 :: [1] →
      IsList (Links.insert_before n y linksOne) 0 (l1 ++ n :: y :: l2)) ∧
    (∀ n, n ∉ 0 :: [1] → IsList (Links.insert_before n 0 linksOne) 0 ([1] ++ [n])) ∧
    (∀ x, x ∈ [1] → IsList (Links.remove x linksOne) 0 (([1] : List Nat).erase x)) ∧
    (∀ n y, n ∉ 0 :: [1] → y ∈ 0 :: [1] →
      ∀ c, c ≠ n → (Links.remove n (Links.insert_before n y linksOne)) c = linksOne c) ∧
    (∀ x, [1] = [x] →
      ((Links.remove x linksOne) 0).prev = 0 ∧ ((Links.remove x linksOne) 0).next = 0) :=
  list_operations linksOne 0 [1] (by decide)

/-! ### The schema metaprogram -/

theorem scan_eq (l : List Stored) : ∀ N, Counter.scan l N = N + l.length := by
  induction l with
  | nil => intro N; rfl
  | cons x xs ih =>
    intro N
    simp only [Counter.scan, ih, List.length_cons]
    omega

theorem make_member_metadata_eq (PTR : Nat) (hP : 0 < PTR) (f : MEMBER) :
    make_member_metadata PTR f
      = MemberMetadata.mk f.offset (match f.extent with | none => 1 | some N => N) := by
  unfold make_member_metadata sizeof_member
  cases f.extent with
  | none => simp [Nat.div_self hP]
  | some N => simp [Nat.mul_div_cancel _ hP]

theorem make_type_metadata_none (PTR : Nat) (V : Stored) : make_type_metadata PTR V = none := by
  cases V <;> rfl

theorem make_metadata_none (PTR : Nat) (c : Instances) : make_metadata PTR c = none := by
  unfold make_metadata
  generalize c.next = r
  obtain ⟨N, c1⟩ := r
  simp only
  cases c1.Set N .bool with
  | none => rfl
  | some c2 =>
    simp only
    by_cases h0 : N = 0
    · rw [if_pos h0]
      rfl
    · rw [if_neg h0]
      cases c1.sets.state (N - 1) with
      | none => rfl
      | some V =>
        simp only [make_type_metadata_none]

theorem declare_first (M : MEMBER) (hp : M.is_ptr = true) :
    declare_member ⟨[.LIST []], none⟩ M = some ⟨[.LIST [], .LIST [M]], some 1⟩ := by
  unfold declare_member
  rw [if_pos hp]
  rfl

theorem declare_second (M M2 : MEMBER) :
    declare_member ⟨[.LIST [], .LIST [M]], some 1⟩ M2 = none := by
  unfold declare_member
  by_cases hp : M2.is_ptr = true
  · rw [if_pos hp]
    rfl
  · rw [if_neg hp]

/-- C20, at failing inputs.  A class derived from `Object<T>` that declares managed
members: the first declaration compiles and stores the member at `Set<T, 1, ...>`; from
then on `next<T>(0)` keeps returning 1, the value its default argument got at the first
call, although two `Set` are instantiated.  Every further declaration therefore asks for
`Set<T, 1, ...>` again, and so does `make_metadata`: the program does not compile, as for
the type `C { Ptr<C> a; Ptr<C> b; }`.  Whatever has been declared, `make_metadata`
does not compile, because it returns a braced initialiser of `TypeMetadata`; the
arithmetic of one entry, offset and `sizeof(V) / sizeof(void*)`, is as the claim says. -/
theorem schema_not_built :
    (∀ M : MEMBER, M.is_ptr = true →
      ∃ c1 c2, Object ⟨[], none⟩ = some c1 ∧ declare_member c1 M = some c2 ∧
        c2.sets = [.LIST [], .LIST [M]] ∧ c2.next.1 = 1 ∧
        (∀ M2, declare_member c2 M2 = none) ∧ c2.sets.Set 1 .bool = none) ∧
    (∃ c1, Object ⟨[], none⟩ = some c1 ∧
      declare_members [⟨0, true, none⟩, ⟨8, true, none⟩] c1 = none) ∧
    (∀ PTR c, make_metadata PTR c = none) ∧
    (∀ PTR (f : MEMBER), 0 < PTR → make_member_metadata PTR f
      = MemberMetadata.mk f.offset (match f.extent with | none => 1 | some N => N)) := by
  refine ⟨?_, ⟨⟨[.LIST []], none⟩, rfl, rfl⟩, make_metadata_none, ?_⟩
  · intro M hp
    exact ⟨⟨[.LIST []], none⟩, ⟨[.LIST [], .LIST [M]], some 1⟩, rfl, declare_first M hp, rfl, rfl,
      declare_second M, rfl⟩
  · intro PTR f hP
    exact make_member_metadata_eq PTR hP f

/-! ### The third loop of `collect`, visit by visit -/

theorem walkAll_none (sel : State → List Nat) (body : State → Nat → Outcome)
    (P : State → Nat → Prop) (fuel : Nat) (s : State) : walkAll sel body P fuel none s := by
  cases fuel <;> trivial

theorem visits_none (sel : State → List Nat) (body : State → Nat → Outcome) (fuel : Nat)
    (s : State) : visits sel body fuel none s = [] := by
  cases fuel <;> rfl

/-- Under the invariant of the third loop, the test `ref_count == 0` on a slot target
tells whether the target sits on `unused`. -/
theorem restoring_test {s0 : State} {R : List Nat} {P : List (Option Nat)} {s : State}
    (hinv : Restoring s0 R P s) {t : Nat} (ht : t ∈ R) : rcOf s t = 0 ↔ t ∈ s.unused := by
  constructor
  · intro hz
    rcases (hinv.cover t).2 ht with h | h
    · have := hinv.pos t h
      omega
    · exact h
  · exact hinv.zero t

theorem forEachAll_restore_slot (s0 : State) (R : List Nat) (p : Nat)
    (hR : ∀ a ∈ R, ∃ v, load s0 a = some v) (L : List (Option Nat)) :
    ∀ (P : List (Option Nat)) (s : State), Restoring s0 R P s → p ∈ s.registry →
      (∀ x ∈ L, ∃ t, x = some t ∧ t ∈ R ∧ Edge s0 p t) →
      (∀ a, some a ∈ L → rcOf s a + L.count (some a) < WORD) →
      forEachAll restore_slot (fun u x => ∃ a, x = some a ∧ (rcOf u a = 0 ↔ a ∈ u.unused))
        L s := by
  induction L with
  | nil => intro _ _ _ _ _ _; trivial
  | cons x L ih =>
    intro P s hinv hp hL hw
    obtain ⟨t, rfl, ht, he⟩ := hL _ (List.mem_cons_self _ _)
    have hwt := hw t (List.mem_cons_self _ _)
    rw [List.count_cons_self] at hwt
    obtain ⟨s1, T1, h1, h2, h3, -, h5⟩ :=
      restore_step s0 R p hR P s t hinv hp ht he (by omega)
    refine ⟨⟨t, rfl, restoring_test hinv ht⟩, ?_⟩
    rw [h1]
    exact ih (P ++ [some t]) s1 h2
      (by rw [h3]; exact List.mem_append_left _ hp)
      (fun x hx => hL x (List.mem_cons_of_mem _ hx))
      (fun a ha => by
        have := hw a (List.mem_cons_of_mem _ ha)
        rw [h5]
        by_cases hat : a = t
        · subst hat; simp only [List.count_cons_self, if_true] at this ⊢; omega
        · have hne : (some t == some a) = false := by simpa using Ne.symm hat
          simp only [List.count_cons, hne, hat, if_false] at this ⊢
          simpa using this)

/-- The third loop with its visits: it returns, the invariant holds at the end, the nodes
it visits are the elements of the final registry from the starting node on, the registry
only grows at its end, and at every visit the body is the run of `restore_slot` over the
slots of the visited record, each test of which tells whether the target is on `unused`. -/
theorem walk_restore_visits (s0 : State) (R : List Nat)
    (hR : ∀ a ∈ R, ∃ v, load s0 a = some v)
    (hcl : ∀ a ∈ R, ∀ x ∈ slotsAt s0 a, ∃ t, x = some t ∧ t ∈ R)
    (hbound : ∀ a, s0.roots.count (some a) + (R.flatMap (slotsAt s0)).count (some a) < WORD) :
    ∀ (fuel : Nat) (D : List Nat) (p : Nat) (T : List Nat) (s : State),
      Restoring s0 R (D.flatMap (slotsAt s0)) s → s.registry = D ++ p :: T →
      T.length + s.unused.length < fuel →
      ∃ s1, walk State.registry restore_record fuel (some p) s = .ok s1 ∧
        Restoring s0 R (s1.registry.flatMap (slotsAt s0)) s1 ∧
        s1.registry = D ++ visits State.registry restore_record fuel (some p) s ∧
        (∃ X, s1.registry = s.registry ++ X) ∧
        walkAll State.registry restore_record
          (fun u q => restore_record u q = forEach restore_slot (slotsAt u q) u ∧
            forEachAll restore_slot
              (fun w x => ∃ a, x = some a ∧ (rcOf w a = 0 ↔ a ∈ w.unused)) (slotsAt u q) u)
          fuel (some p) s := by
  intro fuel
  induction fuel with
  | zero => intro D p T s _ _ h; omega
  | succ fuel ih =>
    intro D p T s hinv hreg hfuel
    have hpreg : p ∈ s.registry := by rw [hreg]; simp
    have hpR : p ∈ R := (hinv.cover p).1 (Or.inl hpreg)
    obtain ⟨v0, hv0⟩ := hR p hpR
    have hv := hinv.shape.load_eq hv0
    have hndr : s.registry.Nodup := (List.nodup_append.1 hinv.nodup).1
    have hndD : (D ++ [p]).Nodup := by
      rw [hreg] at hndr
      have : ((D ++ [p]) ++ T).Nodup := by simpa using hndr
      exact (List.nodup_append.1 this).1
    have hpD : p ∉ D := by
      intro h
      have := (List.nodup_append.1 hndD).2.2 h (List.mem_singleton_self p)
      exact this
    have hsub : (D ++ [p]).Subperm R := by
      apply List.subperm_of_subset hndD
      intro a ha
      apply (hinv.cover a).1
      left; rw [hreg]
      rcases List.mem_append.1 ha with h | h
      · exact List.mem_append_left _ h
      · exact List.mem_append_right _ (by rw [List.mem_singleton.1 h]; simp)
    have hedges : ∀ x ∈ slotsAt s0 p, ∃ t, x = some t ∧ t ∈ R ∧ Edge s0 p t := by
      intro x hx
      obtain ⟨t, rfl, ht⟩ := hcl p hpR x hx
      exact ⟨t, rfl, ht, hx⟩
    have hwords : ∀ a, some a ∈ slotsAt s0 p →
        rcOf s a + (slotsAt s0 p).count (some a) < WORD := by
      intro a ha
      obtain ⟨t, ht1, ht2⟩ := hcl p hpR _ ha
      simp only [Option.some.injEq] at ht1
      subst ht1
      rw [hinv.count a ht2]
      have hle := count_flatMap_le (slotsAt s0) (D ++ [p]) R hsub (some a)
      rw [List.flatMap_append, List.count_append] at hle
      have hb := hbound a
      simp only [List.flatMap_cons, List.flatMap_nil, List.append_nil] at hle
      omega
    obtain ⟨s1, T1, h1, h2, h3, h4⟩ := forEach_restore_slot s0 R p hR (slotsAt s0 p)
      (D.flatMap (slotsAt s0)) s hinv hpreg hedges hwords
    have htrace := forEachAll_restore_slot s0 R p hR (slotsAt s0 p)
      (D.flatMap (slotsAt s0)) s hinv hpreg hedges hwords
    have hslots : slotsAt s p = slotsAt s0 p := hinv.shape.slots_eq p
    have hbody : restore_record s p = .ok s1 := by
      rw [restore_record_eq hv, hslots]; exact h1
    have hv1 := h2.shape.load_eq hv0
    have hreg1 : s1.registry = D ++ p :: (T ++ T1) := by
      rw [h3, hreg]; simp
    have hnext : next_of s1.registry p = (T ++ T1).head? := by
      rw [hreg1]; exact next_of_append D _ p hpD
    have hwalk : walk State.registry restore_record (fuel + 1) (some p) s
        = walk State.registry restore_record fuel ((T ++ T1).head?) s1 := by
      simp only [walk, hbody, hv1, hnext]
    have hvisits : visits State.registry restore_record (fuel + 1) (some p) s
        = p :: visits State.registry restore_record fuel ((T ++ T1).head?) s1 := by
      simp only [visits, hbody, hv1, hnext]
    have hhere : restore_record s p = forEach restore_slot (slotsAt s p) s ∧
        forEachAll restore_slot
          (fun w x => ∃ a, x = some a ∧ (rcOf w a = 0 ↔ a ∈ w.unused)) (slotsAt s p) s := by
      rw [hslots]
      refine ⟨?_, htrace⟩
      rw [restore_record_eq hv, hslots]
    have hall : ∀ (rest : Prop), rest →
        (walkAll State.registry restore_record
          (fun u q => restore_record u q = forEach restore_slot (slotsAt u q) u ∧
            forEachAll restore_slot
              (fun w x => ∃ a, x = some a ∧ (rcOf w a = 0 ↔ a ∈ w.unused)) (slotsAt u q) u)
          fuel ((T ++ T1).head?) s1 = rest) →
        walkAll State.registry restore_record
          (fun u q => restore_record u q = forEach restore_slot (slotsAt u q) u ∧
            forEachAll restore_slot
              (fun w x => ∃ a, x = some a ∧ (rcOf w a = 0 ↔ a ∈ w.unused)) (slotsAt u q) u)
          (fuel + 1) (some p) s := by
      intro rest hrest heq
      simp only [walkAll]
      refine ⟨hhere, ?_⟩
      rw [hbody]
      simp only [hv1, hnext]
      exact heq ▸ hrest
    rw [hwalk, hvisits]
    have hinv1 : Restoring s0 R ((D ++ [p]).flatMap (slotsAt s0)) s1 := by
      simpa [List.flatMap_append] using h2
    cases hX : T ++ T1 with
    | nil =>
      have hreg2 : s1.registry = D ++ [p] := by rw [hreg1, hX]
      refine ⟨s1, by simp [walk_none], ?_, ?_, ⟨T1, h3⟩, ?_⟩
      · rw [hreg2]; exact hinv1
      · rw [hreg2]
        simp [visits_none]
      · refine hall _ ?_ rfl
        rw [hX]
        exact walkAll_none _ _ _ _ _
    | cons q X =>
      have hlen : (T ++ T1).length = X.length + 1 := by rw [hX]; simp
      rw [List.length_append] at hlen
      obtain ⟨s2, g1, g2, g3, ⟨Y, g4⟩, g5⟩ :=
        ih (D ++ [p]) q X s1 hinv1 (by rw [hreg1, hX]; simp) (by omega)
      refine ⟨s2, by simpa using g1, g2, ?_, ⟨T1 ++ Y, ?_⟩, ?_⟩
      · rw [g3]
        simp
      · rw [g4, h3, List.append_assoc]
      · refine hall _ ?_ rfl
        rw [hX]
        exact g5

/-- The first two loops of `collect` on a well-formed single-context heap without null
slots: the records an external handle holds stay on the registry in their order, the
others move to `unused` in their order, and the invariant of the third loop holds. -/
theorem partition_restoring (s : State) (hwf : WellFormed s) (hone : OneContext s)
    (hnn : NoNull s) (hu : s.unused = []) :
    ∃ s2, (phase1 s).andThen phase2 = .ok s2 ∧ Restoring s s.registry [] s2 ∧
      s2.registry.length + s2.unused.length = s.registry.length ∧
      s2.registry = s.registry.filter (fun p => decide (0 < s.roots.count (some p))) ∧
      s2.unused = s.registry.filter (fun p => decide (s.roots.count (some p) = 0)) := by
  obtain ⟨s1, h1, hsh1, hreg1, hun1, hrc1⟩ := phase1_external s hwf hone hnn
  have hcl : ∀ a ∈ s.registry, ∀ x ∈ slotsAt s a, ∃ t, x = some t ∧ t ∈ s.registry :=
    fun a _ x hx => slot_closed hwf hone hnn a x hx
  have hfr1 : ∀ a, a ∉ s.registry → rcOf s1 a = rcOf s a := by
    intro a ha
    obtain ⟨s1b, h1b, _, _, _, hrcb⟩ := phase1_spec s hwf hnn
    rw [h1] at h1b
    simp only [Outcome.ok.injEq] at h1b
    subst h1b
    have := hrcb a
    have hz : (s.registry.flatMap (slotsAt s)).count (some a) = 0 := by
      apply List.count_eq_zero_of_not_mem
      intro hmem
      obtain ⟨b, hb, hba⟩ := List.mem_flatMap.1 hmem
      obtain ⟨t, ht1, ht2⟩ := hcl b hb _ hba
      simp only [Option.some.injEq] at ht1
      exact ha (ht1 ▸ ht2)
    omega
  have hl1 : ∀ p ∈ s1.registry, ∃ v, load s1 p = some v := by
    intro p hp
    rw [hreg1] at hp
    obtain ⟨v, hv⟩ := hwf.linked p hp
    exact ⟨_, hsh1.load_eq hv⟩
  obtain ⟨s2, h2, hheap2, hroots2, hreg2, hun2⟩ :=
    phase2_spec s1 (by rw [hreg1]; exact hwf.nodup) (by rw [hun1]; exact hu) hl1
  rw [hreg1] at hreg2 hun2
  have hrc2 : ∀ a, rcOf s2 a = rcOf s1 a := rcOf_congr hheap2
  have hinv : Restoring s s.registry [] s2 := by
    refine ⟨?_, ?_, ?_, ?_, ?_, ?_, ?_, ?_⟩
    · exact hsh1.shape_trans (sameShape_of_heap hheap2 hroots2)
    · rw [hreg2, hun2, List.nodup_append]
      refine ⟨hwf.nodup.filter _, hwf.nodup.filter _, ?_⟩
      intro a ha hb
      simp only [List.mem_filter, decide_eq_true_eq] at ha hb
      omega
    · intro a
      rw [hreg2, hun2]
      simp only [List.mem_filter, decide_eq_true_eq]
      constructor
      · rintro (h | h) <;> exact h.1
      · intro h
        by_cases hz : rcOf s1 a = 0
        · exact Or.inr ⟨h, hz⟩
        · exact Or.inl ⟨h, by omega⟩
    · intro a ha
      rw [hrc2, hrc1 a ha]; simp
    · intro a ha
      rw [hun2] at ha
      simp only [List.mem_filter, decide_eq_true_eq] at ha
      rw [hrc2]; exact ha.2
    · intro a ha
      rw [hreg2] at ha
      simp only [List.mem_filter, decide_eq_true_eq] at ha
      rw [hrc2]; exact ha.2
    · intro a ha
      rw [hreg2] at ha
      simp only [List.mem_filter, decide_eq_true_eq] at ha
      rw [hrc1 a ha.1] at ha
      exact ⟨a, List.count_pos_iff.1 ha.2, Relation.ReflTransGen.refl⟩
    · intro a ha
      rw [hrc2]; exact hfr1 a ha
  have hlen : s2.registry.length + s2.unused.length = s.registry.length := by
    have hperm : (s2.registry ++ s2.unused).Perm s.registry := by
      rw [List.perm_ext_iff_of_nodup hinv.nodup hwf.nodup]
      intro a
      rw [List.mem_append]
      exact hinv.cover a
    have := hperm.length_eq
    simpa using this
  refine ⟨s2, by rw [h1]; exact h2, hinv, hlen, ?_, ?_⟩
  · rw [hreg2]
    apply List.filter_congr
    intro p hp
    rw [hrc1 p hp]
  · rw [hun2]
    apply List.filter_congr
    intro p hp
    rw [hrc1 p hp]

/-- C16. The second and third loop of `collect` on a well-formed single-context heap
without null slots.  They return; at the end the registry holds exactly the records
reachable from an external handle at entry and `unused` exactly the allocated records
that are not.  The registry only grows at its end during the walk, and the nodes the walk
visits are the elements of the final registry in order, so that every record spliced
back is visited after the record whose slot rescued it.  At every visit the body is the
run of `restore_slot` over the slots of the visited record, and in each of them the test
`ref_count == 0` holds exactly when the target sits on `unused`. -/
theorem partition_and_rescue (s : State) (fuel : Nat) (hwf : WellFormed s)
    (hone : OneContext s) (hnn : NoNull s) (hu : s.unused = [])
    (hfuel : s.registry.length ≤ fuel) :
    ∃ s2 s3, (phase1 s).andThen phase2 = .ok s2 ∧ phase3 fuel s2 = .ok s3 ∧
      (∀ a, a ∈ s3.registry ↔ Reachable s a) ∧
      (∀ a, a ∈ s3.unused ↔ ((∃ v, load s a = some v) ∧ ¬ Reachable s a)) ∧
      (∃ X, s3.registry = s2.registry ++ X) ∧
      visits State.registry restore_record fuel s2.registry.head? s2 = s3.registry ∧
      walkAll State.registry restore_record
        (fun u q => restore_record u q = forEach restore_slot (slotsAt u q) u ∧
          forEachAll restore_slot
            (fun w x => ∃ a, x = some a ∧ (rcOf w a = 0 ↔ a ∈ w.unused)) (slotsAt u q) u)
        fuel s2.registry.head? s2 := by
  obtain ⟨s2, h12, hinv, hlen, -, -⟩ := partition_restoring s hwf hone hnn hu
  have hcl : ∀ a ∈ s.registry, ∀ x ∈ slotsAt s a, ∃ t, x = some t ∧ t ∈ s.registry :=
    fun a _ x hx => slot_closed hwf hone hnn a x hx
  have hall : ∀ a, (a ∈ s.registry ∧ ¬ Reachable s a) ↔
      ((∃ v, load s a = some v) ∧ ¬ Reachable s a) := by
    intro a
    constructor
    · rintro ⟨h1, h2⟩
      exact ⟨hwf.linked a h1, h2⟩
    · rintro ⟨⟨v, hv⟩, h2⟩
      exact ⟨hone a v hv, h2⟩
  cases hr : s2.registry with
  | nil =>
    have hfin : Restoring s s.registry (s2.registry.flatMap (slotsAt s)) s2 := by
      rw [hr]; exact hinv
    obtain ⟨f1, f2⟩ := restoring_final hfin (root_registered hwf hone) hcl
    have hhead : s2.registry.head? = none := by rw [hr]; rfl
    refine ⟨s2, s2, h12, ?_, f1, fun a => (f2 a).trans (hall a), ⟨[], by simp⟩, ?_, ?_⟩
    · simp [phase3, hr, walk_none]
    · rw [hhead, visits_none, hr]
    · rw [hhead]
      exact walkAll_none _ _ _ _ _
  | cons p T =>
    rw [hr] at hlen
    simp only [List.length_cons] at hlen
    obtain ⟨s3, h3, hfin, hvis, hgrow, htrace⟩ :=
      walk_restore_visits s s.registry hwf.linked hcl (holders_bound hwf hone)
        fuel [] p T s2 (by simpa using hinv) (by simpa using hr) (by omega)
    obtain ⟨f1, f2⟩ := restoring_final hfin (root_registered hwf hone) hcl
    have hhead : s2.registry.head? = some p := by rw [hr]; rfl
    refine ⟨s2, s3, h12, ?_, f1, fun a => (f2 a).trans (hall a), hgrow, ?_, ?_⟩
    · simpa [phase3, hr] using h3
    · rw [hhead]
      simpa using hvis.symm
    · rw [hhead]
      exact htrace

/-- The six-record heap `heapMixed`, in which records `1` and `2` are rescued. -/
theorem partition_and_rescue_witness :
    ∃ s2 s3, (phase1 heapMixed).andThen phase2 = .ok s2 ∧ phase3 6 s2 = .ok s3 ∧
      (∀ a, a ∈ s3.registry ↔ Reachable heapMixed a) ∧
      (∀ a, a ∈ s3.unused ↔ ((∃ v, load heapMixed a = some v) ∧ ¬ Reachable heapMixed a)) ∧
      (∃ X, s3.registry = s2.registry ++ X) ∧
      visits State.registry restore_record 6 s2.registry.head? s2 = s3.registry ∧
      walkAll State.registry restore_record
        (fun u q => restore_record u q = forEach restore_slot (slotsAt u q) u ∧
          forEachAll restore_slot
            (fun w x => ∃ a, x = some a ∧ (rcOf w a = 0 ↔ a ∈ w.unused)) (slotsAt u q) u)
        6 s2.registry.head? s2 :=
  partition_and_rescue heapMixed 6 (wellFormed_of_check _ (by decide))
    (oneContext_of_check _ (by decide)) (noNull_of_check _ (by decide)) (by decide)
    (by decide)

/-! ### Cascades of `Ptr::decrease` that start outside `unused` -/

theorem slots_with_count (v : Value) (r : Nat) :
    ({ v with ref_count := r } : Value).slots = v.slots := rfl

theorem slots_with_destroyed (v : Value) (d : Nat) :
    ({ v with destroyed := d } : Value).slots = v.slots := rfl

theorem slots_with_freed (v : Value) (b : Bool) :
    ({ v with freed := b } : Value).slots = v.slots := rfl

theorem aside_refl (U : List Nat) (u : State) : Aside U u u :=
  ⟨rfl, fun _ _ => rfl, fun _ v1 _ h => ⟨v1, h, rfl⟩⟩

theorem aside_trans {U : List Nat} {u u1 u2 : State} (h1 : Aside U u u1) (h2 : Aside U u1 u2) :
    Aside U u u2 := by
  refine ⟨h2.unused.trans h1.unused, fun g hg => (h2.heap g hg).trans (h1.heap g hg), ?_⟩
  intro a v2 ha hv2
  obtain ⟨v1, hv1, e1⟩ := h2.back a v2 ha hv2
  obtain ⟨v, hv, e⟩ := h1.back a v1 ha hv1
  exact ⟨v, hv, e1.trans e⟩

theorem sealed_of_aside {U : List Nat} {u u1 : State} (h : Aside U u u1) (hs : Sealed U u) :
    Sealed U u1 := by
  intro a v1 ha hv1 t ht
  obtain ⟨v, hv, e⟩ := h.back a v1 ha hv1
  exact hs a v ha hv t (e ▸ ht)

theorem aside_store {U : List Nat} {u : State} {t : Nat} {v : Value} (w : Value)
    (ht : t ∉ U) (hv : load u t = some v) (hw : w.slots = v.slots) :
    Aside U u (store u t w) := by
  refine ⟨rfl, ?_, ?_⟩
  · intro g hg
    have hne : t ≠ g := fun e => ht (e ▸ hg)
    rw [store_heap_get]
    simp [hne]
  · intro a v1 _ hv1
    by_cases e : t = a
    · subst e
      have hlt := load_lt hv
      rw [load_eq_some, store_heap_get] at hv1
      simp only [if_true, hlt] at hv1
      have : w = v1 := by simpa using hv1.1
      subst this
      exact ⟨v, hv, hw⟩
    · rw [load_store_other w e] at hv1
      exact ⟨v1, hv1, rfl⟩

theorem aside_remove {U : List Nat} {u : State} {t : Nat} (ht : t ∉ u.unused) :
    Aside U u (remove t u) := by
  refine ⟨?_, fun _ _ => rfl, fun a v1 _ h => ⟨v1, h, rfl⟩⟩
  show u.unused.erase t = u.unused
  exact List.erase_of_not_mem ht

theorem forEach_aside (U : List Nat) (drop : State → Option Nat → Outcome)
    (hdrop : ∀ (u : State) (x : Option Nat) (u1 : State), (∀ g ∈ u.unused, g ∈ U) →
      Sealed U u → (∀ t, x = some t → t ∉ U) → drop u x = .ok u1 → Aside U u u1)
    (L : List (Option Nat)) :
    ∀ (u u1 : State), (∀ g ∈ u.unused, g ∈ U) → Sealed U u →
      (∀ x ∈ L, ∀ t, x = some t → t ∉ U) → forEach drop L u = .ok u1 → Aside U u u1 := by
  induction L with
  | nil =>
    intro u u1 _ _ _ h
    simp only [forEach, Outcome.ok.injEq] at h
    subst h
    exact aside_refl U u
  | cons x L ih =>
    intro u u1 hun hs hL h
    simp only [forEach] at h
    cases hd : drop u x with
    | fault e => rw [hd] at h; cases h
    | ok u2 =>
      rw [hd] at h
      have h1 := hdrop u x u2 hun hs (hL x (List.mem_cons_self _ _)) hd
      have h2 := ih u2 u1 (by rw [h1.unused]; exact hun) (sealed_of_aside h1 hs)
        (fun y hy => hL y (List.mem_cons_of_mem _ hy)) h
      exact aside_trans h1 h2

theorem decrease_unloaded {u : State} {t : Nat} (fuel : Nat) (hv : load u t = none) :
    decrease (fuel + 1) u (some t) = .fault .use_after_free := by
  simp [decrease, hv]

theorem decrease_last_step {u : State} {t : Nat} {v : Value} (fuel : Nat)
    (hv : load u t = some v) (hr : ¬ 0 < (v.ref_count + WORD - 1) % WORD) :
    decrease (fuel + 1) u (some t)
      = match destroy (decrease fuel) (remove t (store u t
          { v with ref_count := (v.ref_count + WORD - 1) % WORD })) t with
        | .ok s2 => free s2 t
        | .fault e => .fault e := by
  rw [decrease, hv]
  exact if_neg hr

/-- A decrement whose target lies outside `U`, with everything it sets off, leaves the
records of `U` and the list `unused` as they are. -/
theorem decrease_aside (U : List Nat) :
    ∀ (fuel : Nat) (u : State) (x : Option Nat) (u1 : State), (∀ g ∈ u.unused, g ∈ U) →
      Sealed U u → (∀ t, x = some t → t ∉ U) → decrease fuel u x = .ok u1 → Aside U u u1 := by
  intro fuel
  induction fuel with
  | zero =>
    intro u x u1 _ _ _ h
    cases x with
    | none =>
      rw [decrease_none] at h
      simp only [Outcome.ok.injEq] at h
      subst h
      exact aside_refl U u
    | some t =>
      have : decrease 0 u (some t) = .fault .out_of_fuel := rfl
      rw [this] at h
      cases h
  | succ fuel ih =>
    intro u x u1 hun hs hx h
    cases x with
    | none =>
      rw [decrease_none] at h
      simp only [Outcome.ok.injEq] at h
      subst h
      exact aside_refl U u
    | some t =>
      have htU : t ∉ U := hx t rfl
      have htun : t ∉ u.unused := fun e => htU (hun t e)
      cases hv : load u t with
      | none =>
        rw [decrease_unloaded fuel hv] at h
        cases h
      | some v =>
        have hget := (load_eq_some.1 hv)
        by_cases hr : 0 < (v.ref_count + WORD - 1) % WORD
        · rw [decrease_keep fuel hv hr] at h
          simp only [Outcome.ok.injEq] at h
          subst h
          exact aside_store _ htU hv (slots_with_count v _)
        · rw [decrease_last_step fuel hv hr] at h
          generalize (v.ref_count + WORD - 1) % WORD = r at h
          have a1 : Aside U u (store u t { v with ref_count := r }) :=
            aside_store _ htU hv (slots_with_count v r)
          have hv1 : load (remove t (store u t { v with ref_count := r })) t
              = some { v with ref_count := r } :=
            load_store_self hv hget.2
          have a2 : Aside U (store u t { v with ref_count := r })
              (remove t (store u t { v with ref_count := r })) :=
            aside_remove (by rw [a1.unused]; exact htun)
          have a12 := aside_trans a1 a2
          cases hd : destroy (decrease fuel) (remove t (store u t { v with ref_count := r })) t with
          | fault e => rw [hd] at h; cases h
          | ok u2 =>
            rw [hd] at h
            simp only [destroy, hv1] at hd
            have a3 := aside_store (U := U) (u := remove t (store u t { v with ref_count := r }))
              { ({ v with ref_count := r } : Value) with destroyed := v.destroyed + 1 }
              htU hv1 (slots_with_destroyed _ _)
            have a123 := aside_trans a12 a3
            have a4 := forEach_aside U (decrease fuel)
              (fun w y w1 h1 h2 h3 h4 => ih w y w1 h1 h2 h3 h4) _ _ u2
              (by rw [a123.unused]; exact hun) (sealed_of_aside a123 hs)
              (fun y hy c hc => by
                subst hc
                have h1 := List.mem_reverse.mp hy
                rw [slots_with_count] at h1
                exact hs t v htU hv c h1)
              hd
            have a1234 := aside_trans a123 a4
            cases hw : load u2 t with
            | none =>
              simp only [free, hw] at h
              cases h
            | some w =>
              simp only [free, hw, Outcome.ok.injEq] at h
              subst h
              exact aside_trans a1234 (aside_store _ htU hw (slots_with_freed w true))

/-! ### The fourth loop of `collect`, decrement by decrement -/

theorem forEachAll_cons_ok {α : Type} {f : State → α → Outcome} {P : State → α → Prop}
    {x : α} {xs : List α} {s s1 : State} (hf : f s x = .ok s1) (hp : P s x)
    (hrest : forEachAll f P xs s1) : forEachAll f P (x :: xs) s := by
  show P s x ∧ _
  refine ⟨hp, ?_⟩
  rw [hf]
  exact hrest

theorem forEachAll_cons_fault {α : Type} {f : State → α → Outcome} {P : State → α → Prop}
    {x : α} {xs : List α} {s : State} {e : Fault} (hf : f s x = .fault e) (hp : P s x) :
    forEachAll f P (x :: xs) s := by
  show P s x ∧ _
  refine ⟨hp, ?_⟩
  rw [hf]
  trivial

theorem count_cons_some (t g : Nat) (l : List (Option Nat)) :
    (some t :: l).count (some g) = l.count (some g) + if g = t then 1 else 0 := by
  by_cases hgt : g = t
  · subst hgt; simp
  · have hne : (some t == some g) = false := by simpa using Ne.symm hgt
    simp [List.count_cons, hne, hgt]

theorem reclaiming_done_congr {U : List Nat} {sl : Nat → List (Option Nat)} {d1 : List Nat}
    (d2 : List Nat)
    {todo : List (Option Nat)} {u : State} (h : Reclaiming U sl d1 todo u)
    (hd : ∀ g, g ∈ d1 ↔ g ∈ d2) : Reclaiming U sl d2 todo u := by
  refine ⟨h.unused, ?_, h.word, h.bound, h.count, h.apart⟩
  intro g hg
  obtain ⟨v, hv, hs, hdes⟩ := h.alive g hg
  refine ⟨v, hv, hs, ?_⟩
  rw [hdes]
  by_cases e : g ∈ d1
  · rw [if_pos e, if_pos ((hd g).mp e)]
  · rw [if_neg e, if_neg (fun e2 => e ((hd g).mpr e2))]

/-- The invariant of the fourth loop carries over to a state that differs only outside
`unused`, for a list of pending handles that holds the records of `unused` as often. -/
theorem reclaiming_aside {U : List Nat} {sl : Nat → List (Option Nat)} {done : List Nat}
    {todo todo2 : List (Option Nat)} {u u1 : State} (h : Reclaiming U sl done todo u)
    (ha : Aside U u u1) (hc : ∀ g ∈ U, todo2.count (some g) = todo.count (some g)) :
    Reclaiming U sl done todo2 u1 := by
  have hload : ∀ g ∈ U, load u1 g = load u g := by
    intro g hg
    unfold load
    rw [ha.heap g hg]
  have hrc : ∀ g ∈ U, rcOf u1 g = rcOf u g := by
    intro g hg
    unfold rcOf
    rw [ha.heap g hg]
  refine ⟨ha.unused.trans h.unused, ?_, ?_, ?_, ?_, sealed_of_aside ha h.apart⟩
  · intro g hg
    rw [hload g hg]
    exact h.alive g hg
  · intro g hg
    rw [hrc g hg]
    exact h.word g hg
  · intro g hg
    rw [hc g hg]
    exact h.bound g hg
  · intro g hg
    rw [hrc g hg, hc g hg]
    exact h.count g hg

/-- A decrement of a record on `unused` during the fourth loop: the count it leaves is
positive, and the call returns after nothing but the store of that count. -/
theorem reclaiming_drop {U : List Nat} {sl : Nat → List (Option Nat)} {done : List Nat}
    {todo : List (Option Nat)} {u : State} {t : Nat} (k : Nat)
    (h : Reclaiming U sl done (some t :: todo) u) (ht : t ∈ U) :
    ∃ v, load u t = some v ∧ 0 < (v.ref_count + WORD - 1) % WORD ∧
      decrease (k + 1) u (some t)
        = .ok (store u t { v with ref_count := (v.ref_count + WORD - 1) % WORD }) ∧
      Reclaiming U sl done todo
        (store u t { v with ref_count := (v.ref_count + WORD - 1) % WORD }) := by
  obtain ⟨v, hv, hsl, hdes⟩ := h.alive t ht
  have hvr := rcOf_of_load hv
  have hget := load_eq_some.1 hv
  have hwt := h.word t ht
  have hbt := h.bound t ht
  have hct := h.count t ht
  rw [count_cons_some, if_pos rfl] at hbt hct
  have hr : 0 < (v.ref_count + WORD - 1) % WORD := by
    rw [← hvr]; rw [WORD_eq] at hwt hbt ⊢; omega
  refine ⟨v, hv, hr, decrease_keep k hv hr, ?_⟩
  generalize hrdef : (v.ref_count + WORD - 1) % WORD = r at hr ⊢
  have hrc : ∀ a, rcOf (store u t { v with ref_count := r }) a
      = if a = t then r else rcOf u a := by
    intro a
    by_cases ha : a = t
    · subst ha
      rw [rcOf_store_self hget.1]; simp
    · rw [rcOf_store_other _ (Ne.symm ha)]; simp [ha]
  refine ⟨h.unused, ?_, ?_, ?_, ?_, ?_⟩
  · intro g hg
    by_cases e : g = t
    · subst e
      exact ⟨_, load_store_self hv hget.2, (slots_with_count v r).trans hsl, hdes⟩
    · rw [load_store_other _ (Ne.symm e)]
      exact h.alive g hg
  · intro g hg
    rw [hrc]
    split
    · rw [← hrdef]
      exact Nat.mod_lt _ (by rw [WORD_eq]; omega)
    · exact h.word g hg
  · intro g hg
    have := h.bound g hg
    rw [count_cons_some] at this
    omega
  · intro g hg
    have h1 := h.count g hg
    have h2 := h.bound g hg
    have h3 := h.word g hg
    rw [count_cons_some] at h1 h2
    rw [hrc]
    by_cases e : g = t
    · subst e
      simp only [if_true] at h1 h2 ⊢
      right
      rw [← hrdef, ← hvr]
      rw [WORD_eq] at h2 h3 ⊢; omega
    · simp only [e, if_false] at h1 h2 ⊢
      simpa using h1
  · intro a w ha hw x hx
    have hne : t ≠ a := fun e => ha (e ▸ ht)
    rw [load_store_other _ hne] at hw
    exact h.apart a w ha hw x hx

/-- The handles of one record of `unused` dropped by its destructor: every decrement of
a record on `unused` leaves a positive count and unlinks and releases nothing, and if the
run returns the invariant holds for the handles that remain. -/
theorem forEach_reclaiming (U : List Nat) (sl : Nat → List (Option Nat)) (done : List Nat)
    (k : Nat) (L : List (Option Nat)) :
    ∀ (Rest : List (Option Nat)) (u : State), Reclaiming U sl done (L ++ Rest) u →
      forEachAll (decrease (k + 1))
        (fun w x => ∀ t, x = some t → t ∈ w.unused → ∃ v, load w t = some v ∧
          0 < (v.ref_count + WORD - 1) % WORD ∧
          decrease (k + 1) w x
            = .ok (store w t { v with ref_count := (v.ref_count + WORD - 1) % WORD })) L u ∧
      ∀ u1, forEach (decrease (k + 1)) L u = .ok u1 → Reclaiming U sl done Rest u1 := by
  induction L with
  | nil =>
    intro Rest u h
    refine ⟨trivial, ?_⟩
    intro u1 h1
    simp only [forEach, Outcome.ok.injEq] at h1
    subst h1
    simpa using h
  | cons x L ih =>
    intro Rest u h
    rw [List.cons_append] at h
    cases x with
    | none =>
      have hnext : Reclaiming U sl done (L ++ Rest) u :=
        reclaiming_aside h (aside_refl U u) (fun g _ => by simp [List.count_cons])
      obtain ⟨i1, i2⟩ := ih Rest u hnext
      refine ⟨forEachAll_cons_ok (decrease_none _ _) (fun t e => by cases e) i1, ?_⟩
      · intro u1 h1
        simp only [forEach, decrease_none] at h1
        exact i2 u1 h1
    | some t =>
      by_cases htU : t ∈ U
      · obtain ⟨v, hv, hr, hstep, hnext⟩ := reclaiming_drop k h htU
        obtain ⟨i1, i2⟩ := ih Rest _ hnext
        refine ⟨forEachAll_cons_ok hstep ?_ i1, ?_⟩
        · intro c hc _
          have : t = c := by simpa using hc
          subst this
          exact ⟨v, hv, hr, hstep⟩
        · intro u1 h1
          simp only [forEach, hstep] at h1
          exact i2 u1 h1
      · have hnot : ∀ c, some t = some c → c ∈ u.unused → False := by
          intro c hc hcu
          have : t = c := by simpa using hc
          subst this
          rw [h.unused] at hcu
          exact htU hcu
        cases hd : decrease (k + 1) u (some t) with
        | fault e =>
          refine ⟨forEachAll_cons_fault hd
            (fun c hc hcu => absurd hcu (fun e => hnot c hc e)), ?_⟩
          intro u1 h1
          simp only [forEach, hd] at h1
          cases h1
        | ok u2 =>
          have ha := decrease_aside U (k + 1) u (some t) u2
            (fun g hg => by rw [h.unused] at hg; exact hg) h.apart
            (fun c hc => by
              have : t = c := by simpa using hc
              exact this ▸ htU)
            hd
          have hnext : Reclaiming U sl done (L ++ Rest) u2 :=
            reclaiming_aside h ha (fun g hg => by
              rw [count_cons_some]
              have : g ≠ t := fun e => htU (e ▸ hg)
              simp [this])
          obtain ⟨i1, i2⟩ := ih Rest u2 hnext
          refine ⟨forEachAll_cons_ok hd
            (fun c hc hcu => absurd hcu (fun e => hnot c hc e)) i1, ?_⟩
          intro u1 h1
          simp only [forEach, hd] at h1
          exact i2 u1 h1

/-- The destructor of one record of `unused` during the fourth loop. -/
theorem destroy_reclaiming (U : List Nat) (sl : Nat → List (Option Nat)) (done : List Nat)
    (k : Nat) (Rest : List (Option Nat)) (u : State) (p : Nat) (hp : p ∈ U) (hpd : p ∉ done)
    (h : Reclaiming U sl done ((sl p).reverse ++ Rest) u) :
    destroyAll (decrease (k + 1))
        (fun w x => ∀ t, x = some t → t ∈ w.unused → ∃ v, load w t = some v ∧
          0 < (v.ref_count + WORD - 1) % WORD ∧
          decrease (k + 1) w x
            = .ok (store w t { v with ref_count := (v.ref_count + WORD - 1) % WORD })) u p ∧
      ∀ u1, destroy (decrease (k + 1)) u p = .ok u1 → Reclaiming U sl (p :: done) Rest u1 := by
  obtain ⟨v, hv, hsl, hdes⟩ := h.alive p hp
  rw [if_neg hpd] at hdes
  have hget := load_eq_some.1 hv
  have hstart : Reclaiming U sl (p :: done) ((sl p).reverse ++ Rest)
      (store u p { v with destroyed := v.destroyed + 1 }) := by
    refine ⟨h.unused, ?_, ?_, h.bound, ?_, ?_⟩
    · intro g hg
      by_cases e : g = p
      · subst e
        refine ⟨_, load_store_self hv hget.2, (slots_with_destroyed v _).trans hsl, ?_⟩
        rw [if_pos (List.mem_cons_self _ _)]
        show v.destroyed + 1 = 1
        rw [hdes]
      · rw [load_store_other _ (Ne.symm e)]
        obtain ⟨w, hw, hs, hd⟩ := h.alive g hg
        refine ⟨w, hw, hs, ?_⟩
        rw [hd]
        by_cases e2 : g ∈ done
        · rw [if_pos e2, if_pos (List.mem_cons_of_mem _ e2)]
        · rw [if_neg e2, if_neg (fun e3 => by
            rcases List.mem_cons.mp e3 with e4 | e4
            · exact e e4
            · exact e2 e4)]
    · intro g hg
      rw [rcOf_store_destroyed hv]
      exact h.word g hg
    · intro g hg
      rw [rcOf_store_destroyed hv]
      exact h.count g hg
    · intro a w ha hw x hx
      have hne : p ≠ a := fun e => ha (e ▸ hp)
      rw [load_store_other _ hne] at hw
      exact h.apart a w ha hw x hx
  obtain ⟨i1, i2⟩ := forEach_reclaiming U sl (p :: done) k (sl p).reverse Rest _ hstart
  constructor
  · unfold destroyAll
    rw [hv]
    show forEachAll _ _ v.slots.reverse _
    rw [hsl]
    exact i1
  · intro u1 h1
    unfold destroy at h1
    rw [hv] at h1
    have h2 : forEach (decrease (k + 1)) v.slots.reverse
        (store u p { v with destroyed := v.destroyed + 1 }) = .ok u1 := h1
    rw [hsl] at h2
    exact i2 u1 h2

/-- The fourth loop of `collect` from a state that satisfies its invariant: at the start
of every destructor all records of `unused` are allocated, each decrement of a record on
`unused` leaves a positive count and returns after the store of that count, and if the
loop returns, all records of `unused` are still allocated and have been destroyed once. -/
theorem walk_reclaiming (U : List Nat) (sl : Nat → List (Option Nat)) (k : Nat)
    (hnd : U.Nodup) :
    ∀ (n : Nat) (done : List Nat) (p : Nat) (rest : List Nat) (u : State),
      U = done ++ p :: rest →
      Reclaiming U sl done ((p :: rest).flatMap (fun g => (sl g).reverse)) u →
      walkAll State.unused (destroy (decrease (k + 1)))
        (fun w g => (∀ h ∈ w.unused, ∃ v, load w h = some v) ∧
          destroyAll (decrease (k + 1))
            (fun w x => ∀ t, x = some t → t ∈ w.unused → ∃ v, load w t = some v ∧
              0 < (v.ref_count + WORD - 1) % WORD ∧
              decrease (k + 1) w x
                = .ok (store w t { v with ref_count := (v.ref_count + WORD - 1) % WORD }))
            w g)
        n (some p) u ∧
      ∀ u1, walk State.unused (destroy (decrease (k + 1))) n (some p) u = .ok u1 →
        Reclaiming U sl U [] u1 := by
  intro n
  induction n with
  | zero =>
    intro done p rest u _ _
    refine ⟨trivial, ?_⟩
    intro u1 h1
    have : walk State.unused (destroy (decrease (k + 1))) 0 (some p) u
        = .fault .out_of_fuel := rfl
    rw [this] at h1
    cases h1
  | succ n ih =>
    intro done p rest u hU h
    have hpU : p ∈ U := by rw [hU]; simp
    have hpd : p ∉ done := by
      intro e
      rw [hU] at hnd
      exact (List.nodup_append.1 hnd).2.2 e (List.mem_cons_self _ _)
    rw [List.flatMap_cons] at h
    obtain ⟨d1, d2⟩ := destroy_reclaiming U sl done k _ u p hpU hpd h
    have hall : ∀ g ∈ u.unused, ∃ v, load u g = some v := by
      intro g hg
      rw [h.unused] at hg
      obtain ⟨v, hv, -, -⟩ := h.alive g hg
      exact ⟨v, hv⟩
    cases hd : destroy (decrease (k + 1)) u p with
    | fault e =>
      constructor
      · show (_ ∧ _) ∧ _
        refine ⟨⟨hall, d1⟩, ?_⟩
        rw [hd]
        trivial
      · intro u1 h1
        simp only [walk, hd] at h1
        cases h1
    | ok u2 =>
      have h2 := reclaiming_done_congr (done ++ [p]) (d2 u2 hd) (by
        intro g
        simp only [List.mem_cons, List.mem_append, List.mem_singleton]
        tauto)
      obtain ⟨v2, hv2, -, -⟩ := h2.alive p hpU
      have hnext : next_of u2.unused p = rest.head? := by
        rw [h2.unused, hU]
        exact next_of_append done rest p hpd
      have hwalkAll : ∀ (X : Prop), X →
          (walkAll State.unused (destroy (decrease (k + 1)))
            (fun w g => (∀ h ∈ w.unused, ∃ v, load w h = some v) ∧
              destroyAll (decrease (k + 1))
                (fun w x => ∀ t, x = some t → t ∈ w.unused → ∃ v, load w t = some v ∧
                  0 < (v.ref_count + WORD - 1) % WORD ∧
                  decrease (k + 1) w x
                    = .ok (store w t { v with ref_count := (v.ref_count + WORD - 1) % WORD }))
                w g)
            n rest.head? u2 = X) →
          walkAll State.unused (destroy (decrease (k + 1)))
            (fun w g => (∀ h ∈ w.unused, ∃ v, load w h = some v) ∧
              destroyAll (decrease (k + 1))
                (fun w x => ∀ t, x = some t → t ∈ w.unused → ∃ v, load w t = some v ∧
                  0 < (v.ref_count + WORD - 1) % WORD ∧
                  decrease (k + 1) w x
                    = .ok (store w t { v with ref_count := (v.ref_count + WORD - 1) % WORD }))
                w g)
            (n + 1) (some p) u := by
        intro X hX heq
        show (_ ∧ _) ∧ _
        refine ⟨⟨hall, d1⟩, ?_⟩
        rw [hd]
        simp only [hv2, hnext]
        exact heq ▸ hX
      have hwalk : walk State.unused (destroy (decrease (k + 1))) (n + 1) (some p) u
          = walk State.unused (destroy (decrease (k + 1))) n rest.head? u2 := by
        simp only [walk, hd, hv2, hnext]
      cases rest with
      | nil =>
        constructor
        · exact hwalkAll _ (walkAll_none _ _ _ _ _) rfl
        · intro u1 h1
          rw [hwalk] at h1
          simp only [List.head?_nil, walk_none, Outcome.ok.injEq] at h1
          subst h1
          refine reclaiming_done_congr _ h2 ?_
          intro g
          rw [hU]
      | cons q rest2 =>
        have hU2 : U = (done ++ [p]) ++ q :: rest2 := by rw [hU]; simp
        obtain ⟨j1, j2⟩ := ih (done ++ [p]) q rest2 u2 hU2 h2
        constructor
        · exact hwalkAll _ j1 rfl
        · intro u1 h1
          rw [hwalk] at h1
          exact j2 u1 h1

theorem walkAll_mono {sel : State → List Nat} {body : State → Nat → Outcome}
    {P Q : State → Nat → Prop} (h : ∀ s p, P s p → Q s p) :
    ∀ (n : Nat) (x : Option Nat) (s : State), walkAll sel body P n x s →
      walkAll sel body Q n x s := by
  intro n
  induction n with
  | zero =>
    intro x s _
    cases x <;> trivial
  | succ n ih =>
    intro x s hs
    cases x with
    | none => trivial
    | some p =>
      have hs2 : P s p ∧ _ := hs
      show Q s p ∧ _
      refine ⟨h s p hs2.1, ?_⟩
      have h2 := hs2.2
      cases hb : body s p with
      | fault e => trivial
      | ok s1 =>
        rw [hb] at h2
        simp only at h2 ⊢
        cases hl : load s1 p with
        | none => trivial
        | some v =>
          rw [hl] at h2
          exact ih _ s1 h2

theorem destroyAll_mono {drop : State → Option Nat → Outcome} {D E : State → Option Nat → Prop}
    (h : ∀ s x, D s x → E s x) (u : State) (g : Nat) (hd : destroyAll drop D u g) :
    destroyAll drop E u g := by
  unfold destroyAll at hd ⊢
  cases hv : load u g with
  | none => trivial
  | some v =>
    rw [hv] at hd
    exact forEachAll_mono h _ _ hd

/-- The state in which the fourth loop of `collect` starts, on a well-formed
single-context heap without null slots: the registry holds the reachable records,
`unused` the others, and the invariant of the fourth loop holds with every handle of
every record of `unused` pending. -/
theorem reclaiming_start (s : State) (fuel : Nat) (hwf : WellFormed s) (hone : OneContext s)
    (hnn : NoNull s) (hu : s.unused = []) (hfuel : s.registry.length ≤ fuel) :
    ∃ s3, ((phase1 s).andThen phase2).andThen (phase3 fuel) = .ok s3 ∧
      (∀ a, a ∈ s3.registry ↔ Reachable s a) ∧
      (∀ a, a ∈ s3.unused ↔ (a ∈ s.registry ∧ ¬ Reachable s a)) ∧
      s3.unused.Nodup ∧ (∀ g ∈ s3.unused, destroyedAt s3 g = 0) ∧
      Reclaiming s3.unused (slotsAt s) []
        (s3.unused.flatMap (fun g => (slotsAt s g).reverse)) s3 := by
  obtain ⟨s3, h3, hinv, hreg, hun⟩ := collect_front s fuel hwf hone hnn hu hfuel
  have hndu : s3.unused.Nodup := (List.nodup_append.1 hinv.nodup).2.1
  have hsubU : s3.unused.Subperm s.registry := by
    apply List.subperm_of_subset hndu
    intro a ha
    exact ((hun a).1 ha).1
  have halive : ∀ g ∈ s3.unused, ∃ v, load s3 g = some v ∧ v.slots = slotsAt s g ∧
      v.destroyed = 0 := by
    intro g hg
    obtain ⟨v, hv⟩ := hwf.linked g ((hun g).1 hg).1
    refine ⟨_, hinv.shape.load_eq hv, ?_, ?_⟩
    · rw [slots_with_count, slotsAt_of_load hv]
    · exact hwf.fresh g v hv
  refine ⟨s3, h3, hreg, hun, hndu, ?_, ?_⟩
  · intro g hg
    obtain ⟨v, hv, -, hd⟩ := halive g hg
    unfold destroyedAt
    rw [(load_eq_some.1 hv).1]
    exact hd
  refine ⟨rfl, ?_, ?_, ?_, ?_, ?_⟩
  · intro g hg
    obtain ⟨v, hv, hs, hd⟩ := halive g hg
    exact ⟨v, hv, hs, by simpa using hd⟩
  · intro g hg
    rw [hinv.zero g hg, WORD_eq]
    omega
  · intro g _
    rw [count_flatMap_reverse]
    have h1 := count_flatMap_le (slotsAt s) s3.unused s.registry hsubU (some g)
    have h2 := holders_bound hwf hone g
    omega
  · intro g hg
    exact Or.inl (hinv.zero g hg)
  · intro a w ha hw t ht
    obtain ⟨v, hv⟩ := (hinv.shape.load_isSome a).mp ⟨w, hw⟩
    have haR : a ∈ s.registry := hone a v hv
    have hareg : a ∈ s3.registry := by
      rcases (hinv.cover a).2 haR with e | e
      · exact e
      · exact absurd e ha
    have hra : Reachable s a := (hreg a).1 hareg
    have hedge : Edge s a t := by
      unfold Edge
      rw [← hinv.shape.slots_eq a, slotsAt_of_load hw]
      exact ht
    have hrt : Reachable s t := reachable_step hra hedge
    intro htU
    exact ((hun t).1 htU).2 hrt

/-- The fourth loop of `collect` from the state the third loop leaves. -/
theorem phase4_reclaiming (s3 : State) (sl : Nat → List (Option Nat)) (k : Nat)
    (hnd : s3.unused.Nodup)
    (h : Reclaiming s3.unused sl [] (s3.unused.flatMap (fun g => (sl g).reverse)) s3) :
    walkAll State.unused (destroy (decrease (k + 1)))
        (fun w g => (∀ h ∈ w.unused, ∃ v, load w h = some v) ∧
          destroyAll (decrease (k + 1))
            (fun w x => ∀ t, x = some t → t ∈ w.unused → ∃ v, load w t = some v ∧
              0 < (v.ref_count + WORD - 1) % WORD ∧
              decrease (k + 1) w x
                = .ok (store w t { v with ref_count := (v.ref_count + WORD - 1) % WORD }))
            w g)
        (k + 1) s3.unused.head? s3 ∧
      ∀ s4, phase4 (k + 1) s3 = .ok s4 → Reclaiming s3.unused sl s3.unused [] s4 := by
  cases hU : s3.unused with
  | nil =>
    refine ⟨walkAll_none _ _ _ _ _, ?_⟩
    intro s4 h4
    simp only [phase4, hU, List.head?_nil, walk_none, Outcome.ok.injEq] at h4
    subst h4
    rw [hU] at h
    simpa using h
  | cons p rest =>
    rw [hU] at h hnd
    obtain ⟨w1, w2⟩ := walk_reclaiming (p :: rest) sl k hnd (k + 1) [] p rest s3 rfl h
    refine ⟨w1, ?_⟩
    intro s4 h4
    simp only [phase4, hU, List.head?_cons] at h4
    exact w2 s4 h4

/-- After the fourth loop the fifth one releases every record of `unused`. -/
theorem phase5_reclaimed {U : List Nat} {sl : Nat → List (Option Nat)} {s4 : State}
    (hnd : U.Nodup) (h : Reclaiming U sl U [] s4) :
    (∀ g ∈ U, ¬ Freed s4 g ∧ destroyedAt s4 g = 1) ∧
      ∃ s5, phase5 s4 = .ok s5 ∧ ∀ g ∈ U, Freed s5 g ∧ destroyedAt s5 g = 1 := by
  have halive : ∀ g ∈ U, ∃ v, load s4 g = some v ∧ v.destroyed = 1 := by
    intro g hg
    obtain ⟨v, hv, -, hd⟩ := h.alive g hg
    rw [if_pos hg] at hd
    exact ⟨v, hv, hd⟩
  constructor
  · intro g hg
    obtain ⟨v, hv, hd⟩ := halive g hg
    refine ⟨not_freed_of_load hv, ?_⟩
    unfold destroyedAt
    rw [(load_eq_some.1 hv).1]
    exact hd
  · obtain ⟨s5, h5, -, -, -, -, f5⟩ := forEach_free s4.unused s4 (by rw [h.unused]; exact hnd)
      (fun g hg => by
        rw [h.unused] at hg
        obtain ⟨v, hv, -⟩ := halive g hg
        exact ⟨v, hv⟩)
    refine ⟨s5, h5, ?_⟩
    intro g hg
    obtain ⟨v, hv, hd⟩ := halive g hg
    have hget := f5 g (by rw [h.unused]; exact hg) v (load_eq_some.1 hv).1
    constructor
    · exact ⟨_, hget, rfl⟩
    · unfold destroyedAt
      rw [hget]
      exact hd

/-- C17 fails as stated: in the well-formed heap `heapTwiceHeld` both records end on
`unused`; the destructor of record `0` drops its two handles to record `1`, and the
second of these decrements finds the count `2^64 - 1` that the first one left, not 0. -/
theorem decrement_finds_wrapped_count :
    WellFormed heapTwiceHeld ∧ OneContext heapTwiceHeld ∧ NoNull heapTwiceHeld ∧
      ∃ s3, ((phase1 heapTwiceHeld).andThen phase2).andThen (phase3 3) = .ok s3 ∧
        ¬ walkAll State.unused (destroy (decrease 3))
          (destroyAll (decrease 3)
            (fun w x => ∀ t, x = some t → t ∈ w.unused → rcOf w t = 0))
          3 s3.unused.head? s3 := by
  refine ⟨wellFormed_of_check _ (by decide), oneContext_of_check _ (by decide),
    noNull_of_check _ (by decide),
    { heap := [⟨0, [[some 1, some 1]], 0, false⟩, ⟨0, [[some 0]], 0, false⟩]
      registry := []
      unused := [0, 1]
      roots := [none, none] }, by decide, ?_⟩
  intro h
  have h1 : forEachAll (decrease 3)
      (fun w x => ∀ t, x = some t → t ∈ w.unused → rcOf w t = 0) [some 1, some 1]
      { heap := [⟨0, [[some 1, some 1]], 1, false⟩, ⟨0, [[some 0]], 0, false⟩]
        registry := []
        unused := [0, 1]
        roots := [none, none] } := h.1
  have h2 : forEachAll (decrease 3)
      (fun w x => ∀ t, x = some t → t ∈ w.unused → rcOf w t = 0) [some 1]
      { heap := [⟨0, [[some 1, some 1]], 1, false⟩, ⟨WORD - 1, [[some 0]], 0, false⟩]
        registry := []
        unused := [0, 1]
        roots := [none, none] } := h1.2
  have h3 := h2.1 1 rfl (by decide)
  revert h3
  decide

/-- C17, amended.  On a well-formed single-context heap without null slots, while
`collect` runs the destructors of the records on `unused`: every handle decrement whose
target is a record on `unused` leaves a positive count (it finds 0 and wraps to
`2^64 - 1`, or finds what an earlier such decrement left) and returns after the store of
that count alone, without unlinking or releasing anything.  Hence, when the fourth loop
returns, every record on `unused` has been destroyed once and is still allocated, and the
fifth loop then releases it; the fourth loop does return when no unreachable record
holds a reachable one. -/
theorem reclaim_decrements_wrap (s : State) (fuel : Nat) (hwf : WellFormed s)
    (hone : OneContext s) (hnn : NoNull s) (hu : s.unused = [])
    (hfuel : s.registry.length < fuel) :
    ∃ s3, ((phase1 s).andThen phase2).andThen (phase3 fuel) = .ok s3 ∧
      walkAll State.unused (destroy (decrease fuel))
        (destroyAll (decrease fuel)
          (fun w x => ∀ t, x = some t → t ∈ w.unused → ∃ v, load w t = some v ∧
            0 < (v.ref_count + WORD - 1) % WORD ∧
            decrease fuel w x
              = .ok (store w t { v with ref_count := (v.ref_count + WORD - 1) % WORD })))
        fuel s3.unused.head? s3 ∧
      (∀ s4, phase4 fuel s3 = .ok s4 → ∃ s5, phase5 s4 = .ok s5 ∧
        ∀ g ∈ s3.unused, destroyedAt s3 g = 0 ∧ ¬ Freed s4 g ∧ destroyedAt s4 g = 1 ∧
          Freed s5 g ∧ destroyedAt s5 g = 1) ∧
      ((∀ a b, ¬ Reachable s a → Edge s a b → ¬ Reachable s b) →
        ∃ s4, phase4 fuel s3 = .ok s4) := by
  obtain ⟨k, rfl⟩ : ∃ k, fuel = k + 1 := ⟨fuel - 1, by omega⟩
  obtain ⟨s3, h3, -, -, hnd, hfresh, hstart⟩ :=
    reclaiming_start s (k + 1) hwf hone hnn hu (by omega)
  obtain ⟨w1, w2⟩ := phase4_reclaiming s3 (slotsAt s) k hnd hstart
  refine ⟨s3, h3, ?_, ?_, ?_⟩
  · exact walkAll_mono (fun w g hw => hw.2) _ _ _ w1
  · intro s4 h4
    obtain ⟨f1, s5, h5, f2⟩ := phase5_reclaimed hnd (w2 s4 h4)
    exact ⟨s5, h5, fun g hg => ⟨hfresh g hg, (f1 g hg).1, (f1 g hg).2, (f2 g hg).1,
      (f2 g hg).2⟩⟩
  · intro hsep
    obtain ⟨s5, h5, -⟩ := collect_loops s k hwf hone hnn
      (fun a b he hb => by
        by_contra ha
        exact hsep a b ha he hb)
      hu (by omega)
    rw [h3] at h5
    simp only [Outcome.andThen] at h5
    cases h4 : phase4 (k + 1) s3 with
    | ok s4 => exact ⟨s4, rfl⟩
    | fault e =>
      rw [h4] at h5
      cases h5

/-- The dead pair `heapTwiceHeld`, whose record `1` is decremented twice. -/
theorem reclaim_decrements_wrap_witness :
    ∃ s3, ((phase1 heapTwiceHeld).andThen phase2).andThen (phase3 3) = .ok s3 ∧
      walkAll State.unused (destroy (decrease 3))
        (destroyAll (decrease 3)
          (fun w x => ∀ t, x = some t → t ∈ w.unused → ∃ v, load w t = some v ∧
            0 < (v.ref_count + WORD - 1) % WORD ∧
            decrease 3 w x
              = .ok (store w t { v with ref_count := (v.ref_count + WORD - 1) % WORD })))
        3 s3.unused.head? s3 ∧
      (∀ s4, phase4 3 s3 = .ok s4 → ∃ s5, phase5 s4 = .ok s5 ∧
        ∀ g ∈ s3.unused, destroyedAt s3 g = 0 ∧ ¬ Freed s4 g ∧ destroyedAt s4 g = 1 ∧
          Freed s5 g ∧ destroyedAt s5 g = 1) ∧
      ((∀ a b, ¬ Reachable heapTwiceHeld a → Edge heapTwiceHeld a b →
          ¬ Reachable heapTwiceHeld b) →
        ∃ s4, phase4 3 s3 = .ok s4) :=
  reclaim_decrements_wrap heapTwiceHeld 3 (wellFormed_of_check _ (by decide))
    (oneContext_of_check _ (by decide)) (noNull_of_check _ (by decide)) (by decide)
    (by decide)

/-- C18.  In every run of `collect` on a well-formed single-context heap without null
slots: each time the destructor of a record on `unused` starts, every record on `unused`
is still allocated, and so is every record on `unused` at the moment one of the
destructor's decrements touches it; when the fourth loop returns, the destructor of
every record on `unused` has run, once, and every one of these records is still
allocated; only then does the fifth loop release them.  The fourth loop does return
when no unreachable record holds a reachable one. -/
theorem destructors_before_release (s : State) (fuel : Nat) (hwf : WellFormed s)
    (hone : OneContext s) (hnn : NoNull s) (hu : s.unused = [])
    (hfuel : s.registry.length < fuel) :
    ∃ s3, ((phase1 s).andThen phase2).andThen (phase3 fuel) = .ok s3 ∧
      walkAll State.unused (destroy (decrease fuel))
        (fun w g => (∀ h ∈ w.unused, ∃ v, load w h = some v) ∧
          destroyAll (decrease fuel)
            (fun w x => ∀ t, x = some t → t ∈ w.unused → ∃ v, load w t = some v) w g)
        fuel s3.unused.head? s3 ∧
      (∀ s4, phase4 fuel s3 = .ok s4 → s4.unused = s3.unused ∧
        (∀ g ∈ s3.unused, destroyedAt s3 g = 0 ∧ (∃ v, load s4 g = some v) ∧
          destroyedAt s4 g = 1) ∧
        ∃ s5, phase5 s4 = .ok s5 ∧ ∀ g ∈ s3.unused, Freed s5 g ∧ destroyedAt s5 g = 1) ∧
      ((∀ a b, ¬ Reachable s a → Edge s a b → ¬ Reachable s b) →
        ∃ s4, phase4 fuel s3 = .ok s4) := by
  obtain ⟨k, rfl⟩ : ∃ k, fuel = k + 1 := ⟨fuel - 1, by omega⟩
  obtain ⟨s3, h3, -, -, hnd, hfresh, hstart⟩ :=
    reclaiming_start s (k + 1) hwf hone hnn hu (by omega)
  obtain ⟨w1, w2⟩ := phase4_reclaiming s3 (slotsAt s) k hnd hstart
  refine ⟨s3, h3, ?_, ?_, ?_⟩
  · refine walkAll_mono (fun w g hw => ⟨hw.1, ?_⟩) _ _ _ w1
    refine destroyAll_mono (fun w x hx t ht htu => ?_) w g hw.2
    obtain ⟨v, hv, -⟩ := hx t ht htu
    exact ⟨v, hv⟩
  · intro s4 h4
    have hr := w2 s4 h4
    obtain ⟨f1, s5, h5, f2⟩ := phase5_reclaimed hnd hr
    refine ⟨hr.unused, ?_, s5, h5, f2⟩
    intro g hg
    obtain ⟨v, hv, -⟩ := hr.alive g hg
    exact ⟨hfresh g hg, ⟨v, hv⟩, (f1 g hg).2⟩
  · intro hsep
    obtain ⟨s5, h5, -⟩ := collect_loops s k hwf hone hnn
      (fun a b he hb => by
        by_contra ha
        exact hsep a b ha he hb)
      hu (by omega)
    rw [h3] at h5
    simp only [Outcome.andThen] at h5
    cases h4 : phase4 (k + 1) s3 with
    | ok s4 => exact ⟨s4, rfl⟩
    | fault e =>
      rw [h4] at h5
      cases h5

/-- The heap `heapSharedLive`, in which the destructor of a dead record also drops a
handle to a live record: the fourth loop returns, with both dead records destroyed and
still allocated, and the fifth loop releases them. -/
theorem destructors_before_release_witness :
    ∃ s3 s4, ((phase1 heapSharedLive).andThen phase2).andThen (phase3 4) = .ok s3 ∧
      s3.unused = [1, 2] ∧
      walkAll State.unused (destroy (decrease 4))
        (fun w g => (∀ h ∈ w.unused, ∃ v, load w h = some v) ∧
          destroyAll (decrease 4)
            (fun w x => ∀ t, x = some t → t ∈ w.unused → ∃ v, load w t = some v) w g)
        4 s3.unused.head? s3 ∧
      phase4 4 s3 = .ok s4 ∧ s4.unused = s3.unused ∧
      (∀ g ∈ s3.unused, destroyedAt s3 g = 0 ∧ (∃ v, load s4 g = some v) ∧
        destroyedAt s4 g = 1) ∧
      ∃ s5, phase5 s4 = .ok s5 ∧ ∀ g ∈ s3.unused, Freed s5 g ∧ destroyedAt s5 g = 1 := by
  obtain ⟨s3, h3, hw, h4, -⟩ := destructors_before_release heapSharedLive 4
    (wellFormed_of_check _ (by decide)) (oneContext_of_check _ (by decide))
    (noNull_of_check _ (by decide)) (by decide) (by decide)
  have e3 : ((phase1 heapSharedLive).andThen phase2).andThen (phase3 4) = .ok
      { heap := [⟨1, [], 0, false⟩, ⟨0, [[some 2], [some 0]], 0, false⟩,
          ⟨0, [[some 1]], 0, false⟩]
        registry := [0]
        unused := [1, 2]
        roots := [some 0] } := by decide
  rw [e3] at h3
  simp only [Outcome.ok.injEq] at h3
  subst h3
  have e4 : phase4 4
      { heap := [⟨1, [], 0, false⟩, ⟨0, [[some 2], [some 0]], 0, false⟩,
          ⟨0, [[some 1]], 0, false⟩]
        registry := [0]
        unused := [1, 2]
        roots := [some 0] } = .ok
      { heap := [⟨0, [], 1, true⟩, ⟨WORD - 1, [[some 2], [some 0]], 1, false⟩,
          ⟨WORD - 1, [[some 1]], 1, false⟩]
        registry := []
        unused := [1, 2]
        roots := [some 0] } := by decide
  obtain ⟨a, b, c⟩ := h4 _ e4
  exact ⟨_, _, e3, rfl, hw, e4, a, b, c⟩

/-! ### A context among others: what the primitive steps see -/

theorem load_local {C : List Nat} {s0 s v : State} (h : Local C s0 s v) {a : Nat}
    (ha : a ∈ C) : load v a = load s a := by
  unfold load
  rw [h.heap a ha]

theorem erase_others {a : Nat} (L : List (List Nat)) (h : ∀ l ∈ L, a ∉ l) :
    L.map (fun l => l.erase a) = L := by
  induction L with
  | nil => rfl
  | cons l L ih =>
    simp only [List.map_cons]
    rw [List.erase_of_not_mem (h l (List.mem_cons_self _ _)),
      ih (fun m hm => h m (List.mem_cons_of_mem _ hm))]

theorem next_of_mem {l : List Nat} {p q : Nat} (h : next_of l p = some q) : q ∈ l := by
  induction l with
  | nil => cases h
  | cons x xs ih =>
    simp only [next_of] at h
    by_cases e : x = p
    · rw [if_pos e] at h
      exact List.mem_cons_of_mem _ (List.mem_of_mem_head? h)
    · rw [if_neg e] at h
      exact List.mem_cons_of_mem _ (ih h)

theorem local_remove {C : List Nat} {s0 s v : State} (h : Local C s0 s v) {a : Nat}
    (ha : a ∈ C) : Local C s0 (remove a s) (remove a v) := by
  refine ⟨?_, ?_, ?_, h.heap, h.closed, ?_, h.roots, h.outside, h.apart⟩
  · show v.registry.erase a = s.registry.erase a
    rw [h.registry]
  · show v.unused.erase a = s.unused.erase a
    rw [h.unused]
  · intro b hb
    rcases hb with hb | hb
    · exact h.inside b (Or.inl (List.mem_of_mem_erase hb))
    · exact h.inside b (Or.inr (List.mem_of_mem_erase hb))
  · show s.others.map (fun l => l.erase a) = s0.others
    rw [erase_others, h.others]
    intro l hl hal
    rw [h.others] at hl
    exact h.apart l hl a hal ha

theorem local_insert_before {C : List Nat} {s0 s v : State} (h : Local C s0 s v) {a : Nat}
    (ha : a ∈ C) (anchor : Sentinel) :
    Local C s0 (insert_before a anchor s) (insert_before a anchor v) := by
  cases anchor with
  | header =>
    refine ⟨?_, h.unused, ?_, h.heap, h.closed, h.others, h.roots, h.outside, h.apart⟩
    · show v.registry ++ [a] = s.registry ++ [a]
      rw [h.registry]
    · intro b hb
      rcases hb with hb | hb
      · have hb1 : b ∈ s.registry ++ [a] := hb
        rcases List.mem_append.1 hb1 with hb2 | hb2
        · exact h.inside b (Or.inl hb2)
        · rw [List.mem_singleton.1 hb2]
          exact ha
      · exact h.inside b (Or.inr hb)
  | unused =>
    refine ⟨h.registry, ?_, ?_, h.heap, h.closed, h.others, h.roots, h.outside, h.apart⟩
    · show v.unused ++ [a] = s.unused ++ [a]
      rw [h.unused]
    · intro b hb
      rcases hb with hb | hb
      · exact h.inside b (Or.inl hb)
      · have hb1 : b ∈ s.unused ++ [a] := hb
        rcases List.mem_append.1 hb1 with hb2 | hb2
        · exact h.inside b (Or.inr hb2)
        · rw [List.mem_singleton.1 hb2]
          exact ha

theorem local_store {C : List Nat} {s0 s v : State} (h : Local C s0 s v) {a : Nat}
    {w0 : Value} (w : Value) (ha : a ∈ C) (hl : load s a = some w0)
    (hw : w.slots = w0.slots) : Local C s0 (store s a w) (store v a w) := by
  have h0 : s.heap[a]? = some w0 := (load_eq_some.1 hl).1
  have hls : a < s.heap.length := (List.getElem?_eq_some.1 h0).1
  have hlv : a < v.heap.length := by
    have := h.heap a ha
    rw [h0] at this
    exact (List.getElem?_eq_some.1 this).1
  refine ⟨h.registry, h.unused, h.inside, ?_, ?_, h.others, h.roots, ?_, h.apart⟩
  · intro b hb
    rw [store_heap_get, store_heap_get]
    by_cases e : a = b
    · simp only [e, if_true]
      rw [← e, if_pos hls, if_pos hlv]
    · simp only [e, if_false]
      exact h.heap b hb
  · intro b w1 t hb hw1 ht
    by_cases e : a = b
    · subst e
      have hw2 := (load_eq_some.1 hw1).1
      rw [store_heap_get] at hw2
      simp only [if_true, if_pos hls] at hw2
      have e1 : w = w1 := by simpa using hw2
      rw [← e1, hw] at ht
      exact h.closed a w0 t ha hl ht
    · rw [load_store_other w e] at hw1
      exact h.closed b w1 t hb hw1 ht
  · intro b hb
    have e : a ≠ b := fun e => hb (e ▸ ha)
    rw [store_heap_get]
    simp only [e, if_false]
    exact h.outside b hb

theorem local_scratch {C : List Nat} {s0 s v : State} (h : Local C s0 s v) :
    Local C s0 { s with unused := [] } { v with unused := [] } :=
  ⟨h.registry, rfl, fun a ha => by
    rcases ha with ha | ha
    · exact h.inside a (Or.inl ha)
    · exact absurd ha (List.not_mem_nil a),
    h.heap, h.closed, h.others, h.roots, h.outside, h.apart⟩

/-! ### Loops -/

theorem match_forEach {α : Type} (C : List Nat) (s0 : State) (f : State → α → Outcome)
    (K : α → Prop)
    (hf : ∀ (s v : State) (x : α), K x → Local C s0 s v → Match C s0 (f s x) (f v x)) :
    ∀ (L : List α) (s v : State), (∀ x ∈ L, K x) → Local C s0 s v →
      Match C s0 (forEach f L s) (forEach f L v) := by
  intro L
  induction L with
  | nil =>
    intro s v _ h
    exact h
  | cons x L ih =>
    intro s v hK h
    have h1 := hf s v x (hK x (List.mem_cons_self _ _)) h
    simp only [forEach]
    cases hs : f s x with
    | ok s1 =>
      cases hv : f v x with
      | ok v1 =>
        rw [hs, hv] at h1
        exact ih s1 v1 (fun y hy => hK y (List.mem_cons_of_mem _ hy)) h1
      | fault e =>
        rw [hs, hv] at h1
        exact h1.elim
    | fault e =>
      cases hv : f v x with
      | ok v1 =>
        rw [hs, hv] at h1
        exact h1.elim
      | fault e1 =>
        rw [hs, hv] at h1
        exact h1

theorem match_walk (C : List Nat) (s0 : State) (sel : State → List Nat)
    (body : State → Nat → Outcome)
    (hsel : ∀ s v, Local C s0 s v → sel v = sel s ∧ ∀ a ∈ sel s, a ∈ C)
    (hb : ∀ (s v : State) (p : Nat), p ∈ C → Local C s0 s v →
      Match C s0 (body s p) (body v p)) :
    ∀ (fuel : Nat) (x : Option Nat) (s v : State), (∀ p, x = some p → p ∈ C) →
      Local C s0 s v → Match C s0 (walk sel body fuel x s) (walk sel body fuel x v) := by
  intro fuel
  induction fuel with
  | zero =>
    intro x s v _ h
    cases x with
    | none => exact h
    | some p => exact rfl
  | succ fuel ih =>
    intro x s v hx h
    cases x with
    | none => exact h
    | some p =>
      have hp : p ∈ C := hx p rfl
      have h1 := hb s v p hp h
      simp only [walk]
      cases hs : body s p with
      | ok s1 =>
        cases hv : body v p with
        | ok v1 =>
          rw [hs, hv] at h1
          have h2 : Local C s0 s1 v1 := h1
          simp only [load_local h2 hp, (hsel s1 v1 h2).1]
          cases hl : load s1 p with
          | none => exact rfl
          | some w =>
            exact ih _ s1 v1 (fun q hq => (hsel s1 v1 h2).2 q (next_of_mem hq)) h2
        | fault e =>
          rw [hs, hv] at h1
          exact h1.elim
      | fault e =>
        cases hv : body v p with
        | ok v1 =>
          rw [hs, hv] at h1
          exact h1.elim
        | fault e1 =>
          rw [hs, hv] at h1
          exact h1

theorem match_andThen {C : List Nat} {s0 : State} {x y : Outcome} {f g : State → Outcome}
    (h : Match C s0 x y) (hfg : ∀ s v, Local C s0 s v → Match C s0 (f s) (g v)) :
    Match C s0 (x.andThen f) (y.andThen g) := by
  cases x with
  | ok s =>
    cases y with
    | ok v => exact hfg s v h
    | fault e => exact h.elim
  | fault e =>
    cases y with
    | ok v => exact h.elim
    | fault e1 => exact h

/-! ### A context among others: the loop bodies of `collect` -/

theorem match_subtract_slot {C : List Nat} {s0 : State} (s v : State) (x : Option Nat)
    (hx : ∀ t, x = some t → t ∈ C) (h : Local C s0 s v) :
    Match C s0 (subtract_slot s x) (subtract_slot v x) := by
  cases x with
  | none => exact rfl
  | some t =>
    have ht := hx t rfl
    simp only [subtract_slot, load_local h ht]
    cases hl : load s t with
    | none => exact rfl
    | some w => exact local_store h _ ht hl (slots_with_count w _)

theorem slot_inside {C : List Nat} {s0 s v : State} (h : Local C s0 s v) {p : Nat}
    {w : Value} (hp : p ∈ C) (hl : load s p = some w) :
    ∀ m ∈ w.members, ∀ x ∈ m, ∀ t, x = some t → t ∈ C := by
  intro m hm x hx t ht
  subst ht
  refine h.closed p w t hp hl ?_
  unfold Value.slots
  exact List.mem_flatten.2 ⟨m, hm, hx⟩

theorem match_subtract_record {C : List Nat} {s0 : State} (s v : State) (p : Nat)
    (hp : p ∈ C) (h : Local C s0 s v) :
    Match C s0 (subtract_record s p) (subtract_record v p) := by
  simp only [subtract_record, load_local h hp]
  cases hl : load s p with
  | none => exact rfl
  | some w =>
    refine match_forEach C s0 _ (fun m => ∀ x ∈ m, ∀ t, x = some t → t ∈ C) ?_ w.members s v
      (slot_inside h hp hl) h
    intro s1 v1 m hm h1
    exact match_forEach C s0 subtract_slot (fun x => ∀ t, x = some t → t ∈ C)
      match_subtract_slot m s1 v1 hm h1

theorem match_partition_record {C : List Nat} {s0 : State} (s v : State) (p : Nat)
    (hp : p ∈ C) (h : Local C s0 s v) :
    Match C s0 (partition_record s p) (partition_record v p) := by
  simp only [partition_record, load_local h hp]
  cases hl : load s p with
  | none => exact rfl
  | some w =>
    by_cases hr : 0 < w.ref_count
    · simp only [hr, if_true]
      exact h
    · simp only [hr, if_false]
      exact local_insert_before (local_remove h hp) hp .unused

theorem match_restore_slot {C : List Nat} {s0 : State} (s v : State) (x : Option Nat)
    (hx : ∀ t, x = some t → t ∈ C) (h : Local C s0 s v) :
    Match C s0 (restore_slot s x) (restore_slot v x) := by
  cases x with
  | none => exact rfl
  | some t =>
    have ht := hx t rfl
    simp only [restore_slot, load_local h ht]
    cases hl : load s t with
    | none => exact rfl
    | some w =>
      by_cases hz : w.ref_count = 0
      · have h1 := local_insert_before (local_remove h ht) ht .header
        simp only [if_pos hz]
        exact local_store h1 _ ht hl (slots_with_count w _)
      · simp only [if_neg hz]
        exact local_store h _ ht hl (slots_with_count w _)

theorem match_restore_record {C : List Nat} {s0 : State} (s v : State) (p : Nat)
    (hp : p ∈ C) (h : Local C s0 s v) :
    Match C s0 (restore_record s p) (restore_record v p) := by
  simp only [restore_record, load_local h hp]
  cases hl : load s p with
  | none => exact rfl
  | some w =>
    refine match_forEach C s0 _ (fun m => ∀ x ∈ m, ∀ t, x = some t → t ∈ C) ?_ w.members s v
      (slot_inside h hp hl) h
    intro s1 v1 m hm h1
    exact match_forEach C s0 restore_slot (fun x => ∀ t, x = some t → t ∈ C)
      match_restore_slot m s1 v1 hm h1

theorem match_free {C : List Nat} {s0 : State} (s v : State) (p : Nat)
    (hp : p ∈ C) (h : Local C s0 s v) : Match C s0 (free s p) (free v p) := by
  simp only [free, load_local h hp]
  cases hl : load s p with
  | none => exact rfl
  | some w => exact local_store h _ hp hl (slots_with_freed w true)

theorem match_destroy {C : List Nat} {s0 : State} (drop : State → Option Nat → Outcome)
    (hdrop : ∀ (s v : State) (x : Option Nat), (∀ t, x = some t → t ∈ C) →
      Local C s0 s v → Match C s0 (drop s x) (drop v x))
    (s v : State) (p : Nat) (hp : p ∈ C) (h : Local C s0 s v) :
    Match C s0 (destroy drop s p) (destroy drop v p) := by
  simp only [destroy, load_local h hp]
  cases hl : load s p with
  | none => exact rfl
  | some w =>
    refine match_forEach C s0 drop _ hdrop _ _ _ ?_
      (local_store h _ hp hl (slots_with_destroyed w _))
    intro x hx t ht
    subst ht
    exact h.closed p w t hp hl (List.mem_reverse.1 hx)

theorem match_decrease {C : List Nat} {s0 : State} :
    ∀ (fuel : Nat) (s v : State) (x : Option Nat), (∀ t, x = some t → t ∈ C) →
      Local C s0 s v → Match C s0 (decrease fuel s x) (decrease fuel v x) := by
  intro fuel
  induction fuel with
  | zero =>
    intro s v x _ h
    cases x with
    | none =>
      rw [decrease_none, decrease_none]
      exact h
    | some t => exact rfl
  | succ fuel ih =>
    intro s v x hx h
    cases x with
    | none =>
      rw [decrease_none, decrease_none]
      exact h
    | some t =>
      have ht := hx t rfl
      have hlv := load_local h ht
      cases hl : load s t with
      | none =>
        rw [decrease_unloaded fuel hl, decrease_unloaded fuel (hlv.trans hl)]
        exact rfl
      | some w =>
        by_cases hr : 0 < (w.ref_count + WORD - 1) % WORD
        · rw [decrease_keep fuel hl hr, decrease_keep fuel (hlv.trans hl) hr]
          exact local_store h _ ht hl (slots_with_count w _)
        · rw [decrease_last_step fuel hl hr, decrease_last_step fuel (hlv.trans hl) hr]
          generalize (w.ref_count + WORD - 1) % WORD = r
          have h1 := local_store h { w with ref_count := r } ht hl (slots_with_count w r)
          have h2 := local_remove h1 ht
          have h3 := match_destroy (decrease fuel) ih _ _ t ht h2
          exact match_andThen h3 (fun s2 v2 h4 => match_free s2 v2 t ht h4)

/-! ### A context among others: `collect` -/

theorem match_forEach_list {α : Type} (C : List Nat) (s0 : State) (f : State → α → Outcome)
    (K : α → Prop)
    (hf : ∀ (s v : State) (x : α), K x → Local C s0 s v → Match C s0 (f s x) (f v x))
    (sel : State → List α) (s v : State) (e : sel v = sel s) (hK : ∀ x ∈ sel s, K x)
    (h : Local C s0 s v) : Match C s0 (forEach f (sel s) s) (forEach f (sel v) v) := by
  rw [e]
  exact match_forEach C s0 f K hf (sel s) s v hK h

theorem match_walk_list (C : List Nat) (s0 : State) (sel : State → List Nat)
    (body : State → Nat → Outcome)
    (hsel : ∀ s v, Local C s0 s v → sel v = sel s ∧ ∀ a ∈ sel s, a ∈ C)
    (hb : ∀ (s v : State) (p : Nat), p ∈ C → Local C s0 s v →
      Match C s0 (body s p) (body v p))
    (fuel : Nat) (s v : State) (h : Local C s0 s v) :
    Match C s0 (walk sel body fuel (sel s).head? s) (walk sel body fuel (sel v).head? v) := by
  rw [(hsel s v h).1]
  exact match_walk C s0 sel body hsel hb fuel _ s v
    (fun p hq => (hsel s v h).2 p (List.mem_of_mem_head? hq)) h

theorem match_collect {C : List Nat} {s0 : State} (fuel : Nat) (s v : State)
    (h : Local C s0 s v) : Match C s0 (collect fuel s) (collect fuel v) := by
  unfold collect
  refine match_andThen (match_andThen (match_andThen (match_andThen (match_andThen ?_ ?_) ?_)
    ?_) ?_) (fun s1 v1 h1 => local_scratch h1)
  · have h0 := local_scratch h
    exact match_forEach_list C s0 subtract_record (fun p => p ∈ C) match_subtract_record
      State.registry _ _ h0.registry (fun p hp => h0.inside p (Or.inl hp)) h0
  · intro s1 v1 h1
    exact match_forEach_list C s0 partition_record (fun p => p ∈ C) match_partition_record
      State.registry _ _ h1.registry (fun p hp => h1.inside p (Or.inl hp)) h1
  · intro s1 v1 h1
    exact match_walk_list C s0 State.registry restore_record
      (fun s2 v2 h2 => ⟨h2.registry, fun a ha => h2.inside a (Or.inl ha)⟩)
      match_restore_record fuel s1 v1 h1
  · intro s1 v1 h1
    exact match_walk_list C s0 State.unused (destroy (decrease fuel))
      (fun s2 v2 h2 => ⟨h2.unused, fun a ha => h2.inside a (Or.inr ha)⟩)
      (match_destroy (decrease fuel) (match_decrease fuel)) fuel s1 v1 h1
  · intro s1 v1 h1
    exact match_forEach_list C s0 free (fun p => p ∈ C) match_free
      State.unused _ _ h1.unused (fun p hp => h1.inside p (Or.inr hp)) h1

/-! ### What stays on a list -/

theorem forEach_rel {α : Type} (R : State → State → Prop) (hr : ∀ s, R s s)
    (ht : ∀ s s1 s2, R s s1 → R s1 s2 → R s s2) (f : State → α → Outcome)
    (hf : ∀ s x s1, f s x = .ok s1 → R s s1) :
    ∀ (L : List α) (s s1 : State), forEach f L s = .ok s1 → R s s1 := by
  intro L
  induction L with
  | nil =>
    intro s s1 h
    simp only [forEach, Outcome.ok.injEq] at h
    subst h
    exact hr s
  | cons x L ih =>
    intro s s1 h
    simp only [forEach] at h
    cases hx : f s x with
    | fault e => rw [hx] at h; cases h
    | ok s2 =>
      rw [hx] at h
      exact ht s s2 s1 (hf s x s2 hx) (ih s2 s1 h)

theorem walk_rel (R : State → State → Prop) (hr : ∀ s, R s s)
    (ht : ∀ s s1 s2, R s s1 → R s1 s2 → R s s2) (sel : State → List Nat)
    (body : State → Nat → Outcome) (hb : ∀ s p s1, body s p = .ok s1 → R s s1) :
    ∀ (fuel : Nat) (x : Option Nat) (s s1 : State), walk sel body fuel x s = .ok s1 →
      R s s1 := by
  intro fuel
  induction fuel with
  | zero =>
    intro x s s1 h
    cases x with
    | none =>
      simp only [walk, Outcome.ok.injEq] at h
      subst h
      exact hr s
    | some p => cases h
  | succ fuel ih =>
    intro x s s1 h
    cases x with
    | none =>
      simp only [walk, Outcome.ok.injEq] at h
      subst h
      exact hr s
    | some p =>
      simp only [walk] at h
      cases hx : body s p with
      | fault e => rw [hx] at h; cases h
      | ok s2 =>
        rw [hx] at h
        simp only at h
        cases hl : load s2 p with
        | none => rw [hl] at h; cases h
        | some w =>
          rw [hl] at h
          exact ht s s2 s1 (hb s p s2 hx) (ih _ s2 s1 h)

theorem freed_store {s : State} {t : Nat} {w0 : Value} (w : Value)
    (hl : load s t = some w0) {a : Nat} (h : Freed s a) : Freed (store s t w) a := by
  obtain ⟨v, hv, hf⟩ := h
  have hne : t ≠ a := by
    intro e
    subst e
    have h1 := load_eq_some.1 hl
    rw [hv] at h1
    have e1 : v = w0 := by simpa using h1.1
    rw [e1, h1.2] at hf
    cases hf
  refine ⟨v, ?_, hf⟩
  rw [store_heap_get]
  simp only [hne, if_false]
  exact hv

theorem freed_marked {s : State} {t : Nat} {w0 : Value} (w : Value)
    (hl : load s t = some w0) (hw : w.freed = true) : Freed (store s t w) t := by
  refine ⟨w, ?_, hw⟩
  rw [store_heap_get]
  simp only [if_true, if_pos (load_lt hl)]

theorem kept_refl (sel : State → List Nat) (s : State) : Kept sel s s :=
  ⟨rfl, rfl, fun _ h => h, fun _ h => Or.inl h⟩

theorem kept_trans {sel : State → List Nat} {s s1 s2 : State} (h1 : Kept sel s s1)
    (h2 : Kept sel s1 s2) : Kept sel s s2 := by
  refine ⟨h2.length.trans h1.length, h2.lists.trans h1.lists,
    fun a h => h2.freed a (h1.freed a h), ?_⟩
  intro a ha
  rcases h1.here a ha with h | h
  · exact h2.here a h
  · exact Or.inr (h2.freed a h)

theorem kept_store {sel : State → List Nat} (hst : ∀ s t w, sel (store s t w) = sel s)
    {s : State} {t : Nat} {w0 : Value} (w : Value) (hl : load s t = some w0) :
    Kept sel s (store s t w) := by
  refine ⟨store_length s t w, rfl, fun a h => freed_store w hl h, ?_⟩
  intro a ha
  rw [hst]
  exact Or.inl ha

theorem tracks_registry : Tracks State.registry :=
  ⟨fun _ _ _ => rfl, fun _ _ _ h => List.mem_of_mem_erase h,
    fun _ _ _ hne h => (List.mem_erase_of_ne hne).2 h⟩

theorem tracks_unused : Tracks State.unused :=
  ⟨fun _ _ _ => rfl, fun _ _ _ h => List.mem_of_mem_erase h,
    fun _ _ _ hne h => (List.mem_erase_of_ne hne).2 h⟩

theorem getD_map_erase (L : List (List Nat)) (i t : Nat) :
    (L.map (fun l => l.erase t)).getD i [] = (L.getD i []).erase t := by
  simp only [List.getD_eq_getElem?_getD, List.getElem?_map]
  cases L[i]? <;> simp

theorem tracks_others (i : Nat) : Tracks (fun s => s.others.getD i []) := by
  refine ⟨fun _ _ _ => rfl, ?_, ?_⟩
  · intro s t a h
    have h1 : a ∈ (s.others.map (fun l => l.erase t)).getD i [] := h
    rw [getD_map_erase] at h1
    exact List.mem_of_mem_erase h1
  · intro s t a hne h
    show a ∈ (s.others.map (fun l => l.erase t)).getD i []
    rw [getD_map_erase]
    exact (List.mem_erase_of_ne hne).2 h

theorem tracks_both : Tracks (fun s => s.registry ++ s.unused) := by
  refine ⟨fun _ _ _ => rfl, ?_, ?_⟩
  · intro s t a h
    have h1 : a ∈ s.registry.erase t ++ s.unused.erase t := h
    rcases List.mem_append.1 h1 with h2 | h2
    · exact List.mem_append.2 (Or.inl (List.mem_of_mem_erase h2))
    · exact List.mem_append.2 (Or.inr (List.mem_of_mem_erase h2))
  · intro s t a hne h
    show a ∈ s.registry.erase t ++ s.unused.erase t
    rcases List.mem_append.1 h with h2 | h2
    · exact List.mem_append.2 (Or.inl ((List.mem_erase_of_ne hne).2 h2))
    · exact List.mem_append.2 (Or.inr ((List.mem_erase_of_ne hne).2 h2))

/-- A run of `Ptr::decrease` that returns takes a record off a list only to release it,
and puts nothing on a list. -/
theorem decrease_kept (sel : State → List Nat) (hT : Tracks sel) :
    ∀ (fuel : Nat) (s : State) (x : Option Nat) (s1 : State),
      decrease fuel s x = .ok s1 → Kept sel s s1 ∧ ∀ a, a ∈ sel s1 → a ∈ sel s := by
  intro fuel
  induction fuel with
  | zero =>
    intro s x s1 h
    cases x with
    | none =>
      rw [decrease_none] at h
      simp only [Outcome.ok.injEq] at h
      subst h
      exact ⟨kept_refl sel s, fun _ h => h⟩
    | some t =>
      have : decrease 0 s (some t) = .fault .out_of_fuel := rfl
      rw [this] at h
      cases h
  | succ fuel ih =>
    intro s x s1 h
    cases x with
    | none =>
      rw [decrease_none] at h
      simp only [Outcome.ok.injEq] at h
      subst h
      exact ⟨kept_refl sel s, fun _ h => h⟩
    | some t =>
      cases hv : load s t with
      | none =>
        rw [decrease_unloaded fuel hv] at h
        cases h
      | some v =>
        have hfr : v.freed = false := (load_eq_some.1 hv).2
        by_cases hr : 0 < (v.ref_count + WORD - 1) % WORD
        · rw [decrease_keep fuel hv hr] at h
          simp only [Outcome.ok.injEq] at h
          subst h
          refine ⟨kept_store hT.stored _ hv, fun a ha => ?_⟩
          rw [hT.stored] at ha
          exact ha
        · rw [decrease_last_step fuel hv hr] at h
          generalize (v.ref_count + WORD - 1) % WORD = r at h
          have hv1 : load (remove t (store s t { v with ref_count := r })) t
              = some { v with ref_count := r } :=
            load_store_self hv hfr
          cases hd : destroy (decrease fuel) (remove t (store s t { v with ref_count := r })) t with
          | fault e => rw [hd] at h; cases h
          | ok s3 =>
            rw [hd] at h
            simp only [destroy, hv1] at hd
            have k3 := forEach_rel
              (fun u u1 => Kept sel u u1 ∧ ∀ a, a ∈ sel u1 → a ∈ sel u)
              (fun u => ⟨kept_refl sel u, fun _ h => h⟩)
              (fun u u1 u2 h1 h2 => ⟨kept_trans h1.1 h2.1, fun a ha => h1.2 a (h2.2 a ha)⟩)
              (decrease fuel) ih _ _ _ hd
            cases hw : load s3 t with
            | none =>
              simp only [free, hw] at h
              cases h
            | some w =>
              simp only [free, hw, Outcome.ok.injEq] at h
              subst h
              have k1 : Kept sel s (store s t { v with ref_count := r }) :=
                kept_store hT.stored _ hv
              have k2 := kept_store hT.stored
                { ({ v with ref_count := r } : Value) with destroyed := v.destroyed + 1 } hv1
              have k4 := kept_store hT.stored { w with freed := true } hw
              refine ⟨⟨?_, ?_, ?_, ?_⟩, ?_⟩
              · rw [k4.length, k3.1.length, k2.length]
                exact k1.length
              · rw [k4.lists, k3.1.lists, k2.lists]
                show (List.map _ _).length = _
                rw [List.length_map]
                exact k1.lists
              · intro a ha
                exact k4.freed a (k3.1.freed a (k2.freed a (k1.freed a ha)))
              · intro a ha
                by_cases e : a = t
                · rw [e]
                  exact Or.inr (freed_marked _ hw rfl)
                · have h1 : a ∈ sel (remove t (store s t { v with ref_count := r })) :=
                    hT.keep _ t a e (by rw [hT.stored]; exact ha)
                  have h2 := k2.here a h1
                  rcases h2 with h2 | h2
                  · rcases k3.1.here a h2 with h3 | h3
                    · exact k4.here a h3
                    · exact Or.inr (k4.freed a h3)
                  · exact Or.inr (k4.freed a (k3.1.freed a h2))
              · intro a ha
                rw [hT.stored] at ha
                have h1 := k3.2 a ha
                rw [hT.stored] at h1
                have h2 := hT.sub _ t a h1
                rw [hT.stored] at h2
                exact h2

/-! ### What `collect` keeps on the registry -/

theorem kept_relink (s : State) (p : Nat) (anchor : Sentinel) :
    Kept (fun u => u.registry ++ u.unused) s (insert_before p anchor (remove p s)) := by
  refine ⟨?_, ?_, ?_, ?_⟩
  · cases anchor <;> rfl
  · cases anchor <;>
    · show (List.map _ _).length = _
      rw [List.length_map]
  · intro a h
    cases anchor <;> exact h
  · intro a ha
    left
    by_cases e : a = p
    · cases anchor with
      | header =>
        show a ∈ (s.registry.erase p ++ [p]) ++ s.unused.erase p
        simp [e]
      | unused =>
        show a ∈ s.registry.erase p ++ (s.unused.erase p ++ [p])
        simp [e]
    · have h1 : a ∈ s.registry.erase p ++ s.unused.erase p := tracks_both.keep s p a e ha
      cases anchor with
      | header =>
        show a ∈ (s.registry.erase p ++ [p]) ++ s.unused.erase p
        rcases List.mem_append.1 h1 with h2 | h2
        · exact List.mem_append.2 (Or.inl (List.mem_append.2 (Or.inl h2)))
        · exact List.mem_append.2 (Or.inr h2)
      | unused =>
        show a ∈ s.registry.erase p ++ (s.unused.erase p ++ [p])
        rcases List.mem_append.1 h1 with h2 | h2
        · exact List.mem_append.2 (Or.inl h2)
        · exact List.mem_append.2 (Or.inr (List.mem_append.2 (Or.inl h2)))

theorem subtract_slot_kept (sel : State → List Nat) (hst : ∀ s t w, sel (store s t w) = sel s)
    (s : State) (x : Option Nat) (s1 : State) (h : subtract_slot s x = .ok s1) :
    Kept sel s s1 := by
  cases x with
  | none => cases h
  | some t =>
    simp only [subtract_slot] at h
    cases hl : load s t with
    | none => rw [hl] at h; cases h
    | some w =>
      rw [hl] at h
      simp only [Outcome.ok.injEq] at h
      subst h
      exact kept_store hst _ hl

theorem subtract_record_kept (sel : State → List Nat)
    (hst : ∀ s t w, sel (store s t w) = sel s)
    (s : State) (p : Nat) (s1 : State) (h : subtract_record s p = .ok s1) :
    Kept sel s s1 := by
  simp only [subtract_record] at h
  cases hl : load s p with
  | none => rw [hl] at h; cases h
  | some w =>
    rw [hl] at h
    refine forEach_rel (Kept sel) (kept_refl sel) (fun _ _ _ => kept_trans) _ ?_ _ _ _ h
    intro u m u1 hm
    exact forEach_rel (Kept sel) (kept_refl sel) (fun _ _ _ => kept_trans) _
      (subtract_slot_kept sel hst) _ _ _ hm

theorem partition_record_kept (s : State) (p : Nat) (s1 : State)
    (h : partition_record s p = .ok s1) :
    Kept (fun u => u.registry ++ u.unused) s s1 := by
  simp only [partition_record] at h
  cases hl : load s p with
  | none => rw [hl] at h; cases h
  | some w =>
    rw [hl] at h
    by_cases hr : 0 < w.ref_count
    · simp only [hr, if_true, Outcome.ok.injEq] at h
      subst h
      exact kept_refl _ s
    · simp only [hr, if_false, Outcome.ok.injEq] at h
      subst h
      exact kept_relink s p .unused

theorem restore_slot_kept (s : State) (x : Option Nat) (s1 : State)
    (h : restore_slot s x = .ok s1) : Kept (fun u => u.registry ++ u.unused) s s1 := by
  cases x with
  | none => cases h
  | some t =>
    simp only [restore_slot] at h
    cases hl : load s t with
    | none => rw [hl] at h; cases h
    | some w =>
      rw [hl] at h
      simp only [Outcome.ok.injEq] at h
      subst h
      by_cases hz : w.ref_count = 0
      · rw [if_pos hz]
        exact kept_trans (kept_relink s t .header)
          (kept_store tracks_both.stored (s := insert_before t .header (remove t s)) _ hl)
      · rw [if_neg hz]
        exact kept_store tracks_both.stored _ hl

theorem restore_record_kept (s : State) (p : Nat) (s1 : State)
    (h : restore_record s p = .ok s1) : Kept (fun u => u.registry ++ u.unused) s s1 := by
  simp only [restore_record] at h
  cases hl : load s p with
  | none => rw [hl] at h; cases h
  | some w =>
    rw [hl] at h
    refine forEach_rel _ (kept_refl _) (fun _ _ _ => kept_trans) _ ?_ _ _ _ h
    intro u m u1 hm
    exact forEach_rel _ (kept_refl _) (fun _ _ _ => kept_trans) _ restore_slot_kept _ _ _ hm

theorem destroy_kept (sel : State → List Nat) (hT : Tracks sel) (fuel : Nat)
    (s : State) (p : Nat) (s1 : State) (h : destroy (decrease fuel) s p = .ok s1) :
    Kept sel s s1 := by
  simp only [destroy] at h
  cases hl : load s p with
  | none => rw [hl] at h; cases h
  | some w =>
    rw [hl] at h
    exact kept_trans (kept_store hT.stored _ hl)
      (forEach_rel (Kept sel) (kept_refl sel) (fun _ _ _ => kept_trans) _
        (fun u x u1 hu => (decrease_kept sel hT fuel u x u1 hu).1) _ _ _ h)

theorem free_kept (sel : State → List Nat) (hst : ∀ s t w, sel (store s t w) = sel s)
    (s : State) (p : Nat) (s1 : State) (h : free s p = .ok s1) :
    Kept sel s s1 ∧ Freed s1 p := by
  simp only [free] at h
  cases hl : load s p with
  | none => rw [hl] at h; cases h
  | some w =>
    rw [hl] at h
    simp only [Outcome.ok.injEq] at h
    subst h
    exact ⟨kept_store hst _ hl, freed_marked _ hl rfl⟩

theorem forEach_free_kept (L : List Nat) :
    ∀ (s s1 : State), forEach free L s = .ok s1 →
      Kept (fun u => u.registry ++ u.unused) s s1 ∧ s1.registry = s.registry ∧
        s1.unused = s.unused ∧ ∀ a ∈ L, Freed s1 a := by
  induction L with
  | nil =>
    intro s s1 h
    simp only [forEach, Outcome.ok.injEq] at h
    subst h
    exact ⟨kept_refl _ s, rfl, rfl, fun a ha => absurd ha (List.not_mem_nil a)⟩
  | cons p L ih =>
    intro s s1 h
    simp only [forEach] at h
    cases hp : free s p with
    | fault e => rw [hp] at h; cases h
    | ok s2 =>
      rw [hp] at h
      obtain ⟨k1, f1⟩ := free_kept (fun u => u.registry ++ u.unused) tracks_both.stored s p s2 hp
      obtain ⟨k2, r2, u2, f2⟩ := ih s2 s1 h
      have hr : s2.registry = s.registry := by
        simp only [free] at hp
        cases hl : load s p with
        | none => rw [hl] at hp; cases hp
        | some w =>
          rw [hl] at hp
          simp only [Outcome.ok.injEq] at hp
          subst hp
          rfl
      have hu : s2.unused = s.unused := by
        simp only [free] at hp
        cases hl : load s p with
        | none => rw [hl] at hp; cases hp
        | some w =>
          rw [hl] at hp
          simp only [Outcome.ok.injEq] at hp
          subst hp
          rfl
      refine ⟨kept_trans k1 k2, r2.trans hr, u2.trans hu, ?_⟩
      intro a ha
      rcases List.mem_cons.1 ha with e | h3
      · rw [e]
        exact k2.freed p f1
      · exact f2 a h3

/-- A `collect` that returns leaves every record of the registry on the registry unless
it has released it, and allocates nothing. -/
theorem collect_kept (fuel : Nat) (s s1 : State) (h : collect fuel s = .ok s1) :
    s1.heap.length = s.heap.length ∧ s1.others.length = s.others.length ∧
      (∀ a, Freed s a → Freed s1 a) ∧ ∀ a, a ∈ s.registry → a ∈ s1.registry ∨ Freed s1 a := by
  unfold collect at h
  cases h1 : phase1 { s with unused := [] } with
  | fault e => rw [h1] at h; cases h
  | ok u1 =>
    rw [h1] at h
    simp only [Outcome.andThen] at h
    cases h2 : phase2 u1 with
    | fault e => rw [h2] at h; cases h
    | ok u2 =>
      rw [h2] at h
      simp only at h
      cases h3 : phase3 fuel u2 with
      | fault e => rw [h3] at h; cases h
      | ok u3 =>
        rw [h3] at h
        simp only at h
        cases h4 : phase4 fuel u3 with
        | fault e => rw [h4] at h; cases h
        | ok u4 =>
          rw [h4] at h
          simp only at h
          cases h5 : phase5 u4 with
          | fault e => rw [h5] at h; cases h
          | ok u5 =>
            rw [h5] at h
            simp only [Outcome.ok.injEq] at h
            subst h
            have k1 : Kept (fun u => u.registry ++ u.unused) { s with unused := [] } u1 :=
              forEach_rel _ (kept_refl _) (fun _ _ _ => kept_trans) _
                (subtract_record_kept _ tracks_both.stored) _ _ _ h1
            have k2 : Kept (fun u => u.registry ++ u.unused) u1 u2 :=
              forEach_rel _ (kept_refl _) (fun _ _ _ => kept_trans) _
                partition_record_kept _ _ _ h2
            have k3 : Kept (fun u => u.registry ++ u.unused) u2 u3 :=
              walk_rel _ (kept_refl _) (fun _ _ _ => kept_trans) _ _
                restore_record_kept _ _ _ _ h3
            have k4 : Kept (fun u => u.registry ++ u.unused) u3 u4 :=
              walk_rel _ (kept_refl _) (fun _ _ _ => kept_trans) _ _
                (destroy_kept _ tracks_both fuel) _ _ _ _ h4
            obtain ⟨k5, -, e5, f5⟩ := forEach_free_kept _ _ _ h5
            have k := kept_trans (kept_trans (kept_trans (kept_trans k1 k2) k3) k4) k5
            refine ⟨k.length, k.lists, k.freed, ?_⟩
            intro a ha
            rcases k.here a (List.mem_append.2 (Or.inl ha)) with h6 | h6
            · rcases List.mem_append.1 h6 with h7 | h7
              · exact Or.inl h7
              · exact Or.inr (f5 a (e5 ▸ h7))
            · exact Or.inr h6

/-! ### Membership across the operations on handles and `make` -/

theorem member_of_lists {s s1 : State} (hr : s1.registry = s.registry)
    (ho : s1.others = s.others) (hl : s1.heap.length = s.heap.length) : Member s s1 := by
  refine ⟨fun a _ => ?_, by rw [ho], fun i a _ => by rw [ho]⟩
  rw [hr, hl]
  constructor
  · exact Or.inl
  · intro h
    rcases h with h | h
    · exact h
    · omega

theorem member_step {s s1 s2 : State} (h : Member s s1) (hr : s2.registry = s1.registry)
    (ho : s2.others = s1.others) (hl : s2.heap.length = s1.heap.length)
    (hf : ∀ a, Freed s1 a → Freed s2 a) : Member s s2 := by
  refine ⟨fun a ha => ?_, by rw [ho]; exact h.lists, fun i a ha => ?_⟩
  · rw [hr, hl]
    exact h.registry a (fun c => ha (hf a c))
  · rw [ho]
    exact h.others i a (fun c => ha (hf a c))

theorem member_of_decrease (fuel : Nat) (s : State) (x : Option Nat) (s1 : State)
    (h : decrease fuel s x = .ok s1) :
    Member s s1 ∧ s1.heap.length = s.heap.length ∧ ∀ a, Freed s a → Freed s1 a := by
  obtain ⟨k, b⟩ := decrease_kept State.registry tracks_registry fuel s x s1 h
  refine ⟨⟨fun a ha => ?_, k.lists, fun i a ha => ?_⟩, k.length, k.freed⟩
  · constructor
    · intro h1
      exact Or.inl (b a h1)
    · intro h1
      rcases h1 with h1 | h1
      · rcases k.here a h1 with h2 | h2
        · exact h2
        · exact absurd h2 ha
      · have := k.length
        omega
  · obtain ⟨ki, bi⟩ := decrease_kept _ (tracks_others i) fuel s x s1 h
    constructor
    · exact bi a
    · intro h1
      rcases ki.here a h1 with h2 | h2
      · exact h2
      · exact absurd h2 ha

theorem freed_write {s : State} (l : Loc) (y : Option Nat) {a : Nat} (h : Freed s a) :
    Freed (write_handle s l y) a := by
  cases l with
  | root i => exact h
  | slot b i j =>
    obtain ⟨v, hv, hf⟩ := h
    unfold Freed
    rw [write_slot_get]
    by_cases e : b = a
    · subst e
      rw [if_pos rfl, hv]
      exact ⟨_, rfl, hf⟩
    · rw [if_neg e]
      exact ⟨v, hv, hf⟩

theorem increase_lists {s : State} {x : Option Nat} {s1 : State} (h : increase s x = .ok s1) :
    s1.registry = s.registry ∧ s1.others = s.others ∧ s1.heap.length = s.heap.length ∧
      ∀ a, Freed s a → Freed s1 a := by
  cases x with
  | none =>
    simp only [increase, Outcome.ok.injEq] at h
    subst h
    exact ⟨rfl, rfl, rfl, fun _ h => h⟩
  | some t =>
    simp only [increase] at h
    cases hl : load s t with
    | none => rw [hl] at h; cases h
    | some w =>
      rw [hl] at h
      simp only [Outcome.ok.injEq] at h
      subst h
      exact ⟨rfl, rfl, store_length _ _ _, fun a ha => freed_store _ hl ha⟩

theorem bind_lists {s : State} {x : Option Nat} {s1 : State} (h : Ptr_bind s x = .ok s1) :
    s1.registry = s.registry ∧ s1.others = s.others ∧ s1.heap.length = s.heap.length ∧
      ∀ a, Freed s a → Freed s1 a := by
  simp only [Ptr_bind] at h
  cases hi : increase s x with
  | fault e => rw [hi] at h; cases h
  | ok s2 =>
    rw [hi] at h
    simp only [Outcome.ok.injEq] at h
    subst h
    obtain ⟨i1, i2, i3, i4⟩ := increase_lists hi
    exact ⟨i1, i2, i3, i4⟩

theorem move_member_lists (ls : List Loc) :
    ∀ (s : State) (xs : List (Option Nat)) (s1 : State), move_member s ls = some (xs, s1) →
      s1.registry = s.registry ∧ s1.others = s.others ∧ s1.heap.length = s.heap.length := by
  induction ls with
  | nil =>
    intro s xs s1 h
    simp only [move_member, Option.some.injEq, Prod.mk.injEq] at h
    rw [← h.2]
    exact ⟨rfl, rfl, rfl⟩
  | cons l ls ih =>
    intro s xs s1 h
    simp only [move_member] at h
    cases hr : read_handle s l with
    | none => rw [hr] at h; cases h
    | some x =>
      rw [hr] at h
      simp only at h
      cases hm : move_member (write_handle s l none) ls with
      | none => rw [hm] at h; cases h
      | some r =>
        obtain ⟨ys, s2⟩ := r
        rw [hm] at h
        simp only [Option.some.injEq, Prod.mk.injEq] at h
        obtain ⟨h1, h2, h3⟩ := ih _ ys s2 hm
        rw [← h.2, h1, h2, h3]
        exact ⟨write_registry _ _ _, write_others _ _ _, write_length _ _ _⟩

theorem move_value_lists (ms : List (List Loc)) :
    ∀ (s : State) (xss : List (List (Option Nat))) (s1 : State),
      move_value s ms = some (xss, s1) →
      s1.registry = s.registry ∧ s1.others = s.others ∧ s1.heap.length = s.heap.length := by
  induction ms with
  | nil =>
    intro s xss s1 h
    simp only [move_value, Option.some.injEq, Prod.mk.injEq] at h
    rw [← h.2]
    exact ⟨rfl, rfl, rfl⟩
  | cons m ms ih =>
    intro s xss s1 h
    simp only [move_value] at h
    cases hm : move_member s m with
    | none => rw [hm] at h; cases h
    | some r =>
      obtain ⟨xs, s2⟩ := r
      rw [hm] at h
      simp only at h
      cases hv : move_value s2 ms with
      | none => rw [hv] at h; cases h
      | some q =>
        obtain ⟨yss, s3⟩ := q
        rw [hv] at h
        simp only [Option.some.injEq, Prod.mk.injEq] at h
        obtain ⟨h1, h2, h3⟩ := ih _ yss s3 hv
        obtain ⟨g1, g2, g3⟩ := move_member_lists m s xs s2 hm
        rw [← h.2, h1, h2, h3]
        exact ⟨g1, g2, g3⟩

theorem make_lists {avail : Bool} {value : List (List Loc)} {s s1 : State}
    (h : Context_make avail value s = .ok s1) :
    s1.registry = s.registry ++ [s.heap.length] ∧ s1.others = s.others ∧
      s1.heap.length = s.heap.length + 1 := by
  cases avail with
  | false => cases h
  | true =>
    simp only [Context_make, malloc, if_true] at h
    cases hv : move_value (store { s with heap := s.heap ++ [⟨0, [], 0, false⟩] }
        s.heap.length ⟨0, [], 0, false⟩) value with
    | none => rw [hv] at h; cases h
    | some r =>
      obtain ⟨fields, s3⟩ := r
      rw [hv] at h
      simp only at h
      obtain ⟨b1, b2, b3, -⟩ := bind_lists h
      obtain ⟨m1, m2, m3⟩ := move_value_lists value _ fields s3 hv
      refine ⟨?_, ?_, ?_⟩
      · rw [b1]
        show s3.registry ++ [s.heap.length] = _
        rw [m1]
        rfl
      · rw [b2]
        show s3.others = _
        rw [m2]
        rfl
      · rw [b3]
        show (store s3 s.heap.length _).heap.length = _
        rw [store_length, m3, store_length]
        simp

/-- Every operation on a handle and every `make` keeps each record that is not released
on the list it was on, and `make` puts the new record on the registry of the context at
hand. -/
theorem run_member (fuel : Nat) (s : State) (op : Op) (s1 : State)
    (h : op.run fuel s = .ok s1) : Member s s1 := by
  cases op with
  | make avail value =>
    obtain ⟨h1, h2, h3⟩ := make_lists h
    refine ⟨fun a _ => ?_, by rw [h2], fun i a _ => by rw [h2]⟩
    rw [h1, h3, List.mem_append, List.mem_singleton]
    constructor
    · intro h4
      rcases h4 with h4 | h4
      · exact Or.inl h4
      · exact Or.inr (by omega)
    · intro h4
      rcases h4 with h4 | h4
      · exact Or.inl h4
      · exact Or.inr (by omega)
  | copy o =>
    simp only [Op.run, Ptr_copy] at h
    cases hr : read_handle s o with
    | none => rw [hr] at h; cases h
    | some x =>
      rw [hr] at h
      obtain ⟨b1, b2, b3, -⟩ := bind_lists h
      exact member_of_lists b1 b2 b3
  | move o =>
    simp only [Op.run, Ptr_move] at h
    cases hr : read_handle s o with
    | none => rw [hr] at h; cases h
    | some x =>
      rw [hr] at h
      simp only [Outcome.ok.injEq] at h
      subst h
      exact member_of_lists (write_registry _ _ _) (write_others _ _ _) (write_length _ _ _)
  | copy_assign t o =>
    simp only [Op.run, Ptr_copy_assign] at h
    cases hr : read_handle s t with
    | none => rw [hr] at h; cases h
    | some x =>
      rw [hr] at h
      simp only at h
      cases hd : decrease fuel s x with
      | fault e => rw [hd] at h; cases h
      | ok s2 =>
        rw [hd] at h
        simp only at h
        obtain ⟨m, -, -⟩ := member_of_decrease fuel s x s2 hd
        cases ho : read_handle s2 o with
        | none => rw [ho] at h; cases h
        | some y =>
          cases ht : read_handle s2 t with
          | none => rw [ho, ht] at h; cases h
          | some z =>
            rw [ho, ht] at h
            simp only at h
            obtain ⟨i1, i2, i3, i4⟩ := increase_lists h
            exact member_step m (i1.trans (write_registry _ _ _))
              (i2.trans (write_others _ _ _)) (i3.trans (write_length _ _ _))
              (fun a ha => i4 a (freed_write _ _ ha))
  | move_assign t o =>
    simp only [Op.run, Ptr_move_assign] at h
    cases ht : read_handle s t with
    | none => rw [ht] at h; cases h
    | some x =>
      cases ho : read_handle s o with
      | none => rw [ht, ho] at h; cases h
      | some y =>
        rw [ht, ho] at h
        simp only [Outcome.ok.injEq] at h
        subst h
        exact member_of_lists ((write_registry _ _ _).trans (write_registry _ _ _))
          ((write_others _ _ _).trans (write_others _ _ _))
          ((write_length _ _ _).trans (write_length _ _ _))
  | destroy i =>
    simp only [Op.run, Ptr_destroy] at h
    cases hr : s.roots[i]? with
    | none => rw [hr] at h; cases h
    | some x =>
      rw [hr] at h
      simp only at h
      cases hd : decrease fuel s x with
      | fault e => rw [hd] at h; cases h
      | ok s2 =>
        rw [hd] at h
        simp only [Outcome.ok.injEq] at h
        subst h
        obtain ⟨m, -, -⟩ := member_of_decrease fuel s x s2 hd
        exact member_step m rfl rfl rfl (fun _ ha => ha)

/-! ### A context looked at by itself -/

theorem view_get (s : State) {a : Nat} (ha : a ∈ s.registry) :
    (contextView s).heap[a]? = s.heap[a]? := by
  show ((List.range s.heap.length).map
    (fun a => if a ∈ s.registry then s.heap.getD a Value.absent else Value.absent))[a]? = _
  rw [List.getElem?_map]
  by_cases hlt : a < s.heap.length
  · rw [List.getElem?_range hlt]
    simp [ha, List.getD_eq_getElem?_getD, List.getElem?_eq_getElem hlt]
  · rw [List.getElem?_eq_none (by simpa using hlt), List.getElem?_eq_none (by simpa using hlt)]
    rfl

theorem view_absent (s : State) {a : Nat} (ha : a ∉ s.registry) :
    load (contextView s) a = none := by
  unfold load
  have h : (contextView s).heap[a]? = ((List.range s.heap.length).map
    (fun a => if a ∈ s.registry then s.heap.getD a Value.absent else Value.absent))[a]? := rfl
  rw [h, List.getElem?_map]
  by_cases hlt : a < s.heap.length
  · rw [List.getElem?_range hlt]
    simp [ha, Value.absent]
  · rw [List.getElem?_eq_none (by simpa using hlt)]
    rfl

theorem oneContext_view (s : State) : OneContext (contextView s) := by
  intro a v hv
  by_contra ha
  rw [view_absent s ha] at hv
  cases hv

theorem local_view (s : State)
    (hin : ∀ a t, a ∈ s.registry → Edge s a t → t ∈ s.registry)
    (hdis : ∀ l ∈ s.others, ∀ a ∈ l, a ∉ s.registry) :
    Local s.registry s { s with unused := [] } { contextView s with unused := [] } := by
  refine ⟨rfl, rfl, ?_, fun a ha => view_get s ha, ?_, rfl, rfl, fun _ _ => rfl, hdis⟩
  · intro a ha
    rcases ha with ha | ha
    · exact ha
    · exact absurd ha (List.not_mem_nil a)
  · intro a w t ha hl ht
    have hl1 : load s a = some w := hl
    refine hin a t ha ?_
    unfold Edge
    rw [slotsAt_of_load hl1]
    exact ht

theorem collect_scratch (fuel : Nat) (s : State) :
    collect fuel { s with unused := [] } = collect fuel s := rfl

/-- What `collect` does to a context among others is what it does to the context looked
at by itself, as long as no slot leaves the context. -/
theorem collect_view (s : State) (fuel : Nat)
    (hin : ∀ a t, a ∈ s.registry → Edge s a t → t ∈ s.registry)
    (hdis : ∀ l ∈ s.others, ∀ a ∈ l, a ∉ s.registry) :
    Match s.registry s (collect fuel s) (collect fuel (contextView s)) := by
  have h := match_collect fuel _ _ (local_view s hin hdis)
  rw [collect_scratch, collect_scratch] at h
  exact h

theorem view_heapTwoApart :
    contextView heapTwoApart =
      { heap := [⟨1, [], 0, false⟩, ⟨1, [[some 2]], 0, false⟩, ⟨1, [[some 1]], 0, false⟩,
          ⟨0, [], 0, true⟩]
        registry := [0, 1, 2]
        unused := []
        roots := [some 0] } := by decide

theorem heapTwoApart_separated (a b : Nat) (he : Edge (contextView heapTwoApart) a b)
    (hb : Reachable (contextView heapTwoApart) b) : Reachable (contextView heapTwoApart) a := by
  rw [view_heapTwoApart] at he hb ⊢
  have hlow : ∀ c, Reachable
      { heap := [⟨1, [], 0, false⟩, ⟨1, [[some 2]], 0, false⟩, ⟨1, [[some 1]], 0, false⟩,
          ⟨0, [], 0, true⟩]
        registry := [0, 1, 2]
        unused := []
        roots := [some 0] } c → c = 0 := by
    intro c hc
    refine reachable_induction (fun c => c = 0) ?_ ?_ hc
    · intro r hr
      simpa using hr
    · intro x y hx hxy
      have hx0 : x = 0 := hx
      subst hx0
      simp [Edge, slotsAt, load, Value.slots] at hxy
  have hb0 := hlow b hb
  subst hb0
  have ha4 : a < 4 := edge_lt he
  interval_cases a <;> simp [Edge, slotsAt, load, Value.slots] at he

/-! ### Membership in a program with several contexts -/

/-- C14 fails as stated.  In the well-formed state `heapTwoContexts` record `1` is on the
registry of the other context and is held by the one managed slot of record `0`, which
is on the registry of the context at hand.  `collect` on the context at hand takes the
count of record `1` to zero in its first loop; its third loop then finds that zero,
unlinks record `1` from the registry of the other context and links it onto the registry
of the collected context, where it stays. -/
theorem collect_relinks_foreign_record :
    WellFormed heapTwoContexts ∧ NoNull heapTwoContexts ∧
      heapTwoContexts.registry = [0] ∧ heapTwoContexts.others = [[1]] ∧
      ∀ fuel, collect (fuel + 2) heapTwoContexts
        = .ok { heapTwoContexts with registry := [0, 1], others := [[]] } := by
  refine ⟨wellFormed_of_check _ (by decide), noNull_of_check _ (by decide), rfl, rfl, ?_⟩
  intro fuel
  have h2 : collect 2 heapTwoContexts
      = .ok { heapTwoContexts with registry := [0, 1], others := [[]] } := by decide
  rw [collect_mono (Nat.le_add_left 2 fuel) _ (by rw [h2]; simp), h2]

/-- C14, amended.  In a program with several contexts, whose registries share no record:
every operation on a handle and every `make` that returns keeps each record that is not
released on the registry it was on, and `make` links the new record onto the registry of
its context.  When no record of the collected context has a managed slot pointing at a
record outside that context, a `collect` that returns does the same, leaves the
registries of the other contexts as they were and changes no block outside the
collected context, so no count of a record of another context; and `collect` does
return, leaving on its registry the records held from outside its garbage, when the
context looked at by itself is well formed, has no null slot, and none of its
unreachable records holds a reachable one. -/
theorem records_stay_on_their_registry (s : State) (fuel : Nat)
    (hdis : ∀ l ∈ s.others, ∀ a ∈ l, a ∉ s.registry) :
    (∀ op s1, Op.run fuel s op = .ok s1 → Member s s1) ∧
    ((∀ a t, a ∈ s.registry → Edge s a t → t ∈ s.registry) →
      (∀ s1, collect fuel s = .ok s1 →
        Member s s1 ∧ s1.others = s.others ∧ s1.roots = s.roots ∧
          ∀ a, a ∉ s.registry → s1.heap[a]? = s.heap[a]?) ∧
      (WellFormed (contextView s) → NoNull (contextView s) →
        (∀ a b, Edge (contextView s) a b → Reachable (contextView s) b →
          Reachable (contextView s) a) →
        s.registry.length < fuel →
        ∃ s1, collect fuel s = .ok s1 ∧
          ∀ a, a ∈ s1.registry ↔ Reachable (contextView s) a)) := by
  refine ⟨fun op s1 h => run_member fuel s op s1 h, fun hin => ⟨?_, ?_⟩⟩
  · intro s1 h
    have hm := collect_view s fuel hin hdis
    rw [h] at hm
    cases hv : collect fuel (contextView s) with
    | fault e =>
      rw [hv] at hm
      exact hm.elim
    | ok v1 =>
      rw [hv] at hm
      have hl : Local s.registry s s1 v1 := hm
      obtain ⟨k1, -, -, k4⟩ := collect_kept fuel s s1 h
      refine ⟨⟨fun a ha => ?_, by rw [hl.others], fun i a _ => by rw [hl.others]⟩,
        hl.others, hl.roots, hl.outside⟩
      constructor
      · intro h1
        exact Or.inl (hl.inside a (Or.inl h1))
      · intro h1
        rcases h1 with h1 | h1
        · rcases k4 a h1 with h2 | h2
          · exact h2
          · exact absurd h2 ha
        · omega
  · intro hwf hnn hsep hfuel
    obtain ⟨v1, hv, -, -, hreach, -⟩ := collect_separated (contextView s) fuel hwf
      (oneContext_view s) hnn hsep hfuel
    have hm := collect_view s fuel hin hdis
    rw [hv] at hm
    cases hs : collect fuel s with
    | fault e =>
      rw [hs] at hm
      exact hm.elim
    | ok s1 =>
      rw [hs] at hm
      have hl : Local s.registry s s1 v1 := hm
      refine ⟨s1, rfl, fun a => ?_⟩
      rw [← hl.registry]
      exact hreach a

/-- The two contexts of `heapTwoApart`: the collected one holds a dead two-cycle and a
record that a record of the other context holds. -/
theorem records_stay_on_their_registry_witness :
    (∀ op s1, Op.run 4 heapTwoApart op = .ok s1 → Member heapTwoApart s1) ∧
    (∀ s1, collect 4 heapTwoApart = .ok s1 →
      Member heapTwoApart s1 ∧ s1.others = heapTwoApart.others ∧
        s1.roots = heapTwoApart.roots ∧
        ∀ a, a ∉ heapTwoApart.registry → s1.heap[a]? = heapTwoApart.heap[a]?) ∧
    ∃ s1, collect 4 heapTwoApart = .ok s1 ∧
      ∀ a, a ∈ s1.registry ↔ Reachable (contextView heapTwoApart) a :=
  have h := records_stay_on_their_registry heapTwoApart 4 (by decide)
  have hin : ∀ a t, a ∈ heapTwoApart.registry → Edge heapTwoApart a t →
      t ∈ heapTwoApart.registry := by
    intro a t ha he
    have ha3 : a < 3 := by
      have : a ∈ [0, 1, 2] := ha
      simp only [List.mem_cons, List.mem_singleton, List.not_mem_nil, or_false] at this
      omega
    show t ∈ [0, 1, 2]
    interval_cases a <;> simp [Edge, slotsAt, load, heapTwoApart, Value.slots] at he <;>
      simp [he]
  ⟨h.1, (h.2 hin).1, (h.2 hin).2 (wellFormed_of_check _ (by decide))
    (noNull_of_check _ (by decide)) heapTwoApart_separated (by decide)⟩

/-! ### What a `collect` that returns has done -/

theorem destroy_back (sel : State → List Nat) (hT : Tracks sel) (fuel : Nat)
    (s : State) (p : Nat) (s1 : State) (h : destroy (decrease fuel) s p = .ok s1) :
    ∀ a, a ∈ sel s1 → a ∈ sel s := by
  simp only [destroy] at h
  cases hl : load s p with
  | none => rw [hl] at h; cases h
  | some w =>
    rw [hl] at h
    have hb := forEach_rel (fun u u1 => ∀ a, a ∈ sel u1 → a ∈ sel u) (fun _ _ h => h)
      (fun _ _ _ h1 h2 a ha => h1 a (h2 a ha)) _
      (fun u x u1 hu => (decrease_kept sel hT fuel u x u1 hu).2) _ _ _ h
    intro a ha
    have h1 := hb a ha
    rw [hT.stored] at h1
    exact h1

/-- The steps of a `collect` that returns, on a well-formed single-context heap without
null slots: the first three loops leave the reachable records on the registry, restored
as far as records of the registry hold them, and the others on `unused`; the fourth loop
returns with the destructor of every record on `unused` run once; the fifth releases
these records. -/
theorem collect_returned (s : State) (fuel : Nat) (hwf : WellFormed s) (hone : OneContext s)
    (hnn : NoNull s) (s1 : State) (h : collect fuel s = .ok s1) :
    ∃ k s3 s4 s5, SameShape s s3 ∧ (s3.registry ++ s3.unused).Nodup ∧
      (∀ a, a ∈ s.registry → rcOf s3 a
        = s.roots.count (some a) + (s3.registry.flatMap (slotsAt s)).count (some a)) ∧
      (∀ a, a ∈ s3.registry ↔ Reachable s a) ∧
      (∀ a, a ∈ s3.unused ↔ (a ∈ s.registry ∧ ¬ Reachable s a)) ∧
      phase4 (k + 1) s3 = .ok s4 ∧ phase5 s4 = .ok s5 ∧ s1 = { s5 with unused := [] } ∧
      (∀ g ∈ s3.unused, Freed s5 g ∧ destroyedAt s5 g = 1) := by
  have hwf0 : WellFormed { s with unused := [] } :=
    ⟨hwf.nodup, hwf.linked, hwf.fresh, hwf.closed, hwf.exact, hwf.word⟩
  have hk : collect (fuel + s.registry.length + 1) s = .ok s1 := by
    have hle : fuel ≤ fuel + s.registry.length + 1 := by omega
    rw [collect_mono hle s (by rw [h]; simp), h]
  obtain ⟨s3, h3, hinv, hreg, hun⟩ := collect_front { s with unused := [] }
    (fuel + s.registry.length + 1) hwf0 hone hnn rfl
    (by show s.registry.length ≤ _; omega)
  obtain ⟨s3b, h3b, -, -, hnd, -, hstart⟩ := reclaiming_start { s with unused := [] }
    (fuel + s.registry.length + 1) hwf0 hone hnn rfl
    (by show s.registry.length ≤ _; omega)
  rw [h3] at h3b
  simp only [Outcome.ok.injEq] at h3b
  subst h3b
  unfold collect at hk
  rw [h3] at hk
  simp only [Outcome.andThen] at hk
  cases h4 : phase4 (fuel + s.registry.length + 1) s3 with
  | fault e => rw [h4] at hk; cases hk
  | ok s4 =>
    rw [h4] at hk
    simp only at hk
    obtain ⟨-, w2⟩ := phase4_reclaiming s3 (slotsAt { s with unused := [] })
      (fuel + s.registry.length) hnd hstart
    obtain ⟨-, s5, h5, f5⟩ := phase5_reclaimed hnd (w2 s4 h4)
    rw [h5] at hk
    simp only [Outcome.ok.injEq] at hk
    exact ⟨fuel + s.registry.length, s3, s4, s5, hinv.shape, hinv.nodup, hinv.count, hreg, hun,
      h4, h5, hk.symm, f5⟩

theorem phase4_back (fuel : Nat) (s3 s4 : State) (h : phase4 fuel s3 = .ok s4) :
    ∀ a, a ∈ s4.registry → a ∈ s3.registry :=
  walk_rel (fun u u1 => ∀ a, a ∈ u1.registry → a ∈ u.registry) (fun _ _ h => h)
    (fun _ _ _ h1 h2 a ha => h1 a (h2 a ha)) _ _
    (fun u p u1 hu => destroy_back State.registry tracks_registry fuel u p u1 hu) _ _ _ _ h

/-- C2.  On a well-formed single-context heap without null slots, after `collect` has
returned, every record that was not reachable from an external handle at entry has had
its destructor run, once, its storage is released, and it is not on the registry.
`collect` does return when no unreachable record holds a reachable one. -/
theorem collect_reclaims_unreachable (s : State) (fuel : Nat) (hwf : WellFormed s)
    (hone : OneContext s) (hnn : NoNull s) :
    (∀ s1, collect fuel s = .ok s1 → ∀ a v, load s a = some v → ¬ Reachable s a →
      destroyedAt s1 a = 1 ∧ Freed s1 a ∧ a ∉ s1.registry) ∧
    ((∀ a b, ¬ Reachable s a → Edge s a b → ¬ Reachable s b) → s.registry.length < fuel →
      ∃ s1, collect fuel s = .ok s1) := by
  constructor
  · intro s1 h a v hv hna
    obtain ⟨k, s3, s4, s5, -, -, -, hreg, hun, h4, h5, e1, f5⟩ :=
      collect_returned s fuel hwf hone hnn s1 h
    have hau : a ∈ s3.unused := (hun a).2 ⟨hone a v hv, hna⟩
    obtain ⟨hf, hd⟩ := f5 a hau
    subst e1
    refine ⟨hd, hf, ?_⟩
    intro har
    have har5 : a ∈ s5.registry := har
    obtain ⟨-, r5, -, -⟩ := forEach_free_kept _ _ _ h5
    rw [r5] at har5
    exact hna ((hreg a).1 (phase4_back _ s3 s4 h4 a har5))
  · intro hsep hfuel
    obtain ⟨s1, h1, -⟩ := collect_separated s fuel hwf hone hnn
      (fun a b he hb => by
        by_contra ha
        exact hsep a b ha he hb)
      hfuel
    exact ⟨s1, h1⟩

/-- The heap `heapRescued`, in which a dead record holds a live one: `collect` returns
and has reclaimed the dead two-cycle. -/
theorem collect_reclaims_unreachable_witness :
    ∃ s1, collect 5 heapRescued = .ok s1 ∧
      ∀ a v, load heapRescued a = some v → ¬ Reachable heapRescued a →
        destroyedAt s1 a = 1 ∧ Freed s1 a ∧ a ∉ s1.registry :=
  have h5 : collect 5 heapRescued = .ok
      { heap := [⟨1, [[some 1]], 0, false⟩, ⟨0, [], 1, true⟩,
          ⟨WORD - 1, [[some 3], [some 1]], 1, true⟩, ⟨WORD - 1, [[some 2]], 1, true⟩]
        registry := [0]
        unused := []
        roots := [some 0] } := by decide
  ⟨_, h5, (collect_reclaims_unreachable heapRescued 5 (wellFormed_of_check _ (by decide))
    (oneContext_of_check _ (by decide)) (noNull_of_check _ (by decide))).1 _ h5⟩

/-! ### A record that only itself holds, through the reclamation -/

end GC
